import Mathlib

set_option linter.unusedSectionVars false

/-!
# Perroht: a Robin Hood open-addressing hash table

A shallow embedding of `include/perroht/details/perroht_impl.hpp` (with
`header.hpp`, `capacity_algorithms.hpp`, `key_value_traits.hpp` and
`data_holder.hpp`) and a verification of its contract.

## Conventions of the embedding

* **Buckets.** A bucket is the pair of a one-byte `Header` and a `DataHolder`.
  It is embedded as `Option (Entry K V)`: `none` is a header holding the empty
  mark `255` (the holder is then uninitialised), `some e` is a header holding
  the stored distance `e.dist` together with the record `(e.key, e.val)`.
  The bucket array is a `List`; reading past its end yields `none`.
* **Layout.** Both layouts of `DataHolder` are covered. They differ in one
  place only, the read of a holder that `MoveAssign` has just moved from (in
  `pEraseSingleAt`): `Env.moved_from_readable` says whether that read still
  yields the record (embedded layout with trivially copyable records, such as
  the `int` pairs of the test-suite) or has no defined result (node layout,
  where the holder then holds `nullptr`; embedded layout with keys such as
  `std::string`, whose moved-from value is unspecified).
* **Machine integers.** `SizeType` values are `Nat`.  A table of capacity `c`
  occupies at least `2 * c` bytes, so in every run whose allocations succeed
  `c < 2 ^ 63` and none of `pos + 1`, `pos + Capacity() - 1`, `Capacity() * 2`
  or `size_ + 1` wraps.  `kNullPos` as the "no hint" argument is `Option.none`.
* **Floating point.** `std::ceil(std::log2(size))` in
  `PowerOfTwoCapacity::ToIndex` is evaluated as the source does, in IEEE
  double precision with a correctly rounded logarithm (`ceilLog2Double`).
  `max_load_factor_` is a non-negative fraction `num / den`;
  `pEnoughCapacity`, `pGetRequiredCapacity` and the comparison
  `LoadFactor() > 0.125` are evaluated in exact arithmetic.  The running
  `mean_probe_distance_` is kept abstract: its arithmetic is a parameter
  (`MeanOps`), so every theorem holds for whatever the float operations
  compute; `exactMean` is the instance in exact fractions.
* **Hasher and key equality.** `hasher_` is a parameter (a function to `Nat`),
  `key_equal_` is decidable equality on keys.
* **Loops without a syntactic bound** (`pForceInsert`, `pEraseSingleAt`,
  `pGrow`) and the recursion `pInsert → Reserve → pTransferEntriesTo →
  pInsert` take a step budget and return `none` when it is exhausted; the
  theorems show that on reachable tables the budget is never exhausted.  The
  only other `none` of an erasure is the undefined read of a moved-from
  holder.
-/

namespace Perroht

/-! ## `capacity_algorithms.hpp` : `PowerOfTwoCapacity` -/

namespace PowerOfTwoCapacity

/-- Least `i ≥ start` with `size ≤ 2 ^ i`, searched for `fuel` steps. -/
def ceilLog2Loop (size : Nat) : Nat → Nat → Nat
  | 0, i => i
  | fuel + 1, i => if size ≤ 2 ^ i then i else ceilLog2Loop size fuel (i + 1)

/-- The exact integer `ceil(log2(size))` for `size > 0`: the least `i` with
`size ≤ 2 ^ i`. -/
def ceilLog2 (size : Nat) : Nat := ceilLog2Loop size size 0

/-- The conversion `(double) size` that `std::log2(size)` applies to its
integer argument: `size` is rounded to the nearest number with a significand
of 53 bits, ties to even. `ceilLog2 (size + 1)` is the number of bits of
`size`, so `ulp` is the distance between neighbouring doubles around `size`
(it is `1` below `2^53`, where the conversion is exact). -/
def toDouble (size : Nat) : Nat :=
  let ulp := 2 ^ (ceilLog2 (size + 1) - 53)
  let q := size / ulp
  let r := size % ulp
  if 2 * r < ulp ∨ (2 * r = ulp ∧ q % 2 = 0) then q * ulp else (q + 1) * ulp

/-- The largest `d` for which the double nearest to `log2(2^m + d)` is `m`
itself, for `49 ≤ m ≤ 63`: there the doubles next to `m` are `2^-47` apart, so
`log2(2^m + d)` rounds to `m` as long as `log2(1 + d / 2^m) ≤ 2^-48`, that is
`d ≤ ln 2 * 2^(m - 48)`; `6243314768165359 / 2^53` is `ln 2` to 53 bits. For
`m ≤ 48` no `d ≥ 1` qualifies (the value is `0`). -/
def log2Slack (m : Nat) : Nat := (6243314768165359 * 2 ^ (m - 48)) / 2 ^ 53

/-- The value `static_cast<SizeType>(std::ceil(std::log2(size)))` for
`0 < size < 2^64`, computed as the source does, in `double`: `size` is
converted to `double` and `std::log2` returns the double nearest to the
logarithm. With `x` the converted argument and `k` the exact `ceil(log2(x))`,
the result is `k` unless `x` lies so closely above `2^(k-1)` that its
logarithm rounds down to `k - 1`; this first happens at `size = 2^49 + 1`. -/
def ceilLog2Double (size : Nat) : Nat :=
  let x := toDouble size
  let k := ceilLog2 x
  if 50 ≤ k ∧ x ≠ 2 ^ k ∧ x - 2 ^ (k - 1) ≤ log2Slack (k - 1) then k - 1 else k

/-- `PowerOfTwoCapacity::ToIndex`:
`static_cast<SizeType>(std::ceil(std::log2(size))) + 1`. A `SizeType` is below
`2^64`; for larger numbers, which the source cannot represent, the exact
logarithm is used. -/
def ToIndex (size : Nat) : Nat :=
  if size = 0 then 0
  else if size < 2 ^ 64 then ceilLog2Double size + 1
  else ceilLog2 size + 1

/-- `PowerOfTwoCapacity::ToCapacity`: `1ULL << (index - 1)`. In the source the
shift is defined for `index ≤ 64` only. -/
def ToCapacity (index : Nat) : Nat :=
  if index = 0 then 0 else 1 <<< (index - 1)

/-- `PowerOfTwoCapacity::AdjustCapacity`: `ToCapacity(ToIndex(size))`. In the
source the result is defined as long as `ToIndex(size) ≤ 64`, which covers
every `size ≤ MaxCapacity()`; beyond that `ToCapacity` shifts by 64 or more
and the value given here is not the behaviour of the code. -/
def AdjustCapacity (size : Nat) : Nat := ToCapacity (ToIndex size)

/-- `PowerOfTwoCapacity::MaxCapacity`: `1ULL << (digits - 1)` for the 64-bit
`SizeType`. -/
def MaxCapacity : Nat := 1 <<< (64 - 1)

end PowerOfTwoCapacity

namespace PrimeNumberCapacity

/-- `PrimeNumberCapacity::kNumCapacities`. -/
def kNumCapacities : Nat := 64

/-- `PrimeNumberCapacity::kCapacities`, the ladder of capacities. -/
def kCapacities : List Nat :=
  [1, 2, 5, 11, 23, 47, 97, 199, 409, 823, 1741, 3469, 6949, 14033, 28411, 57557,
   116731, 236897, 480881, 976369, 1982627, 4026031, 8175383, 16601593, 33712729,
   68460391, 139022417, 282312799, 573292817, 1164186217, 2364114217, 4294967291,
   8589934583, 17179869143, 34359738337, 68719476731, 137438953447, 274877906899,
   549755813881, 1099511627689, 2199023255531, 4398046511093, 8796093022151,
   17592186044399, 35184372088777, 70368744177643, 140737488355213, 281474976710597,
   562949953421231, 1125899906842597, 2251799813685119, 4503599627370449,
   9007199254740881, 18014398509481951, 36028797018963913, 72057594037927931,
   144115188075855859, 288230376151711717, 576460752303423433, 1152921504606846883,
   2305843009213693951, 4611686018427387847, 9223372036854775783, 18446744073709551557]

/-- `std::distance(first, std::lower_bound(first, last, size))`: the index of
the first element that is not less than `size`, the length of the range when
there is none. -/
def lowerBound : List Nat → Nat → Nat
  | [], _ => 0
  | c :: cs, size => if c < size then lowerBound cs size + 1 else 0

/-- `PrimeNumberCapacity::ToIndex`. -/
def ToIndex (size : Nat) : Nat :=
  if size = 0 then 0 else lowerBound kCapacities size + 1

/-- `PrimeNumberCapacity::MaxCapacity`. -/
def MaxCapacity : Nat := 1 <<< (64 - 1)

/-- `PrimeNumberCapacity::ToCapacity`. -/
def ToCapacity (index : Nat) : Nat :=
  if index = 0 then 0
  else if index ≥ kNumCapacities then MaxCapacity
  else kCapacities.getD (index - 1) 0

/-- `PrimeNumberCapacity::AdjustCapacity`. -/
def AdjustCapacity (size : Nat) : Nat := ToCapacity (ToIndex size)

end PrimeNumberCapacity

/-! ## `header.hpp` -/

/-- `Header::kMaxProbeDistance`. -/
def kMaxProbeDistance : Nat := 254

/-- The class `Header`: one byte `data_`. -/
structure Header where
  data_ : Nat
deriving DecidableEq, Repr

namespace Header

/-- `Header::kEmpyMark`: the largest value of a byte. -/
def kEmpyMark : Nat := 255

/-- `Header::MaxProbeDistance`. -/
def MaxProbeDistance : Nat := kEmpyMark - 1

/-- `Header::Clear`. -/
def Clear (_h : Header) : Header := ⟨kEmpyMark⟩

/-- `Header::Empty`. -/
def Empty (h : Header) : Bool := decide (h.data_ = kEmpyMark)

/-- `Header::SetProbeDistance(const DistanceType pos)`: the argument is
converted to the one-byte `DistanceType`. -/
def SetProbeDistance (_h : Header) (pos : Nat) : Header := ⟨pos % 256⟩

/-- `Header::GetProbeDistance`. -/
def GetProbeDistance (h : Header) : Nat := h.data_

end Header

/-! ## The table -/

/-- An occupied bucket: the header byte `dist` (a stored probe distance,
not the empty mark) and the record held by the data holder. -/
structure Entry (K V : Type) where
  dist : Nat
  key : K
  val : V
deriving DecidableEq, Repr

/-- Value of the float `max_load_factor_`, the fraction `num / den`. -/
structure LoadFactorValue where
  num : Nat
  den : Nat
deriving DecidableEq, Repr

/-- Comparison `a < b` of two float values. -/
def LoadFactorValue.lt (a b : LoadFactorValue) : Bool :=
  decide (a.num * b.den < b.num * a.den)

/-- The arithmetic of the running mean probe distance (a `float` in the
source), kept abstract. -/
structure MeanOps (M : Type) where
  /-- The value `0`. -/
  zero : M
  /-- `pUpdateMeanProbeDistanceWithNewDistance(d, current_size)`. -/
  updateNew : M → Nat → Nat → M
  /-- `pUpdateMeanProbeDistance(old_d, new_d, size)`. -/
  update : M → Nat → Nat → Nat → M
  /-- Conversion to `SizeType` in `GetApproximateMeanProbeDistance`. -/
  toSize : M → Nat

/-- What the member functions depend on besides the table: the float
arithmetic of the mean, the hash functor, and what a holder gives after
`DataHolder::MoveAssign` has moved from it. -/
structure Env (M K : Type) where
  mean : MeanOps M
  hasher_ : K → Nat
  /-- Whether `pGetData(i).Get()` still yields the record of bucket `i` after
  `pGetData(pre_i).MoveAssign(allocator_, std::move(pGetData(i)))`: `true` in
  embedded layout when moving leaves the record intact (trivially copyable
  keys); `false` in node layout, where `MoveAssign` sets `data_` of the source
  to `nullptr` and `Get()` dereferences it, and in embedded layout when the
  moved-from key is unspecified (`std::string`). -/
  moved_from_readable : Bool

/-- The data members of `PerrohtImpl`. -/
structure PerrohtImpl (M K V : Type) where
  max_load_factor_ : LoadFactorValue
  mean_probe_distance_ : M
  size_ : Nat
  capacity_index_ : Nat
  table_ : List (Option (Entry K V))
deriving DecidableEq

/-- Exact fractions `num / den` for the running mean. -/
structure MeanValue where
  num : Int
  den : Nat
deriving DecidableEq, Repr

/-- The running mean in exact arithmetic. -/
def exactMean : MeanOps MeanValue where
  zero := ⟨0, 1⟩
  updateNew m d current_size :=
    ⟨m.num * current_size + d * m.den, m.den * (current_size + 1)⟩
  update m old_d new_d size :=
    ⟨m.num * size - old_d * m.den + new_d * m.den, m.den * size⟩
  toSize m := (m.num / m.den).toNat

section Engine

variable {M K V : Type} [DecidableEq K]

/-- `kMinimumMaxLoadFactor` is `0.125`, `kAutoGrowProbeDistance` is `10`. -/
def kAutoGrowProbeDistance : Nat := 10

/-- `PerrohtImpl::Size`. -/
def Size (t : PerrohtImpl M K V) : Nat := t.size_

/-- `PerrohtImpl::Empty`. -/
def Empty (t : PerrohtImpl M K V) : Bool := decide (Size t = 0)

/-- `PerrohtImpl::Capacity`. -/
def Capacity (t : PerrohtImpl M K V) : Nat :=
  PowerOfTwoCapacity.ToCapacity t.capacity_index_

/-- The bucket at `pos` (`pGetHeader(pos)` and `pGetData(pos)`). -/
def pGetBucket (t : PerrohtImpl M K V) (pos : Nat) : Option (Entry K V) :=
  (t.table_[pos]?).getD none

/-- `PerrohtImpl::pCleanseMaxLoadFactor`, with `epsilon * 100 = 100 / 2 ^ 23`;
`std::min(a, b)` is `b < a ? b : a` and `std::max(a, b)` is `a < b ? b : a`. -/
def pCleanseMaxLoadFactor (x : LoadFactorValue) : LoadFactorValue :=
  let one : LoadFactorValue := ⟨1, 1⟩
  let eps : LoadFactorValue := ⟨100, 2 ^ 23⟩
  let m := if one.lt x then one else x
  if eps.lt m then m else eps

/-- `PerrohtImpl::MaxLoadFactor()` (getter). -/
def MaxLoadFactor (t : PerrohtImpl M K V) : LoadFactorValue := t.max_load_factor_

/-- `PerrohtImpl::pEnoughCapacity(size, capacity)`:
`capacity * MaxLoadFactor() >= size`. -/
def pEnoughCapacity (t : PerrohtImpl M K V) (size capacity : Nat) : Bool :=
  decide (size * t.max_load_factor_.den ≤ capacity * t.max_load_factor_.num)

/-- `PerrohtImpl::pGetRequiredCapacity`:
`max(size, ceil(size / MaxLoadFactor()))`. -/
def pGetRequiredCapacity (t : PerrohtImpl M K V) (size : Nat) : Nat :=
  max size ((size * t.max_load_factor_.den + t.max_load_factor_.num - 1)
    / t.max_load_factor_.num)

/-- `LoadFactor() > kMinimumMaxLoadFactor`, i.e. `Size() / Capacity() > 1/8`
(and `false` when the capacity is `0`). -/
def LoadFactorAboveMinimum (t : PerrohtImpl M K V) : Bool :=
  if Capacity t = 0 then false else decide (Capacity t < 8 * Size t)

/-- `PerrohtImpl::GetApproximateMeanProbeDistance`. -/
def GetApproximateMeanProbeDistance (env : Env M K) (t : PerrohtImpl M K V) : Nat :=
  env.mean.toSize t.mean_probe_distance_

/-- `PerrohtImpl::pIdealPosition`. -/
def pIdealPosition (env : Env M K) (t : PerrohtImpl M K V) (key : K) : Nat :=
  env.hasher_ key &&& (Capacity t - 1)

/-- `PerrohtImpl::pDecrementPosition`. -/
def pDecrementPosition (t : PerrohtImpl M K V) (pos : Nat) : Nat :=
  (pos + Capacity t - 1) &&& (Capacity t - 1)

/-- `PerrohtImpl::pIncrementPosition`. -/
def pIncrementPosition (t : PerrohtImpl M K V) (pos : Nat) : Nat :=
  (pos + 1) &&& (Capacity t - 1)

/-- `PerrohtImpl::pGetProbeDistance(pos)`, where `e` is the occupied bucket
at `pos` (the function is not called for an empty bucket). -/
def pGetProbeDistance (env : Env M K) (t : PerrohtImpl M K V) (pos : Nat)
    (e : Entry K V) : Nat :=
  if e.dist < kMaxProbeDistance then e.dist
  else (pos + Capacity t - pIdealPosition env t e.key) % Capacity t

/-- The header byte written by `pSetProbeDistance(pos, dist)`. -/
def pSetProbeDistance (dist : Nat) : Nat :=
  if dist < kMaxProbeDistance then dist else kMaxProbeDistance

/-- The loop of `pLocate`: `fuel` is the number of iterations left
(`Capacity() - dist`). -/
def pLocateLoop (env : Env M K) (t : PerrohtImpl M K V) (key : K) :
    Nat → Nat → Nat → Nat × Bool
  | 0, pos, _ => (pos, false)
  | fuel + 1, pos, dist =>
    match pGetBucket t pos with
    | none => (pos, false)
    | some e =>
      if pGetProbeDistance env t pos e < dist then (pos, false)
      else if e.key = key then (pos, true)
      else pLocateLoop env t key fuel (pIncrementPosition t pos) (dist + 1)

/-- `PerrohtImpl::pLocate`. -/
def pLocate (env : Env M K) (t : PerrohtImpl M K V) (key : K) : Nat × Bool :=
  if Capacity t = 0 then (Capacity t, false)
  else pLocateLoop env t key (Capacity t) (pIdealPosition env t key) 0

/-- `kNullPos`, returned by `pForceInsert` when its loop ends without
placing the record. -/
def kNullPos : Nat := 2 ^ 64 - 1

/-- The loop of `pForceInsert`; `inserted_pos` is `none` while it is
`kNullPos` in the source. -/
def pForceInsertLoop (env : Env M K) :
    Nat → PerrohtImpl M K V → K × V → Nat → Nat → Option Nat →
      Option (PerrohtImpl M K V × Nat)
  | 0, _, _, _, _, _ => none
  | fuel + 1, t, data, pos, dist, inserted_pos =>
    if dist < Capacity t then
      match pGetBucket t pos with
      | none =>
        some ({ t with
                table_ := t.table_.set pos (some ⟨pSetProbeDistance dist, data.1, data.2⟩)
                mean_probe_distance_ :=
                  env.mean.updateNew t.mean_probe_distance_ dist t.size_
                size_ := t.size_ + 1 },
              inserted_pos.getD pos)
      | some e =>
        let existing_pd := pGetProbeDistance env t pos e
        if existing_pd < dist then
          pForceInsertLoop env fuel
            { t with
              table_ := t.table_.set pos (some ⟨pSetProbeDistance dist, data.1, data.2⟩)
              mean_probe_distance_ :=
                env.mean.update t.mean_probe_distance_ existing_pd dist t.size_ }
            (e.key, e.val) (pIncrementPosition t pos) (existing_pd + 1)
            (some (inserted_pos.getD pos))
        else
          pForceInsertLoop env fuel t data (pIncrementPosition t pos) (dist + 1)
            inserted_pos
    else some (t, kNullPos)

/-- `PerrohtImpl::pForceInsert`. -/
def pForceInsert (env : Env M K) (t : PerrohtImpl M K V) (data : K × V)
    (hint_pos : Option Nat) : Option (PerrohtImpl M K V × Nat) :=
  match hint_pos with
  | some pos =>
    pForceInsertLoop env (Capacity t) t data pos
      ((pos + Capacity t - pIdealPosition env t data.1) % Capacity t) none
  | none =>
    pForceInsertLoop env (Capacity t) t data (pIdealPosition env t data.1) 0 none

/-- `PerrohtImpl::pAllocateTable` (allocation succeeding): `capacity`
buckets with cleared headers. -/
def pAllocateTable (capacity : Nat) : List (Option (Entry K V)) :=
  List.replicate capacity none

/-- The loop of `pTransferEntriesTo` over the old table: `n` buckets are
left, starting at index `i`; `ins` is `pInsert(check_capacity, ·)`. -/
def pTransferLoop (ins : PerrohtImpl M K V → K × V → Option (PerrohtImpl M K V))
    (old_table : List (Option (Entry K V))) :
    Nat → Nat → PerrohtImpl M K V → Option (PerrohtImpl M K V)
  | 0, _, t => some t
  | n + 1, i, t =>
    match (old_table[i]?).getD none with
    | none => pTransferLoop ins old_table n (i + 1) t
    | some e =>
      match ins t (e.key, e.val) with
      | none => none
      | some t1 => pTransferLoop ins old_table n (i + 1) t1

/-- `PerrohtImpl::pTransferEntriesTo` (the new table has been allocated
by the caller with `pAllocateTable(new_capacity)`). -/
def pTransferEntriesTo (ins : PerrohtImpl M K V → K × V → Option (PerrohtImpl M K V))
    (env : Env M K) (t : PerrohtImpl M K V) (new_capacity : Nat) :
    Option (PerrohtImpl M K V) :=
  let old_table := t.table_
  let old_capacity := Capacity t
  let t1 : PerrohtImpl M K V :=
    { t with
      table_ := pAllocateTable new_capacity
      capacity_index_ := PowerOfTwoCapacity.ToIndex new_capacity
      size_ := 0
      mean_probe_distance_ := env.mean.zero }
  if old_capacity = 0 then some t1
  else pTransferLoop ins old_table old_capacity 0 t1

/-- `PerrohtImpl::Reserve`, over the insertion used by the transfer. -/
def ReserveWith (ins : PerrohtImpl M K V → K × V → Option (PerrohtImpl M K V))
    (env : Env M K) (t : PerrohtImpl M K V) (capacity : Nat) :
    Option (PerrohtImpl M K V) :=
  if capacity ≤ Capacity t then some t
  else pTransferEntriesTo ins env t (PowerOfTwoCapacity.AdjustCapacity capacity)

/-- The search of `pGrow` for the new capacity index. -/
def pGrowIndex (t : PerrohtImpl M K V) (min_required_size : Nat) : Nat → Nat → Option Nat
  | 0, _ => none
  | fuel + 1, new_capacity_index =>
    if pEnoughCapacity t min_required_size
        (PowerOfTwoCapacity.ToCapacity new_capacity_index) then
      some new_capacity_index
    else pGrowIndex t min_required_size fuel (new_capacity_index + 1)

/-- `PerrohtImpl::pGrow`, over the insertion used by the transfer. -/
def pGrowWith (ins : PerrohtImpl M K V → K × V → Option (PerrohtImpl M K V))
    (env : Env M K) (t : PerrohtImpl M K V) (min_required_size : Nat) :
    Option (PerrohtImpl M K V) :=
  match pGrowIndex t min_required_size
      (min_required_size * t.max_load_factor_.den + 2) (t.capacity_index_ + 1) with
  | none => none
  | some new_capacity_index =>
    ReserveWith ins env t (PowerOfTwoCapacity.ToCapacity new_capacity_index)

/-- First half of `PerrohtImpl::pInsert`: grow if the capacity check asks
for it, then place the record with `pForceInsert`; `ins` is the insertion
used by the transfer inside `pGrow`. -/
def pInsertPlace (ins : PerrohtImpl M K V → K × V → Option (PerrohtImpl M K V))
    (env : Env M K) (t : PerrohtImpl M K V) (check_capacity : Bool) (data : K × V)
    (hint_pos : Option Nat) : Option (PerrohtImpl M K V × Nat) :=
  if check_capacity && !pEnoughCapacity t (Size t + 1) (Capacity t) then
    match pGrowWith ins env t (Size t + 1) with
    | none => none
    | some t1 => pForceInsert env t1 data none
  else pForceInsert env t data hint_pos

/-- Second half of `PerrohtImpl::pInsert`: when the mean probe distance
exceeds `kAutoGrowProbeDistance` and the load factor exceeds
`kMinimumMaxLoadFactor`, double the capacity and locate the inserted key
again. -/
def pInsertAutoGrow (ins : PerrohtImpl M K V → K × V → Option (PerrohtImpl M K V))
    (env : Env M K) (t : PerrohtImpl M K V) (inserted_pos : Nat) :
    Option (PerrohtImpl M K V × Nat) :=
  if decide (GetApproximateMeanProbeDistance env t > kAutoGrowProbeDistance)
      && LoadFactorAboveMinimum t then
    match pGetBucket t inserted_pos with
    | none => none
    | some e =>
      match ReserveWith ins env t (Capacity t * 2) with
      | none => none
      | some t3 => some (t3, (pLocate env t3 e.key).1)
  else some (t, inserted_pos)

/-- `PerrohtImpl::pInsert`; the first argument bounds the nesting depth of
growth inside a transfer. -/
def pInsert (env : Env M K) :
    Nat → PerrohtImpl M K V → Bool → K × V → Option Nat →
      Option (PerrohtImpl M K V × Nat)
  | 0, _, _, _, _ => none
  | depth + 1, t, check_capacity, data, hint_pos =>
    let ins : PerrohtImpl M K V → K × V → Option (PerrohtImpl M K V) :=
      fun t0 d => (pInsert env depth t0 false d none).map Prod.fst
    match pInsertPlace ins env t check_capacity data hint_pos with
    | none => none
    | some (t2, inserted_pos) => pInsertAutoGrow ins env t2 inserted_pos

/-- Nesting budget that suffices for a table about to hold `n` records. -/
def insertDepth (n : Nat) : Nat := 8 * n + 2

/-- `PerrohtImpl::Reserve`. -/
def Reserve (env : Env M K) (t : PerrohtImpl M K V) (capacity : Nat) :
    Option (PerrohtImpl M K V) :=
  ReserveWith (fun t0 d => (pInsert env (insertDepth (Size t)) t0 false d none).map Prod.fst)
    env t capacity

/-- `PerrohtImpl::Rehash`. -/
def Rehash (env : Env M K) (t : PerrohtImpl M K V) (capacity_request : Nat) :
    Option (PerrohtImpl M K V) :=
  pTransferEntriesTo
    (fun t0 d => (pInsert env (insertDepth (Size t)) t0 true d none).map Prod.fst)
    env t
    (PowerOfTwoCapacity.AdjustCapacity
      (max capacity_request (pGetRequiredCapacity t (Size t))))

/-- `PerrohtImpl::ShrinkToFit`. -/
def ShrinkToFit (env : Env M K) (t : PerrohtImpl M K V) : Option (PerrohtImpl M K V) :=
  Rehash env t (Size t)

/-- `PerrohtImpl::pClearAt`. -/
def pClearAt (t : PerrohtImpl M K V) (pos : Nat) : PerrohtImpl M K V :=
  match pGetBucket t pos with
  | none => t
  | some _ => { t with table_ := t.table_.set pos none }

/-- The loop of `pClearAll`: `n` positions are left, starting at `i`. -/
def pClearAllLoop : Nat → Nat → PerrohtImpl M K V → PerrohtImpl M K V
  | 0, _, t => t
  | n + 1, i, t => pClearAllLoop n (i + 1) (pClearAt t i)

/-- `PerrohtImpl::pClearAll`. -/
def pClearAll (env : Env M K) (t : PerrohtImpl M K V) : PerrohtImpl M K V :=
  { pClearAllLoop (Capacity t) 0 t with
    size_ := 0
    mean_probe_distance_ := env.mean.zero }

/-- `PerrohtImpl::Clear`. -/
def Clear (env : Env M K) (t : PerrohtImpl M K V) : PerrohtImpl M K V :=
  pClearAll env t

/-- `PerrohtImpl::pGetProbeDistance(pos)` as `pEraseSingleAt` calls it for
`old_pd`, right after the holder at `pos` (which held the entry `e`) has been
moved from; the header at `pos` is still in place. A stored distance below
`MaxProbeDistance()` is returned without looking at the holder; a saturated
one is recomputed from `KVTraits::GetKey(pGetData(pos).Get())`, a read of the
moved-from holder, which has a defined result only if
`env.moved_from_readable` (`none` otherwise). -/
def pGetProbeDistanceAfterMove (env : Env M K) (t : PerrohtImpl M K V) (pos : Nat)
    (e : Entry K V) : Option Nat :=
  if e.dist < kMaxProbeDistance then some e.dist
  else if env.moved_from_readable then
    some ((pos + Capacity t - pIdealPosition env t e.key) % Capacity t)
  else none

/-- The backward-shift loop of `pEraseSingleAt`; returns the table and the
final value of `i`. In each iteration the record of bucket `i` is moved to
`pre_i` first and `old_pd` is read afterwards, as in the source. The result is
`none` when the budget is exhausted or the read of `old_pd` has no defined
result. -/
def pEraseShiftLoop (env : Env M K) :
    Nat → PerrohtImpl M K V → Nat → Option (PerrohtImpl M K V × Nat)
  | 0, _, _ => none
  | fuel + 1, t, i =>
    match pGetBucket t i with
    | none => some (t, i)
    | some e =>
      if pGetProbeDistance env t i e > 0 then
        let pre_i := pDecrementPosition t i
        match pGetProbeDistanceAfterMove env t i e with
        | none => none
        | some old_pd =>
          pEraseShiftLoop env fuel
            { t with
              table_ := t.table_.set pre_i
                (some ⟨pSetProbeDistance (old_pd - 1), e.key, e.val⟩)
              mean_probe_distance_ :=
                env.mean.update t.mean_probe_distance_ old_pd (old_pd - 1) t.size_ }
            (pIncrementPosition t i)
      else some (t, i)

/-- `PerrohtImpl::pEraseSingleAt`. -/
def pEraseSingleAt (env : Env M K) (t : PerrohtImpl M K V) (pos : Nat) :
    Option (PerrohtImpl M K V) :=
  match pEraseShiftLoop env (Capacity t) t (pIncrementPosition t pos) with
  | none => none
  | some (t1, i) =>
    let t2 := pClearAt t1 (pDecrementPosition t1 i)
    some { t2 with size_ := t2.size_ - 1 }

/-- `PerrohtImpl::pEraseSingle`. -/
def pEraseSingle (env : Env M K) (t : PerrohtImpl M K V) (key : K) :
    Option (PerrohtImpl M K V × Bool) :=
  let r := pLocate env t key
  if r.2 then (pEraseSingleAt env t r.1).map (fun t1 => (t1, true))
  else some (t, false)

/-- `PerrohtImpl::Erase(const KeyType&)`. -/
def Erase (env : Env M K) (t : PerrohtImpl M K V) (key : K) :
    Option (PerrohtImpl M K V × Nat) :=
  (pEraseSingle env t key).map (fun r => (r.1, if r.2 then 1 else 0))

/-- `PerrohtImpl::Contains`. -/
def Contains (env : Env M K) (t : PerrohtImpl M K V) (key : K) : Bool :=
  (pLocate env t key).2

/-- The data members `start_pos_` and `offset_` of `BaseIterator`; the
container is the table the iterator is used with. -/
structure BaseIterator where
  start_pos_ : Nat
  offset_ : Nat
deriving DecidableEq, Repr

/-- `BaseIterator::Position`. -/
def BaseIterator.Position (it : BaseIterator) : Nat := it.start_pos_ + it.offset_

/-- The loop `for (; offset_ < Capacity(); ++offset_) if (!pHeader().Empty()) break;`
with `fuel = Capacity() - offset_`. -/
def iterScan (t : PerrohtImpl M K V) (start_pos : Nat) : Nat → Nat → Nat
  | 0, offset => offset
  | fuel + 1, offset =>
    if (pGetBucket t (start_pos + offset)).isSome then offset
    else iterScan t start_pos fuel (offset + 1)

/-- The constructor `BaseIterator(pos, container)`. -/
def Iterator (t : PerrohtImpl M K V) (pos : Nat) : BaseIterator :=
  if pos = Capacity t then ⟨pos, Capacity t⟩
  else ⟨pos, iterScan t pos (Capacity t) 0⟩

/-- `BaseIterator::pMoveToNext` (`operator++`). -/
def pMoveToNext (t : PerrohtImpl M K V) (it : BaseIterator) : BaseIterator :=
  if it.offset_ = Capacity t then it
  else ⟨it.start_pos_,
        iterScan t it.start_pos_ (Capacity t - (it.offset_ + 1)) (it.offset_ + 1)⟩

/-- `BaseIterator::operator==` for two iterators of the table `t`. -/
def iterEq (t : PerrohtImpl M K V) (a b : BaseIterator) : Bool :=
  if a.offset_ = Capacity t ∧ b.offset_ = Capacity t then true
  else decide (a.Position = b.Position)

/-- `PerrohtImpl::Begin`. -/
def Begin (t : PerrohtImpl M K V) : BaseIterator := Iterator t 0

/-- `PerrohtImpl::End`. -/
def End (t : PerrohtImpl M K V) : BaseIterator := Iterator t (Capacity t)

/-- The record an iterator designates (`operator*`). -/
def deref (t : PerrohtImpl M K V) (it : BaseIterator) : Option (K × V) :=
  (pGetBucket t it.Position).map (fun e => (e.key, e.val))

/-- `PerrohtImpl::Find`. -/
def Find (env : Env M K) (t : PerrohtImpl M K V) (key : K) : BaseIterator :=
  let r := pLocate env t key
  if !r.2 then End t else Iterator t r.1

/-- `PerrohtImpl::Insert`. -/
def Insert (env : Env M K) (t : PerrohtImpl M K V) (data : K × V) :
    Option (PerrohtImpl M K V × BaseIterator × Bool) :=
  let r := pLocate env t data.1
  if r.2 then some (t, Iterator t r.1, false)
  else
    (pInsert env (insertDepth (Size t + 1)) t true data (some r.1)).map
      (fun p => (p.1, Iterator p.1 p.2, true))

/-- `PerrohtImpl::Emplace`: the record is constructed first. -/
def Emplace (env : Env M K) (t : PerrohtImpl M K V) (key : K) (val : V) :
    Option (PerrohtImpl M K V × BaseIterator × Bool) :=
  let data : K × V := (key, val)
  let r := pLocate env t data.1
  if r.2 then some (t, Iterator t r.1, false)
  else
    (pInsert env (insertDepth (Size t + 1)) t true data none).map
      (fun p => (p.1, Iterator p.1 p.2, true))

/-- `PerrohtImpl::TryEmplace`: the record is constructed only when the key
is absent. -/
def TryEmplace (env : Env M K) (t : PerrohtImpl M K V) (key : K) (val : V) :
    Option (PerrohtImpl M K V × BaseIterator × Bool) :=
  let r := pLocate env t key
  if r.2 then some (t, Iterator t r.1, false)
  else
    (pInsert env (insertDepth (Size t + 1)) t true (key, val) (some r.1)).map
      (fun p => (p.1, Iterator p.1 p.2, true))

/-- The scan for the next valid entry at the end of `Erase(Iterator)`. -/
def eraseNextLoop (t : PerrohtImpl M K V) : Nat → Nat → BaseIterator
  | 0, _ => End t
  | n + 1, pos =>
    if (pGetBucket t pos).isSome then Iterator t pos
    else eraseNextLoop t n (pIncrementPosition t pos)

/-- `PerrohtImpl::Erase(const Iterator)`. -/
def EraseIt (env : Env M K) (t : PerrohtImpl M K V) (it : BaseIterator) :
    Option (PerrohtImpl M K V × BaseIterator) :=
  if iterEq t it (End t) then some (t, End t)
  else
    match pEraseSingleAt env t it.Position with
    | none => none
    | some t1 => some (t1, eraseNextLoop t1 (Capacity t1) it.Position)

/-- `PerrohtImpl::MaxLoadFactor(const float)` (setter). -/
def SetMaxLoadFactor (env : Env M K) (t : PerrohtImpl M K V) (x : LoadFactorValue) :
    Option (PerrohtImpl M K V) :=
  let old_max_load_factor := MaxLoadFactor t
  let t1 : PerrohtImpl M K V := { t with max_load_factor_ := pCleanseMaxLoadFactor x }
  if t1.max_load_factor_.lt old_max_load_factor then Rehash env t1 (Capacity t1)
  else some t1

/-- The default member initialisers: `PerrohtImpl() = default`. -/
def defaultTable (env : Env M K) : PerrohtImpl M K V :=
  { max_load_factor_ := ⟨7, 8⟩
    mean_probe_distance_ := env.mean.zero
    size_ := 0
    capacity_index_ := 0
    table_ := [] }

/-- The constructor `PerrohtImpl(initial_capacity, max_load_factor, ...)`. -/
def construct (env : Env M K) (initial_capacity : Nat) (max_load_factor : LoadFactorValue) :
    Option (PerrohtImpl M K V) :=
  Reserve env
    { (defaultTable env : PerrohtImpl M K V) with
      max_load_factor_ := pCleanseMaxLoadFactor max_load_factor }
    initial_capacity

/-- The loop of `pCopyConstructEntriesIndividuallyFrom`: `n` buckets of
`other` are left, starting at `i`. -/
def pCopyLoop (other : PerrohtImpl M K V) :
    Nat → Nat → PerrohtImpl M K V → PerrohtImpl M K V
  | 0, _, t => t
  | n + 1, i, t =>
    match pGetBucket other i with
    | none => pCopyLoop other n (i + 1) t
    | some e =>
      pCopyLoop other n (i + 1)
        { t with table_ := t.table_.set i (some e), size_ := t.size_ + 1 }

/-- The copy constructor `PerrohtImpl(const PerrohtImpl& other)`. -/
def copyConstruct (other : PerrohtImpl M K V) : PerrohtImpl M K V :=
  pCopyLoop other (Capacity other) 0
    { max_load_factor_ := other.max_load_factor_
      mean_probe_distance_ := other.mean_probe_distance_
      size_ := 0
      capacity_index_ := other.capacity_index_
      table_ := pAllocateTable (Capacity other) }

/-- The loop `for (it = Begin(); it != End(); ++it)`, collecting the
positions visited. -/
def iterateLoop (t : PerrohtImpl M K V) : Nat → BaseIterator → List Nat
  | 0, _ => []
  | fuel + 1, it =>
    if iterEq t it (End t) then []
    else it.Position :: iterateLoop t fuel (pMoveToNext t it)

/-- The positions visited when iterating from `Begin()` to `End()`. -/
def iteratePositions (t : PerrohtImpl M K V) : List Nat :=
  iterateLoop t (Capacity t + 1) (Begin t)

end Engine

/-! ## Specification vocabulary -/

section Vocabulary

variable {M K V : Type} [DecidableEq K]

/-- Probe distance of a record whose ideal position is `a` when it sits at
position `p` of a table of `n` buckets. -/
def cdist (n a p : Nat) : Nat := (p + n - a) % n

/-- Ideal position of `key` in a table of `n` buckets. -/
def ideal (env : Env M K) (n : Nat) (key : K) : Nat := env.hasher_ key % n

/-- Actual probe distance of the entry `e` sitting at position `p` of the
bucket array `l`. -/
def actualDist (env : Env M K) (l : List (Option (Entry K V))) (p : Nat)
    (e : Entry K V) : Nat :=
  cdist l.length (ideal env l.length e.key) p

/-- The records held by a bucket array, in bucket order. -/
def records (l : List (Option (Entry K V))) : List (K × V) :=
  l.filterMap (fun b => b.map (fun e => (e.key, e.val)))

/-- The records of a bucket array as a multiset. -/
def mrecords (l : List (Option (Entry K V))) : Multiset (K × V) :=
  (records l : Multiset (K × V))

/-- Every header stores the saturated actual probe distance of its record. -/
def DistOK (env : Env M K) (l : List (Option (Entry K V))) : Prop :=
  ∀ p e, l[p]? = some (some e) → e.dist = pSetProbeDistance (actualDist env l p e)

/-- Robin Hood ordering: an occupied bucket with positive probe distance is
preceded by an occupied bucket whose probe distance is at most one less. -/
def OrdOK (env : Env M K) (l : List (Option (Entry K V))) : Prop :=
  ∀ p e, l[p]? = some (some e) → 0 < actualDist env l p e →
    ∃ e1, l[(p + l.length - 1) % l.length]? = some (some e1) ∧
      actualDist env l p e ≤ actualDist env l ((p + l.length - 1) % l.length) e1 + 1

/-- No probe path crosses the boundary in front of position `c`. -/
def CutOK (env : Env M K) (l : List (Option (Entry K V))) (c : Nat) : Prop :=
  ∀ p e, l[p]? = some (some e) → actualDist env l p e ≤ cdist l.length c p

/-- The Robin Hood ordering during a backward shift whose hole is at `h`:
the ordering holds everywhere except across the hole, where the record behind
the hole is compared with the record in front of it. -/
def HoleOrd (env : Env M K) (l : List (Option (Entry K V))) (h : Nat) : Prop :=
  ∀ x e, x ≠ h → l[x]? = some (some e) → 0 < actualDist env l x e →
    ((x + l.length - 1) % l.length ≠ h →
      ∃ e1, l[(x + l.length - 1) % l.length]? = some (some e1) ∧
        actualDist env l x e ≤ actualDist env l ((x + l.length - 1) % l.length) e1 + 1) ∧
    ((x + l.length - 1) % l.length = h → 2 ≤ actualDist env l x e →
      ∃ e1, l[(h + l.length - 1) % l.length]? = some (some e1) ∧
        actualDist env l x e ≤ actualDist env l ((h + l.length - 1) % l.length) e1 + 2)

/-- The structural invariant of a table (all but the load bound). -/
structure InvCore (env : Env M K) (t : PerrohtImpl M K V) : Prop where
  len_eq : t.table_.length = Capacity t
  size_eq : t.size_ = (records t.table_).length
  mlf_pos : 0 < t.max_load_factor_.num
  mlf_le : t.max_load_factor_.num ≤ t.max_load_factor_.den
  dist_ok : DistOK env t.table_
  ord_ok : OrdOK env t.table_
  nodup : ((records t.table_).map Prod.fst).Nodup
  cut : 0 < Capacity t → ∃ c, c < Capacity t ∧ CutOK env t.table_ c

/-- What a transfer needs from the insertion it is given: on a table with
room that holds fewer than `N` records and has at least `c0` buckets, it
inserts an absent key, keeps the structural invariant and never shrinks the
table. -/
def InsSpec (env : Env M K)
    (ins : PerrohtImpl M K V → K × V → Option (PerrohtImpl M K V)) (N c0 : Nat) : Prop :=
  ∀ t data, InvCore env t → t.size_ < N → N ≤ Capacity t → c0 ≤ Capacity t →
    data.1 ∉ (records t.table_).map Prod.fst →
    ∃ t1, ins t data = some t1 ∧ InvCore env t1 ∧
      t1.max_load_factor_ = t.max_load_factor_ ∧
      mrecords t1.table_ = data ::ₘ mrecords t.table_ ∧
      Capacity t ≤ Capacity t1

/-- What a transfer needs from an insertion that checks the capacity: on a
table that holds fewer than `N` records it inserts an absent key (growing the
table if need be), keeps the structural invariant, never shrinks the table
and leaves the load within the maximum load factor. -/
def InsGrowSpec (env : Env M K)
    (ins : PerrohtImpl M K V → K × V → Option (PerrohtImpl M K V)) (N : Nat) : Prop :=
  ∀ t data, InvCore env t → t.size_ < N →
    data.1 ∉ (records t.table_).map Prod.fst →
    ∃ t1, ins t data = some t1 ∧ InvCore env t1 ∧
      t1.max_load_factor_ = t.max_load_factor_ ∧
      mrecords t1.table_ = data ::ₘ mrecords t.table_ ∧
      Capacity t ≤ Capacity t1 ∧
      t1.size_ * t1.max_load_factor_.den ≤ Capacity t1 * t1.max_load_factor_.num

/-- The invariant of a table between two public operations. -/
structure Inv (env : Env M K) (t : PerrohtImpl M K V) : Prop where
  core : InvCore env t
  load : t.size_ * t.max_load_factor_.den ≤ Capacity t * t.max_load_factor_.num

/-- The public mutating operations. -/
inductive Op (K V : Type) where
  | insert (key : K) (val : V)
  | emplace (key : K) (val : V)
  | tryEmplace (key : K) (val : V)
  | erase (key : K)
  | eraseIt (it : BaseIterator)
  | clear
  | reserve (capacity : Nat)
  | rehash (capacity_request : Nat)
  | shrinkToFit
  | setMaxLoadFactor (x : LoadFactorValue)
  | copy

/-- An iterator that may be passed to `Erase(Iterator)`: the end iterator or
an iterator designating an occupied bucket. -/
def validIt (t : PerrohtImpl M K V) (it : BaseIterator) : Bool :=
  iterEq t it (End t) || (pGetBucket t it.Position).isSome

/-- History of a table: for each key, the value of its most recent
successful insertion, unless the key was erased since. -/
abbrev Ghost (K V : Type) := K → Option V

/-- The history agrees with the table: a key has a recorded value exactly
when the table holds that record. -/
def GhostRel (t : PerrohtImpl M K V) (g : Ghost K V) : Prop :=
  ∀ k v, g k = some v ↔ (k, v) ∈ mrecords t.table_

/-- One public operation applied to a table and its history; `none` when the
operation is given an invalid iterator, a step budget is exhausted, or an
erasure reads a moved-from holder without a defined result. -/
def applyOp (env : Env M K) (s : PerrohtImpl M K V × Ghost K V) :
    Op K V → Option (PerrohtImpl M K V × Ghost K V)
  | .insert key val =>
    (Insert env s.1 (key, val)).map
      (fun r => (r.1, if r.2.2 then Function.update s.2 key (some val) else s.2))
  | .emplace key val =>
    (Emplace env s.1 key val).map
      (fun r => (r.1, if r.2.2 then Function.update s.2 key (some val) else s.2))
  | .tryEmplace key val =>
    (TryEmplace env s.1 key val).map
      (fun r => (r.1, if r.2.2 then Function.update s.2 key (some val) else s.2))
  | .erase key =>
    (Erase env s.1 key).map (fun r => (r.1, Function.update s.2 key none))
  | .eraseIt it =>
    if validIt s.1 it then
      (EraseIt env s.1 it).map
        (fun r => (r.1,
          if iterEq s.1 it (End s.1) then s.2
          else match pGetBucket s.1 it.Position with
            | none => s.2
            | some e => Function.update s.2 e.key none))
    else none
  | .clear => some (Clear env s.1, fun _ => none)
  | .reserve capacity => (Reserve env s.1 capacity).map (fun t => (t, s.2))
  | .rehash capacity_request =>
    (Rehash env s.1 capacity_request).map (fun t => (t, s.2))
  | .shrinkToFit => (ShrinkToFit env s.1).map (fun t => (t, s.2))
  | .setMaxLoadFactor x => (SetMaxLoadFactor env s.1 x).map (fun t => (t, s.2))
  | .copy => some (copyConstruct s.1, s.2)

/-- A sequence of public operations, applied in order. -/
def run (env : Env M K) :
    List (Op K V) → PerrohtImpl M K V × Ghost K V → Option (PerrohtImpl M K V × Ghost K V)
  | [], s => some s
  | op :: ops, s =>
    match applyOp env s op with
    | none => none
    | some s1 => run env ops s1

/-- Tables reachable from a freshly constructed one by public operations. -/
def Reachable (env : Env M K) (t : PerrohtImpl M K V) : Prop :=
  ∃ (initial_capacity : Nat) (x : LoadFactorValue) (t0 : PerrohtImpl M K V)
    (ops : List (Op K V)) (g : Ghost K V),
    construct env initial_capacity x = some t0 ∧
      run env ops (t0, fun _ => none) = some (t, g)

/-- The operations of a plain insert / erase / reserve / rehash workload. -/
def Op.isBasic : Op K V → Bool
  | .insert _ _ => true
  | .emplace _ _ => true
  | .tryEmplace _ _ => true
  | .erase _ => true
  | .reserve _ => true
  | .rehash _ => true
  | _ => false

/-- The operations of an insert / erase workload. -/
def Op.isInsertErase : Op K V → Bool
  | .insert _ _ => true
  | .erase _ => true
  | _ => false

/-- Reference finite map: insert if absent. -/
def refInsert (m : List (K × V)) (key : K) (val : V) : List (K × V) :=
  if (m.map Prod.fst).contains key then m else (key, val) :: m

/-- Reference finite map: remove if present. -/
def refErase (m : List (K × V)) (key : K) : List (K × V) :=
  m.filter (fun r => !decide (r.1 = key))

/-- The reference finite map after a workload of inserts and erases. -/
def refRun : List (Op K V) → List (K × V) → List (K × V)
  | [], m => m
  | .insert key val :: ops, m => refRun ops (refInsert m key val)
  | .erase key :: ops, m => refRun ops (refErase m key)
  | _ :: ops, m => refRun ops m

end Vocabulary

/-! ## Allocation failure, `Swap`, and the buckets an iterator inspects -/

section Extensions

variable {M K V : Type} [DecidableEq K]

/-- `PerrohtImpl::pFreeTable`: every bucket is cleared (`pClearAll`), the
array is deallocated, `capacity_index_ = 0` and `table_ = nullptr`. -/
def pFreeTable (env : Env M K) (t : PerrohtImpl M K V) : PerrohtImpl M K V :=
  { pClearAll env t with capacity_index_ := 0, table_ := [] }

/-- `PerrohtImpl::Reserve` together with the Boolean it returns, the outcome
of its own call of `pAllocateTable` being given: `alloc_ok = false` is
`pAllocateTable` returning `nullptr`. -/
def ReserveAlloc (env : Env M K) (t : PerrohtImpl M K V) (capacity : Nat) (alloc_ok : Bool) :
    Option (PerrohtImpl M K V × Bool) :=
  if capacity ≤ Capacity t then some (t, true)
  else if !alloc_ok then some (pFreeTable env t, false)
  else
    (pTransferEntriesTo
      (fun t0 d => (pInsert env (insertDepth (Size t)) t0 false d none).map Prod.fst)
      env t (PowerOfTwoCapacity.AdjustCapacity capacity)).map (fun t1 => (t1, true))

/-- `PerrohtImpl::Rehash` together with the Boolean it returns, the outcome
of its own call of `pAllocateTable` being given. -/
def RehashAlloc (env : Env M K) (t : PerrohtImpl M K V) (capacity_request : Nat)
    (alloc_ok : Bool) : Option (PerrohtImpl M K V × Bool) :=
  let new_capacity := PowerOfTwoCapacity.AdjustCapacity
    (max capacity_request (pGetRequiredCapacity t (Size t)))
  if !alloc_ok then some (pFreeTable env t, false)
  else
    (pTransferEntriesTo
      (fun t0 d => (pInsert env (insertDepth (Size t)) t0 true d none).map Prod.fst)
      env t new_capacity).map (fun t1 => (t1, true))

/-- `PerrohtImpl::ShrinkToFit` together with the Boolean it returns. -/
def ShrinkToFitAlloc (env : Env M K) (t : PerrohtImpl M K V) (alloc_ok : Bool) :
    Option (PerrohtImpl M K V × Bool) :=
  RehashAlloc env t (Size t) alloc_ok

/-- `PerrohtImpl::Swap` for two tables with equal allocators; a table is
paired with its `hasher_`.  The members `max_load_factor_`, `hasher_`,
`mean_probe_distance_`, `size_`, `capacity_index_` and `table_` are exchanged
one by one (`key_equal_` is the same object for both). -/
def Swap (a b : (K → Nat) × PerrohtImpl M K V) :
    ((K → Nat) × PerrohtImpl M K V) × ((K → Nat) × PerrohtImpl M K V) :=
  ((b.1,
    { max_load_factor_ := b.2.max_load_factor_
      mean_probe_distance_ := b.2.mean_probe_distance_
      size_ := b.2.size_
      capacity_index_ := b.2.capacity_index_
      table_ := b.2.table_ }),
   (a.1,
    { max_load_factor_ := a.2.max_load_factor_
      mean_probe_distance_ := a.2.mean_probe_distance_
      size_ := a.2.size_
      capacity_index_ := a.2.capacity_index_
      table_ := a.2.table_ }))

/-- `PerrohtImpl::CEnd`: `ConstIterator(Capacity(), this)`. -/
def CEnd (t : PerrohtImpl M K V) : BaseIterator := Iterator t (Capacity t)

/-- `PerrohtImpl::Erase(const ConstIterator)`:
`Erase(Iterator(it.Position(), this))`. -/
def EraseConstIt (env : Env M K) (t : PerrohtImpl M K V) (it : BaseIterator) :
    Option (PerrohtImpl M K V × BaseIterator) :=
  EraseIt env t (Iterator t it.Position)

/-- The bucket indices whose header is inspected (`pHeader()`, that is
`pGetHeader(Position())`) by the loop
`for (; offset_ < Capacity(); ++offset_) if (!pHeader().Empty()) break;`
with `fuel = Capacity() - offset_`, in the order of inspection. -/
def iterScanReads (t : PerrohtImpl M K V) (start_pos : Nat) : Nat → Nat → List Nat
  | 0, _ => []
  | fuel + 1, offset =>
    (start_pos + offset) ::
      (if (pGetBucket t (start_pos + offset)).isSome then []
       else iterScanReads t start_pos fuel (offset + 1))

/-- The bucket indices the constructor `BaseIterator(pos, container)`
inspects. -/
def IteratorReads (t : PerrohtImpl M K V) (pos : Nat) : List Nat :=
  if pos = Capacity t then [] else iterScanReads t pos (Capacity t) 0

/-- The bucket indices `BaseIterator::pMoveToNext` (`operator++`) inspects. -/
def pMoveToNextReads (t : PerrohtImpl M K V) (it : BaseIterator) : List Nat :=
  if it.offset_ = Capacity t then []
  else iterScanReads t it.start_pos_ (Capacity t - (it.offset_ + 1)) (it.offset_ + 1)

/-- `PerrohtImpl::pSetProbeDistance` on the header of a bucket:
`pGetHeader(pos).SetProbeDistance(pd)` with the saturated distance `pd`. -/
def pSetProbeDistanceHeader (h : Header) (dist : Nat) : Header :=
  h.SetProbeDistance (pSetProbeDistance dist)

/-- The move constructor `PerrohtImpl(PerrohtImpl&& other)` (a table is paired
with its `hasher_`): the new table, and `other` as it is left. -/
def moveConstruct (mean : MeanOps M) (other : (K → Nat) × PerrohtImpl M K V) :
    ((K → Nat) × PerrohtImpl M K V) × ((K → Nat) × PerrohtImpl M K V) :=
  ((other.1,
    { max_load_factor_ := other.2.max_load_factor_
      mean_probe_distance_ := other.2.mean_probe_distance_
      size_ := other.2.size_
      capacity_index_ := other.2.capacity_index_
      table_ := other.2.table_ }),
   (other.1,
    { other.2 with
      mean_probe_distance_ := mean.zero
      size_ := 0
      capacity_index_ := 0
      table_ := [] }))

/-- The loop of `GetProbeDistanceHistogram`: `n` buckets are left, starting
at `i`; `++histogram[pd]` outside the vector is `none`. -/
def histogramLoop (env : Env M K) (t : PerrohtImpl M K V) :
    Nat → Nat → List Nat → Option (List Nat)
  | 0, _, histogram => some histogram
  | n + 1, i, histogram =>
    match pGetBucket t i with
    | none => histogramLoop env t n (i + 1) histogram
    | some e =>
      let pd := pGetProbeDistance env t i e
      if pd < histogram.length then
        histogramLoop env t n (i + 1) (histogram.set pd (histogram.getD pd 0 + 1))
      else none

/-- `PerrohtImpl::GetProbeDistanceHistogram`: a vector of
`Header::MaxProbeDistance() + 1` counters; `none` when a counter outside the
vector is incremented. -/
def GetProbeDistanceHistogram (env : Env M K) (t : PerrohtImpl M K V) : Option (List Nat) :=
  histogramLoop env t (Capacity t) 0 (List.replicate (kMaxProbeDistance + 1) 0)

/-- The indices `pGetProbeDistance(i)` of the counters that
`GetProbeDistanceHistogram` increments, in bucket order. -/
def histogramIndices (env : Env M K) (t : PerrohtImpl M K V) : List Nat :=
  (List.range (Capacity t)).filterMap
    (fun i => (pGetBucket t i).map (fun e => pGetProbeDistance env t i e))

/-- The actual probe distances `(p - ideal(key at p) + capacity) mod capacity`
of the occupied buckets, in bucket order. -/
def probeDistances (env : Env M K) (t : PerrohtImpl M K V) : List Nat :=
  (List.range (Capacity t)).filterMap
    (fun p => (pGetBucket t p).map
      (fun e => cdist (Capacity t) (ideal env (Capacity t) e.key) p))

/-- The pairs `(pos, dist)` with which the iterations of the loop of
`pForceInsert` start, in order (same arguments as `pForceInsertLoop`);
`none` when the loop ends without placing the record, that is, when it
reaches `assert(false && "Should not reach here")` (or exceeds the step
budget). -/
def pForceInsertTrace (env : Env M K) :
    Nat → PerrohtImpl M K V → K × V → Nat → Nat → Option (List (Nat × Nat))
  | 0, _, _, _, _ => none
  | fuel + 1, t, data, pos, dist =>
    if dist < Capacity t then
      match pGetBucket t pos with
      | none => some [(pos, dist)]
      | some e =>
        let existing_pd := pGetProbeDistance env t pos e
        if existing_pd < dist then
          (pForceInsertTrace env fuel
            { t with
              table_ := t.table_.set pos (some ⟨pSetProbeDistance dist, data.1, data.2⟩)
              mean_probe_distance_ :=
                env.mean.update t.mean_probe_distance_ existing_pd dist t.size_ }
            (e.key, e.val) (pIncrementPosition t pos) (existing_pd + 1)).map
            (fun tr => (pos, dist) :: tr)
        else
          (pForceInsertTrace env fuel t data (pIncrementPosition t pos) (dist + 1)).map
            (fun tr => (pos, dist) :: tr)
    else none

/-- The buckets `i` of the backward-shift loop of `pEraseSingleAt` at which
`const auto old_pd = pGetProbeDistance(i)` reads the key of the holder at `i`
(the stored distance being saturated) after
`pGetData(pre_i).MoveAssign(allocator_, std::move(pGetData(i)))` has moved
from that holder (same arguments as `pEraseShiftLoop`). -/
def pEraseMovedFromReads (env : Env M K) : Nat → PerrohtImpl M K V → Nat → List Nat
  | 0, _, _ => []
  | fuel + 1, t, i =>
    match pGetBucket t i with
    | none => []
    | some e =>
      if pGetProbeDistance env t i e > 0 then
        let pre_i := pDecrementPosition t i
        let old_pd := pGetProbeDistance env t i e
        (if e.dist < kMaxProbeDistance then [] else [i]) ++
          pEraseMovedFromReads env fuel
            { t with
              table_ := t.table_.set pre_i
                (some ⟨pSetProbeDistance (old_pd - 1), e.key, e.val⟩)
              mean_probe_distance_ :=
                env.mean.update t.mean_probe_distance_ old_pd (old_pd - 1) t.size_ }
            (pIncrementPosition t i)
      else []

/-- The operations that erase a record (and so run the backward shift). -/
def Op.erases : Op K V → Bool
  | .erase _ => true
  | .eraseIt _ => true
  | _ => false

/-- The operations of a workload without erasure. -/
def Op.isGrowing : Op K V → Bool
  | .insert _ _ => true
  | .emplace _ _ => true
  | .tryEmplace _ _ => true
  | .reserve _ => true
  | .rehash _ => true
  | _ => false

/-- The sum of the actual probe distances of the buckets of the array `l`,
the first of which is bucket `p` of an array of `n` buckets. -/
def distSumFrom (hasher : K → Nat) (n : Nat) : List (Option (Entry K V)) → Nat → Nat
  | [], _ => 0
  | none :: l, p => distSumFrom hasher n l (p + 1)
  | some e :: l, p => cdist n (hasher e.key % n) p + distSumFrom hasher n l (p + 1)

/-- The running mean of a table in exact arithmetic is the true mean:
`mean_probe_distance_ * size_` is the sum of the actual probe distances (the
mean being the fraction `num / den` with `den > 0`). -/
def MeanExact (hasher : K → Nat) (t : PerrohtImpl MeanValue K V) : Prop :=
  0 < t.mean_probe_distance_.den ∧
  t.mean_probe_distance_.num * (t.size_ : Int) =
    (distSumFrom hasher t.table_.length t.table_ 0 : Int) * (t.mean_probe_distance_.den : Int)

/-- The environment with the running mean in exact arithmetic. -/
def exactEnv (hasher : K → Nat) : Env MeanValue K := ⟨exactMean, hasher, true⟩

/-- What the maintenance of the running mean relies on: the bucket array has
`Capacity()` buckets, `size_` counts the records, every header stores the
saturated actual distance, and the running mean is the true mean. -/
structure MeanInv (hasher : K → Nat) (t : PerrohtImpl MeanValue K V) : Prop where
  len_eq : t.table_.length = Capacity t
  size_eq : t.size_ = (records t.table_).length
  dist_ok : DistOK (exactEnv hasher) t.table_
  mean_ok : MeanExact hasher t

end Extensions

/-! ## A concrete workload -/

/-- Integer keys hashed by the identity (as `std::hash<int>` does), the mean
in exact arithmetic. -/
def exEnv : Env MeanValue Nat := ⟨exactMean, fun k => k, true⟩

/-- Four insertions, three of them colliding (with one Robin Hood steal and
three growths), then an erasure with a backward shift. -/
def exOps : List (Op Nat Nat) :=
  [.insert 1 11, .insert 9 99, .insert 2 22, .insert 17 170, .erase 9]

/-- The table that `exOps` produces from the default-constructed table. -/
def exTable : PerrohtImpl MeanValue Nat Nat :=
  { max_load_factor_ := ⟨7, 8⟩
    mean_probe_distance_ := ⟨864, 1152⟩
    size_ := 3
    capacity_index_ := 4
    table_ := [none, some ⟨0, 1, 11⟩, some ⟨1, 17, 170⟩, some ⟨1, 2, 22⟩,
      none, none, none, none] }

/-- The history that `exOps` produces. -/
def exGhost : Ghost Nat Nat :=
  Function.update
    (Function.update
      (Function.update
        (Function.update (Function.update (fun _ => none) 1 (some 11)) 9 (some 99))
        2 (some 22))
      17 (some 170))
    9 none

/-- A hasher that sends every key to `0`. -/
def zeroEnv : Env MeanValue Nat := ⟨exactMean, fun _ => 0, true⟩

/-- The same hasher with the node layout (`unordered_node_map`): a holder that
has been moved from holds `nullptr`. -/
def nodeEnv : Env MeanValue Nat := ⟨exactMean, fun _ => 0, false⟩

/-- The insertion of the 256 keys `0, 1, ..., 255`. -/
def manyOps : List (Op Nat Nat) := (List.range 256).map (fun i => Op.insert i 0)

/-- Thirty-three keys at their ideal positions `23, ..., 55` and then the 23
keys `0, 256, ..., 22 * 256`, which share the ideal position `0` in tables of
64, 128 and 256 buckets. -/
def nestedOps : List (Op Nat Nat) :=
  (List.range 33).map (fun i => Op.insert (i + 23) 0) ++
    (List.range 23).map (fun i => Op.insert (i * 256) 0)

/-- The keys `0, ..., 5`. -/
def sixOps : List (Op Nat Nat) := (List.range 6).map (fun i => Op.insert i 0)

/-- The table that `PerrohtImpl(8, 7/8)` constructs. -/
def emptyTable8 : PerrohtImpl MeanValue Nat Nat :=
  { max_load_factor_ := ⟨7, 8⟩
    mean_probe_distance_ := ⟨0, 1⟩
    size_ := 0
    capacity_index_ := 4
    table_ := [none, none, none, none, none, none, none, none] }

/-- The table that `sixOps` produces from `emptyTable8`. -/
def sixTable : PerrohtImpl MeanValue Nat Nat :=
  { max_load_factor_ := ⟨7, 8⟩
    mean_probe_distance_ := ⟨0, 720⟩
    size_ := 6
    capacity_index_ := 4
    table_ := [some ⟨0, 0, 0⟩, some ⟨0, 1, 0⟩, some ⟨0, 2, 0⟩, some ⟨0, 3, 0⟩,
      some ⟨0, 4, 0⟩, some ⟨0, 5, 0⟩, none, none] }

/-- The history that `sixOps` produces. -/
def sixGhost : Ghost Nat Nat :=
  Function.update
    (Function.update
      (Function.update
        (Function.update
          (Function.update (Function.update (fun _ => none) 0 (some 0)) 1 (some 0))
          2 (some 0))
        3 (some 0))
      4 (some 0))
    5 (some 0)

/-- The table that `sixOps` followed by the insertion of the key `6` produces
from `emptyTable8`. -/
def sevenTable : PerrohtImpl MeanValue Nat Nat :=
  { max_load_factor_ := ⟨7, 8⟩
    mean_probe_distance_ := ⟨0, 5040⟩
    size_ := 7
    capacity_index_ := 4
    table_ := [some ⟨0, 0, 0⟩, some ⟨0, 1, 0⟩, some ⟨0, 2, 0⟩, some ⟨0, 3, 0⟩,
      some ⟨0, 4, 0⟩, some ⟨0, 5, 0⟩, some ⟨0, 6, 0⟩, none] }

/-- The history that `sixOps` followed by the insertion of the key `6`
produces. -/
def sevenGhost : Ghost Nat Nat := Function.update sixGhost 6 (some 0)

/-- The `n` keys `0, 1024, ..., (n - 1) * 1024`, which share the ideal
position `0` in tables of up to 1024 buckets. -/
def collideOps (n : Nat) : List (Op Nat Nat) :=
  (List.range n).map (fun i => Op.insert (i * 1024) 0)

end Perroht

namespace Perroht

open PowerOfTwoCapacity

/-! ## Arithmetic of cyclic positions -/

theorem mod_closed {x n : Nat} (h : x < 2 * n) :
    x % n = if x < n then x else x - n := by
  split
  · next h1 => exact Nat.mod_eq_of_lt h1
  · next h1 =>
    have h2 : x = (x - n) + n := by omega
    rw [h2, Nat.add_mod_right, Nat.mod_eq_of_lt (by omega)]
    omega

theorem cdist_eq {n a p : Nat} (ha : a < n) (hp : p < n) :
    cdist n a p = if a ≤ p then p - a else p + n - a := by
  unfold cdist
  rw [mod_closed (by omega)]
  split <;> split <;> omega

theorem inc_eq {n p : Nat} (hp : p < n) :
    (p + 1) % n = if p + 1 = n then 0 else p + 1 := by
  rw [mod_closed (by omega)]
  split <;> split <;> omega

theorem dec_eq {n p : Nat} (hp : p < n) :
    (p + n - 1) % n = if p = 0 then n - 1 else p - 1 := by
  rw [mod_closed (by omega)]
  split <;> split <;> omega

theorem cdist_lt {n a p : Nat} (hn : 0 < n) : cdist n a p < n :=
  Nat.mod_lt _ hn

theorem ideal_lt {M K : Type} (env : Env M K) {n : Nat} (hn : 0 < n) (k : K) :
    ideal env n k < n :=
  Nat.mod_lt _ hn

/-! ## The capacity policy -/

theorem ToCapacity_zero : ToCapacity 0 = 0 := rfl

theorem ToCapacity_succ (i : Nat) : ToCapacity (i + 1) = 2 ^ i := by
  simp [ToCapacity, Nat.one_shiftLeft]

theorem ToCapacity_pos {i : Nat} (h : 0 < ToCapacity i) : ∃ j, i = j + 1 ∧ ToCapacity i = 2 ^ j := by
  cases i with
  | zero => simp [ToCapacity] at h
  | succ j => exact ⟨j, rfl, ToCapacity_succ j⟩

theorem ToCapacity_mono {i j : Nat} (h : i ≤ j) : ToCapacity i ≤ ToCapacity j := by
  cases i with
  | zero => simp [ToCapacity]
  | succ a =>
    cases j with
    | zero => omega
    | succ b =>
      rw [ToCapacity_succ, ToCapacity_succ]
      exact Nat.pow_le_pow_right (by decide) (by omega)

theorem ceilLog2Loop_spec (size : Nat) :
    ∀ fuel i, size ≤ 2 ^ (i + fuel) → (i = 0 ∨ 2 ^ (i - 1) < size) →
      size ≤ 2 ^ (ceilLog2Loop size fuel i) ∧
      (ceilLog2Loop size fuel i = 0 ∨ 2 ^ (ceilLog2Loop size fuel i - 1) < size) := by
  intro fuel
  induction fuel with
  | zero => intro i h1 h2; simpa [ceilLog2Loop] using ⟨h1, h2⟩
  | succ f ih =>
    intro i h1 h2
    unfold ceilLog2Loop
    split
    · next h => exact ⟨h, h2⟩
    · next h =>
      apply ih (i + 1)
      · have : i + 1 + f = i + (f + 1) := by omega
        rw [this]; exact h1
      · right; simpa using Nat.lt_of_not_le h

theorem ceilLog2_spec (size : Nat) :
    size ≤ 2 ^ ceilLog2 size ∧ (ceilLog2 size = 0 ∨ 2 ^ (ceilLog2 size - 1) < size) := by
  apply ceilLog2Loop_spec size size 0
  · simpa using (Nat.lt_two_pow size).le
  · left; rfl

theorem ceilLog2_pow (j : Nat) : ceilLog2 (2 ^ j) = j := by
  obtain ⟨h1, h2⟩ := ceilLog2_spec (2 ^ j)
  have h3 : j ≤ ceilLog2 (2 ^ j) := (Nat.pow_le_pow_iff_right (by decide)).1 h1
  rcases h2 with h2 | h2
  · omega
  · have h4 : ceilLog2 (2 ^ j) - 1 < j := (Nat.pow_lt_pow_iff_right (by decide)).1 h2
    omega

theorem ceilLog2_unique {n c : Nat} (h1 : n ≤ 2 ^ c) (h2 : c = 0 ∨ 2 ^ (c - 1) < n) :
    ceilLog2 n = c := by
  obtain ⟨g1, g2⟩ := ceilLog2_spec n
  have a1 : ceilLog2 n ≤ c := by
    rcases g2 with g2 | g2
    · omega
    · have := (Nat.pow_lt_pow_iff_right (by decide : 1 < 2)).1 (lt_of_lt_of_le g2 h1)
      omega
  have a2 : c ≤ ceilLog2 n := by
    rcases h2 with h2 | h2
    · omega
    · have := (Nat.pow_lt_pow_iff_right (by decide : 1 < 2)).1 (lt_of_lt_of_le h2 g1)
      omega
  omega

/-- The number of bits of `n > 0`. -/
theorem bits_spec {n : Nat} (hn : 0 < n) :
    1 ≤ ceilLog2 (n + 1) ∧ 2 ^ (ceilLog2 (n + 1) - 1) ≤ n ∧ n < 2 ^ ceilLog2 (n + 1) := by
  obtain ⟨g1, g2⟩ := ceilLog2_spec (n + 1)
  rcases g2 with g2 | g2
  · rw [g2] at g1
    simp at g1
    omega
  · refine ⟨?_, by omega, by omega⟩
    by_contra h0
    have h1 : ceilLog2 (n + 1) = 0 := by omega
    rw [h1] at g1
    simp at g1
    omega

theorem toDouble_small {n : Nat} (h : n < 2 ^ 53) : toDouble n = n := by
  have hb : ceilLog2 (n + 1) ≤ 53 := by
    obtain ⟨_, g2⟩ := ceilLog2_spec (n + 1)
    rcases g2 with g2 | g2
    · omega
    · have h1 : 2 ^ (ceilLog2 (n + 1) - 1) < 2 ^ 53 := by omega
      have := (Nat.pow_lt_pow_iff_right (by decide : 1 < 2)).1 h1
      omega
  unfold toDouble
  rw [Nat.sub_eq_zero_of_le hb]
  simp [Nat.mod_one]

theorem toDouble_bounds {n : Nat} (hn : 0 < n) :
    2 ^ (ceilLog2 (n + 1) - 1) ≤ toDouble n ∧ toDouble n ≤ 2 ^ ceilLog2 (n + 1) := by
  obtain ⟨b1, b2, b3⟩ := bits_spec hn
  by_cases hb : ceilLog2 (n + 1) ≤ 53
  · have hlt : n < 2 ^ 53 := lt_of_lt_of_le b3 (Nat.pow_le_pow_right (by decide) hb)
    rw [toDouble_small hlt]
    exact ⟨b2, by omega⟩
  · have hs : 0 < 2 ^ (ceilLog2 (n + 1) - 53) := by positivity
    have e1 : 2 ^ (ceilLog2 (n + 1) - 1) = 2 ^ 52 * 2 ^ (ceilLog2 (n + 1) - 53) := by
      rw [← Nat.pow_add]
      congr 1
      omega
    have e2 : 2 ^ ceilLog2 (n + 1) = 2 ^ 53 * 2 ^ (ceilLog2 (n + 1) - 53) := by
      rw [← Nat.pow_add]
      congr 1
      omega
    have q1 : 2 ^ 52 ≤ n / 2 ^ (ceilLog2 (n + 1) - 53) := by
      rw [Nat.le_div_iff_mul_le hs, ← e1]
      exact b2
    have q2 : n / 2 ^ (ceilLog2 (n + 1) - 53) < 2 ^ 53 := by
      rw [Nat.div_lt_iff_lt_mul hs, ← e2]
      exact b3
    have l1 : 2 ^ 52 * 2 ^ (ceilLog2 (n + 1) - 53) ≤
        n / 2 ^ (ceilLog2 (n + 1) - 53) * 2 ^ (ceilLog2 (n + 1) - 53) :=
      Nat.mul_le_mul_right _ q1
    have l2 : n / 2 ^ (ceilLog2 (n + 1) - 53) * 2 ^ (ceilLog2 (n + 1) - 53) ≤
        (n / 2 ^ (ceilLog2 (n + 1) - 53) + 1) * 2 ^ (ceilLog2 (n + 1) - 53) :=
      Nat.mul_le_mul_right _ (Nat.le_succ _)
    have l3 : (n / 2 ^ (ceilLog2 (n + 1) - 53) + 1) * 2 ^ (ceilLog2 (n + 1) - 53) ≤
        2 ^ 53 * 2 ^ (ceilLog2 (n + 1) - 53) :=
      Nat.mul_le_mul_right _ q2
    rw [e1, e2]
    unfold toDouble
    simp only
    split_ifs
    · exact ⟨l1, le_trans l2 l3⟩
    · exact ⟨le_trans l1 l2, l3⟩

theorem toDouble_pow (j : Nat) : toDouble (2 ^ j) = 2 ^ j := by
  have hb : ceilLog2 (2 ^ j + 1) = j + 1 := by
    apply ceilLog2_unique
    · rw [Nat.pow_succ]
      have : 0 < 2 ^ j := by positivity
      omega
    · right
      simp
  unfold toDouble
  rw [hb]
  by_cases hj : j + 1 ≤ 53
  · rw [Nat.sub_eq_zero_of_le hj]
    simp [Nat.mod_one]
  · have e : 2 ^ j = 2 ^ 52 * 2 ^ (j + 1 - 53) := by
      rw [← Nat.pow_add]
      congr 1
      omega
    have hs : 0 < 2 ^ (j + 1 - 53) := by positivity
    have hq : 2 ^ j / 2 ^ (j + 1 - 53) = 2 ^ 52 := by
      rw [e]
      exact Nat.mul_div_cancel _ hs
    have hr : 2 ^ j % 2 ^ (j + 1 - 53) = 0 := by
      rw [e]
      exact Nat.mul_mod_left _ _
    simp only [hq, hr]
    rw [if_pos (Or.inl (by omega)), ← e]

theorem ceilLog2Double_pow (j : Nat) : ceilLog2Double (2 ^ j) = j := by
  unfold ceilLog2Double
  simp only [toDouble_pow, ceilLog2_pow]
  rw [if_neg]
  intro h
  exact h.2.1 rfl

/-- The double computation never exceeds the exact `ceil(log2(n))` and falls
short of it by at most one. -/
theorem ceilLog2Double_bounds {n : Nat} (hn : 0 < n) :
    ceilLog2Double n ≤ ceilLog2 n ∧ ceilLog2 n ≤ ceilLog2Double n + 1 := by
  obtain ⟨b1, b2, b3⟩ := bits_spec hn
  obtain ⟨x1, x2⟩ := toDouble_bounds hn
  by_cases hpow : n = 2 ^ (ceilLog2 (n + 1) - 1)
  · have h1 : ceilLog2Double n = ceilLog2 (n + 1) - 1 := by
      conv_lhs => rw [hpow]
      exact ceilLog2Double_pow _
    have h2 : ceilLog2 n = ceilLog2 (n + 1) - 1 := by
      conv_lhs => rw [hpow]
      exact ceilLog2_pow _
    omega
  · have hc : ceilLog2 n = ceilLog2 (n + 1) := by
      apply ceilLog2_unique (by omega)
      right
      omega
    by_cases hx : toDouble n = 2 ^ (ceilLog2 (n + 1) - 1)
    · have hk : ceilLog2 (toDouble n) = ceilLog2 (n + 1) - 1 := by
        rw [hx]
        exact ceilLog2_pow _
      have hr : ceilLog2Double n = ceilLog2 (n + 1) - 1 := by
        unfold ceilLog2Double
        simp only [hk]
        rw [if_neg]
        intro h
        exact h.2.1 hx
      omega
    · have hk : ceilLog2 (toDouble n) = ceilLog2 (n + 1) := by
        apply ceilLog2_unique x2
        right
        omega
      unfold ceilLog2Double
      simp only [hk]
      split_ifs <;> omega

theorem ceilLog2Double_exact {n : Nat} (h : n ≤ 2 ^ 49) : ceilLog2Double n = ceilLog2 n := by
  have hlt : n < 2 ^ 53 := lt_of_le_of_lt h (by decide)
  have hk : ceilLog2 n ≤ 49 := by
    obtain ⟨_, g2⟩ := ceilLog2_spec n
    rcases g2 with g2 | g2
    · omega
    · have := (Nat.pow_lt_pow_iff_right (by decide : 1 < 2)).1 (lt_of_lt_of_le g2 h)
      omega
  unfold ceilLog2Double
  simp only [toDouble_small hlt]
  rw [if_neg (by omega)]

theorem ToIndex_pow (j : Nat) : ToIndex (2 ^ j) = j + 1 := by
  unfold ToIndex
  rw [if_neg (by positivity)]
  split_ifs
  · rw [ceilLog2Double_pow]
  · rw [ceilLog2_pow]

theorem AdjustCapacity_zero : AdjustCapacity 0 = 0 := rfl

theorem AdjustCapacity_pow (j : Nat) : AdjustCapacity (2 ^ j) = 2 ^ j := by
  unfold AdjustCapacity
  rw [ToIndex_pow, ToCapacity_succ]

/-- `AdjustCapacity(n)` is a power of two `2^j` with `ToIndex(n) = j + 1`; it is
at least every power of two below `n` and at most the least power of two that
is `≥ n`, and it is `≥ n` itself where the logarithm is exact. -/
theorem AdjustCapacity_spec {n : Nat} (hn : 0 < n) :
    ∃ j, AdjustCapacity n = 2 ^ j ∧ (n ≤ 2 ^ 49 ∨ 2 ^ 64 ≤ n → n ≤ 2 ^ j) ∧
      ToIndex n = j + 1 ∧ (∀ a, 2 ^ a < n → a ≤ j) ∧ (∀ a, n ≤ 2 ^ a → j ≤ a) := by
  obtain ⟨g1, g2⟩ := ceilLog2_spec n
  have hbelow : ∀ a, 2 ^ a < n → a + 1 ≤ ceilLog2 n := by
    intro a ha
    have := (Nat.pow_lt_pow_iff_right (by decide : 1 < 2)).1 (lt_of_lt_of_le ha g1)
    omega
  have habove : ∀ a, n ≤ 2 ^ a → ceilLog2 n ≤ a := by
    intro a ha
    rcases g2 with g2 | g2
    · omega
    · have := (Nat.pow_lt_pow_iff_right (by decide : 1 < 2)).1 (lt_of_lt_of_le g2 ha)
      omega
  by_cases h64 : n < 2 ^ 64
  · obtain ⟨d1, d2⟩ := ceilLog2Double_bounds hn
    have hidx : ToIndex n = ceilLog2Double n + 1 := by
      unfold ToIndex
      rw [if_neg (by omega), if_pos h64]
    refine ⟨ceilLog2Double n, ?_, ?_, hidx, ?_, ?_⟩
    · unfold AdjustCapacity
      rw [hidx, ToCapacity_succ]
    · intro h
      rcases h with h | h
      · rw [ceilLog2Double_exact h]
        exact g1
      · omega
    · intro a ha
      have := hbelow a ha
      omega
    · intro a ha
      have := habove a ha
      omega
  · have hidx : ToIndex n = ceilLog2 n + 1 := by
      unfold ToIndex
      rw [if_neg (by omega), if_neg h64]
    refine ⟨ceilLog2 n, ?_, fun _ => g1, hidx, ?_, habove⟩
    · unfold AdjustCapacity
      rw [hidx, ToCapacity_succ]
    · intro a ha
      have := hbelow a ha
      omega

theorem AdjustCapacity_ge (n : Nat) (h : n ≤ 2 ^ 49 ∨ 2 ^ 64 ≤ n) : n ≤ AdjustCapacity n := by
  rcases Nat.eq_zero_or_pos n with h0 | h0
  · subst h0; simp
  · obtain ⟨j, h1, h2, _⟩ := AdjustCapacity_spec h0
    rw [h1]
    exact h2 h

/-- `AdjustCapacity(n)` is at least every capacity of the policy below `n`. -/
theorem AdjustCapacity_ge_capacity {m n : Nat} (hm : m = 0 ∨ ∃ a, m = 2 ^ a) (h : m < n) :
    m ≤ AdjustCapacity n := by
  rcases hm with hm | ⟨a, hm⟩
  · omega
  · subst hm
    have hn : 0 < n := lt_of_le_of_lt (Nat.zero_le _) h
    obtain ⟨j, h1, _, _, h4, _⟩ := AdjustCapacity_spec hn
    rw [h1]
    exact Nat.pow_le_pow_right (by decide) (h4 a h)

theorem ToIndex_AdjustCapacity (n : Nat) : ToIndex (AdjustCapacity n) = ToIndex n := by
  rcases Nat.eq_zero_or_pos n with h | h
  · subst h; rfl
  · obtain ⟨j, h1, _, h3, _⟩ := AdjustCapacity_spec h
    rw [h1, ToIndex_pow, h3]

theorem land_pow_two {x n : Nat} (h : ∃ j, n = 2 ^ j) : x &&& (n - 1) = x % n := by
  obtain ⟨j, rfl⟩ := h
  exact Nat.and_pow_two_sub_one_eq_mod x j

end Perroht

namespace Perroht

open PowerOfTwoCapacity

section ListFacts

variable {K V : Type}

/-! ## Bucket arrays -/

theorem getElem?_lt {α : Type} {l : List α} {p : Nat} {a : α} (h : l[p]? = some a) :
    p < l.length := by
  rcases List.getElem?_eq_some.1 h with ⟨hp, _⟩
  exact hp

theorem getElem?_set_self_lt {α : Type} {l : List α} {p : Nat} (hp : p < l.length) (a : α) :
    (l.set p a)[p]? = some a := by
  rw [List.getElem?_set]; simp [hp]

theorem getElem?_set_other {α : Type} {l : List α} {p q : Nat} (h : p ≠ q) (a : α) :
    (l.set p a)[q]? = l[q]? := by
  rw [List.getElem?_set]; simp [h]

theorem records_split (l : List (Option (Entry K V))) (p : Nat) (hp : p < l.length) :
    records l = records (l.take p) ++
      ((l[p]).map (fun e => (e.key, e.val))).toList ++ records (l.drop (p + 1)) := by
  have h1 : l = l.take p ++ l[p] :: l.drop (p + 1) := by
    rw [List.getElem_cons_drop, List.take_append_drop]
  conv_lhs => rw [h1]
  unfold records
  rw [List.filterMap_append, List.filterMap_cons]
  cases h : l[p] <;> simp

theorem records_set (l : List (Option (Entry K V))) (p : Nat) (hp : p < l.length)
    (x : Option (Entry K V)) :
    records (l.set p x) = records (l.take p) ++
      (x.map (fun e => (e.key, e.val))).toList ++ records (l.drop (p + 1)) := by
  have h1 : l.set p x = l.take p ++ x :: l.drop (p + 1) := by
    rw [List.set_eq_take_append_cons_drop, if_pos hp]
  rw [h1]
  unfold records
  rw [List.filterMap_append, List.filterMap_cons]
  cases x <;> simp

theorem mrecords_set_some_of_none {l : List (Option (Entry K V))} {p : Nat}
    (h : l[p]? = some none) (e : Entry K V) :
    mrecords (l.set p (some e)) = (e.key, e.val) ::ₘ mrecords l := by
  have hp := getElem?_lt h
  have h0 : l[p] = none := by
    rcases List.getElem?_eq_some.1 h with ⟨_, h2⟩; exact h2
  unfold mrecords
  rw [records_set l p hp, records_split l p hp, h0]
  simp only [Option.map_some', Option.toList_some, Option.map_none', Option.toList_none,
    List.append_nil, List.append_assoc, List.singleton_append]
  rw [Multiset.cons_coe]
  exact Multiset.coe_eq_coe.2 List.perm_middle

theorem mrecords_set_some_of_some {l : List (Option (Entry K V))} {p : Nat} {e0 : Entry K V}
    (h : l[p]? = some (some e0)) (e : Entry K V) :
    (e0.key, e0.val) ::ₘ mrecords (l.set p (some e)) = (e.key, e.val) ::ₘ mrecords l := by
  have hp := getElem?_lt h
  have h0 : l[p] = some e0 := by
    rcases List.getElem?_eq_some.1 h with ⟨_, h2⟩; exact h2
  unfold mrecords
  rw [records_set l p hp, records_split l p hp, h0]
  simp only [Option.map_some', Option.toList_some, List.append_assoc, List.singleton_append]
  rw [Multiset.cons_coe, Multiset.cons_coe]
  apply Multiset.coe_eq_coe.2
  have a1 : (records (List.take p l) ++ (e.key, e.val) :: records (List.drop (p + 1) l)).Perm
      ((e.key, e.val) :: (records (List.take p l) ++ records (List.drop (p + 1) l))) :=
    List.perm_middle
  have a2 : (records (List.take p l) ++ (e0.key, e0.val) :: records (List.drop (p + 1) l)).Perm
      ((e0.key, e0.val) :: (records (List.take p l) ++ records (List.drop (p + 1) l))) :=
    List.perm_middle
  exact ((a1.cons _).trans (List.Perm.swap _ _ _)).trans (a2.symm.cons _)

theorem mrecords_set_none_of_some {l : List (Option (Entry K V))} {p : Nat} {e0 : Entry K V}
    (h : l[p]? = some (some e0)) :
    (e0.key, e0.val) ::ₘ mrecords (l.set p none) = mrecords l := by
  have hp := getElem?_lt h
  have h0 : l[p] = some e0 := by
    rcases List.getElem?_eq_some.1 h with ⟨_, h2⟩; exact h2
  unfold mrecords
  rw [records_set l p hp, records_split l p hp, h0]
  simp only [Option.map_some', Option.toList_some, Option.map_none', Option.toList_none,
    List.append_nil, List.append_assoc, List.singleton_append]
  rw [Multiset.cons_coe]
  exact Multiset.coe_eq_coe.2 List.perm_middle.symm

theorem set_none_of_none {l : List (Option (Entry K V))} {p : Nat}
    (h : l[p]? = some none) : l.set p none = l := by
  apply List.ext_getElem?
  intro q
  rw [List.getElem?_set]
  by_cases hq : p = q
  · subst hq; simp [getElem?_lt h, h]
  · simp [hq]

theorem mem_records_of_getElem? {l : List (Option (Entry K V))} {p : Nat} {e : Entry K V}
    (h : l[p]? = some (some e)) : (e.key, e.val) ∈ records l := by
  unfold records
  rw [List.mem_filterMap]
  exact ⟨some e, List.getElem?_mem h, rfl⟩

theorem getElem?_of_mem_records {l : List (Option (Entry K V))} {r : K × V}
    (h : r ∈ records l) : ∃ (p : Nat) (e : Entry K V), l[p]? = some (some e) ∧ (e.key, e.val) = r := by
  unfold records at h
  rw [List.mem_filterMap] at h
  obtain ⟨b, hb, hr⟩ := h
  cases b with
  | none => simp at hr
  | some e =>
    obtain ⟨p, hp⟩ := List.getElem?_of_mem hb
    refine ⟨p, e, hp, ?_⟩
    simpa using hr

theorem nodup_positions {l : List (Option (Entry K V))}
    (hn : ((records l).map Prod.fst).Nodup) :
    ∀ {p q : Nat} {e e1 : Entry K V}, l[p]? = some (some e) → l[q]? = some (some e1) →
      e.key = e1.key → p = q := by
  induction l with
  | nil => intro p q e e1 h; simp at h
  | cons b l ih =>
    intro p q e e1 hp hq hk
    have hn1 : ((records l).map Prod.fst).Nodup := by
      cases b with
      | none => simpa [records] using hn
      | some e0 =>
        have : ((e0.key) :: (records l).map Prod.fst).Nodup := by simpa [records] using hn
        exact (List.nodup_cons.1 this).2
    cases p with
    | zero =>
      cases q with
      | zero => rfl
      | succ q =>
        exfalso
        simp only [List.getElem?_cons_zero, Option.some.injEq] at hp
        simp only [List.getElem?_cons_succ] at hq
        subst hp
        have h1 : ((e.key) :: (records l).map Prod.fst).Nodup := by simpa [records] using hn
        have h2 := (List.nodup_cons.1 h1).1
        apply h2
        rw [hk]
        exact List.mem_map_of_mem Prod.fst (mem_records_of_getElem? hq)
    | succ p =>
      cases q with
      | zero =>
        exfalso
        simp only [List.getElem?_cons_zero, Option.some.injEq] at hq
        simp only [List.getElem?_cons_succ] at hp
        subst hq
        have h1 : ((e1.key) :: (records l).map Prod.fst).Nodup := by simpa [records] using hn
        have h2 := (List.nodup_cons.1 h1).1
        apply h2
        rw [← hk]
        exact List.mem_map_of_mem Prod.fst (mem_records_of_getElem? hp)
      | succ q =>
        simp only [List.getElem?_cons_succ] at hp hq
        rw [ih hn1 hp hq hk]

theorem exists_empty_of_lt {l : List (Option (Entry K V))}
    (h : (records l).length < l.length) : ∃ E : Nat, l[E]? = some none := by
  induction l with
  | nil => simp at h
  | cons b l ih =>
    cases b with
    | none => exact ⟨0, by simp⟩
    | some e =>
      have : (records l).length < l.length := by
        simpa [records] using h
      obtain ⟨E, hE⟩ := ih this
      exact ⟨E + 1, by simpa using hE⟩

theorem records_length_le (l : List (Option (Entry K V))) :
    (records l).length ≤ l.length :=
  List.length_filterMap_le _ _

theorem records_replicate_none (n : Nat) :
    records (List.replicate n (none : Option (Entry K V))) = [] := by
  induction n with
  | zero => rfl
  | succ n ih => simp [records, List.replicate_succ]

theorem card_mrecords (l : List (Option (Entry K V))) :
    Multiset.card (mrecords l) = (records l).length := rfl

theorem mem_mrecords {l : List (Option (Entry K V))} {r : K × V} :
    r ∈ mrecords l ↔ r ∈ records l := Iff.rfl

theorem nodup_keys_iff (l : List (Option (Entry K V))) :
    ((records l).map Prod.fst).Nodup ↔ ((mrecords l).map Prod.fst).Nodup := by
  unfold mrecords
  rw [Multiset.map_coe, Multiset.coe_nodup]

end ListFacts

end Perroht

namespace Perroht

open PowerOfTwoCapacity

/-! ## More arithmetic of cyclic positions -/

theorem inc_lt {n p : Nat} (hn : 0 < n) : (p + 1) % n < n := Nat.mod_lt _ hn

theorem dec_lt {n p : Nat} (hn : 0 < n) : (p + n - 1) % n < n := Nat.mod_lt _ hn

theorem cdist_self {n a : Nat} (ha : a < n) : cdist n a a = 0 := by
  rw [cdist_eq ha ha]; simp

theorem cdist_inc {n a p : Nat} (ha : a < n) (hp : p < n) (h : cdist n a p + 1 < n) :
    cdist n a ((p + 1) % n) = cdist n a p + 1 := by
  have h1 : (p + 1) % n < n := inc_lt (by omega)
  rw [cdist_eq ha h1]
  rw [cdist_eq ha hp] at h ⊢
  rw [inc_eq hp]
  split_ifs at h ⊢ <;> omega

theorem cdist_dec {n a p : Nat} (ha : a < n) (hp : p < n) (h : 0 < cdist n a p) :
    cdist n a ((p + n - 1) % n) = cdist n a p - 1 := by
  have h1 : (p + n - 1) % n < n := dec_lt (by omega)
  rw [cdist_eq ha h1]
  rw [cdist_eq ha hp] at h ⊢
  rw [dec_eq hp]
  split_ifs at h ⊢ <;> omega

theorem cdist_inj {n a p q : Nat} (ha : a < n) (hp : p < n) (hq : q < n)
    (h : cdist n a p = cdist n a q) : p = q := by
  rw [cdist_eq ha hp, cdist_eq ha hq] at h
  split_ifs at h <;> omega

theorem dec_inc {n p : Nat} (hp : p < n) : ((p + 1) % n + n - 1) % n = p := by
  have hi := inc_eq hp
  by_cases h : p + 1 = n
  · rw [if_pos h] at hi
    rw [hi, dec_eq (by omega), if_pos rfl]
    omega
  · rw [if_neg h] at hi
    rw [hi, dec_eq (by omega), if_neg (by omega)]
    omega

theorem inc_dec {n p : Nat} (hp : p < n) : ((p + n - 1) % n + 1) % n = p := by
  have hi := dec_eq hp
  by_cases h : p = 0
  · rw [if_pos h] at hi
    rw [hi, inc_eq (by omega), if_pos (by omega)]
    omega
  · rw [if_neg h] at hi
    rw [hi, inc_eq (by omega), if_neg (by omega)]
    omega

/-- Steps left to reach `E` drop by one when moving forward from `p ≠ E`. -/
theorem cdist_to_inc {n p E : Nat} (hp : p < n) (hE : E < n) (h : p ≠ E) :
    cdist n ((p + 1) % n) E + 1 = cdist n p E := by
  have h1 : (p + 1) % n < n := inc_lt (by omega)
  rw [cdist_eq h1 hE, cdist_eq hp hE, inc_eq hp]
  split_ifs <;> omega

theorem cdist_to_dec {n p E : Nat} (hp : p < n) (hE : E < n) (h : (p + n - 1) % n ≠ E) :
    cdist n ((p + n - 1) % n) E = cdist n p E + 1 := by
  have h1 : (p + n - 1) % n < n := dec_lt (by omega)
  rw [dec_eq hp] at h
  rw [cdist_eq h1 hE, cdist_eq hp hE, dec_eq hp]
  split_ifs at h ⊢ <;> omega

/-- Distance from the cut behind `E` grows by one when moving forward from `p ≠ E`. -/
theorem cdist_cut_inc {n p E : Nat} (hp : p < n) (hE : E < n) (h : p ≠ E) :
    cdist n ((E + 1) % n) ((p + 1) % n) = cdist n ((E + 1) % n) p + 1 := by
  have h1 : (p + 1) % n < n := inc_lt (by omega)
  have h2 : (E + 1) % n < n := inc_lt (by omega)
  rw [cdist_eq h2 h1, cdist_eq h2 hp, inc_eq hp, inc_eq hE]
  split_ifs <;> omega

theorem cdist_cut_lt {n p E : Nat} (hp : p < n) (hE : E < n) (h : p ≠ E) :
    cdist n ((E + 1) % n) p + 1 < n := by
  have h2 : (E + 1) % n < n := inc_lt (by omega)
  rw [cdist_eq h2 hp, inc_eq hE]
  split_ifs <;> omega

/-- A probe path that does not reach past `E` does not cross the cut behind `E`. -/
theorem cdist_le_cut {n a p E : Nat} (ha : a < n) (hp : p < n) (hE : E < n)
    (h : cdist n a p ≤ cdist n a E) : cdist n a p ≤ cdist n ((E + 1) % n) p := by
  have h2 : (E + 1) % n < n := inc_lt (by omega)
  rw [cdist_eq ha hp, cdist_eq ha hE] at h
  rw [cdist_eq ha hp, cdist_eq h2 hp, inc_eq hE]
  split_ifs at h ⊢ <;> omega

theorem cdist_cut_self {n c : Nat} (hc : c < n) : cdist n c c = 0 := cdist_self hc

section Geometry

variable {M K V : Type} [DecidableEq K]

@[simp] theorem actualDist_def (env : Env M K) (l : List (Option (Entry K V))) (p : Nat)
    (e : Entry K V) :
    actualDist env l p e = cdist l.length (ideal env l.length e.key) p := rfl

theorem Capacity_pow2 (t : PerrohtImpl M K V) (h : 0 < Capacity t) :
    ∃ j, Capacity t = 2 ^ j := by
  obtain ⟨j, _, hj⟩ := ToCapacity_pos h
  exact ⟨j, hj⟩

theorem pIdealPosition_eq (env : Env M K) (t : PerrohtImpl M K V) (k : K)
    (h : 0 < Capacity t) : pIdealPosition env t k = ideal env (Capacity t) k := by
  unfold pIdealPosition ideal
  exact land_pow_two (Capacity_pow2 t h)

theorem pIncrementPosition_eq (t : PerrohtImpl M K V) (p : Nat) (h : 0 < Capacity t) :
    pIncrementPosition t p = (p + 1) % Capacity t := by
  unfold pIncrementPosition
  exact land_pow_two (Capacity_pow2 t h)

theorem pDecrementPosition_eq (t : PerrohtImpl M K V) (p : Nat) (h : 0 < Capacity t) :
    pDecrementPosition t p = (p + Capacity t - 1) % Capacity t := by
  unfold pDecrementPosition
  exact land_pow_two (Capacity_pow2 t h)

theorem pGetBucket_some_iff (t : PerrohtImpl M K V) (p : Nat) (e : Entry K V) :
    pGetBucket t p = some e ↔ t.table_[p]? = some (some e) := by
  unfold pGetBucket
  cases h : t.table_[p]? with
  | none => simp
  | some b => simp

theorem pGetBucket_none_iff (t : PerrohtImpl M K V) (p : Nat) (hp : p < t.table_.length) :
    pGetBucket t p = none ↔ t.table_[p]? = some none := by
  unfold pGetBucket
  cases h : t.table_[p]? with
  | none =>
    have := List.getElem?_eq_none_iff.1 h
    omega
  | some b => simp

theorem pSetProbeDistance_lt {d : Nat} (h : pSetProbeDistance d < kMaxProbeDistance) :
    pSetProbeDistance d = d := by
  unfold pSetProbeDistance at h ⊢
  split_ifs at h ⊢ with h1
  · rfl
  · omega

theorem pGetProbeDistance_eq (env : Env M K) (t : PerrohtImpl M K V) {p : Nat} {e : Entry K V}
    (hlen : t.table_.length = Capacity t) (hd : DistOK env t.table_)
    (h : t.table_[p]? = some (some e)) :
    pGetProbeDistance env t p e = actualDist env t.table_ p e := by
  have hp : p < Capacity t := hlen ▸ getElem?_lt h
  have hpos : 0 < Capacity t := by omega
  have h1 := hd p e h
  unfold pGetProbeDistance
  split_ifs with h2
  · rw [h1] at h2 ⊢
    exact pSetProbeDistance_lt h2
  · rw [pIdealPosition_eq env t e.key hpos, actualDist_def, hlen]
    rfl

end Geometry

end Perroht

namespace Perroht

open PowerOfTwoCapacity

section Invariants

variable {M K V : Type} [DecidableEq K]

/-! ## Preservation of the bucket-array invariants by a single write -/

theorem DistOK_set {env : Env M K} {l : List (Option (Entry K V))} {p : Nat}
    {x : Option (Entry K V)} (h : DistOK env l)
    (hx : ∀ e, x = some e →
      e.dist = pSetProbeDistance (cdist l.length (ideal env l.length e.key) p)) :
    DistOK env (l.set p x) := by
  intro q e hq
  rw [actualDist_def, List.length_set]
  rw [List.getElem?_set] at hq
  split_ifs at hq with h1 h2
  · subst h1
    exact hx e (Option.some.inj hq)
  · exact h q e hq

theorem CutOK_set {env : Env M K} {l : List (Option (Entry K V))} {p c : Nat}
    {x : Option (Entry K V)} (h : CutOK env l c)
    (hx : ∀ e, x = some e →
      cdist l.length (ideal env l.length e.key) p ≤ cdist l.length c p) :
    CutOK env (l.set p x) c := by
  intro q e hq
  rw [actualDist_def, List.length_set]
  rw [List.getElem?_set] at hq
  split_ifs at hq with h1 h2
  · subst h1
    exact hx e (Option.some.inj hq)
  · exact h q e hq

theorem OrdOK_set_some {env : Env M K} {l : List (Option (Entry K V))} {p : Nat}
    {e : Entry K V} (h : OrdOK env l) (hp : p < l.length)
    (hold : ∀ e0, l[p]? = some (some e0) →
      actualDist env l p e0 ≤ cdist l.length (ideal env l.length e.key) p)
    (hprev : 0 < cdist l.length (ideal env l.length e.key) p →
      ∃ e1, l[(p + l.length - 1) % l.length]? = some (some e1) ∧
        cdist l.length (ideal env l.length e.key) p ≤
          actualDist env l ((p + l.length - 1) % l.length) e1 + 1) :
    OrdOK env (l.set p (some e)) := by
  intro q eq hq hpos
  simp only [actualDist_def, List.length_set] at hpos ⊢
  have hn : 0 < l.length := by omega
  have hqlt : q < l.length := by
    have := getElem?_lt hq
    rwa [List.length_set] at this
  by_cases hqp : q = p
  · subst hqp
    rw [getElem?_set_self_lt hp] at hq
    have he : e = eq := Option.some.inj (Option.some.inj hq)
    subst he
    obtain ⟨e1, h1, h2⟩ := hprev hpos
    have hne : q ≠ (q + l.length - 1) % l.length := by
      intro heq
      have h3 := cdist_dec (ideal_lt env hn e.key) hp hpos
      rw [← heq] at h3
      omega
    refine ⟨e1, ?_, h2⟩
    rw [getElem?_set_other hne]
    exact h1
  · rw [getElem?_set_other (Ne.symm hqp)] at hq
    obtain ⟨e1, h1, h2⟩ := h q eq hq hpos
    by_cases hdp : (q + l.length - 1) % l.length = p
    · refine ⟨e, ?_, ?_⟩
      · rw [hdp, getElem?_set_self_lt hp]
      · rw [hdp] at h1 h2 ⊢
        have := hold e1 h1
        simp only [actualDist_def] at h2 this
        omega
    · refine ⟨e1, ?_, h2⟩
      rw [getElem?_set_other (Ne.symm hdp)]
      exact h1

/-! ## Probe paths -/

/-- Every bucket on the probe path of an occupied bucket `q` is occupied by a
record that is at least as far from home as the path has travelled. -/
theorem path_occupied {env : Env M K} {l : List (Option (Entry K V))}
    (hO : OrdOK env l) {q : Nat} {e : Entry K V} (hq : l[q]? = some (some e)) :
    ∀ d p, p < l.length →
      cdist l.length (ideal env l.length e.key) p + d =
        cdist l.length (ideal env l.length e.key) q →
      ∃ e1, l[p]? = some (some e1) ∧
        cdist l.length (ideal env l.length e.key) p ≤ actualDist env l p e1 := by
  have hqlt := getElem?_lt hq
  have hn : 0 < l.length := by omega
  have ha := ideal_lt env hn e.key
  intro d
  induction d with
  | zero =>
    intro p hp h
    have : p = q := cdist_inj ha hp hqlt (by omega)
    subst this
    exact ⟨e, hq, le_refl _⟩
  | succ d ih =>
    intro p hp h
    have hlt : cdist l.length (ideal env l.length e.key) p + 1 < l.length := by
      have := @cdist_lt l.length (ideal env l.length e.key) q hn
      omega
    have hinc := cdist_inc ha hp hlt
    obtain ⟨e2, h2, h3⟩ := ih ((p + 1) % l.length) (inc_lt hn) (by omega)
    have hpos : 0 < actualDist env l ((p + 1) % l.length) e2 := by omega
    obtain ⟨e1, h4, h5⟩ := hO _ e2 h2 hpos
    rw [dec_inc hp] at h4 h5
    exact ⟨e1, h4, by omega⟩

/-- With an empty bucket `E`, no probe path crosses the cut behind `E`. -/
theorem CutOK_of_empty {env : Env M K} {l : List (Option (Entry K V))}
    (hO : OrdOK env l) {E : Nat} (hE : l[E]? = some none) :
    CutOK env l ((E + 1) % l.length) := by
  intro p e hp
  have hplt := getElem?_lt hp
  have hElt := getElem?_lt hE
  have hn : 0 < l.length := by omega
  have ha := ideal_lt env hn e.key
  rw [actualDist_def]
  apply cdist_le_cut ha hplt hElt
  by_contra hlt
  push_neg at hlt
  obtain ⟨e1, h1, _⟩ := path_occupied hO hp
    (cdist l.length (ideal env l.length e.key) p - cdist l.length (ideal env l.length e.key) E)
    E hElt (by omega)
  rw [hE] at h1
  exact absurd h1 (by simp)

end Invariants

end Perroht

namespace Perroht

open PowerOfTwoCapacity

section Locate

variable {M K V : Type} [DecidableEq K]

theorem pInc_len (t : PerrohtImpl M K V) (p : Nat) (hlen : t.table_.length = Capacity t)
    (hn : 0 < t.table_.length) : pIncrementPosition t p = (p + 1) % t.table_.length := by
  rw [pIncrementPosition_eq t p (by omega), hlen]

theorem pDec_len (t : PerrohtImpl M K V) (p : Nat) (hlen : t.table_.length = Capacity t)
    (hn : 0 < t.table_.length) :
    pDecrementPosition t p = (p + t.table_.length - 1) % t.table_.length := by
  rw [pDecrementPosition_eq t p (by omega), hlen]

theorem pIdeal_len (env : Env M K) (t : PerrohtImpl M K V) (k : K)
    (hlen : t.table_.length = Capacity t) (hn : 0 < t.table_.length) :
    pIdealPosition env t k = ideal env t.table_.length k := by
  rw [pIdealPosition_eq env t k (by omega), hlen]

/-! ## `pLocate` -/

/-- A key reported as found sits in the bucket reported. -/
theorem pLocateLoop_sound (env : Env M K) (t : PerrohtImpl M K V) (key : K) :
    ∀ fuel pos dist p, pLocateLoop env t key fuel pos dist = (p, true) →
      ∃ e, t.table_[p]? = some (some e) ∧ e.key = key := by
  intro fuel
  induction fuel with
  | zero => intro pos dist p h; simp [pLocateLoop] at h
  | succ f ih =>
    intro pos dist p h
    unfold pLocateLoop at h
    cases hb : pGetBucket t pos with
    | none => rw [hb] at h; simp at h
    | some e =>
      rw [hb] at h
      simp only at h
      split_ifs at h with h1 h2
      · simp at h
      · simp only [Prod.mk.injEq] at h
        obtain ⟨rfl, _⟩ := h
        exact ⟨e, (pGetBucket_some_iff t pos e).1 hb, h2⟩
      · exact ih _ _ _ h

theorem pLocate_sound (env : Env M K) (t : PerrohtImpl M K V) (key : K) (p : Nat)
    (h : pLocate env t key = (p, true)) :
    ∃ e, t.table_[p]? = some (some e) ∧ e.key = key := by
  unfold pLocate at h
  split_ifs at h with h1
  · simp at h
  · exact pLocateLoop_sound env t key _ _ _ _ h

/-- A key held by bucket `q` is found there. -/
theorem pLocateLoop_complete (env : Env M K) (t : PerrohtImpl M K V)
    (hlen : t.table_.length = Capacity t) (hD : DistOK env t.table_)
    (hO : OrdOK env t.table_) (hN : ((records t.table_).map Prod.fst).Nodup)
    {q : Nat} {e : Entry K V} (hq : t.table_[q]? = some (some e)) :
    ∀ fuel pos dist, pos < t.table_.length →
      dist = cdist t.table_.length (ideal env t.table_.length e.key) pos →
      cdist t.table_.length (ideal env t.table_.length e.key) pos ≤
        cdist t.table_.length (ideal env t.table_.length e.key) q →
      cdist t.table_.length (ideal env t.table_.length e.key) q - dist < fuel →
      pLocateLoop env t e.key fuel pos dist = (q, true) := by
  have hqlt := getElem?_lt hq
  have hn : 0 < t.table_.length := by omega
  have ha := ideal_lt env hn e.key
  intro fuel
  induction fuel with
  | zero => intro pos dist _ _ _ h; omega
  | succ f ih =>
    intro pos dist hpos hdist hle hfuel
    obtain ⟨e1, h1, h2⟩ := path_occupied hO hq
      (cdist t.table_.length (ideal env t.table_.length e.key) q - dist) pos hpos (by omega)
    unfold pLocateLoop
    rw [(pGetBucket_some_iff t pos e1).2 h1]
    simp only
    rw [pGetProbeDistance_eq env t hlen hD h1]
    rw [if_neg (by omega)]
    by_cases hk : e1.key = e.key
    · rw [if_pos hk]
      have := nodup_positions hN h1 hq hk
      rw [this]
    · rw [if_neg hk]
      have hne : pos ≠ q := by
        intro h; subst h
        rw [hq] at h1
        exact hk (by rw [Option.some.inj (Option.some.inj h1)])
      have hlt : cdist t.table_.length (ideal env t.table_.length e.key) pos <
          cdist t.table_.length (ideal env t.table_.length e.key) q := by
        rcases Nat.lt_or_ge (cdist t.table_.length (ideal env t.table_.length e.key) pos)
          (cdist t.table_.length (ideal env t.table_.length e.key) q) with h | h
        · exact h
        · exact absurd (cdist_inj ha hpos hqlt (by omega)) hne
      have hq2 := @cdist_lt t.table_.length (ideal env t.table_.length e.key) q hn
      have hinc := cdist_inc ha hpos (by omega)
      rw [pInc_len t pos hlen hn]
      exact ih _ _ (inc_lt hn) (by omega) (by omega) (by omega)

theorem pLocate_complete (env : Env M K) (t : PerrohtImpl M K V)
    (hlen : t.table_.length = Capacity t) (hD : DistOK env t.table_)
    (hO : OrdOK env t.table_) (hN : ((records t.table_).map Prod.fst).Nodup)
    {q : Nat} {e : Entry K V} (hq : t.table_[q]? = some (some e)) :
    pLocate env t e.key = (q, true) := by
  have hqlt := getElem?_lt hq
  have hn : 0 < t.table_.length := by omega
  have ha := ideal_lt env hn e.key
  unfold pLocate
  rw [if_neg (by omega), pIdeal_len env t e.key hlen hn, ← hlen]
  have h0 := cdist_self ha
  have hq2 := @cdist_lt t.table_.length (ideal env t.table_.length e.key) q hn
  exact pLocateLoop_complete env t hlen hD hO hN hq _ _ _ ha (by omega) (by omega) (by omega)

/-- The position returned by `pLocate` is at most the capacity. -/
theorem pLocate_true_iff (env : Env M K) (t : PerrohtImpl M K V)
    (hlen : t.table_.length = Capacity t) (hD : DistOK env t.table_)
    (hO : OrdOK env t.table_) (hN : ((records t.table_).map Prod.fst).Nodup) (key : K) :
    (pLocate env t key).2 = true ↔ key ∈ (records t.table_).map Prod.fst := by
  constructor
  · intro h
    obtain ⟨e, he, hk⟩ := pLocate_sound env t key (pLocate env t key).1 (by rw [← h])
    rw [← hk]
    exact List.mem_map_of_mem Prod.fst (mem_records_of_getElem? he)
  · intro h
    obtain ⟨r, hr, hk⟩ := List.mem_map.1 h
    obtain ⟨p, e, hp, he⟩ := getElem?_of_mem_records hr
    have := pLocate_complete env t hlen hD hO hN hp
    have hk2 : e.key = key := by rw [← hk, ← he]
    rw [hk2] at this
    rw [this]

end Locate

end Perroht

namespace Perroht

open PowerOfTwoCapacity

section LocateMiss

variable {M K V : Type} [DecidableEq K]

/-- What `pLocate` has established when it reports a key as absent at `r`:
every bucket on the probe path before `r` is occupied by a record at least as
far from home, and `r` itself is empty or holds a record closer to home. -/
theorem pLocateLoop_notfound (env : Env M K) (t : PerrohtImpl M K V)
    (hlen : t.table_.length = Capacity t) (hD : DistOK env t.table_) (key : K)
    {E : Nat} (hE : t.table_[E]? = some none) :
    ∀ fuel pos dist r, pos < t.table_.length →
      dist = cdist t.table_.length (ideal env t.table_.length key) pos →
      (∀ p, p < t.table_.length →
        cdist t.table_.length (ideal env t.table_.length key) p < dist →
        ∃ e1, t.table_[p]? = some (some e1) ∧
          cdist t.table_.length (ideal env t.table_.length key) p ≤
            actualDist env t.table_ p e1) →
      fuel + dist = t.table_.length →
      pLocateLoop env t key fuel pos dist = (r, false) →
      r < t.table_.length ∧
      (∀ p, p < t.table_.length →
        cdist t.table_.length (ideal env t.table_.length key) p <
          cdist t.table_.length (ideal env t.table_.length key) r →
        ∃ e1, t.table_[p]? = some (some e1) ∧
          cdist t.table_.length (ideal env t.table_.length key) p ≤
            actualDist env t.table_ p e1) ∧
      (t.table_[r]? = some none ∨
        ∃ e1, t.table_[r]? = some (some e1) ∧
          actualDist env t.table_ r e1 <
            cdist t.table_.length (ideal env t.table_.length key) r) := by
  have hElt := getElem?_lt hE
  have hn : 0 < t.table_.length := by omega
  have ha := ideal_lt env hn key
  intro fuel
  induction fuel with
  | zero =>
    intro pos dist r hpos hdist _ hfuel _
    have := @cdist_lt t.table_.length (ideal env t.table_.length key) pos hn
    omega
  | succ f ih =>
    intro pos dist r hpos hdist hpre hfuel h
    unfold pLocateLoop at h
    cases hb : pGetBucket t pos with
    | none =>
      rw [hb] at h
      simp only [Prod.mk.injEq, and_true] at h
      subst h
      refine ⟨hpos, ?_, Or.inl ((pGetBucket_none_iff t pos hpos).1 hb)⟩
      rw [← hdist]; exact hpre
    | some e =>
      have hbe := (pGetBucket_some_iff t pos e).1 hb
      rw [hb] at h
      simp only at h
      rw [pGetProbeDistance_eq env t hlen hD hbe] at h
      split_ifs at h with h1 h2
      · simp only [Prod.mk.injEq, and_true] at h
        subst h
        refine ⟨hpos, ?_, Or.inr ⟨e, hbe, ?_⟩⟩
        · rw [← hdist]; exact hpre
        · rw [← hdist]; exact h1
      · simp at h
      · have hEd : dist < cdist t.table_.length (ideal env t.table_.length key) E := by
          by_contra hcon
          push_neg at hcon
          rcases Nat.lt_or_ge (cdist t.table_.length (ideal env t.table_.length key) E) dist
            with h3 | h3
          · obtain ⟨e1, he1, _⟩ := hpre E hElt h3
            rw [hE] at he1
            exact absurd he1 (by simp)
          · have : E = pos := cdist_inj ha hElt hpos (by omega)
            subst this
            rw [hE] at hbe
            exact absurd hbe (by simp)
        have hE2 := @cdist_lt t.table_.length (ideal env t.table_.length key) E hn
        have hinc := cdist_inc ha hpos (by omega)
        rw [pInc_len t pos hlen hn] at h
        refine ih _ _ r (inc_lt hn) (by omega) ?_ (by omega) h
        intro p hp hlt
        rcases Nat.lt_or_ge (cdist t.table_.length (ideal env t.table_.length key) p) dist
          with h3 | h3
        · exact hpre p hp h3
        · have : p = pos := cdist_inj ha hp hpos (by omega)
          subst this
          exact ⟨e, hbe, by omega⟩

theorem pLocate_notfound (env : Env M K) (t : PerrohtImpl M K V)
    (hlen : t.table_.length = Capacity t) (hD : DistOK env t.table_) (key : K)
    {E : Nat} (hE : t.table_[E]? = some none) {r : Nat}
    (h : pLocate env t key = (r, false)) :
    r < t.table_.length ∧
    (∀ p, p < t.table_.length →
      cdist t.table_.length (ideal env t.table_.length key) p <
        cdist t.table_.length (ideal env t.table_.length key) r →
      ∃ e1, t.table_[p]? = some (some e1) ∧
        cdist t.table_.length (ideal env t.table_.length key) p ≤
          actualDist env t.table_ p e1) ∧
    (t.table_[r]? = some none ∨
      ∃ e1, t.table_[r]? = some (some e1) ∧
        actualDist env t.table_ r e1 <
          cdist t.table_.length (ideal env t.table_.length key) r) := by
  have hElt := getElem?_lt hE
  have hn : 0 < t.table_.length := by omega
  have ha := ideal_lt env hn key
  unfold pLocate at h
  rw [if_neg (by omega), pIdeal_len env t key hlen hn, ← hlen] at h
  have h0 := cdist_self ha
  refine pLocateLoop_notfound env t hlen hD key hE _ _ _ r ha (by omega) ?_ (by omega) h
  intro p _ hlt
  omega

end LocateMiss

end Perroht

namespace Perroht

open PowerOfTwoCapacity

section ForceInsert

variable {M K V : Type} [DecidableEq K]

/-! ## `pForceInsert` -/

/-- The Robin Hood insertion loop: started on a table with an empty bucket
`E`, with the carried record at its probe distance `dist` from home at `pos`,
it places the record before the budget runs out, keeps the bucket-array
invariants, adds exactly the carried record, and touches only buckets between
`pos` and `E`. -/
theorem pForceInsertLoop_spec (env : Env M K) :
    ∀ (fuel : Nat) (t : PerrohtImpl M K V) (data : K × V) (pos dist : Nat)
      (ip : Option Nat) (E n : Nat),
      t.table_.length = n → Capacity t = n →
      DistOK env t.table_ → OrdOK env t.table_ →
      CutOK env t.table_ ((E + 1) % n) →
      t.table_[E]? = some none →
      pos < n →
      dist = cdist n (ideal env n data.1) pos →
      dist ≤ cdist n ((E + 1) % n) pos →
      (0 < dist → ∃ e1, t.table_[(pos + n - 1) % n]? = some (some e1) ∧
          dist ≤ cdist n (ideal env n e1.key) ((pos + n - 1) % n) + 1) →
      cdist n pos E < fuel →
      ∃ t1 ipos p1,
        pForceInsertLoop env fuel t data pos dist ip = some (t1, ipos) ∧
        t1.capacity_index_ = t.capacity_index_ ∧
        t1.max_load_factor_ = t.max_load_factor_ ∧
        t1.size_ = t.size_ + 1 ∧
        t1.table_.length = n ∧
        DistOK env t1.table_ ∧ OrdOK env t1.table_ ∧
        CutOK env t1.table_ ((E + 1) % n) ∧
        mrecords t1.table_ = data ::ₘ mrecords t.table_ ∧
        (∀ q, cdist n pos E < cdist n q E → t1.table_[q]? = t.table_[q]?) ∧
        p1 < n ∧
        cdist n p1 E ≤ cdist n pos E ∧
        (∃ d1, t1.table_[p1]? = some (some ⟨d1, data.1, data.2⟩)) ∧
        ipos = ip.getD p1 := by
  intro fuel
  induction fuel with
  | zero => intro t data pos dist ip E n _ _ _ _ _ _ _ _ _ _ h; omega
  | succ f ih =>
    intro t data pos dist ip E n hlen hcap hD hO hC hE hpos hdist hcut hprev hfuel
    have hn : 0 < n := by omega
    have hElt : E < n := hlen ▸ getElem?_lt hE
    have hposl : pos < t.table_.length := by omega
    have hlenc : t.table_.length = Capacity t := by omega
    unfold pForceInsertLoop
    have hcl := @cdist_lt n ((E + 1) % n) pos hn
    rw [if_pos (by omega)]
    cases hb : pGetBucket t pos with
    | none =>
      have hbn := (pGetBucket_none_iff t pos hposl).1 hb
      refine ⟨_, _, pos, rfl, rfl, rfl, rfl, ?_, ?_, ?_, ?_, ?_, ?_, hpos, le_refl _, ?_, rfl⟩
      · simp [hlen]
      · apply DistOK_set hD
        intro e he
        cases he
        simp only [hlen]
        rw [← hdist]
      · apply OrdOK_set_some hO hposl
        · intro e0 he0
          rw [hbn] at he0
          exact absurd he0 (by simp)
        · simp only [hlen, actualDist_def]
          rw [← hdist]
          exact hprev
      · apply CutOK_set hC
        intro e he
        cases he
        simp only [hlen]
        rw [← hdist]; exact hcut
      · exact mrecords_set_some_of_none hbn _
      · intro q hq
        have : pos ≠ q := by intro h; subst h; omega
        exact getElem?_set_other this _
      · exact ⟨_, getElem?_set_self_lt hposl _⟩
    | some e =>
      have hbe := (pGetBucket_some_iff t pos e).1 hb
      have hpE : pos ≠ E := by
        intro h; subst h
        rw [hE] at hbe
        exact absurd hbe (by simp)
      have hpd := pGetProbeDistance_eq env t hlenc hD hbe
      rw [actualDist_def, hlen] at hpd
      have hcutlt := cdist_cut_lt hpos hElt hpE
      have hcutinc := cdist_cut_inc hpos hElt hpE
      have hto := cdist_to_inc hpos hElt hpE
      have hinclt : (pos + 1) % n < n := inc_lt hn
      have hpinc : pIncrementPosition t pos = (pos + 1) % n := by
        rw [pInc_len t pos hlenc (by omega), hlen]
      simp only [hpd, hpinc]
      by_cases hst : cdist n (ideal env n e.key) pos < dist
      · -- steal
        rw [if_pos hst]
        have hlen1 : (t.table_.set pos
            (some ⟨pSetProbeDistance dist, data.1, data.2⟩)).length = n := by
          simp [hlen]
        have hD1 : DistOK env (t.table_.set pos
            (some ⟨pSetProbeDistance dist, data.1, data.2⟩)) := by
          apply DistOK_set hD
          intro e0 he0
          cases he0
          simp only [hlen]
          rw [← hdist]
        have hO1 : OrdOK env (t.table_.set pos
            (some ⟨pSetProbeDistance dist, data.1, data.2⟩)) := by
          apply OrdOK_set_some hO hposl
          · intro e0 he0
            rw [hbe] at he0
            cases he0
            simp only [hlen, actualDist_def]
            rw [← hdist]; omega
          · simp only [hlen, actualDist_def]
            rw [← hdist]
            exact hprev
        have hC1 : CutOK env (t.table_.set pos
            (some ⟨pSetProbeDistance dist, data.1, data.2⟩)) ((E + 1) % n) := by
          apply CutOK_set hC
          intro e0 he0
          cases he0
          simp only [hlen]
          rw [← hdist]; exact hcut
        have hE1 : (t.table_.set pos
            (some ⟨pSetProbeDistance dist, data.1, data.2⟩))[E]? = some none := by
          rw [getElem?_set_other hpE]; exact hE
        have hinc := cdist_inc (ideal_lt env hn e.key) hpos (by omega)
        obtain ⟨t1, ipos, p1, h1, h2, h3, h4, h5, h6, h7, h8, h9, h10, _, _, _, h14⟩ :=
          ih { t with
               table_ := t.table_.set pos (some ⟨pSetProbeDistance dist, data.1, data.2⟩)
               mean_probe_distance_ :=
                 env.mean.update t.mean_probe_distance_
                   (cdist n (ideal env n e.key) pos) dist t.size_ }
            (e.key, e.val) ((pos + 1) % n) (cdist n (ideal env n e.key) pos + 1)
            (some (ip.getD pos)) E n hlen1 hcap hD1 hO1 hC1 hE1 hinclt
            (by rw [hinc]) (by omega)
            (by
              intro _
              refine ⟨⟨pSetProbeDistance dist, data.1, data.2⟩, ?_, ?_⟩
              · rw [dec_inc hpos]
                exact getElem?_set_self_lt hposl _
              · rw [dec_inc hpos]
                simp only
                rw [← hdist]; omega)
            (by omega)
        refine ⟨t1, ipos, pos, h1, h2, h3, h4, h5, h6, h7, h8, ?_, ?_, hpos, le_refl _, ?_, ?_⟩
        · rw [h9]
          simp only
          have := mrecords_set_some_of_some hbe
            (⟨pSetProbeDistance dist, data.1, data.2⟩ : Entry K V)
          simpa using this
        · intro q hq
          rw [h10 q (by omega)]
          have : pos ≠ q := by intro h; subst h; omega
          exact getElem?_set_other this _
        · refine ⟨pSetProbeDistance dist, ?_⟩
          rw [h10 pos (by omega)]
          exact getElem?_set_self_lt hposl _
        · rw [h14]; rfl
      · -- no steal
        rw [if_neg hst]
        have hinc := cdist_inc (ideal_lt env hn data.1) hpos (by omega)
        obtain ⟨t1, ipos, p1, h1, h2, h3, h4, h5, h6, h7, h8, h9, h10, h11, h12, h13, h14⟩ :=
          ih t data ((pos + 1) % n) (dist + 1) ip E n hlen hcap hD hO hC hE hinclt
            (by omega) (by omega)
            (by
              intro _
              refine ⟨e, ?_, ?_⟩
              · rw [dec_inc hpos]; exact hbe
              · rw [dec_inc hpos]; omega)
            (by omega)
        refine ⟨t1, ipos, p1, h1, h2, h3, h4, h5, h6, h7, h8, h9, ?_, h11, by omega, h13, h14⟩
        intro q hq
        exact h10 q (by omega)

end ForceInsert

end Perroht

namespace Perroht

open PowerOfTwoCapacity

section ForceInsertTop

variable {M K V : Type} [DecidableEq K]

theorem InvCore.room_empty {env : Env M K} {t : PerrohtImpl M K V} (hI : InvCore env t)
    (hroom : t.size_ < Capacity t) : ∃ E : Nat, t.table_[E]? = some none := by
  apply exists_empty_of_lt
  rw [← hI.size_eq, hI.len_eq]
  exact hroom

/-- `pForceInsert` on a table with room, for an absent key, started at the
ideal position or at the hint returned by `pLocate`. -/
theorem pForceInsert_spec (env : Env M K) (t : PerrohtImpl M K V) (data : K × V)
    (hint : Option Nat) (hI : InvCore env t) (hroom : t.size_ < Capacity t)
    (hhint : hint = none ∨
      (hint = some (pLocate env t data.1).1 ∧ (pLocate env t data.1).2 = false))
    (habs : data.1 ∉ (records t.table_).map Prod.fst) :
    ∃ t1 ipos,
      pForceInsert env t data hint = some (t1, ipos) ∧
      InvCore env t1 ∧
      t1.capacity_index_ = t.capacity_index_ ∧
      t1.max_load_factor_ = t.max_load_factor_ ∧
      t1.size_ = t.size_ + 1 ∧
      mrecords t1.table_ = data ::ₘ mrecords t.table_ ∧
      ipos < Capacity t ∧
      (∃ d1, t1.table_[ipos]? = some (some ⟨d1, data.1, data.2⟩)) := by
  obtain ⟨E, hE⟩ := hI.room_empty hroom
  have hlen := hI.len_eq
  have hElt : E < t.table_.length := getElem?_lt hE
  have hn : 0 < t.table_.length := by omega
  have ha := ideal_lt env hn data.1
  have hC := CutOK_of_empty hI.ord_ok hE
  have hcE := @cdist_lt t.table_.length
  -- the loop, once its starting point is known to be sound
  have key : ∀ pos dist,
      pos < t.table_.length →
      dist = cdist t.table_.length (ideal env t.table_.length data.1) pos →
      dist ≤ cdist t.table_.length ((E + 1) % t.table_.length) pos →
      (0 < dist → ∃ e1, t.table_[(pos + t.table_.length - 1) % t.table_.length]? =
          some (some e1) ∧
          dist ≤ cdist t.table_.length (ideal env t.table_.length e1.key)
            ((pos + t.table_.length - 1) % t.table_.length) + 1) →
      ∃ t1 ipos,
        pForceInsertLoop env (Capacity t) t data pos dist none = some (t1, ipos) ∧
        InvCore env t1 ∧
        t1.capacity_index_ = t.capacity_index_ ∧
        t1.max_load_factor_ = t.max_load_factor_ ∧
        t1.size_ = t.size_ + 1 ∧
        mrecords t1.table_ = data ::ₘ mrecords t.table_ ∧
        ipos < Capacity t ∧
        (∃ d1, t1.table_[ipos]? = some (some ⟨d1, data.1, data.2⟩)) := by
    intro pos dist hpos hdist hcut hprev
    obtain ⟨t1, ipos, p1, h1, h2, h3, h4, h5, h6, h7, h8, h9, _, h11, _, h13, h14⟩ :=
      pForceInsertLoop_spec env (Capacity t) t data pos dist none E t.table_.length rfl
        hlen.symm hI.dist_ok hI.ord_ok hC hE hpos hdist hcut hprev
        (by rw [← hlen]; exact hcE (by omega))
    have hcap1 : Capacity t1 = Capacity t := by unfold Capacity; rw [h2]
    simp only [Option.getD_none] at h14
    subst h14
    refine ⟨t1, ipos, h1, ?_, h2, h3, h4, h9, by omega, h13⟩
    refine ⟨by rw [h5, hcap1, hlen], ?_, by rw [h3]; exact hI.mlf_pos,
      by rw [h3]; exact hI.mlf_le, h6, h7, ?_, ?_⟩
    · rw [h4, hI.size_eq, ← card_mrecords, ← card_mrecords, h9, Multiset.card_cons]
    · rw [nodup_keys_iff, h9, Multiset.map_cons, Multiset.nodup_cons]
      refine ⟨?_, (nodup_keys_iff _).1 hI.nodup⟩
      intro hmem
      apply habs
      unfold mrecords at hmem
      rw [Multiset.map_coe, Multiset.mem_coe] at hmem
      exact hmem
    · intro _
      refine ⟨(E + 1) % t.table_.length, ?_, ?_⟩
      · rw [hcap1, ← hlen]; exact inc_lt hn
      · rw [← h5] at h8 ⊢; exact h8
  rcases hhint with hnone | ⟨hsome, hmiss⟩
  · subst hnone
    unfold pForceInsert
    simp only
    rw [pIdeal_len env t data.1 hlen hn]
    have h0 := cdist_self ha
    exact key _ 0 ha (by omega) (by omega) (by intro h; omega)
  · subst hsome
    have hloc : pLocate env t data.1 = ((pLocate env t data.1).1, false) := by
      rw [← hmiss]
    obtain ⟨hr, hpre, _⟩ := pLocate_notfound env t hlen hI.dist_ok data.1 hE hloc
    unfold pForceInsert
    simp only
    rw [pIdeal_len env t data.1 hlen hn]
    have hd : ((pLocate env t data.1).1 + Capacity t - ideal env t.table_.length data.1)
        % Capacity t =
        cdist t.table_.length (ideal env t.table_.length data.1) (pLocate env t data.1).1 := by
      rw [← hlen]; rfl
    rw [hd]
    have hle : cdist t.table_.length (ideal env t.table_.length data.1) (pLocate env t data.1).1
        ≤ cdist t.table_.length (ideal env t.table_.length data.1) E := by
      by_contra hcon
      push_neg at hcon
      obtain ⟨e1, he1, _⟩ := hpre E hElt hcon
      rw [hE] at he1
      exact absurd he1 (by simp)
    refine key _ _ hr rfl (cdist_le_cut ha hr hElt hle) ?_
    intro hpos
    have hdec := cdist_dec ha hr hpos
    obtain ⟨e1, he1, he2⟩ :=
      hpre (((pLocate env t data.1).1 + t.table_.length - 1) % t.table_.length)
        (dec_lt hn) (by omega)
    refine ⟨e1, he1, ?_⟩
    rw [actualDist_def] at he2
    change cdist t.table_.length (ideal env t.table_.length data.1) (pLocate env t data.1).1 ≤ _
    omega

end ForceInsertTop

end Perroht

namespace Perroht

open PowerOfTwoCapacity

theorem dec_ne_self {n i : Nat} (hi : i < n) (hn : 2 ≤ n) : (i + n - 1) % n ≠ i := by
  rw [dec_eq hi]
  split_ifs <;> omega

theorem dec_dec_ne {n i : Nat} (hi : i < n) (hn : 3 ≤ n) :
    ((i + n - 1) % n + n - 1) % n ≠ i := by
  have h1 : (i + n - 1) % n < n := dec_lt (by omega)
  have h2 := dec_eq hi
  by_cases h : i = 0
  · rw [if_pos h] at h2
    rw [h2, dec_eq (by omega), if_neg (by omega)]
    omega
  · rw [if_neg h] at h2
    rw [h2, dec_eq (by omega)]
    split_ifs <;> omega

theorem dec_inj {n x y : Nat} (hx : x < n) (hy : y < n)
    (h : (x + n - 1) % n = (y + n - 1) % n) : x = y := by
  have := inc_dec hx
  rw [h, inc_dec hy] at this
  exact this.symm

section EraseLoop

variable {M K V : Type} [DecidableEq K]

/-! ## Backward-shift erase -/

theorem HoleOrd_init {env : Env M K} {l : List (Option (Entry K V))} (hO : OrdOK env l)
    (pos : Nat) : HoleOrd env l pos := by
  intro x e _ hx hpos
  obtain ⟨e1, h1, h2⟩ := hO x e hx hpos
  refine ⟨fun _ => ⟨e1, h1, h2⟩, ?_⟩
  intro heq h2le
  rw [heq] at h1 h2
  have hpos1 : 0 < actualDist env l pos e1 := by omega
  obtain ⟨e2, h3, h4⟩ := hO pos e1 h1 hpos1
  exact ⟨e2, h3, by omega⟩

theorem OrdOK_of_hole {env : Env M K} {l : List (Option (Entry K V))} {h : Nat}
    (hH : HoleOrd env l h) (hh : h < l.length)
    (hstop : ∀ e, l[(h + 1) % l.length]? = some (some e) →
      actualDist env l ((h + 1) % l.length) e = 0) :
    OrdOK env (l.set h none) := by
  intro q e hq hpos
  simp only [actualDist_def, List.length_set] at hpos ⊢
  have hqlt : q < l.length := by
    have := getElem?_lt hq
    rwa [List.length_set] at this
  have hqh : q ≠ h := by
    intro heq; subst heq
    rw [getElem?_set_self_lt hh] at hq
    exact absurd hq (by simp)
  rw [getElem?_set_other (Ne.symm hqh)] at hq
  obtain ⟨b1, _⟩ := hH q e hqh hq hpos
  by_cases hd : (q + l.length - 1) % l.length = h
  · exfalso
    have hq2 : (h + 1) % l.length = q := by rw [← hd]; exact inc_dec hqlt
    rw [← hq2] at hq hpos
    have := hstop e hq
    rw [actualDist_def] at this
    omega
  · obtain ⟨e1, h1, h2⟩ := b1 hd
    refine ⟨e1, ?_, h2⟩
    rw [getElem?_set_other (Ne.symm hd)]
    exact h1

theorem HoleOrd_step {env : Env M K} {l : List (Option (Entry K V))} {i : Nat}
    {e : Entry K V} (hH : HoleOrd env l ((i + l.length - 1) % l.length))
    (hi : i < l.length) (he : l[i]? = some (some e)) (hd : 0 < actualDist env l i e)
    (e1 : Entry K V) (hk : e1.key = e.key) :
    HoleOrd env (l.set ((i + l.length - 1) % l.length) (some e1)) i := by
  have hn : 0 < l.length := by omega
  have ha := ideal_lt env hn e.key
  have hdl := @cdist_lt l.length (ideal env l.length e.key) i hn
  rw [actualDist_def] at hd
  have hn2 : 2 ≤ l.length := by omega
  have hhi := dec_ne_self hi hn2
  have hhlt : (i + l.length - 1) % l.length < l.length := dec_lt hn
  have hdec := cdist_dec ha hi hd
  intro x ex hx hlx hpos
  simp only [actualDist_def, List.length_set] at hpos ⊢
  have hxlt : x < l.length := by
    have := getElem?_lt hlx
    rwa [List.length_set] at this
  by_cases hxh : x = (i + l.length - 1) % l.length
  · subst hxh
    rw [getElem?_set_self_lt hhlt] at hlx
    have hex : e1 = ex := Option.some.inj (Option.some.inj hlx)
    subst hex
    rw [hk] at hpos ⊢
    have hd0 : 0 < actualDist env l i e := by rw [actualDist_def]; exact hd
    have hd2 : 2 ≤ actualDist env l i e := by rw [actualDist_def]; omega
    have b2 := (hH i e (Ne.symm hhi) he hd0).2 rfl hd2
    constructor
    · intro _
      obtain ⟨e2, h1, h2⟩ := b2
      refine ⟨e2, ?_, ?_⟩
      · rw [getElem?_set_other (Ne.symm (dec_ne_self hhlt hn2))]
        exact h1
      · simp only [actualDist_def] at h2
        omega
    · intro heq h2
      have hn3 : 3 ≤ l.length := by omega
      exact absurd heq (dec_dec_ne hi hn3)
  · rw [getElem?_set_other (Ne.symm hxh)] at hlx
    have b1 := (hH x ex hxh hlx hpos).1
    constructor
    · intro hne
      have hne2 : (x + l.length - 1) % l.length ≠ (i + l.length - 1) % l.length := by
        intro h
        exact hx (dec_inj hxlt hi h)
      obtain ⟨e2, h1, h2⟩ := b1 hne2
      refine ⟨e2, ?_, h2⟩
      rw [getElem?_set_other (Ne.symm hne2)]
      exact h1
    · intro heq h2
      have hne2 : (x + l.length - 1) % l.length ≠ (i + l.length - 1) % l.length := by
        rw [heq]; exact Ne.symm hhi
      obtain ⟨e2, h1, h3⟩ := b1 hne2
      clear b1
      rw [heq] at h1 h3
      rw [he] at h1
      have he2 : e = e2 := Option.some.inj (Option.some.inj h1)
      subst he2
      refine ⟨e1, getElem?_set_self_lt hhlt _, ?_⟩
      rw [hk]
      simp only [actualDist_def] at h3
      omega

theorem mrecords_shift {l : List (Option (Entry K V))} {h i : Nat} {e eh e1 : Entry K V}
    (hne : h ≠ i) (hi : l[i]? = some (some e)) (hh : l[h]? = some (some eh))
    (hk : e1.key = e.key) (hv : e1.val = e.val) :
    mrecords ((l.set h (some e1)).set i none) = mrecords (l.set h none) := by
  have hi2 : (l.set h (some e1))[i]? = some (some e) := by
    rw [getElem?_set_other hne]; exact hi
  have a2 := mrecords_set_none_of_some hi2
  have a3 := mrecords_set_some_of_some hh e1
  have a4 := mrecords_set_none_of_some hh
  rw [hk, hv] at a3
  have a5 : (eh.key, eh.val) ::ₘ (e.key, e.val) ::ₘ mrecords ((l.set h (some e1)).set i none)
      = (eh.key, eh.val) ::ₘ (e.key, e.val) ::ₘ mrecords (l.set h none) := by
    rw [a2, a3, Multiset.cons_swap, a4]
  exact (Multiset.cons_inj_right _).1 ((Multiset.cons_inj_right _).1 a5)

end EraseLoop

end Perroht

namespace Perroht

open PowerOfTwoCapacity

section EraseSpec

variable {M K V : Type} [DecidableEq K]

/-- The backward-shift loop: it stops before the budget runs out (at the
latest at the cut `c`), and leaves a table which, once the bucket behind the
final position is cleared, satisfies the Robin Hood ordering and holds the
records of the original table without the erased one. -/
theorem pGetProbeDistanceAfterMove_readable (env : Env M K) (t : PerrohtImpl M K V)
    (i : Nat) (e : Entry K V) (hm : env.moved_from_readable = true) :
    pGetProbeDistanceAfterMove env t i e = some (pGetProbeDistance env t i e) := by
  unfold pGetProbeDistanceAfterMove pGetProbeDistance
  rw [hm]
  split_ifs
  · rfl
  · rfl
  · contradiction

theorem pGetProbeDistanceAfterMove_eq (env : Env M K) (t : PerrohtImpl M K V)
    (i : Nat) (e : Entry K V) (d : Nat)
    (h : pGetProbeDistanceAfterMove env t i e = some d) : d = pGetProbeDistance env t i e := by
  unfold pGetProbeDistanceAfterMove at h
  unfold pGetProbeDistance
  split_ifs at h ⊢ <;> simp_all

theorem pEraseShiftLoop_spec (env : Env M K) (hm : env.moved_from_readable = true) :
    ∀ (fuel : Nat) (t : PerrohtImpl M K V) (i c n : Nat),
      t.table_.length = n → Capacity t = n → i < n → c < n →
      DistOK env t.table_ → CutOK env t.table_ c →
      HoleOrd env t.table_ ((i + n - 1) % n) →
      (∃ eh, t.table_[(i + n - 1) % n]? = some (some eh)) →
      cdist n i c < fuel →
      ∃ t1 i1,
        pEraseShiftLoop env fuel t i = some (t1, i1) ∧
        t1.capacity_index_ = t.capacity_index_ ∧
        t1.max_load_factor_ = t.max_load_factor_ ∧
        t1.size_ = t.size_ ∧
        t1.table_.length = n ∧ i1 < n ∧
        DistOK env t1.table_ ∧ CutOK env t1.table_ c ∧
        (∃ eh, t1.table_[(i1 + n - 1) % n]? = some (some eh)) ∧
        OrdOK env (t1.table_.set ((i1 + n - 1) % n) none) ∧
        mrecords (t1.table_.set ((i1 + n - 1) % n) none) =
          mrecords (t.table_.set ((i + n - 1) % n) none) := by
  intro fuel
  induction fuel with
  | zero => intro t i c n _ _ _ _ _ _ _ _ h; omega
  | succ f ih =>
    intro t i c n hlen hcap hi hc hD hC hH hhole hfuel
    subst hlen
    have hn : 0 < t.table_.length := by omega
    have hlenc : t.table_.length = Capacity t := hcap.symm
    have hhlt : (i + t.table_.length - 1) % t.table_.length < t.table_.length := dec_lt hn
    have hincdec := inc_dec hi
    unfold pEraseShiftLoop
    simp only [pGetProbeDistanceAfterMove_readable env _ _ _ hm]
    cases hb : pGetBucket t i with
    | none =>
      have hbn := (pGetBucket_none_iff t i hi).1 hb
      refine ⟨t, i, rfl, rfl, rfl, rfl, rfl, hi, hD, hC, hhole, ?_, rfl⟩
      apply OrdOK_of_hole hH hhlt
      intro e he
      rw [hincdec, hbn] at he
      exact absurd he (by simp)
    | some e =>
      have hbe := (pGetBucket_some_iff t i e).1 hb
      have hpd := pGetProbeDistance_eq env t hlenc hD hbe
      simp only [hpd]
      by_cases hd : actualDist env t.table_ i e > 0
      · rw [if_pos hd]
        have hd0 : 0 < cdist t.table_.length (ideal env t.table_.length e.key) i := hd
        have ha := ideal_lt env hn e.key
        have hdl := @cdist_lt t.table_.length (ideal env t.table_.length e.key) i hn
        have hn2 : 2 ≤ t.table_.length := by omega
        have hhi := dec_ne_self hi hn2
        have hdec := cdist_dec ha hi hd0
        have hcut := hC i e hbe
        rw [actualDist_def] at hcut
        have hic : i ≠ c := by
          intro h; subst h
          rw [cdist_self hi] at hcut
          omega
        have hcdec := cdist_dec hc hi (by omega)
        have hto := cdist_to_inc hi hc hic
        have hpdec : pDecrementPosition t i = (i + t.table_.length - 1) % t.table_.length :=
          pDec_len t i hlenc hn
        have hpinc : pIncrementPosition t i = (i + 1) % t.table_.length :=
          pInc_len t i hlenc hn
        simp only [hpdec, hpinc, actualDist_def]
        have hlen1 : (t.table_.set ((i + t.table_.length - 1) % t.table_.length)
            (some ⟨pSetProbeDistance
              (cdist t.table_.length (ideal env t.table_.length e.key) i - 1),
              e.key, e.val⟩)).length = t.table_.length := by simp
        have hD1 : DistOK env (t.table_.set ((i + t.table_.length - 1) % t.table_.length)
            (some ⟨pSetProbeDistance
              (cdist t.table_.length (ideal env t.table_.length e.key) i - 1),
              e.key, e.val⟩)) := by
          apply DistOK_set hD
          intro e0 he0
          cases he0
          simp only
          rw [hdec]
        have hC1 : CutOK env (t.table_.set ((i + t.table_.length - 1) % t.table_.length)
            (some ⟨pSetProbeDistance
              (cdist t.table_.length (ideal env t.table_.length e.key) i - 1),
              e.key, e.val⟩)) c := by
          apply CutOK_set hC
          intro e0 he0
          cases he0
          simp only
          omega
        have hH1 := HoleOrd_step hH hi hbe hd
          (⟨pSetProbeDistance
              (cdist t.table_.length (ideal env t.table_.length e.key) i - 1),
              e.key, e.val⟩ : Entry K V) rfl
        have hi1 : (t.table_.set ((i + t.table_.length - 1) % t.table_.length)
            (some ⟨pSetProbeDistance
              (cdist t.table_.length (ideal env t.table_.length e.key) i - 1),
              e.key, e.val⟩))[i]? = some (some e) := by
          rw [getElem?_set_other hhi]; exact hbe
        obtain ⟨t1, i1, h1, h2, h3, h4, h5, h6, h7, h8, h9, h10, h11⟩ :=
          ih { t with
               table_ := t.table_.set ((i + t.table_.length - 1) % t.table_.length)
                 (some ⟨pSetProbeDistance
                   (cdist t.table_.length (ideal env t.table_.length e.key) i - 1),
                   e.key, e.val⟩)
               mean_probe_distance_ :=
                 env.mean.update t.mean_probe_distance_
                   (cdist t.table_.length (ideal env t.table_.length e.key) i)
                   (cdist t.table_.length (ideal env t.table_.length e.key) i - 1) t.size_ }
            ((i + 1) % t.table_.length) c t.table_.length hlen1 hcap (inc_lt hn) hc hD1 hC1
            (by rw [dec_inc hi]; exact hH1)
            (by rw [dec_inc hi]; exact ⟨e, hi1⟩)
            (by omega)
        refine ⟨t1, i1, h1, h2, h3, h4, h5, h6, h7, h8, h9, h10, ?_⟩
        rw [h11]
        simp only
        rw [dec_inc hi]
        obtain ⟨eh, heh⟩ := hhole
        exact mrecords_shift hhi hbe heh rfl rfl
      · rw [if_neg hd]
        refine ⟨t, i, rfl, rfl, rfl, rfl, rfl, hi, hD, hC, hhole, ?_, rfl⟩
        apply OrdOK_of_hole hH hhlt
        intro e1 he1
        rw [hincdec] at he1 ⊢
        rw [hbe] at he1
        cases he1
        omega

/-- `pEraseSingleAt` at an occupied bucket of a table satisfying the
invariant. -/
theorem pEraseSingleAt_spec (env : Env M K) (hm : env.moved_from_readable = true)
    (t : PerrohtImpl M K V) {pos : Nat}
    {e : Entry K V} (hI : InvCore env t) (hpos : t.table_[pos]? = some (some e)) :
    ∃ t1, pEraseSingleAt env t pos = some t1 ∧
      InvCore env t1 ∧
      t1.capacity_index_ = t.capacity_index_ ∧
      t1.max_load_factor_ = t.max_load_factor_ ∧
      t1.size_ + 1 = t.size_ ∧
      (e.key, e.val) ::ₘ mrecords t1.table_ = mrecords t.table_ := by
  have hlen := hI.len_eq
  have hplt : pos < t.table_.length := getElem?_lt hpos
  have hn : 0 < t.table_.length := by omega
  obtain ⟨c, hc, hC⟩ := hI.cut (by omega)
  have hcl := @cdist_lt t.table_.length ((pos + 1) % t.table_.length) c hn
  obtain ⟨t1, i1, h1, h2, h3, h4, h5, h6, h7, h8, h9, h10, h11⟩ :=
    pEraseShiftLoop_spec env hm (Capacity t) t ((pos + 1) % t.table_.length) c t.table_.length rfl
      hlen.symm (inc_lt hn) (by omega) hI.dist_ok hC
      (by rw [dec_inc hplt]; exact HoleOrd_init hI.ord_ok pos)
      (by rw [dec_inc hplt]; exact ⟨e, hpos⟩)
      (by omega)
  rw [dec_inc hplt] at h11
  have hcap1 : Capacity t1 = Capacity t := by unfold Capacity; rw [h2]
  have hlen1 : t1.table_.length = Capacity t1 := by rw [h5, hcap1, hlen]
  obtain ⟨eh, heh⟩ := h9
  have hmr := mrecords_set_none_of_some hpos
  rw [← h11] at hmr
  unfold pEraseSingleAt
  rw [pInc_len t pos hlen hn, h1]
  simp only
  rw [pDec_len t1 i1 hlen1 (by omega), h5]
  unfold pClearAt
  rw [(pGetBucket_some_iff t1 _ eh).2 heh]
  simp only
  refine ⟨_, rfl, ?_, h2, h3, ?_, hmr⟩
  · have hcard := congrArg Multiset.card hmr
    rw [Multiset.card_cons, card_mrecords, card_mrecords] at hcard
    refine ⟨?_, ?_, ?_, ?_, ?_, ?_, ?_, ?_⟩
    · show (t1.table_.set _ none).length = Capacity t1
      rw [List.length_set]; exact hlen1
    · show t1.size_ - 1 = (records (t1.table_.set _ none)).length
      rw [h4, hI.size_eq]; omega
    · show 0 < t1.max_load_factor_.num
      rw [h3]; exact hI.mlf_pos
    · show t1.max_load_factor_.num ≤ t1.max_load_factor_.den
      rw [h3]; exact hI.mlf_le
    · apply DistOK_set h7
      intro e0 he0; cases he0
    · exact h10
    · show ((records (t1.table_.set _ none)).map Prod.fst).Nodup
      have hnd := (nodup_keys_iff _).1 hI.nodup
      rw [← hmr, Multiset.map_cons, Multiset.nodup_cons] at hnd
      exact (nodup_keys_iff _).2 hnd.2
    · intro _
      refine ⟨c, ?_, ?_⟩
      · show c < Capacity t1
        rw [hcap1]; exact hc
      show CutOK env (t1.table_.set _ none) c
      apply CutOK_set h8
      intro e0 he0; cases he0
  · show t1.size_ - 1 + 1 = t.size_
    have hcard := congrArg Multiset.card hmr
    rw [Multiset.card_cons, card_mrecords, card_mrecords] at hcard
    rw [h4, hI.size_eq]; omega

/-! ## Erasure without the assumption that a moved-from holder is readable -/

theorem InvCore_force {env : Env M K} {t : PerrohtImpl M K V}
    (h : InvCore ({ env with moved_from_readable := true } : Env M K) t) : InvCore env t :=
  ⟨h.len_eq, h.size_eq, h.mlf_pos, h.mlf_le, h.dist_ok, h.ord_ok, h.nodup, h.cut⟩

theorem InvCore_forced {env : Env M K} {t : PerrohtImpl M K V} (h : InvCore env t) :
    InvCore ({ env with moved_from_readable := true } : Env M K) t :=
  ⟨h.len_eq, h.size_eq, h.mlf_pos, h.mlf_le, h.dist_ok, h.ord_ok, h.nodup, h.cut⟩

/-- Whatever the backward-shift loop returns, it also returns when every
moved-from holder is readable. -/
theorem pEraseShiftLoop_force (env : Env M K) :
    ∀ (fuel : Nat) (t : PerrohtImpl M K V) (i : Nat) (r : PerrohtImpl M K V × Nat),
      pEraseShiftLoop env fuel t i = some r →
      pEraseShiftLoop ({ env with moved_from_readable := true } : Env M K) fuel t i =
        some r := by
  intro fuel
  induction fuel with
  | zero =>
    intro t i r hr
    simp [pEraseShiftLoop] at hr
  | succ f ih =>
    intro t i r hr
    rw [pEraseShiftLoop] at hr ⊢
    cases hb : pGetBucket t i with
    | none =>
      rw [hb] at hr
      exact hr
    | some e =>
      rw [hb] at hr
      simp only at hr ⊢
      by_cases hd : pGetProbeDistance env t i e > 0
      · rw [if_pos hd] at hr
        rw [if_pos (show pGetProbeDistance
          ({ env with moved_from_readable := true } : Env M K) t i e > 0 from hd)]
        cases hmove : pGetProbeDistanceAfterMove env t i e with
        | none =>
          rw [hmove] at hr
          cases hr
        | some d =>
          rw [hmove] at hr
          simp only at hr
          have hd1 := pGetProbeDistanceAfterMove_eq env t i e d hmove
          rw [pGetProbeDistanceAfterMove_readable _ t i e rfl]
          simp only
          rw [show pGetProbeDistance ({ env with moved_from_readable := true } : Env M K) t i e
            = d from hd1.symm]
          exact ih _ _ r hr
      · rw [if_neg hd] at hr
        rw [if_neg (show ¬ pGetProbeDistance
          ({ env with moved_from_readable := true } : Env M K) t i e > 0 from hd)]
        exact hr

theorem pEraseSingleAt_force (env : Env M K) (t : PerrohtImpl M K V) (pos : Nat)
    (t1 : PerrohtImpl M K V) (h : pEraseSingleAt env t pos = some t1) :
    pEraseSingleAt ({ env with moved_from_readable := true } : Env M K) t pos = some t1 := by
  unfold pEraseSingleAt at h ⊢
  cases hl : pEraseShiftLoop env (Capacity t) t (pIncrementPosition t pos) with
  | none =>
    rw [hl] at h
    cases h
  | some r =>
    rw [hl] at h
    rw [pEraseShiftLoop_force env _ _ _ r hl]
    exact h

/-- `pEraseSingleAt` at an occupied bucket, whenever it returns. -/
theorem pEraseSingleAt_returned (env : Env M K) (t : PerrohtImpl M K V) {pos : Nat}
    {e : Entry K V} (hI : InvCore env t) (hpos : t.table_[pos]? = some (some e))
    (t1 : PerrohtImpl M K V) (h : pEraseSingleAt env t pos = some t1) :
    InvCore env t1 ∧
      t1.capacity_index_ = t.capacity_index_ ∧
      t1.max_load_factor_ = t.max_load_factor_ ∧
      t1.size_ + 1 = t.size_ ∧
      (e.key, e.val) ::ₘ mrecords t1.table_ = mrecords t.table_ := by
  obtain ⟨t2, h1, h2, h3, h4, h5, h6⟩ :=
    pEraseSingleAt_spec ({ env with moved_from_readable := true } : Env M K) rfl t
      (InvCore_forced hI) hpos
  rw [pEraseSingleAt_force env t pos t1 h] at h1
  cases h1
  exact ⟨InvCore_force h2, h3, h4, h5, h6⟩

end EraseSpec

end Perroht

namespace Perroht

open PowerOfTwoCapacity

section Transfer

variable {M K V : Type} [DecidableEq K]

/-! ## Tables without records -/

theorem getElem?_replicate_none {n p : Nat} {e : Entry K V} :
    (List.replicate n (none : Option (Entry K V)))[p]? ≠ some (some e) := by
  rw [List.getElem?_replicate]
  split_ifs <;> simp

theorem InvCore_fresh (env : Env M K) (t : PerrohtImpl M K V) (n : Nat)
    (htab : t.table_ = List.replicate n none) (hcap : Capacity t = n) (hsize : t.size_ = 0)
    (h1 : 0 < t.max_load_factor_.num)
    (h2 : t.max_load_factor_.num ≤ t.max_load_factor_.den) : InvCore env t := by
  refine ⟨by rw [htab, hcap]; simp, by rw [htab, records_replicate_none, hsize]; rfl, h1, h2,
    ?_, ?_, ?_, ?_⟩
  · intro p e hp
    rw [htab] at hp
    exact absurd hp getElem?_replicate_none
  · intro p e hp
    rw [htab] at hp
    exact absurd hp getElem?_replicate_none
  · rw [htab, records_replicate_none]
    exact List.nodup_nil
  · intro hpos
    refine ⟨0, hpos, ?_⟩
    intro p e hp
    rw [htab] at hp
    exact absurd hp getElem?_replicate_none

theorem mrecords_nil : mrecords ([] : List (Option (Entry K V))) = 0 := rfl

theorem mrecords_cons_none (l : List (Option (Entry K V))) :
    mrecords (none :: l) = mrecords l := by
  simp [mrecords, records]

theorem mrecords_cons_some (e : Entry K V) (l : List (Option (Entry K V))) :
    mrecords (some e :: l) = (e.key, e.val) ::ₘ mrecords l := by
  simp [mrecords, records]

theorem InvCore.size_card {env : Env M K} {t : PerrohtImpl M K V} (hI : InvCore env t) :
    t.size_ = Multiset.card (mrecords t.table_) := by
  rw [card_mrecords]; exact hI.size_eq

theorem InvCore.size_le {env : Env M K} {t : PerrohtImpl M K V} (hI : InvCore env t) :
    t.size_ ≤ Capacity t := by
  rw [hI.size_eq, ← hI.len_eq]
  exact records_length_le _

theorem not_mem_keys_of_nodup_cons {R : Multiset (K × V)} {r : K × V}
    (h : ((r ::ₘ R).map Prod.fst).Nodup) : r.1 ∉ R.map Prod.fst := by
  rw [Multiset.map_cons, Multiset.nodup_cons] at h
  exact h.1

theorem mem_keys_iff (l : List (Option (Entry K V))) (k : K) :
    k ∈ (records l).map Prod.fst ↔ k ∈ (mrecords l).map Prod.fst := by
  unfold mrecords
  rw [Multiset.map_coe, Multiset.mem_coe]

/-! ## `pTransferEntriesTo` -/

/-- The transfer loop re-inserts every record of the old table that is still
to be visited. -/
theorem pTransferLoop_spec (env : Env M K)
    (ins : PerrohtImpl M K V → K × V → Option (PerrohtImpl M K V)) (N c0 : Nat)
    (hins : InsSpec env ins N c0) (old : List (Option (Entry K V))) :
    ∀ (n i : Nat) (t : PerrohtImpl M K V),
      i + n = old.length →
      InvCore env t → N ≤ Capacity t → c0 ≤ Capacity t →
      Multiset.card (mrecords t.table_ + mrecords (old.drop i)) ≤ N →
      ((mrecords t.table_ + mrecords (old.drop i)).map Prod.fst).Nodup →
      ∃ t1, pTransferLoop ins old n i t = some t1 ∧ InvCore env t1 ∧
        t1.max_load_factor_ = t.max_load_factor_ ∧
        mrecords t1.table_ = mrecords t.table_ + mrecords (old.drop i) ∧
        Capacity t ≤ Capacity t1 := by
  intro n
  induction n with
  | zero =>
    intro i t hi hI _ _ _ _
    have : old.drop i = [] := List.drop_eq_nil_of_le (by omega)
    refine ⟨t, rfl, hI, rfl, ?_, le_refl _⟩
    rw [this, mrecords_nil, add_zero]
  | succ n ih =>
    intro i t hi hI hN hc0 hcard hnd
    have hilt : i < old.length := by omega
    have hdrop : old.drop i = old[i] :: old.drop (i + 1) := List.drop_eq_getElem_cons hilt
    unfold pTransferLoop
    rw [List.getElem?_eq_getElem hilt]
    simp only [Option.getD_some]
    cases hb : old[i] with
    | none =>
      simp only
      rw [hdrop, hb, mrecords_cons_none] at hcard hnd ⊢
      exact ih (i + 1) t (by omega) hI hN hc0 hcard hnd
    | some e =>
      simp only
      rw [hdrop, hb, mrecords_cons_some, Multiset.add_cons] at hcard hnd
      have habs : (e.key, e.val).1 ∉ (records t.table_).map Prod.fst := by
        intro hmem
        have h1 := not_mem_keys_of_nodup_cons hnd
        apply h1
        rw [Multiset.map_add, Multiset.mem_add]
        left
        exact (mem_keys_iff _ _).1 hmem
      have hsz : t.size_ < N := by
        rw [Multiset.card_cons, Multiset.card_add, ← hI.size_card] at hcard
        omega
      obtain ⟨t1, h1, h2, h3, h4, h5⟩ := hins t (e.key, e.val) hI hsz hN hc0 habs
      rw [h1]
      simp only
      have heq : mrecords t1.table_ + mrecords (old.drop (i + 1)) =
          (e.key, e.val) ::ₘ (mrecords t.table_ + mrecords (old.drop (i + 1))) := by
        rw [h4, Multiset.cons_add]
      obtain ⟨t2, g1, g2, g3, g4, g5⟩ := ih (i + 1) t1 (by omega) h2 (by omega) (by omega)
        (by rw [heq]; exact hcard) (by rw [heq]; exact hnd)
      refine ⟨t2, g1, g2, by rw [g3, h3], ?_, by omega⟩
      rw [g4, heq, hdrop, hb, mrecords_cons_some, Multiset.add_cons]

/-- `pTransferEntriesTo` to a valid new capacity that has room for the
records. -/
theorem pTransferEntriesTo_spec (env : Env M K)
    (ins : PerrohtImpl M K V → K × V → Option (PerrohtImpl M K V)) (N c0 : Nat)
    (hins : InsSpec env ins N c0) (t : PerrohtImpl M K V) (new_capacity : Nat)
    (hI : InvCore env t) (hsize : t.size_ ≤ N) (hN : N ≤ new_capacity)
    (hc0 : c0 ≤ new_capacity) (hnew : new_capacity = 0 ∨ ∃ j, new_capacity = 2 ^ j) :
    ∃ t1, pTransferEntriesTo ins env t new_capacity = some t1 ∧ InvCore env t1 ∧
      t1.max_load_factor_ = t.max_load_factor_ ∧
      t1.size_ = t.size_ ∧
      mrecords t1.table_ = mrecords t.table_ ∧
      new_capacity ≤ Capacity t1 := by
  have hcapnew : ToCapacity (ToIndex new_capacity) = new_capacity := by
    rcases hnew with h | ⟨j, h⟩
    · subst h; rfl
    · subst h; exact AdjustCapacity_pow j
  have hfresh : InvCore env
      ({ t with
          table_ := pAllocateTable new_capacity
          capacity_index_ := ToIndex new_capacity
          size_ := 0
          mean_probe_distance_ := env.mean.zero } : PerrohtImpl M K V) :=
    InvCore_fresh env _ new_capacity rfl hcapnew rfl hI.mlf_pos hI.mlf_le
  have hcapF : Capacity
      ({ t with
          table_ := pAllocateTable new_capacity
          capacity_index_ := ToIndex new_capacity
          size_ := 0
          mean_probe_distance_ := env.mean.zero } : PerrohtImpl M K V) = new_capacity :=
    hcapnew
  unfold pTransferEntriesTo
  simp only
  by_cases h0 : Capacity t = 0
  · rw [if_pos h0]
    have htab : t.table_ = [] := List.length_eq_zero.1 (by rw [hI.len_eq, h0])
    have hs0 : t.size_ = 0 := by rw [hI.size_eq, htab]; rfl
    refine ⟨_, rfl, hfresh, rfl, hs0.symm, ?_, by rw [hcapF]⟩
    show mrecords (List.replicate new_capacity none) = mrecords t.table_
    rw [htab]
    unfold mrecords
    rw [records_replicate_none]
    rfl
  · rw [if_neg h0]
    have hm0 : mrecords (pAllocateTable new_capacity : List (Option (Entry K V))) = 0 := by
      unfold mrecords pAllocateTable
      rw [records_replicate_none]
      rfl
    obtain ⟨t1, h1, h2, h3, h4, h5⟩ :=
      pTransferLoop_spec env ins N c0 hins t.table_ (Capacity t) 0 _
        (by rw [hI.len_eq]; omega) hfresh (by rw [hcapF]; exact hN)
        (by rw [hcapF]; exact hc0)
        (by
          show Multiset.card (mrecords (pAllocateTable new_capacity) +
            mrecords (List.drop 0 t.table_)) ≤ N
          rw [hm0, zero_add, List.drop_zero, ← hI.size_card]
          exact hsize)
        (by
          show ((mrecords (pAllocateTable new_capacity) +
            mrecords (List.drop 0 t.table_)).map Prod.fst).Nodup
          rw [hm0, zero_add, List.drop_zero]
          exact (nodup_keys_iff _).1 hI.nodup)
    have hm : mrecords t1.table_ = mrecords t.table_ := by
      rw [h4]
      show mrecords (pAllocateTable new_capacity) + mrecords (List.drop 0 t.table_) = _
      rw [hm0, zero_add, List.drop_zero]
    refine ⟨t1, h1, h2, h3, ?_, hm, ?_⟩
    · rw [h2.size_card, hI.size_card, hm]
    · omega

/-! ## Transfers with an insertion that checks the capacity -/

/-- The transfer loop with an insertion that grows the table when needed. -/
theorem pTransferLoop_grow_spec (env : Env M K)
    (ins : PerrohtImpl M K V → K × V → Option (PerrohtImpl M K V)) (N : Nat)
    (hins : InsGrowSpec env ins N) (old : List (Option (Entry K V))) :
    ∀ (n i : Nat) (t : PerrohtImpl M K V),
      i + n = old.length →
      InvCore env t →
      t.size_ * t.max_load_factor_.den ≤ Capacity t * t.max_load_factor_.num →
      Multiset.card (mrecords t.table_ + mrecords (old.drop i)) ≤ N →
      ((mrecords t.table_ + mrecords (old.drop i)).map Prod.fst).Nodup →
      ∃ t1, pTransferLoop ins old n i t = some t1 ∧ InvCore env t1 ∧
        t1.max_load_factor_ = t.max_load_factor_ ∧
        mrecords t1.table_ = mrecords t.table_ + mrecords (old.drop i) ∧
        Capacity t ≤ Capacity t1 ∧
        t1.size_ * t1.max_load_factor_.den ≤ Capacity t1 * t1.max_load_factor_.num := by
  intro n
  induction n with
  | zero =>
    intro i t hi hI hl _ _
    have : old.drop i = [] := List.drop_eq_nil_of_le (by omega)
    refine ⟨t, rfl, hI, rfl, ?_, le_refl _, hl⟩
    rw [this, mrecords_nil, add_zero]
  | succ n ih =>
    intro i t hi hI hl hcard hnd
    have hilt : i < old.length := by omega
    have hdrop : old.drop i = old[i] :: old.drop (i + 1) := List.drop_eq_getElem_cons hilt
    unfold pTransferLoop
    rw [List.getElem?_eq_getElem hilt]
    simp only [Option.getD_some]
    cases hb : old[i] with
    | none =>
      simp only
      rw [hdrop, hb, mrecords_cons_none] at hcard hnd ⊢
      exact ih (i + 1) t (by omega) hI hl hcard hnd
    | some e =>
      simp only
      rw [hdrop, hb, mrecords_cons_some, Multiset.add_cons] at hcard hnd
      have habs : (e.key, e.val).1 ∉ (records t.table_).map Prod.fst := by
        intro hmem
        have h1 := not_mem_keys_of_nodup_cons hnd
        apply h1
        rw [Multiset.map_add, Multiset.mem_add]
        left
        exact (mem_keys_iff _ _).1 hmem
      have hsz : t.size_ < N := by
        rw [Multiset.card_cons, Multiset.card_add, ← hI.size_card] at hcard
        omega
      obtain ⟨t1, h1, h2, h3, h4, h5, h6⟩ := hins t (e.key, e.val) hI hsz habs
      rw [h1]
      simp only
      have heq : mrecords t1.table_ + mrecords (old.drop (i + 1)) =
          (e.key, e.val) ::ₘ (mrecords t.table_ + mrecords (old.drop (i + 1))) := by
        rw [h4, Multiset.cons_add]
      obtain ⟨t2, g1, g2, g3, g4, g5, g6⟩ := ih (i + 1) t1 (by omega) h2 h6
        (by rw [heq]; exact hcard) (by rw [heq]; exact hnd)
      refine ⟨t2, g1, g2, by rw [g3, h3], ?_, by omega, g6⟩
      rw [g4, heq, hdrop, hb, mrecords_cons_some, Multiset.add_cons]

/-- `pTransferEntriesTo` to a valid new capacity with an insertion that checks
the capacity: the new capacity need not have room for the records. -/
theorem pTransferEntriesTo_grow_spec (env : Env M K)
    (ins : PerrohtImpl M K V → K × V → Option (PerrohtImpl M K V)) (N : Nat)
    (hins : InsGrowSpec env ins N) (t : PerrohtImpl M K V) (new_capacity : Nat)
    (hI : InvCore env t) (hsize : t.size_ ≤ N)
    (hnew : new_capacity = 0 ∨ ∃ j, new_capacity = 2 ^ j) :
    ∃ t1, pTransferEntriesTo ins env t new_capacity = some t1 ∧ InvCore env t1 ∧
      t1.max_load_factor_ = t.max_load_factor_ ∧
      t1.size_ = t.size_ ∧
      mrecords t1.table_ = mrecords t.table_ ∧
      new_capacity ≤ Capacity t1 ∧
      t1.size_ * t1.max_load_factor_.den ≤ Capacity t1 * t1.max_load_factor_.num := by
  have hcapnew : ToCapacity (ToIndex new_capacity) = new_capacity := by
    rcases hnew with h | ⟨j, h⟩
    · subst h; rfl
    · subst h; exact AdjustCapacity_pow j
  have hfresh : InvCore env
      ({ t with
          table_ := pAllocateTable new_capacity
          capacity_index_ := ToIndex new_capacity
          size_ := 0
          mean_probe_distance_ := env.mean.zero } : PerrohtImpl M K V) :=
    InvCore_fresh env _ new_capacity rfl hcapnew rfl hI.mlf_pos hI.mlf_le
  have hcapF : Capacity
      ({ t with
          table_ := pAllocateTable new_capacity
          capacity_index_ := ToIndex new_capacity
          size_ := 0
          mean_probe_distance_ := env.mean.zero } : PerrohtImpl M K V) = new_capacity :=
    hcapnew
  unfold pTransferEntriesTo
  simp only
  by_cases h0 : Capacity t = 0
  · rw [if_pos h0]
    have htab : t.table_ = [] := List.length_eq_zero.1 (by rw [hI.len_eq, h0])
    have hs0 : t.size_ = 0 := by rw [hI.size_eq, htab]; rfl
    refine ⟨_, rfl, hfresh, rfl, hs0.symm, ?_, by rw [hcapF], ?_⟩
    · show mrecords (List.replicate new_capacity none) = mrecords t.table_
      rw [htab]
      unfold mrecords
      rw [records_replicate_none]
      rfl
    · show 0 * _ ≤ _
      rw [Nat.zero_mul]
      exact Nat.zero_le _
  · rw [if_neg h0]
    have hm0 : mrecords (pAllocateTable new_capacity : List (Option (Entry K V))) = 0 := by
      unfold mrecords pAllocateTable
      rw [records_replicate_none]
      rfl
    obtain ⟨t1, h1, h2, h3, h4, h5, h6⟩ :=
      pTransferLoop_grow_spec env ins N hins t.table_ (Capacity t) 0 _
        (by rw [hI.len_eq]; omega) hfresh
        (by
          show 0 * _ ≤ _
          rw [Nat.zero_mul]
          exact Nat.zero_le _)
        (by
          show Multiset.card (mrecords (pAllocateTable new_capacity) +
            mrecords (List.drop 0 t.table_)) ≤ N
          rw [hm0, zero_add, List.drop_zero, ← hI.size_card]
          exact hsize)
        (by
          show ((mrecords (pAllocateTable new_capacity) +
            mrecords (List.drop 0 t.table_)).map Prod.fst).Nodup
          rw [hm0, zero_add, List.drop_zero]
          exact (nodup_keys_iff _).1 hI.nodup)
    have hm : mrecords t1.table_ = mrecords t.table_ := by
      rw [h4]
      show mrecords (pAllocateTable new_capacity) + mrecords (List.drop 0 t.table_) = _
      rw [hm0, zero_add, List.drop_zero]
    refine ⟨t1, h1, h2, h3, ?_, hm, ?_, h6⟩
    · rw [h2.size_card, hI.size_card, hm]
    · rw [hcapF] at h5
      exact h5

end Transfer

end Perroht

namespace Perroht

open PowerOfTwoCapacity

section Growth

variable {M K V : Type} [DecidableEq K]

/-! ## `Reserve` and `pGrow` -/

theorem ReserveWith_spec (env : Env M K)
    (ins : PerrohtImpl M K V → K × V → Option (PerrohtImpl M K V)) (N c0 : Nat)
    (hins : InsSpec env ins N c0) (t : PerrohtImpl M K V) (capacity : Nat)
    (hI : InvCore env t) (hsize : t.size_ ≤ N)
    (hN : Capacity t < capacity → N ≤ AdjustCapacity capacity ∧ c0 ≤ AdjustCapacity capacity) :
    ∃ t1, ReserveWith ins env t capacity = some t1 ∧ InvCore env t1 ∧
      t1.max_load_factor_ = t.max_load_factor_ ∧
      t1.size_ = t.size_ ∧
      mrecords t1.table_ = mrecords t.table_ ∧
      Capacity t ≤ Capacity t1 ∧
      (capacity ≤ AdjustCapacity capacity → capacity ≤ Capacity t1) ∧
      (capacity ≤ Capacity t → t1 = t) ∧
      (Capacity t < capacity → AdjustCapacity capacity ≤ Capacity t1) := by
  unfold ReserveWith
  by_cases h : capacity ≤ Capacity t
  · rw [if_pos h]
    exact ⟨t, rfl, hI, rfl, rfl, rfl, le_refl _, fun _ => h, fun _ => rfl, fun h2 => by omega⟩
  · rw [if_neg h]
    obtain ⟨j, hj1, _⟩ := AdjustCapacity_spec (show 0 < capacity by omega)
    obtain ⟨hN1, hN2⟩ := hN (by omega)
    obtain ⟨t1, h1, h2, h3, h4, h5, h6⟩ :=
      pTransferEntriesTo_spec env ins N c0 hins t (AdjustCapacity capacity) hI hsize hN1 hN2
        (Or.inr ⟨j, hj1⟩)
    have hpol : Capacity t = 0 ∨ ∃ a, Capacity t = 2 ^ a := by
      rcases Nat.eq_zero_or_pos (Capacity t) with h0 | h0
      · exact Or.inl h0
      · exact Or.inr (Capacity_pow2 t h0)
    have hge := AdjustCapacity_ge_capacity hpol (show Capacity t < capacity by omega)
    exact ⟨t1, h1, h2, h3, h4, h5, by omega, fun hc => by omega, fun h2 => absurd h2 h,
      fun _ => h6⟩

theorem pEnoughCapacity_iff (t : PerrohtImpl M K V) (size capacity : Nat) :
    pEnoughCapacity t size capacity = true ↔
      size * t.max_load_factor_.den ≤ capacity * t.max_load_factor_.num := by
  unfold pEnoughCapacity
  exact decide_eq_true_iff

theorem pGrowIndex_spec (t : PerrohtImpl M K V) (req : Nat) :
    ∀ fuel idx, (∃ k, idx ≤ k ∧ k < idx + fuel ∧ pEnoughCapacity t req (ToCapacity k) = true) →
      ∃ r, pGrowIndex t req fuel idx = some r ∧ idx ≤ r ∧
        pEnoughCapacity t req (ToCapacity r) = true ∧
        ∀ k, idx ≤ k → k < r → pEnoughCapacity t req (ToCapacity k) = false := by
  intro fuel
  induction fuel with
  | zero => intro idx ⟨k, h1, h2, _⟩; omega
  | succ f ih =>
    intro idx ⟨k, h1, h2, h3⟩
    unfold pGrowIndex
    by_cases h : pEnoughCapacity t req (ToCapacity idx) = true
    · rw [if_pos h]
      exact ⟨idx, rfl, le_refl _, h, fun k hk1 hk2 => by omega⟩
    · rw [if_neg h]
      have hk : idx ≠ k := by intro heq; subst heq; exact h h3
      obtain ⟨r, g1, g2, g3, g4⟩ := ih (idx + 1) ⟨k, by omega, by omega, h3⟩
      refine ⟨r, g1, by omega, g3, ?_⟩
      intro k2 hk1 hk2
      by_cases hk3 : k2 = idx
      · subst hk3
        simpa using h
      · exact g4 k2 (by omega) hk2

theorem enough_of_large (t : PerrohtImpl M K V) (req k : Nat)
    (hnum : 0 < t.max_load_factor_.num) (hk : req * t.max_load_factor_.den + 1 ≤ k) :
    pEnoughCapacity t req (ToCapacity k) = true := by
  rw [pEnoughCapacity_iff]
  obtain ⟨j, rfl⟩ : ∃ j, k = j + 1 := ⟨k - 1, by omega⟩
  rw [ToCapacity_succ]
  have h1 : j < 2 ^ j := Nat.lt_two_pow j
  calc req * t.max_load_factor_.den ≤ j := by omega
    _ ≤ 2 ^ j := h1.le
    _ = 2 ^ j * 1 := (Nat.mul_one _).symm
    _ ≤ 2 ^ j * t.max_load_factor_.num := Nat.mul_le_mul_left _ hnum

theorem ToCapacity_lt_succ (i : Nat) : ToCapacity i < ToCapacity (i + 1) := by
  rw [ToCapacity_succ]
  cases i with
  | zero => simp [ToCapacity]
  | succ j =>
    rw [ToCapacity_succ, Nat.pow_succ]
    have : 0 < 2 ^ j := by positivity
    omega

theorem le_of_enough (t : PerrohtImpl M K V) (size capacity : Nat)
    (hle : t.max_load_factor_.num ≤ t.max_load_factor_.den)
    (hpos : 0 < t.max_load_factor_.num)
    (h : size * t.max_load_factor_.den ≤ capacity * t.max_load_factor_.num) :
    size ≤ capacity := by
  have h1 : capacity * t.max_load_factor_.num ≤ capacity * t.max_load_factor_.den :=
    Nat.mul_le_mul_left _ hle
  have h2 : size * t.max_load_factor_.den ≤ capacity * t.max_load_factor_.den := le_trans h h1
  exact Nat.le_of_mul_le_mul_right h2 (by omega)

/-- `pGrow(min_required_size)`: the table is transferred to the first capacity
above the current one that is enough for `min_required_size` records. -/
theorem pGrowWith_spec (env : Env M K)
    (ins : PerrohtImpl M K V → K × V → Option (PerrohtImpl M K V)) (req c0 : Nat)
    (t : PerrohtImpl M K V) (hI : InvCore env t) (hsize : t.size_ ≤ req)
    (hins : InsSpec env ins req c0) (hc0 : c0 ≤ Capacity t + 1) :
    ∃ t1 r, pGrowWith ins env t req = some t1 ∧ InvCore env t1 ∧
      t1.max_load_factor_ = t.max_load_factor_ ∧
      t1.size_ = t.size_ ∧
      mrecords t1.table_ = mrecords t.table_ ∧
      Capacity t < Capacity t1 ∧
      pGrowIndex t req (req * t.max_load_factor_.den + 2) (t.capacity_index_ + 1) = some r ∧
      t.capacity_index_ < r ∧
      pEnoughCapacity t req (ToCapacity r) = true ∧
      (∀ k, t.capacity_index_ < k → k < r → pEnoughCapacity t req (ToCapacity k) = false) ∧
      ToCapacity r ≤ Capacity t1 := by
  obtain ⟨r, g1, g2, g3, g4⟩ := pGrowIndex_spec t req (req * t.max_load_factor_.den + 2)
    (t.capacity_index_ + 1)
    ⟨max (t.capacity_index_ + 1) (req * t.max_load_factor_.den + 1), le_max_left _ _,
      by rw [max_lt_iff]; constructor <;> omega,
      enough_of_large t req _ hI.mlf_pos (le_max_right _ _)⟩
  have hlt : Capacity t < ToCapacity r :=
    lt_of_lt_of_le (ToCapacity_lt_succ _) (ToCapacity_mono g2)
  obtain ⟨j, hj1, hj2⟩ := ToCapacity_pos (show 0 < ToCapacity r by omega)
  have hadj : AdjustCapacity (ToCapacity r) = ToCapacity r := by
    rw [hj2]; exact AdjustCapacity_pow j
  have hreq : req ≤ ToCapacity r :=
    le_of_enough t req _ hI.mlf_le hI.mlf_pos ((pEnoughCapacity_iff _ _ _).1 g3)
  obtain ⟨t1, h1, h2, h3, h4, h5, h6, h7, _, _⟩ :=
    ReserveWith_spec env ins req c0 hins t (ToCapacity r) hI hsize
      (fun _ => by rw [hadj]; exact ⟨hreq, by omega⟩)
  have h7 := h7 (by rw [hadj])
  refine ⟨t1, r, ?_, h2, h3, h4, h5, by omega, g1, by omega, g3, ?_, h7⟩
  · unfold pGrowWith
    rw [g1]
    exact h1
  · intro k hk1 hk2
    exact g4 k (by omega) hk2

end Growth

end Perroht

namespace Perroht

open PowerOfTwoCapacity

section InsertSpec

variable {M K V : Type} [DecidableEq K]

/-! ## `pInsert` -/

theorem LoadFactorAboveMinimum_iff (t : PerrohtImpl M K V) :
    LoadFactorAboveMinimum t = true ↔ Capacity t ≠ 0 ∧ Capacity t < 8 * t.size_ := by
  unfold LoadFactorAboveMinimum Size
  split_ifs with h
  · simp [h]
  · simp [h]

theorem Capacity_congr {t t1 : PerrohtImpl M K V}
    (h : t1.capacity_index_ = t.capacity_index_) : Capacity t1 = Capacity t := by
  unfold Capacity; rw [h]

theorem Capacity_double (t : PerrohtImpl M K V) (h : 0 < Capacity t) :
    AdjustCapacity (Capacity t * 2) = Capacity t * 2 := by
  obtain ⟨j, hj⟩ := Capacity_pow2 t h
  rw [hj, ← Nat.pow_succ]
  exact AdjustCapacity_pow (j + 1)

/-- The position of a record in a table that satisfies the invariant is the
one `pLocate` reports for its key. -/
theorem locate_record (env : Env M K) (t : PerrohtImpl M K V) (hI : InvCore env t)
    (data : K × V) (h : data ∈ mrecords t.table_) :
    (pLocate env t data.1).2 = true ∧
    ∃ d1, t.table_[(pLocate env t data.1).1]? = some (some ⟨d1, data.1, data.2⟩) := by
  obtain ⟨p, e, hp, he⟩ := getElem?_of_mem_records (mem_mrecords.1 h)
  have := pLocate_complete env t hI.len_eq hI.dist_ok hI.ord_ok hI.nodup hp
  subst he
  simp only
  rw [this]
  exact ⟨rfl, e.dist, hp⟩

/-- `pInsert` of an absent key, with or without capacity check, given a
sufficient nesting budget. -/
theorem pInsert_spec (env : Env M K) :
    ∀ (depth : Nat) (t : PerrohtImpl M K V) (check : Bool) (data : K × V)
      (hint : Option Nat) (N : Nat),
      InvCore env t →
      data.1 ∉ (records t.table_).map Prod.fst →
      t.size_ + 1 ≤ N →
      (hint = none ∨
        (hint = some (pLocate env t data.1).1 ∧ (pLocate env t data.1).2 = false)) →
      (check = false → t.size_ < Capacity t) →
      8 * N - Capacity t + (if check then 1 else 0) < depth →
      ∃ t1 pos, pInsert env depth t check data hint = some (t1, pos) ∧
        InvCore env t1 ∧
        t1.max_load_factor_ = t.max_load_factor_ ∧
        t1.size_ = t.size_ + 1 ∧
        mrecords t1.table_ = data ::ₘ mrecords t.table_ ∧
        Capacity t ≤ Capacity t1 ∧
        (∃ d1, t1.table_[pos]? = some (some ⟨d1, data.1, data.2⟩)) ∧
        (check = true →
          (t.size_ + 1) * t.max_load_factor_.den ≤ Capacity t1 * t.max_load_factor_.num) := by
  intro depth
  induction depth with
  | zero => intro t check data hint N _ _ _ _ _ h; omega
  | succ depth ih =>
    intro t check data hint N hI habs hN hhint hroom hdepth
    -- the insertion used by nested transfers
    have hins : ∀ N1 c0, 8 * N1 - c0 < depth →
        InsSpec env (fun (t0 : PerrohtImpl M K V) (d : K × V) =>
          (pInsert env depth t0 false d none).map Prod.fst) N1 c0 := by
      intro N1 c0 hd t0 d hI0 hsz hN0 hc0 habs0
      obtain ⟨t1, pos, h1, h2, h3, _, h5, h6, _, _⟩ :=
        ih t0 false d none N1 hI0 habs0 (by omega) (Or.inl rfl) (fun _ => by omega)
          (by simp only [Bool.false_eq_true, if_false]; omega)
      exact ⟨t1, by simp only [h1, Option.map_some'], h2, h3, h5, h6⟩
    -- placing the record
    have hplaced : ∃ t2 ipos,
        pInsertPlace (fun (t0 : PerrohtImpl M K V) (d : K × V) =>
          (pInsert env depth t0 false d none).map Prod.fst) env t check data hint
          = some (t2, ipos) ∧
        InvCore env t2 ∧
        t2.max_load_factor_ = t.max_load_factor_ ∧
        t2.size_ = t.size_ + 1 ∧
        mrecords t2.table_ = data ::ₘ mrecords t.table_ ∧
        Capacity t ≤ Capacity t2 ∧
        (∃ d1, t2.table_[ipos]? = some (some ⟨d1, data.1, data.2⟩)) ∧
        (check = true →
          (t.size_ + 1) * t.max_load_factor_.den ≤ Capacity t2 * t.max_load_factor_.num) := by
      unfold pInsertPlace
      by_cases hg : (check && !pEnoughCapacity t (Size t + 1) (Capacity t)) = true
      · rw [if_pos hg]
        simp only [Bool.and_eq_true, Bool.not_eq_true'] at hg
        obtain ⟨hchk, _⟩ := hg
        subst hchk
        simp only [if_true] at hdepth
        obtain ⟨t1, r, g1, g2, g3, g4, g5, g6, _, _, g9, _, g11⟩ :=
          pGrowWith_spec env _ (Size t + 1) (Capacity t + 1) t hI (by unfold Size; omega)
            (hins (Size t + 1) (Capacity t + 1) (by unfold Size; omega)) (le_refl _)
        rw [g1]
        simp only
        have hen := (pEnoughCapacity_iff _ _ _).1 g9
        have hreq : Size t + 1 ≤ ToCapacity r := le_of_enough t _ _ hI.mlf_le hI.mlf_pos hen
        have habs1 : data.1 ∉ (records t1.table_).map Prod.fst := by
          rw [mem_keys_iff, g5, ← mem_keys_iff]; exact habs
        obtain ⟨t2, ipos, f1, f2, f3, f4, f5, f6, _, f8⟩ :=
          pForceInsert_spec env t1 data none g2 (by unfold Size at hreq; omega) (Or.inl rfl) habs1
        have hcap2 := Capacity_congr f3
        refine ⟨t2, ipos, f1, f2, by rw [f4, g3], by rw [f5, g4], by rw [f6, g5], by omega, f8, ?_⟩
        intro _
        unfold Size at hen
        calc (t.size_ + 1) * t.max_load_factor_.den
            ≤ ToCapacity r * t.max_load_factor_.num := hen
          _ ≤ Capacity t2 * t.max_load_factor_.num := Nat.mul_le_mul_right _ (by omega)
      · rw [if_neg hg]
        have hen : check = true →
            (t.size_ + 1) * t.max_load_factor_.den ≤ Capacity t * t.max_load_factor_.num := by
          intro hc
          subst hc
          simp only [Bool.true_and, Bool.not_eq_true', Bool.not_eq_false] at hg
          exact (pEnoughCapacity_iff _ _ _).1 hg
        have hroom2 : t.size_ < Capacity t := by
          cases check with
          | false => exact hroom rfl
          | true =>
            have := le_of_enough t _ _ hI.mlf_le hI.mlf_pos (hen rfl)
            omega
        obtain ⟨t2, ipos, f1, f2, f3, f4, f5, f6, _, f8⟩ :=
          pForceInsert_spec env t data hint hI hroom2 hhint habs
        have hcap2 := Capacity_congr f3
        refine ⟨t2, ipos, f1, f2, f4, f5, f6, by omega, f8, ?_⟩
        intro hc
        rw [hcap2]
        exact hen hc
    obtain ⟨t2, ipos, p1, p2, p3, p4, p5, p6, p7, p8⟩ := hplaced
    unfold pInsert
    simp only
    rw [p1]
    simp only
    unfold pInsertAutoGrow
    by_cases hauto : (decide (GetApproximateMeanProbeDistance env t2 > kAutoGrowProbeDistance)
        && LoadFactorAboveMinimum t2) = true
    · rw [if_pos hauto]
      simp only [Bool.and_eq_true] at hauto
      obtain ⟨hlf1, hlf2⟩ := (LoadFactorAboveMinimum_iff t2).1 hauto.2
      obtain ⟨d1, hd1⟩ := p7
      rw [(pGetBucket_some_iff t2 ipos _).2 hd1]
      simp only
      have hadj := Capacity_double t2 (by omega)
      obtain ⟨t3, r1, r2, r3, r4, r5, r6, _, _, _⟩ :=
        ReserveWith_spec env _ t2.size_ (Capacity t2 * 2)
          (hins t2.size_ (Capacity t2 * 2) (by
            have : (if check = true then 1 else 0) ≤ 1 := by split_ifs <;> omega
            omega))
          t2 (Capacity t2 * 2) p2 (le_refl _)
          (fun _ => by
            rw [hadj]
            have := p2.size_le
            exact ⟨by omega, le_refl _⟩)
      rw [r1]
      simp only
      have hmem : data ∈ mrecords t3.table_ := by
        rw [r5, p5]; exact Multiset.mem_cons_self _ _
      obtain ⟨_, hloc⟩ := locate_record env t3 r2 data hmem
      refine ⟨t3, _, rfl, r2, by rw [r3, p3], by rw [r4, p4], by rw [r5, p5], by omega, hloc, ?_⟩
      intro hc
      calc (t.size_ + 1) * t.max_load_factor_.den
          ≤ Capacity t2 * t.max_load_factor_.num := p8 hc
        _ ≤ Capacity t3 * t.max_load_factor_.num := Nat.mul_le_mul_right _ r6
    · rw [if_neg hauto]
      exact ⟨t2, ipos, rfl, p2, p3, p4, p5, p6, p7, p8⟩

end InsertSpec

end Perroht

namespace Perroht

open PowerOfTwoCapacity

section PublicOps

variable {M K V : Type} [DecidableEq K]

/-! ## The public operations -/

theorem InsSpec_pInsert (env : Env M K) (depth N c0 : Nat) (check : Bool)
    (h : 8 * N - c0 + (if check then 1 else 0) < depth) :
    InsSpec env (fun (t0 : PerrohtImpl M K V) (d : K × V) =>
      (pInsert env depth t0 check d none).map Prod.fst) N c0 := by
  intro t0 d hI0 hsz hN0 hc0 habs0
  obtain ⟨t1, pos, h1, h2, h3, _, h5, h6, _, _⟩ :=
    pInsert_spec env depth t0 check d none N hI0 habs0 (by omega) (Or.inl rfl)
      (fun _ => by omega) (by omega)
  exact ⟨t1, by simp only [h1, Option.map_some'], h2, h3, h5, h6⟩

theorem Iterator_occupied (t : PerrohtImpl M K V) {pos : Nat} {e : Entry K V}
    (hlen : t.table_.length = Capacity t) (h : t.table_[pos]? = some (some e)) :
    Iterator t pos = ⟨pos, 0⟩ := by
  have hp := getElem?_lt h
  unfold Iterator
  rw [if_neg (by omega)]
  obtain ⟨c, hc⟩ : ∃ c, Capacity t = c + 1 := ⟨Capacity t - 1, by omega⟩
  rw [hc]
  unfold iterScan
  rw [if_pos (by rw [Nat.add_zero, (pGetBucket_some_iff t pos e).2 h]; rfl)]

theorem deref_Iterator (t : PerrohtImpl M K V) {pos : Nat} {e : Entry K V}
    (hlen : t.table_.length = Capacity t) (h : t.table_[pos]? = some (some e)) :
    deref t (Iterator t pos) = some (e.key, e.val) ∧ (Iterator t pos).Position = pos := by
  rw [Iterator_occupied t hlen h]
  unfold deref BaseIterator.Position
  simp only [Nat.add_zero]
  rw [(pGetBucket_some_iff t pos e).2 h]
  exact ⟨rfl, trivial⟩

/-- A key is present exactly when `pLocate` finds it. -/
theorem Contains_iff (env : Env M K) (t : PerrohtImpl M K V) (hI : InvCore env t) (k : K) :
    Contains env t k = true ↔ k ∈ (mrecords t.table_).map Prod.fst := by
  unfold Contains
  rw [pLocate_true_iff env t hI.len_eq hI.dist_ok hI.ord_ok hI.nodup, mem_keys_iff]

theorem value_unique {env : Env M K} {t : PerrohtImpl M K V} (hI : InvCore env t)
    {k : K} {v w : V} (h1 : (k, v) ∈ mrecords t.table_) (h2 : (k, w) ∈ mrecords t.table_) :
    v = w := by
  obtain ⟨p, e, hp, he⟩ := getElem?_of_mem_records (mem_mrecords.1 h1)
  obtain ⟨q, e1, hq, he1⟩ := getElem?_of_mem_records (mem_mrecords.1 h2)
  have hk : e.key = e1.key := by
    rw [(Prod.mk.inj he).1, (Prod.mk.inj he1).1]
  have := nodup_positions hI.nodup hp hq hk
  subst this
  rw [hp] at hq
  have hee : e = e1 := Option.some.inj (Option.some.inj hq)
  rw [← (Prod.mk.inj he).2, ← (Prod.mk.inj he1).2, hee]

/-- The common core of `Insert`, `Emplace` and `TryEmplace` when the key is
present: `pLocate` designates the bucket of the existing record. -/
theorem locate_present (env : Env M K) (t : PerrohtImpl M K V) (hI : InvCore env t)
    {k : K} {v : V} (h : (k, v) ∈ mrecords t.table_) :
    (pLocate env t k).2 = true ∧
    deref t (Iterator t (pLocate env t k).1) = some (k, v) ∧
    (∃ d1, t.table_[(pLocate env t k).1]? = some (some ⟨d1, k, v⟩)) := by
  obtain ⟨h1, d1, h2⟩ := locate_record env t hI (k, v) h
  exact ⟨h1, (deref_Iterator t hI.len_eq h2).1, d1, h2⟩

/-- The common core of `Insert`, `Emplace` and `TryEmplace` when the key is
absent. -/
theorem pInsert_public (env : Env M K) (t : PerrohtImpl M K V) (hI : Inv env t)
    (data : K × V) (hint : Option Nat)
    (habs : (pLocate env t data.1).2 = false)
    (hhint : hint = none ∨ hint = some (pLocate env t data.1).1) :
    ∃ t1 pos, pInsert env (insertDepth (Size t + 1)) t true data hint = some (t1, pos) ∧
      Inv env t1 ∧
      t1.max_load_factor_ = t.max_load_factor_ ∧
      t1.size_ = t.size_ + 1 ∧
      mrecords t1.table_ = data ::ₘ mrecords t.table_ ∧
      Capacity t ≤ Capacity t1 ∧
      deref t1 (Iterator t1 pos) = some data ∧
      (∃ d1, t1.table_[pos]? = some (some ⟨d1, data.1, data.2⟩)) := by
  have habs1 : data.1 ∉ (records t.table_).map Prod.fst := by
    intro hmem
    have := (pLocate_true_iff env t hI.core.len_eq hI.core.dist_ok hI.core.ord_ok
      hI.core.nodup data.1).2 hmem
    rw [habs] at this
    exact absurd this (by simp)
  obtain ⟨t1, pos, h1, h2, h3, h4, h5, h6, h7, h8⟩ :=
    pInsert_spec env (insertDepth (Size t + 1)) t true data hint (t.size_ + 1) hI.core habs1
      (le_refl _)
      (by
        rcases hhint with h | h
        · exact Or.inl h
        · exact Or.inr ⟨h, habs⟩)
      (fun h => absurd h (by simp))
      (by unfold insertDepth Size; simp only [if_true]; omega)
  obtain ⟨d1, hd1⟩ := h7
  refine ⟨t1, pos, h1, ⟨h2, ?_⟩, h3, h4, h5, h6, ?_, ⟨d1, hd1⟩⟩
  · rw [h4, h3]; exact h8 rfl
  · exact (deref_Iterator t1 h2.len_eq hd1).1

theorem Insert_absent (env : Env M K) (t : PerrohtImpl M K V) (hI : Inv env t)
    (data : K × V) (habs : (pLocate env t data.1).2 = false) :
    ∃ t1 it, Insert env t data = some (t1, it, true) ∧ Inv env t1 ∧
      t1.max_load_factor_ = t.max_load_factor_ ∧
      t1.size_ = t.size_ + 1 ∧
      mrecords t1.table_ = data ::ₘ mrecords t.table_ ∧
      Capacity t ≤ Capacity t1 ∧
      deref t1 it = some data := by
  obtain ⟨t1, pos, h1, h2, h3, h4, h5, h6, h7, _⟩ :=
    pInsert_public env t hI data (some (pLocate env t data.1).1) habs (Or.inr rfl)
  refine ⟨t1, Iterator t1 pos, ?_, h2, h3, h4, h5, h6, h7⟩
  unfold Insert
  simp only [habs, Bool.false_eq_true, if_false, h1, Option.map_some']

theorem Insert_present (env : Env M K) (t : PerrohtImpl M K V) (data : K × V)
    (h : (pLocate env t data.1).2 = true) :
    Insert env t data = some (t, Iterator t (pLocate env t data.1).1, false) := by
  unfold Insert
  simp only [h, if_true]

theorem Emplace_absent (env : Env M K) (t : PerrohtImpl M K V) (hI : Inv env t)
    (key : K) (val : V) (habs : (pLocate env t key).2 = false) :
    ∃ t1 it, Emplace env t key val = some (t1, it, true) ∧ Inv env t1 ∧
      t1.max_load_factor_ = t.max_load_factor_ ∧
      t1.size_ = t.size_ + 1 ∧
      mrecords t1.table_ = (key, val) ::ₘ mrecords t.table_ ∧
      Capacity t ≤ Capacity t1 ∧
      deref t1 it = some (key, val) := by
  obtain ⟨t1, pos, h1, h2, h3, h4, h5, h6, h7, _⟩ :=
    pInsert_public env t hI (key, val) none habs (Or.inl rfl)
  refine ⟨t1, Iterator t1 pos, ?_, h2, h3, h4, h5, h6, h7⟩
  unfold Emplace
  simp only [habs, Bool.false_eq_true, if_false, h1, Option.map_some']

theorem Emplace_present (env : Env M K) (t : PerrohtImpl M K V) (key : K) (val : V)
    (h : (pLocate env t key).2 = true) :
    Emplace env t key val = some (t, Iterator t (pLocate env t key).1, false) := by
  unfold Emplace
  simp only [h, if_true]

theorem TryEmplace_absent (env : Env M K) (t : PerrohtImpl M K V) (hI : Inv env t)
    (key : K) (val : V) (habs : (pLocate env t key).2 = false) :
    ∃ t1 it, TryEmplace env t key val = some (t1, it, true) ∧ Inv env t1 ∧
      t1.max_load_factor_ = t.max_load_factor_ ∧
      t1.size_ = t.size_ + 1 ∧
      mrecords t1.table_ = (key, val) ::ₘ mrecords t.table_ ∧
      Capacity t ≤ Capacity t1 ∧
      deref t1 it = some (key, val) := by
  obtain ⟨t1, pos, h1, h2, h3, h4, h5, h6, h7, _⟩ :=
    pInsert_public env t hI (key, val) (some (pLocate env t key).1) habs (Or.inr rfl)
  refine ⟨t1, Iterator t1 pos, ?_, h2, h3, h4, h5, h6, h7⟩
  unfold TryEmplace
  simp only [habs, Bool.false_eq_true, if_false, h1, Option.map_some']

theorem TryEmplace_present (env : Env M K) (t : PerrohtImpl M K V) (key : K) (val : V)
    (h : (pLocate env t key).2 = true) :
    TryEmplace env t key val = some (t, Iterator t (pLocate env t key).1, false) := by
  unfold TryEmplace
  simp only [h, if_true]

theorem Erase_absent (env : Env M K) (t : PerrohtImpl M K V) (key : K)
    (h : (pLocate env t key).2 = false) : Erase env t key = some (t, 0) := by
  unfold Erase pEraseSingle
  simp [h]

theorem Erase_present (env : Env M K) (hm : env.moved_from_readable = true)
    (t : PerrohtImpl M K V) (hI : Inv env t) (key : K)
    (h : (pLocate env t key).2 = true) :
    ∃ t1 v, Erase env t key = some (t1, 1) ∧ Inv env t1 ∧
      t1.capacity_index_ = t.capacity_index_ ∧
      t1.max_load_factor_ = t.max_load_factor_ ∧
      t1.size_ + 1 = t.size_ ∧
      (key, v) ::ₘ mrecords t1.table_ = mrecords t.table_ := by
  obtain ⟨e, he, hk⟩ := pLocate_sound env t key (pLocate env t key).1 (by rw [← h])
  obtain ⟨t1, h1, h2, h3, h4, h5, h6⟩ := pEraseSingleAt_spec env hm t hI.core he
  refine ⟨t1, e.val, ?_, ⟨h2, ?_⟩, h3, h4, h5, by rw [← hk]; exact h6⟩
  · unfold Erase pEraseSingle
    simp [h, h1]
  · rw [h4, Capacity_congr h3]
    have := hI.load
    calc t1.size_ * t.max_load_factor_.den ≤ t.size_ * t.max_load_factor_.den :=
          Nat.mul_le_mul_right _ (by omega)
      _ ≤ Capacity t * t.max_load_factor_.num := this

/-- `Erase` of a present key, whenever it returns. -/
theorem Erase_present_returned (env : Env M K) (t : PerrohtImpl M K V) (hI : Inv env t)
    (key : K) (h : (pLocate env t key).2 = true) (r : PerrohtImpl M K V × Nat)
    (hr : Erase env t key = some r) :
    r.2 = 1 ∧ ∃ v, Inv env r.1 ∧
      r.1.capacity_index_ = t.capacity_index_ ∧
      r.1.max_load_factor_ = t.max_load_factor_ ∧
      r.1.size_ + 1 = t.size_ ∧
      (key, v) ::ₘ mrecords r.1.table_ = mrecords t.table_ := by
  obtain ⟨e, he, hk⟩ := pLocate_sound env t key (pLocate env t key).1 (by rw [← h])
  unfold Erase pEraseSingle at hr
  simp only [h, if_true, Option.map_map, Option.map_eq_some', Function.comp_apply] at hr
  obtain ⟨t1, h1, rfl⟩ := hr
  obtain ⟨h2, h3, h4, h5, h6⟩ := pEraseSingleAt_returned env t hI.core he t1 h1
  refine ⟨rfl, e.val, ⟨h2, ?_⟩, h3, h4, h5, by rw [← hk]; exact h6⟩
  show t1.size_ * t1.max_load_factor_.den ≤ Capacity t1 * t1.max_load_factor_.num
  rw [h4, Capacity_congr h3]
  have := hI.load
  calc t1.size_ * t.max_load_factor_.den ≤ t.size_ * t.max_load_factor_.den :=
        Nat.mul_le_mul_right _ (by omega)
    _ ≤ Capacity t * t.max_load_factor_.num := this

theorem Capacity_policy (t : PerrohtImpl M K V) : Capacity t = 0 ∨ ∃ a, Capacity t = 2 ^ a := by
  rcases Nat.eq_zero_or_pos (Capacity t) with h0 | h0
  · exact Or.inl h0
  · exact Or.inr (Capacity_pow2 t h0)

theorem Reserve_spec (env : Env M K) (t : PerrohtImpl M K V) (hI : Inv env t)
    (capacity : Nat) :
    ∃ t1, Reserve env t capacity = some t1 ∧ Inv env t1 ∧
      t1.max_load_factor_ = t.max_load_factor_ ∧
      t1.size_ = t.size_ ∧
      mrecords t1.table_ = mrecords t.table_ ∧
      Capacity t ≤ Capacity t1 ∧
      (capacity ≤ AdjustCapacity capacity → capacity ≤ Capacity t1) ∧
      (capacity ≤ Capacity t → t1 = t) := by
  obtain ⟨t1, h1, h2, h3, h4, h5, h6, h7, h8, _⟩ :=
    ReserveWith_spec env _ t.size_ 0
      (InsSpec_pInsert env (insertDepth (Size t)) t.size_ 0 false
        (by unfold insertDepth Size; simp))
      t capacity hI.core (le_refl _)
      (fun hlt => by
        have := AdjustCapacity_ge_capacity (Capacity_policy t) hlt
        have := hI.core.size_le
        exact ⟨by omega, Nat.zero_le _⟩)
  refine ⟨t1, h1, ⟨h2, ?_⟩, h3, h4, h5, h6, h7, h8⟩
  rw [h4, h3]
  exact le_trans hI.load (Nat.mul_le_mul_right _ h6)

theorem ceil_div_mul_ge (x num : Nat) (h : 0 < num) : x ≤ (x + num - 1) / num * num := by
  have h1 := Nat.lt_mul_div_succ (x + num - 1) h
  rw [Nat.mul_add, Nat.mul_one, Nat.mul_comm] at h1
  omega

/-- The insertion with capacity check, as the transfer of `Rehash` uses it. -/
theorem InsGrowSpec_pInsert (env : Env M K) (depth N : Nat) (h : 8 * N + 1 < depth) :
    InsGrowSpec env (fun (t0 : PerrohtImpl M K V) (d : K × V) =>
      (pInsert env depth t0 true d none).map Prod.fst) N := by
  intro t0 d hI0 hsz habs0
  obtain ⟨t1, pos, h1, h2, h3, h4, h5, h6, _, h8⟩ :=
    pInsert_spec env depth t0 true d none N hI0 habs0 (by omega) (Or.inl rfl)
      (fun hc => by cases hc) (by simp only [if_true]; omega)
  refine ⟨t1, by simp only [h1, Option.map_some'], h2, h3, h5, h6, ?_⟩
  rw [h4, h3]
  exact h8 rfl

theorem Rehash_spec (env : Env M K) (t : PerrohtImpl M K V) (hI : InvCore env t)
    (capacity_request : Nat) :
    ∃ t1, Rehash env t capacity_request = some t1 ∧ Inv env t1 ∧
      t1.max_load_factor_ = t.max_load_factor_ ∧
      t1.size_ = t.size_ ∧
      mrecords t1.table_ = mrecords t.table_ ∧
      AdjustCapacity (max capacity_request (pGetRequiredCapacity t (Size t))) ≤ Capacity t1 := by
  have hnew : AdjustCapacity (max capacity_request (pGetRequiredCapacity t (Size t))) = 0 ∨
      ∃ j, AdjustCapacity (max capacity_request (pGetRequiredCapacity t (Size t))) = 2 ^ j := by
    rcases Nat.eq_zero_or_pos (max capacity_request (pGetRequiredCapacity t (Size t))) with h | h
    · left; rw [h]; rfl
    · obtain ⟨j, hj, _⟩ := AdjustCapacity_spec h
      exact Or.inr ⟨j, hj⟩
  obtain ⟨t1, h1, h2, h3, h4, h5, h6, h7⟩ :=
    pTransferEntriesTo_grow_spec env _ t.size_
      (InsGrowSpec_pInsert env (insertDepth (Size t)) t.size_
        (by unfold insertDepth Size; omega))
      t _ hI (le_refl _) hnew
  exact ⟨t1, h1, ⟨h2, h7⟩, h3, h4, h5, h6⟩

theorem ShrinkToFit_spec (env : Env M K) (t : PerrohtImpl M K V) (hI : InvCore env t) :
    ∃ t1, ShrinkToFit env t = some t1 ∧ Inv env t1 ∧
      t1.max_load_factor_ = t.max_load_factor_ ∧
      t1.size_ = t.size_ ∧
      mrecords t1.table_ = mrecords t.table_ :=
  let ⟨t1, h1, h2, h3, h4, h5, _⟩ := Rehash_spec env t hI (Size t)
  ⟨t1, h1, h2, h3, h4, h5⟩

end PublicOps

end Perroht

namespace Perroht

open PowerOfTwoCapacity

section MoreOps

variable {M K V : Type} [DecidableEq K]

/-! ## `Clear` -/

theorem pClearAt_table (t : PerrohtImpl M K V) (i : Nat) :
    (pClearAt t i).table_ = t.table_.set i none ∧
    (pClearAt t i).capacity_index_ = t.capacity_index_ ∧
    (pClearAt t i).max_load_factor_ = t.max_load_factor_ := by
  unfold pClearAt
  cases hb : pGetBucket t i with
  | some e => exact ⟨rfl, rfl, rfl⟩
  | none =>
    refine ⟨?_, rfl, rfl⟩
    simp only
    by_cases hi : i < t.table_.length
    · exact (set_none_of_none ((pGetBucket_none_iff t i hi).1 hb)).symm
    · exact (List.set_eq_of_length_le (by omega)).symm

theorem pClearAllLoop_spec :
    ∀ (n i : Nat) (t : PerrohtImpl M K V),
      (pClearAllLoop n i t).capacity_index_ = t.capacity_index_ ∧
      (pClearAllLoop n i t).max_load_factor_ = t.max_load_factor_ ∧
      (pClearAllLoop n i t).table_.length = t.table_.length ∧
      ∀ q, (pClearAllLoop n i t).table_[q]? =
        if i ≤ q ∧ q < i + n ∧ q < t.table_.length then some none else t.table_[q]? := by
  intro n
  induction n with
  | zero =>
    intro i t
    refine ⟨rfl, rfl, rfl, ?_⟩
    intro q
    rw [if_neg (by omega)]
    rfl
  | succ n ih =>
    intro i t
    obtain ⟨h1, h2, h3⟩ := pClearAt_table t i
    obtain ⟨g1, g2, g3, g4⟩ := ih (i + 1) (pClearAt t i)
    unfold pClearAllLoop
    refine ⟨by rw [g1, h2], by rw [g2, h3], by rw [g3, h1, List.length_set], ?_⟩
    intro q
    rw [g4 q, h1, List.length_set, List.getElem?_set]
    by_cases hq : i = q
    · subst hq
      by_cases hl : i < t.table_.length
      · rw [if_neg (by omega), if_pos rfl, if_pos hl, if_pos (by omega)]
      · rw [if_neg (by omega), if_pos rfl, if_neg hl, if_neg (by omega)]
        exact (List.getElem?_eq_none (by omega)).symm
    · rw [if_neg hq]
      by_cases hc : i + 1 ≤ q ∧ q < i + 1 + n ∧ q < t.table_.length
      · rw [if_pos hc, if_pos (by omega)]
      · rw [if_neg hc, if_neg (by omega)]

theorem Clear_spec (env : Env M K) (t : PerrohtImpl M K V) (hI : InvCore env t) :
    Inv env (Clear env t) ∧
    (Clear env t).max_load_factor_ = t.max_load_factor_ ∧
    (Clear env t).capacity_index_ = t.capacity_index_ ∧
    (Clear env t).size_ = 0 ∧
    (Clear env t).table_ = List.replicate (Capacity t) none ∧
    mrecords (Clear env t).table_ = 0 := by
  obtain ⟨g1, g2, g3, g4⟩ := pClearAllLoop_spec (Capacity t) 0 t
  have htab : (Clear env t).table_ = List.replicate (Capacity t) none := by
    show (pClearAllLoop (Capacity t) 0 t).table_ = _
    apply List.ext_getElem?
    intro q
    rw [g4 q, List.getElem?_replicate, hI.len_eq]
    by_cases hq : q < Capacity t
    · rw [if_pos (by omega), if_pos hq]
    · rw [if_neg (by omega), if_neg hq]
      exact List.getElem?_eq_none (by rw [hI.len_eq]; omega)
  have hcap : Capacity (Clear env t) = Capacity t := Capacity_congr g1
  have hcore : InvCore env (Clear env t) :=
    InvCore_fresh env _ (Capacity t) htab hcap rfl
      (by show 0 < (pClearAllLoop (Capacity t) 0 t).max_load_factor_.num
          rw [g2]; exact hI.mlf_pos)
      (by show (pClearAllLoop (Capacity t) 0 t).max_load_factor_.num ≤
            (pClearAllLoop (Capacity t) 0 t).max_load_factor_.den
          rw [g2]; exact hI.mlf_le)
  refine ⟨⟨hcore, ?_⟩, g2, g1, rfl, htab, ?_⟩
  · show 0 * _ ≤ _
    rw [Nat.zero_mul]
    exact Nat.zero_le _
  · rw [htab]
    unfold mrecords
    rw [records_replicate_none]
    rfl

/-! ## `MaxLoadFactor` (setter) -/

theorem pCleanseMaxLoadFactor_spec (x : LoadFactorValue) :
    0 < (pCleanseMaxLoadFactor x).num ∧
    (pCleanseMaxLoadFactor x).num ≤ (pCleanseMaxLoadFactor x).den := by
  unfold pCleanseMaxLoadFactor LoadFactorValue.lt
  simp only [decide_eq_true_eq, Nat.one_mul, Nat.mul_one]
  by_cases h1 : x.den < x.num
  · rw [if_pos h1]
    simp
  · rw [if_neg h1]
    by_cases h2 : 100 * x.den < x.num * 2 ^ 23
    · rw [if_pos h2]
      constructor
      · by_contra h
        have : x.num = 0 := by omega
        rw [this] at h2
        omega
      · omega
    · rw [if_neg h2]
      simp

theorem load_of_not_lt {s c n d n1 d1 : Nat} (hd : 0 < d)
    (h : s * d ≤ c * n) (hnl : ¬ n1 * d < n * d1) : s * d1 ≤ c * n1 := by
  have h1 : n * d1 ≤ n1 * d := Nat.le_of_not_lt hnl
  have h2 : s * d1 * d ≤ c * n1 * d := by
    calc s * d1 * d = s * d * d1 := by ring
      _ ≤ c * n * d1 := Nat.mul_le_mul_right _ h
      _ = c * (n * d1) := by ring
      _ ≤ c * (n1 * d) := Nat.mul_le_mul_left _ h1
      _ = c * n1 * d := by ring
  exact Nat.le_of_mul_le_mul_right h2 hd

theorem SetMaxLoadFactor_spec (env : Env M K) (t : PerrohtImpl M K V) (hI : Inv env t)
    (x : LoadFactorValue) :
    ∃ t1, SetMaxLoadFactor env t x = some t1 ∧ Inv env t1 ∧
      t1.max_load_factor_ = pCleanseMaxLoadFactor x ∧
      t1.size_ = t.size_ ∧
      mrecords t1.table_ = mrecords t.table_ := by
  obtain ⟨c1, c2⟩ := pCleanseMaxLoadFactor_spec x
  have hcore : InvCore env ({ t with max_load_factor_ := pCleanseMaxLoadFactor x } :
      PerrohtImpl M K V) :=
    ⟨hI.core.len_eq, hI.core.size_eq, c1, c2, hI.core.dist_ok, hI.core.ord_ok, hI.core.nodup,
      hI.core.cut⟩
  unfold SetMaxLoadFactor
  simp only
  by_cases hlt : (pCleanseMaxLoadFactor x).lt (MaxLoadFactor t) = true
  · rw [if_pos hlt]
    obtain ⟨t1, h1, h2, h3, h4, h5, _⟩ := Rehash_spec env _ hcore
      (Capacity ({ t with max_load_factor_ := pCleanseMaxLoadFactor x } : PerrohtImpl M K V))
    exact ⟨t1, h1, h2, h3, h4, h5⟩
  · rw [if_neg hlt]
    refine ⟨_, rfl, ⟨hcore, ?_⟩, rfl, rfl, rfl⟩
    unfold LoadFactorValue.lt MaxLoadFactor at hlt
    simp only [decide_eq_true_eq] at hlt
    have hd : 0 < t.max_load_factor_.den := lt_of_lt_of_le hI.core.mlf_pos hI.core.mlf_le
    exact load_of_not_lt hd hI.load hlt

/-! ## Copy construction -/

theorem pCopyLoop_spec (other : PerrohtImpl M K V) :
    ∀ (n i : Nat) (t : PerrohtImpl M K V),
      i + n = other.table_.length →
      t.table_ = other.table_.take i ++ List.replicate n none →
      t.size_ = (records (other.table_.take i)).length →
      (pCopyLoop other n i t).table_ = other.table_ ∧
      (pCopyLoop other n i t).size_ = (records other.table_).length ∧
      (pCopyLoop other n i t).capacity_index_ = t.capacity_index_ ∧
      (pCopyLoop other n i t).max_load_factor_ = t.max_load_factor_ ∧
      (pCopyLoop other n i t).mean_probe_distance_ = t.mean_probe_distance_ := by
  intro n
  induction n with
  | zero =>
    intro i t hi htab hsize
    have : other.table_.take i = other.table_ := List.take_of_length_le (by omega)
    rw [this] at htab hsize
    refine ⟨?_, hsize, rfl, rfl, rfl⟩
    show t.table_ = _
    rw [htab]; simp
  | succ n ih =>
    intro i t hi htab hsize
    have hilt : i < other.table_.length := by omega
    have htl : (other.table_.take i).length = i := by
      rw [List.length_take]; omega
    have htake : other.table_.take (i + 1) = other.table_.take i ++ [other.table_[i]] := by
      rw [List.take_succ, List.getElem?_eq_getElem hilt]; rfl
    unfold pCopyLoop
    cases hb : pGetBucket other i with
    | none =>
      have hbn := (pGetBucket_none_iff other i hilt).1 hb
      have hb0 : other.table_[i] = none := by
        rw [List.getElem?_eq_getElem hilt] at hbn
        exact Option.some.inj hbn
      simp only
      apply ih (i + 1) t (by omega)
      · rw [htab, htake, hb0, List.replicate_succ]; simp
      · rw [hsize, htake, hb0]
        simp [records]
    | some e =>
      have hbe := (pGetBucket_some_iff other i e).1 hb
      have hb0 : other.table_[i] = some e := by
        rw [List.getElem?_eq_getElem hilt] at hbe
        exact Option.some.inj hbe
      simp only
      obtain ⟨g1, g2, g3, g4, g5⟩ := ih (i + 1)
        { t with table_ := t.table_.set i (some e), size_ := t.size_ + 1 } (by omega)
        (by
          show t.table_.set i (some e) = _
          rw [htab, htake, hb0, List.replicate_succ,
            List.set_append_right i (some e) (by omega), htl]
          simp)
        (by
          show t.size_ + 1 = _
          rw [hsize, htake, hb0]
          simp [records])
      exact ⟨g1, g2, g3, g4, g5⟩

theorem copyConstruct_eq (env : Env M K) (t : PerrohtImpl M K V) (hI : InvCore env t) :
    copyConstruct t = t := by
  obtain ⟨g1, g2, g3, g4, g5⟩ := pCopyLoop_spec t (Capacity t) 0
    { max_load_factor_ := t.max_load_factor_
      mean_probe_distance_ := t.mean_probe_distance_
      size_ := 0
      capacity_index_ := t.capacity_index_
      table_ := pAllocateTable (Capacity t) }
    (by rw [hI.len_eq]; omega)
    (by simp [pAllocateTable])
    (by simp [records])
  unfold copyConstruct
  cases t with
  | mk a b c d e =>
    simp only at g1 g2 g3 g4 g5 ⊢
    have hs := hI.size_eq
    simp only at hs
    generalize pCopyLoop _ _ _ _ = r at g1 g2 g3 g4 g5 ⊢
    cases r with
    | mk a1 b1 c1 d1 e1 =>
      simp only at g1 g2 g3 g4 g5
      subst g1 g3 g4 g5
      rw [g2, ← hs]

end MoreOps

end Perroht

namespace Perroht

open PowerOfTwoCapacity

section Reach

variable {M K V : Type} [DecidableEq K]

/-! ## `Erase(Iterator)` and construction -/

theorem EraseIt_end (env : Env M K) (t : PerrohtImpl M K V) (it : BaseIterator)
    (h : iterEq t it (End t) = true) : EraseIt env t it = some (t, End t) := by
  unfold EraseIt
  rw [if_pos h]

theorem EraseIt_occupied (env : Env M K) (hm : env.moved_from_readable = true)
    (t : PerrohtImpl M K V) (hI : Inv env t)
    (it : BaseIterator) (h : iterEq t it (End t) = false) {e : Entry K V}
    (he : pGetBucket t it.Position = some e) :
    ∃ t1 it1, EraseIt env t it = some (t1, it1) ∧ Inv env t1 ∧
      t1.capacity_index_ = t.capacity_index_ ∧
      t1.max_load_factor_ = t.max_load_factor_ ∧
      t1.size_ + 1 = t.size_ ∧
      (e.key, e.val) ::ₘ mrecords t1.table_ = mrecords t.table_ := by
  obtain ⟨t1, h1, h2, h3, h4, h5, h6⟩ :=
    pEraseSingleAt_spec env hm t hI.core ((pGetBucket_some_iff t _ e).1 he)
  refine ⟨t1, eraseNextLoop t1 (Capacity t1) it.Position, ?_, ⟨h2, ?_⟩, h3, h4, h5, h6⟩
  · unfold EraseIt
    rw [if_neg (by rw [h]; simp), h1]
  · rw [h4, Capacity_congr h3]
    calc t1.size_ * t.max_load_factor_.den ≤ t.size_ * t.max_load_factor_.den :=
          Nat.mul_le_mul_right _ (by omega)
      _ ≤ Capacity t * t.max_load_factor_.num := hI.load

/-- `Erase(Iterator)` at an occupied bucket, whenever it returns. -/
theorem EraseIt_occupied_returned (env : Env M K) (t : PerrohtImpl M K V) (hI : Inv env t)
    (it : BaseIterator) (h : iterEq t it (End t) = false) {e : Entry K V}
    (he : pGetBucket t it.Position = some e) (r : PerrohtImpl M K V × BaseIterator)
    (hr : EraseIt env t it = some r) :
    Inv env r.1 ∧
      r.1.capacity_index_ = t.capacity_index_ ∧
      r.1.max_load_factor_ = t.max_load_factor_ ∧
      r.1.size_ + 1 = t.size_ ∧
      (e.key, e.val) ::ₘ mrecords r.1.table_ = mrecords t.table_ := by
  unfold EraseIt at hr
  rw [if_neg (by rw [h]; simp)] at hr
  cases h1 : pEraseSingleAt env t it.Position with
  | none => rw [h1] at hr; cases hr
  | some t1 =>
    rw [h1] at hr
    cases hr
    obtain ⟨h2, h3, h4, h5, h6⟩ :=
      pEraseSingleAt_returned env t hI.core ((pGetBucket_some_iff t _ e).1 he) t1 h1
    refine ⟨⟨h2, ?_⟩, h3, h4, h5, h6⟩
    show t1.size_ * t1.max_load_factor_.den ≤ Capacity t1 * t1.max_load_factor_.num
    rw [h4, Capacity_congr h3]
    calc t1.size_ * t.max_load_factor_.den ≤ t.size_ * t.max_load_factor_.den :=
          Nat.mul_le_mul_right _ (by omega)
      _ ≤ Capacity t * t.max_load_factor_.num := hI.load

theorem construct_spec (env : Env M K) (initial_capacity : Nat) (x : LoadFactorValue) :
    ∃ t0 : PerrohtImpl M K V, construct env initial_capacity x = some t0 ∧ Inv env t0 ∧
      t0.size_ = 0 ∧ mrecords t0.table_ = 0 ∧
      t0.max_load_factor_ = pCleanseMaxLoadFactor x ∧
      (initial_capacity ≤ AdjustCapacity initial_capacity → initial_capacity ≤ Capacity t0) := by
  obtain ⟨c1, c2⟩ := pCleanseMaxLoadFactor_spec x
  have hcore : InvCore env ({ (defaultTable env : PerrohtImpl M K V) with
      max_load_factor_ := pCleanseMaxLoadFactor x }) :=
    InvCore_fresh env _ 0 rfl rfl rfl c1 c2
  have hinv : Inv env ({ (defaultTable env : PerrohtImpl M K V) with
      max_load_factor_ := pCleanseMaxLoadFactor x }) :=
    ⟨hcore, by show 0 * _ ≤ _; rw [Nat.zero_mul]; exact Nat.zero_le _⟩
  obtain ⟨t1, h1, h2, h3, h4, h5, _, h7, _⟩ := Reserve_spec env _ hinv initial_capacity
  exact ⟨t1, h1, h2, h4, h5, h3, h7⟩

/-! ## The history of a table -/

theorem GhostRel_congr {t t1 : PerrohtImpl M K V} {g : Ghost K V}
    (h : mrecords t1.table_ = mrecords t.table_) (hg : GhostRel t g) : GhostRel t1 g := by
  intro k v
  rw [h]
  exact hg k v

theorem GhostRel_absent {t : PerrohtImpl M K V} {g : Ghost K V} (hg : GhostRel t g) {k : K}
    (h : k ∉ (mrecords t.table_).map Prod.fst) : g k = none := by
  cases hk : g k with
  | none => rfl
  | some v =>
    exfalso
    apply h
    exact Multiset.mem_map.2 ⟨(k, v), (hg k v).1 hk, rfl⟩

theorem GhostRel_insert {t t1 : PerrohtImpl M K V} {g : Ghost K V} {k : K} {v : V}
    (hg : GhostRel t g) (habs : k ∉ (mrecords t.table_).map Prod.fst)
    (h : mrecords t1.table_ = (k, v) ::ₘ mrecords t.table_) :
    GhostRel t1 (Function.update g k (some v)) := by
  intro k1 v1
  rw [h, Multiset.mem_cons]
  by_cases hk : k1 = k
  · subst hk
    rw [Function.update_same]
    constructor
    · intro hv
      left
      rw [Option.some.inj hv]
    · rintro (hv | hv)
      · rw [(Prod.mk.inj hv).2]
      · exact absurd (Multiset.mem_map.2 ⟨(k1, v1), hv, rfl⟩) habs
  · rw [Function.update_noteq hk]
    constructor
    · intro hv
      exact Or.inr ((hg k1 v1).1 hv)
    · rintro (hv | hv)
      · exact absurd (Prod.mk.inj hv).1 hk
      · exact (hg k1 v1).2 hv

theorem GhostRel_erase {env : Env M K} {t t1 : PerrohtImpl M K V} {g : Ghost K V} {k : K}
    {v : V} (hI : InvCore env t) (hg : GhostRel t g)
    (h : (k, v) ::ₘ mrecords t1.table_ = mrecords t.table_) :
    GhostRel t1 (Function.update g k none) := by
  have hnd := (nodup_keys_iff _).1 hI.nodup
  rw [← h] at hnd
  have hnot := not_mem_keys_of_nodup_cons hnd
  intro k1 v1
  by_cases hk : k1 = k
  · subst hk
    rw [Function.update_same]
    constructor
    · intro hv; exact absurd hv (by simp)
    · intro hv
      exact absurd (Multiset.mem_map.2 ⟨(k1, v1), hv, rfl⟩) hnot
  · rw [Function.update_noteq hk, hg k1 v1, ← h, Multiset.mem_cons]
    constructor
    · rintro (hv | hv)
      · exact absurd (Prod.mk.inj hv).1 hk
      · exact hv
    · intro hv; exact Or.inr hv

theorem GhostRel_erase_absent {t : PerrohtImpl M K V} {g : Ghost K V} {k : K}
    (hg : GhostRel t g) (habs : k ∉ (mrecords t.table_).map Prod.fst) :
    GhostRel t (Function.update g k none) := by
  have hk := GhostRel_absent hg habs
  intro k1 v1
  by_cases h : k1 = k
  · subst h
    rw [Function.update_same, ← hg k1 v1, hk]
  · rw [Function.update_noteq h]
    exact hg k1 v1

theorem not_Contains (env : Env M K) (t : PerrohtImpl M K V) (hI : InvCore env t) (k : K)
    (h : (pLocate env t k).2 = false) : k ∉ (mrecords t.table_).map Prod.fst := by
  rw [← Contains_iff env t hI]
  unfold Contains
  rw [h]
  simp

/-- Every public operation given a valid iterator succeeds, keeps the
invariant and keeps the history in step with the table; an erasure needs
every moved-from holder to be readable. -/
theorem applyOp_spec (env : Env M K) (t : PerrohtImpl M K V) (g : Ghost K V)
    (hI : Inv env t) (hg : GhostRel t g) (op : Op K V)
    (hs : env.moved_from_readable = true ∨ op.erases = false)
    (hv : ∀ it, op = Op.eraseIt it → validIt t it = true) :
    ∃ t1 g1, applyOp env (t, g) op = some (t1, g1) ∧ Inv env t1 ∧ GhostRel t1 g1 := by
  cases op with
  | insert key val =>
    cases hl : (pLocate env t key).2 with
    | true =>
      refine ⟨t, g, ?_, hI, hg⟩
      have := Insert_present env t (key, val) hl
      simp only [applyOp, this, Option.map_some', Bool.false_eq_true, if_false]
    | false =>
      obtain ⟨t1, it, h1, h2, _, _, h5, _, _⟩ := Insert_absent env t hI (key, val) hl
      refine ⟨t1, _, ?_, h2, GhostRel_insert hg (not_Contains env t hI.core key hl) h5⟩
      simp only [applyOp, h1, Option.map_some', if_true]
  | emplace key val =>
    cases hl : (pLocate env t key).2 with
    | true =>
      refine ⟨t, g, ?_, hI, hg⟩
      have := Emplace_present env t key val hl
      simp only [applyOp, this, Option.map_some', Bool.false_eq_true, if_false]
    | false =>
      obtain ⟨t1, it, h1, h2, _, _, h5, _, _⟩ := Emplace_absent env t hI key val hl
      refine ⟨t1, _, ?_, h2, GhostRel_insert hg (not_Contains env t hI.core key hl) h5⟩
      simp only [applyOp, h1, Option.map_some', if_true]
  | tryEmplace key val =>
    cases hl : (pLocate env t key).2 with
    | true =>
      refine ⟨t, g, ?_, hI, hg⟩
      have := TryEmplace_present env t key val hl
      simp only [applyOp, this, Option.map_some', Bool.false_eq_true, if_false]
    | false =>
      obtain ⟨t1, it, h1, h2, _, _, h5, _, _⟩ := TryEmplace_absent env t hI key val hl
      refine ⟨t1, _, ?_, h2, GhostRel_insert hg (not_Contains env t hI.core key hl) h5⟩
      simp only [applyOp, h1, Option.map_some', if_true]
  | erase key =>
    have hm : env.moved_from_readable = true := by
      rcases hs with h | h
      · exact h
      · cases h
    cases hl : (pLocate env t key).2 with
    | true =>
      obtain ⟨t1, v, h1, h2, _, _, _, h6⟩ := Erase_present env hm t hI key hl
      refine ⟨t1, _, ?_, h2, GhostRel_erase hI.core hg h6⟩
      simp only [applyOp, h1, Option.map_some']
    | false =>
      refine ⟨t, _, ?_, hI, GhostRel_erase_absent hg (not_Contains env t hI.core key hl)⟩
      simp only [applyOp, Erase_absent env t key hl, Option.map_some']
  | eraseIt it =>
    have hm : env.moved_from_readable = true := by
      rcases hs with h | h
      · exact h
      · cases h
    have hval := hv it rfl
    cases hend : iterEq t it (End t) with
    | true =>
      refine ⟨t, g, ?_, hI, hg⟩
      simp only [applyOp, hval, if_true, EraseIt_end env t it hend, Option.map_some', hend]
    | false =>
      unfold validIt at hval
      rw [hend, Bool.false_or, Option.isSome_iff_exists] at hval
      obtain ⟨e, he⟩ := hval
      obtain ⟨t1, it1, h1, h2, _, _, _, h6⟩ := EraseIt_occupied env hm t hI it hend he
      refine ⟨t1, _, ?_, h2, GhostRel_erase hI.core hg h6⟩
      have hval2 : validIt t it = true := hv it rfl
      simp only [applyOp, hval2, if_true, h1, Option.map_some', hend, Bool.false_eq_true,
        if_false, he]
  | clear =>
    obtain ⟨h1, _, _, _, _, h6⟩ := Clear_spec env t hI.core
    refine ⟨Clear env t, fun _ => none, rfl, h1, ?_⟩
    intro k v
    rw [h6]
    simp
  | reserve capacity =>
    obtain ⟨t1, h1, h2, _, _, h5, _⟩ := Reserve_spec env t hI capacity
    refine ⟨t1, g, ?_, h2, GhostRel_congr h5 hg⟩
    simp only [applyOp, h1, Option.map_some']
  | rehash capacity_request =>
    obtain ⟨t1, h1, h2, _, _, h5, _⟩ := Rehash_spec env t hI.core capacity_request
    refine ⟨t1, g, ?_, h2, GhostRel_congr h5 hg⟩
    simp only [applyOp, h1, Option.map_some']
  | shrinkToFit =>
    obtain ⟨t1, h1, h2, _, _, h5⟩ := ShrinkToFit_spec env t hI.core
    refine ⟨t1, g, ?_, h2, GhostRel_congr h5 hg⟩
    simp only [applyOp, h1, Option.map_some']
  | setMaxLoadFactor x =>
    obtain ⟨t1, h1, h2, _, _, h5⟩ := SetMaxLoadFactor_spec env t hI x
    refine ⟨t1, g, ?_, h2, GhostRel_congr h5 hg⟩
    simp only [applyOp, h1, Option.map_some']
  | copy =>
    refine ⟨copyConstruct t, g, rfl, ?_, ?_⟩
    · rw [copyConstruct_eq env t hI.core]; exact hI
    · rw [copyConstruct_eq env t hI.core]; exact hg

/-- Whatever a public operation returns keeps the invariant and the history,
also when a moved-from holder is not readable. -/
theorem applyOp_inv (env : Env M K) (t : PerrohtImpl M K V) (g : Ghost K V)
    (hI : Inv env t) (hg : GhostRel t g) (op : Op K V) {s1 : PerrohtImpl M K V × Ghost K V}
    (h : applyOp env (t, g) op = some s1) : Inv env s1.1 ∧ GhostRel s1.1 s1.2 := by
  have hv : ∀ it, op = Op.eraseIt it → validIt t it = true := by
    intro it hop
    subst hop
    by_contra hval
    simp [applyOp, hval] at h
  cases hop : op.erases with
  | false =>
    obtain ⟨t1, g1, h1, h2, h3⟩ := applyOp_spec env t g hI hg op (Or.inr hop) hv
    rw [h1] at h
    cases h
    exact ⟨h2, h3⟩
  | true =>
    cases op with
    | erase key =>
      cases hl : (pLocate env t key).2 with
      | true =>
        simp only [applyOp, Option.map_eq_some'] at h
        obtain ⟨r, hr, rfl⟩ := h
        obtain ⟨_, v, h2, _, _, _, h6⟩ := Erase_present_returned env t hI key hl r hr
        exact ⟨h2, GhostRel_erase hI.core hg h6⟩
      | false =>
        simp only [applyOp, Erase_absent env t key hl, Option.map_some',
          Option.some.injEq] at h
        subst h
        exact ⟨hI, GhostRel_erase_absent hg (not_Contains env t hI.core key hl)⟩
    | eraseIt it =>
      have hval := hv it rfl
      cases hend : iterEq t it (End t) with
      | true =>
        simp only [applyOp, hval, if_true, EraseIt_end env t it hend, Option.map_some', hend,
          Option.some.injEq] at h
        subst h
        exact ⟨hI, hg⟩
      | false =>
        have hval2 := hval
        unfold validIt at hval2
        rw [hend, Bool.false_or, Option.isSome_iff_exists] at hval2
        obtain ⟨e, he⟩ := hval2
        simp only [applyOp, hval, if_true, Option.map_eq_some', hend, Bool.false_eq_true,
          if_false, he] at h
        obtain ⟨r, hr, rfl⟩ := h
        obtain ⟨h2, _, _, _, h6⟩ := EraseIt_occupied_returned env t hI it hend he r hr
        exact ⟨h2, GhostRel_erase hI.core hg h6⟩
    | insert _ _ => cases hop
    | emplace _ _ => cases hop
    | tryEmplace _ _ => cases hop
    | clear => cases hop
    | reserve _ => cases hop
    | rehash _ => cases hop
    | shrinkToFit => cases hop
    | setMaxLoadFactor _ => cases hop
    | copy => cases hop

theorem run_inv (env : Env M K) :
    ∀ (ops : List (Op K V)) (t : PerrohtImpl M K V) (g : Ghost K V),
      Inv env t → GhostRel t g →
      ∀ {s1 : PerrohtImpl M K V × Ghost K V}, run env ops (t, g) = some s1 →
        Inv env s1.1 ∧ GhostRel s1.1 s1.2 := by
  intro ops
  induction ops with
  | nil =>
    intro t g hI hg s1 h
    simp only [run, Option.some.injEq] at h
    subst h
    exact ⟨hI, hg⟩
  | cons op ops ih =>
    intro t g hI hg s1 h
    unfold run at h
    cases ha : applyOp env (t, g) op with
    | none => rw [ha] at h; simp at h
    | some s =>
      rw [ha] at h
      simp only at h
      obtain ⟨h1, h2⟩ := applyOp_inv env t g hI hg op ha
      exact ih s.1 s.2 h1 h2 h

/-- A workload without iterator erasure never fails, provided every
moved-from holder is readable or the workload erases nothing. -/
theorem run_total (env : Env M K) :
    ∀ (ops : List (Op K V)) (t : PerrohtImpl M K V) (g : Ghost K V),
      Inv env t → GhostRel t g →
      (env.moved_from_readable = true ∨ ∀ op ∈ ops, op.erases = false) →
      (∀ op ∈ ops, ∀ it, op ≠ Op.eraseIt it) →
      ∃ t1 g1, run env ops (t, g) = some (t1, g1) := by
  intro ops
  induction ops with
  | nil => intro t g _ _ _ _; exact ⟨t, g, rfl⟩
  | cons op ops ih =>
    intro t g hI hg hs hops
    obtain ⟨t1, g1, h1, h2, h3⟩ := applyOp_spec env t g hI hg op
      (hs.imp id (fun h => h op (List.mem_cons_self _ _)))
      (fun it hop => absurd hop (hops op (List.mem_cons_self _ _) it))
    obtain ⟨t2, g2, h4⟩ := ih t1 g1 h2 h3
      (hs.imp id (fun h o ho => h o (List.mem_cons_of_mem _ ho)))
      (fun o ho => hops o (List.mem_cons_of_mem _ ho))
    refine ⟨t2, g2, ?_⟩
    unfold run
    rw [h1]
    exact h4

/-- Running two workloads one after the other. -/
theorem run_append (env : Env M K) :
    ∀ (ops1 ops2 : List (Op K V)) (s : PerrohtImpl M K V × Ghost K V),
      run env (ops1 ++ ops2) s = (run env ops1 s).bind (run env ops2) := by
  intro ops1
  induction ops1 with
  | nil => intro ops2 s; rfl
  | cons op ops ih =>
    intro ops2 s
    have h1 : run env (op :: ops ++ ops2) s =
        (applyOp env s op).bind (run env (ops ++ ops2)) := by
      show run env (op :: (ops ++ ops2)) s = _
      rw [run]
      cases applyOp env s op <;> rfl
    have h2 : run env (op :: ops) s = (applyOp env s op).bind (run env ops) := by
      rw [run]
      cases applyOp env s op <;> rfl
    rw [h1, h2]
    cases applyOp env s op with
    | none => rfl
    | some s1 => exact ih ops2 s1

theorem GhostRel_empty {t : PerrohtImpl M K V} (h : mrecords t.table_ = 0) :
    GhostRel t (fun _ => none) := by
  intro k v
  rw [h]
  simp

theorem Reachable.inv {env : Env M K} {t : PerrohtImpl M K V} (h : Reachable env t) :
    Inv env t := by
  obtain ⟨c, x, t0, ops, g, h1, h2⟩ := h
  obtain ⟨t0', g1, g2, _, g4, _, _⟩ := @construct_spec M K V _ env c x
  rw [h1] at g1
  cases g1
  exact (run_inv env ops t0 _ g2 (GhostRel_empty g4) h2).1

end Reach

end Perroht

namespace Perroht

open PowerOfTwoCapacity

section Iteration

variable {M K V : Type} [DecidableEq K]

/-! ## Iteration -/

theorem iterScan_spec (t : PerrohtImpl M K V) :
    ∀ fuel o, o + fuel = Capacity t →
      o ≤ iterScan t 0 fuel o ∧ iterScan t 0 fuel o ≤ Capacity t ∧
      (iterScan t 0 fuel o < Capacity t →
        (pGetBucket t (iterScan t 0 fuel o)).isSome = true) ∧
      (List.range' o (Capacity t - o)).filter (fun p => (pGetBucket t p).isSome) =
        (List.range' (iterScan t 0 fuel o) (Capacity t - iterScan t 0 fuel o)).filter
          (fun p => (pGetBucket t p).isSome) := by
  intro fuel
  induction fuel with
  | zero =>
    intro o ho
    unfold iterScan
    exact ⟨le_refl _, by omega, fun h => by omega, rfl⟩
  | succ f ih =>
    intro o ho
    unfold iterScan
    rw [Nat.zero_add]
    by_cases hocc : (pGetBucket t o).isSome = true
    · rw [if_pos hocc]
      exact ⟨le_refl _, by omega, fun _ => hocc, rfl⟩
    · rw [if_neg hocc]
      obtain ⟨h1, h2, h3, h4⟩ := ih (o + 1) (by omega)
      refine ⟨by omega, h2, h3, ?_⟩
      rw [← h4]
      have : Capacity t - o = (Capacity t - (o + 1)) + 1 := by omega
      rw [this, List.range'_succ]
      simp [List.filter_cons, hocc]

theorem End_eq (t : PerrohtImpl M K V) : End t = ⟨Capacity t, Capacity t⟩ := by
  unfold End Iterator
  rw [if_pos rfl]

theorem iterEq_end_iff (t : PerrohtImpl M K V) (o : Nat) (ho : o ≤ Capacity t) :
    iterEq t ⟨0, o⟩ (End t) = true ↔ o = Capacity t := by
  rw [End_eq]
  unfold iterEq BaseIterator.Position
  constructor
  · intro h
    by_contra hne
    rw [if_neg (fun hc => hne hc.1)] at h
    simp only [Nat.zero_add, decide_eq_true_eq] at h
    omega
  · intro h
    rw [if_pos ⟨h, rfl⟩]

theorem iterateLoop_spec (t : PerrohtImpl M K V) :
    ∀ fuel o, o ≤ Capacity t → (o < Capacity t → (pGetBucket t o).isSome = true) →
      Capacity t - o < fuel →
      iterateLoop t fuel ⟨0, o⟩ =
        (List.range' o (Capacity t - o)).filter (fun p => (pGetBucket t p).isSome) := by
  intro fuel
  induction fuel with
  | zero => intro o _ _ h; omega
  | succ f ih =>
    intro o ho hocc hf
    unfold iterateLoop
    by_cases hend : o = Capacity t
    · rw [if_pos ((iterEq_end_iff t o ho).2 hend)]
      subst hend
      simp
    · rw [if_neg (by rw [iterEq_end_iff t o ho]; exact hend)]
      have holt : o < Capacity t := by omega
      obtain ⟨h1, h2, h3, h4⟩ := iterScan_spec t (Capacity t - (o + 1)) (o + 1) (by omega)
      have hnext : pMoveToNext t ⟨0, o⟩ =
          ⟨0, iterScan t 0 (Capacity t - (o + 1)) (o + 1)⟩ := by
        unfold pMoveToNext
        rw [if_neg hend]
      rw [hnext, ih _ h2 h3 (by omega), ← h4]
      have : Capacity t - o = (Capacity t - (o + 1)) + 1 := by omega
      rw [this, List.range'_succ]
      simp [List.filter_cons, hocc holt, BaseIterator.Position]

/-- Iterating from `Begin()` to `End()` visits exactly the occupied buckets,
in increasing order of position. -/
theorem iteratePositions_eq (t : PerrohtImpl M K V) :
    iteratePositions t =
      (List.range (Capacity t)).filter (fun p => (pGetBucket t p).isSome) := by
  unfold iteratePositions Begin Iterator
  rw [List.range_eq_range']
  by_cases h0 : 0 = Capacity t
  · rw [if_pos h0]
    have := iterateLoop_spec t (Capacity t + 1) (Capacity t) (le_refl _) (fun h => by omega)
      (by omega)
    rw [← h0] at this ⊢
    exact this
  · rw [if_neg h0]
    obtain ⟨_, h2, h3, h4⟩ := iterScan_spec t (Capacity t) 0 (by omega)
    rw [iterateLoop_spec t _ _ h2 h3 (by omega)]
    rw [Nat.sub_zero] at h4
    exact h4.symm

theorem filterMap_range_records (l : List (Option (Entry K V))) :
    ((List.range l.length).filter (fun p => ((l[p]?).getD none).isSome)).filterMap
      (fun p => ((l[p]?).getD none).map (fun e => (e.key, e.val))) = records l := by
  induction l using List.reverseRecOn with
  | nil => rfl
  | append_singleton l b ih =>
    rw [List.length_append, List.length_singleton, List.range_succ, List.filter_append,
      List.filterMap_append]
    have h1 : (List.range l.length).filter (fun p => (((l ++ [b])[p]?).getD none).isSome) =
        (List.range l.length).filter (fun p => ((l[p]?).getD none).isSome) := by
      apply List.filter_congr
      intro p hp
      rw [List.getElem?_append_left (List.mem_range.1 hp)]
    have h2 : ∀ ps : List Nat, (∀ p ∈ ps, p < l.length) →
        ps.filterMap (fun p => (((l ++ [b])[p]?).getD none).map (fun e => (e.key, e.val))) =
        ps.filterMap (fun p => ((l[p]?).getD none).map (fun e => (e.key, e.val))) := by
      intro ps hps
      induction ps with
      | nil => rfl
      | cons p ps ihp =>
        have hp := hps p (List.mem_cons_self _ _)
        rw [List.filterMap_cons, List.filterMap_cons, List.getElem?_append_left hp,
          ihp (fun q hq => hps q (List.mem_cons_of_mem _ hq))]
    rw [h1, h2 _ (fun p hp => List.mem_range.1 (List.mem_filter.1 hp).1), ih]
    have h3 : (l ++ [b])[l.length]? = some b := by
      rw [List.getElem?_append_right (le_refl _)]
      simp
    unfold records
    rw [List.filterMap_append]
    congr 1
    cases b with
    | none => simp [h3]
    | some e => simp [h3]

theorem length_filterMap_of_isSome {α β : Type} (h : α → Option β) :
    ∀ ps : List α, (∀ p ∈ ps, (h p).isSome = true) → (ps.filterMap h).length = ps.length := by
  intro ps
  induction ps with
  | nil => intro _; rfl
  | cons p ps ih =>
    intro hps
    obtain ⟨b, hb⟩ := Option.isSome_iff_exists.1 (hps p (List.mem_cons_self _ _))
    rw [List.filterMap_cons, hb]
    simp only [List.length_cons]
    rw [ih (fun q hq => hps q (List.mem_cons_of_mem _ hq))]

/-- The iteration of a table satisfying the invariant: positions, records and
length. -/
theorem iterate_spec (env : Env M K) (t : PerrohtImpl M K V) (hI : InvCore env t) :
    (iteratePositions t).filterMap
        (fun p => (pGetBucket t p).map (fun e => (e.key, e.val))) = records t.table_ ∧
    (iteratePositions t).length = Size t := by
  have h1 : (iteratePositions t).filterMap
      (fun p => (pGetBucket t p).map (fun e => (e.key, e.val))) = records t.table_ := by
    rw [iteratePositions_eq, ← hI.len_eq]
    exact filterMap_range_records t.table_
  refine ⟨h1, ?_⟩
  rw [← length_filterMap_of_isSome
    (fun p => (pGetBucket t p).map (fun e => (e.key, e.val))) (iteratePositions t), h1]
  · exact hI.size_eq.symm
  · intro p hp
    rw [iteratePositions_eq] at hp
    have := (List.mem_filter.1 hp).2
    rw [Option.isSome_map']
    exact this

/-! ## Equality -/

end Iteration

end Perroht

namespace Perroht

open PowerOfTwoCapacity

section ClaimLemmas

variable {M K V : Type} [DecidableEq K]

/-! ## `Find` -/

theorem deref_End (env : Env M K) (t : PerrohtImpl M K V) (hI : InvCore env t) :
    deref t (End t) = none := by
  rw [End_eq]
  unfold deref BaseIterator.Position pGetBucket
  simp only
  rw [List.getElem?_eq_none (by rw [hI.len_eq]; omega)]
  rfl

theorem Find_found (env : Env M K) (t : PerrohtImpl M K V) (k : K)
    (h : (pLocate env t k).2 = true) : Find env t k = Iterator t (pLocate env t k).1 := by
  unfold Find
  simp [h]

theorem Find_notfound (env : Env M K) (t : PerrohtImpl M K V) (k : K)
    (h : (pLocate env t k).2 = false) : Find env t k = End t := by
  unfold Find
  simp [h]

theorem deref_Find_iff (env : Env M K) (t : PerrohtImpl M K V) (hI : InvCore env t)
    (k : K) (v : V) :
    deref t (Find env t k) = some (k, v) ↔ (k, v) ∈ mrecords t.table_ := by
  constructor
  · intro h
    cases hl : (pLocate env t k).2 with
    | false =>
      rw [Find_notfound env t k hl, deref_End env t hI] at h
      exact absurd h (by simp)
    | true =>
      obtain ⟨e, he, hk⟩ := pLocate_sound env t k (pLocate env t k).1 (by rw [← hl])
      rw [Find_found env t k hl, (deref_Iterator t hI.len_eq he).1] at h
      rw [← Option.some.inj h]
      exact mem_mrecords.2 (mem_records_of_getElem? he)
  · intro h
    obtain ⟨h1, h2, _⟩ := locate_present env t hI h
    rw [Find_found env t k h1]
    exact h2

theorem deref_Find_key (env : Env M K) (t : PerrohtImpl M K V) (hI : InvCore env t)
    (k : K) {r : K × V} (h : deref t (Find env t k) = some r) : r.1 = k := by
  cases hl : (pLocate env t k).2 with
  | false =>
    rw [Find_notfound env t k hl, deref_End env t hI] at h
    exact absurd h (by simp)
  | true =>
    obtain ⟨e, he, hk⟩ := pLocate_sound env t k (pLocate env t k).1 (by rw [← hl])
    rw [Find_found env t k hl, (deref_Iterator t hI.len_eq he).1] at h
    rw [← Option.some.inj h]
    exact hk

theorem Contains_eq_false_iff (env : Env M K) (t : PerrohtImpl M K V) (hI : InvCore env t)
    (k : K) : Contains env t k = false ↔ k ∉ (mrecords t.table_).map Prod.fst := by
  rw [← Contains_iff env t hI]
  simp

theorem run_ref (env : Env M K) :
    ∀ (ops : List (Op K V)) (t : PerrohtImpl M K V) (g : Ghost K V) (m : List (K × V)),
      Inv env t → GhostRel t g → mrecords t.table_ = (m : Multiset (K × V)) →
      (∀ op ∈ ops, op.isInsertErase = true) →
      (env.moved_from_readable = true ∨ ∀ op ∈ ops, op.erases = false) →
      ∃ t1 g1, run env ops (t, g) = some (t1, g1) ∧ Inv env t1 ∧
        mrecords t1.table_ = (refRun ops m : Multiset (K × V)) := by
  intro ops
  induction ops with
  | nil => intro t g m hI _ hm _ _; exact ⟨t, g, rfl, hI, hm⟩
  | cons op ops ih =>
    intro t g m hI hg hm hops hs
    have hrest : ∀ o ∈ ops, o.isInsertErase = true :=
      fun o ho => hops o (List.mem_cons_of_mem _ ho)
    have hsrest : env.moved_from_readable = true ∨ ∀ o ∈ ops, o.erases = false :=
      hs.imp id (fun h o ho => h o (List.mem_cons_of_mem _ ho))
    have hop := hops op (List.mem_cons_self _ _)
    have hkeys : ∀ k, k ∈ (mrecords t.table_).map Prod.fst ↔ k ∈ m.map Prod.fst := by
      intro k
      rw [hm, Multiset.map_coe, Multiset.mem_coe]
    cases op with
    | insert key val =>
      cases hl : (pLocate env t key).2 with
      | true =>
        have hc : Contains env t key = true := hl
        rw [Contains_iff env t hI.core, hkeys] at hc
        have hr : refInsert m key val = m := by
          unfold refInsert
          rw [if_pos (by simpa using hc)]
        obtain ⟨t2, g2, h1, h2, h3⟩ := ih t g m hI hg hm hrest hsrest
        refine ⟨t2, g2, ?_, h2, by simpa only [refRun, hr] using h3⟩
        have := Insert_present env t (key, val) hl
        simp only [run, applyOp, this, Option.map_some', Bool.false_eq_true, if_false]
        exact h1
      | false =>
        have hc := not_Contains env t hI.core key hl
        have hc2 : key ∉ m.map Prod.fst := fun h => hc ((hkeys key).2 h)
        have hr : refInsert m key val = (key, val) :: m := by
          unfold refInsert
          rw [if_neg (by simpa using hc2)]
        obtain ⟨t1, it, h1, h2, _, _, h5, _, _⟩ := Insert_absent env t hI (key, val) hl
        obtain ⟨t2, g2, g1, g3, g4⟩ := ih t1 (Function.update g key (some val))
          ((key, val) :: m) h2 (GhostRel_insert hg hc h5)
          (by rw [h5, hm]; rfl) hrest hsrest
        refine ⟨t2, g2, ?_, g3, by simpa only [refRun, hr] using g4⟩
        simp only [run, applyOp, h1, Option.map_some', if_true]
        exact g1
    | erase key =>
      cases hl : (pLocate env t key).2 with
      | true =>
        have hread : env.moved_from_readable = true := by
          rcases hs with h | h
          · exact h
          · exact absurd (h _ (List.mem_cons_self _ _)) (by simp [Op.erases])
        obtain ⟨t1, v, h1, h2, _, _, _, h6⟩ := Erase_present env hread t hI key hl
        have hnd := (nodup_keys_iff _).1 hI.core.nodup
        rw [← h6] at hnd
        have hnot := not_mem_keys_of_nodup_cons hnd
        have hm1 : mrecords t1.table_ = (refErase m key : Multiset (K × V)) := by
          have hf : refErase m key = m.filter (fun r => decide (r.1 ≠ key)) := by
            unfold refErase
            apply List.filter_congr
            intro r _
            simp
          rw [hf, ← Multiset.filter_coe (fun r : K × V => r.1 ≠ key), ← hm, ← h6,
            Multiset.filter_cons_of_neg _ (by simp)]
          symm
          rw [Multiset.filter_eq_self]
          intro r hr heq
          apply hnot
          exact Multiset.mem_map.2 ⟨r, hr, heq⟩
        obtain ⟨t2, g2, g1, g3, g4⟩ := ih t1 (Function.update g key none) (refErase m key) h2
          (GhostRel_erase hI.core hg h6) hm1 hrest hsrest
        refine ⟨t2, g2, ?_, g3, by simpa only [refRun] using g4⟩
        simp only [run, applyOp, h1, Option.map_some']
        exact g1
      | false =>
        have hc := not_Contains env t hI.core key hl
        have hr : refErase m key = m := by
          unfold refErase
          rw [List.filter_eq_self]
          intro r hr
          have : r.1 ≠ key := by
            intro heq
            apply hc
            rw [hkeys]
            exact List.mem_map.2 ⟨r, hr, heq⟩
          simpa using this
        obtain ⟨t2, g2, g1, g3, g4⟩ := ih t (Function.update g key none) m hI
          (GhostRel_erase_absent hg hc) hm hrest hsrest
        refine ⟨t2, g2, ?_, g3, by simpa only [refRun, hr] using g4⟩
        simp only [run, applyOp, Erase_absent env t key hl, Option.map_some']
        exact g1
    | emplace _ _ => simp [Op.isInsertErase] at hop
    | tryEmplace _ _ => simp [Op.isInsertErase] at hop
    | eraseIt _ => simp [Op.isInsertErase] at hop
    | clear => simp [Op.isInsertErase] at hop
    | reserve _ => simp [Op.isInsertErase] at hop
    | rehash _ => simp [Op.isInsertErase] at hop
    | shrinkToFit => simp [Op.isInsertErase] at hop
    | setMaxLoadFactor _ => simp [Op.isInsertErase] at hop
    | copy => simp [Op.isInsertErase] at hop

theorem exTable_reachable : Reachable exEnv exTable :=
  ⟨0, ⟨7, 8⟩, defaultTable exEnv, exOps, exGhost, rfl, rfl⟩

end ClaimLemmas

end Perroht

namespace Perroht

open PowerOfTwoCapacity

section Claims

variable {M K V : Type} [DecidableEq K]

/-! ## The contract of the table (claims C3, C4 and C6 to C10) -/

/-- Claim C4: for every reachable table and every record `(k, v)` whose key is
absent, `Insert((k, v))` returns the flag `true`, `Size()` increases by exactly
one, and the returned iterator designates a bucket holding exactly `(k, v)`
(whatever records the insertion displaces and whether or not it grows the
table). -/
theorem C4_insert_absent_key (env : Env M K) (t : PerrohtImpl M K V) (k : K) (v : V)
    (hr : Reachable env t) (habs : Contains env t k = false) :
    ∃ t1 it, Insert env t (k, v) = some (t1, it, true) ∧
      Size t1 = Size t + 1 ∧ deref t1 it = some (k, v) := by
  obtain ⟨t1, it, h1, _, _, h4, _, _, h7⟩ := Insert_absent env t hr.inv (k, v) habs
  exact ⟨t1, it, h1, h4, h7⟩

theorem C4_insert_absent_key_witness :
    Reachable exEnv exTable ∧ Contains exEnv exTable 25 = false ∧
    ∃ t1 it, Insert exEnv exTable (25, 250) = some (t1, it, true) ∧
      Size t1 = Size exTable + 1 ∧ deref t1 it = some (25, 250) :=
  ⟨exTable_reachable, rfl, C4_insert_absent_key exEnv exTable 25 250 exTable_reachable rfl⟩

/-- Claim C6: for every table reachable from a freshly constructed one by the
public operations, `Size() <= MaxLoadFactor() * Capacity()` in exact
arithmetic (stated cross-multiplied over the naturals and as an inequality of
rationals). -/
theorem C6_load_factor_bound (env : Env M K) (t : PerrohtImpl M K V)
    (hr : Reachable env t) :
    Size t * (MaxLoadFactor t).den ≤ Capacity t * (MaxLoadFactor t).num ∧
    (Size t : ℚ) ≤ ((MaxLoadFactor t).num : ℚ) / ((MaxLoadFactor t).den : ℚ) * Capacity t := by
  have hI := hr.inv
  have h1 : Size t * (MaxLoadFactor t).den ≤ Capacity t * (MaxLoadFactor t).num := hI.load
  refine ⟨h1, ?_⟩
  have hd : 0 < (MaxLoadFactor t).den := lt_of_lt_of_le hI.core.mlf_pos hI.core.mlf_le
  have hdq : (0 : ℚ) < ((MaxLoadFactor t).den : ℚ) := by exact_mod_cast hd
  rw [div_mul_eq_mul_div, le_div_iff₀ hdq]
  have h2 : ((Size t * (MaxLoadFactor t).den : Nat) : ℚ) ≤
      ((Capacity t * (MaxLoadFactor t).num : Nat) : ℚ) := by exact_mod_cast h1
  push_cast at h2
  linarith

theorem C6_load_factor_bound_witness :
    Reachable exEnv exTable ∧
    (Size exTable * (MaxLoadFactor exTable).den ≤
        Capacity exTable * (MaxLoadFactor exTable).num ∧
      (Size exTable : ℚ) ≤
        ((MaxLoadFactor exTable).num : ℚ) / ((MaxLoadFactor exTable).den : ℚ) *
          Capacity exTable) :=
  ⟨exTable_reachable, C6_load_factor_bound exEnv exTable exTable_reachable⟩

/-- Claim C9: for every reachable table, iterating from `Begin()` with
`operator++` until the iterator equals `End()` visits every occupied bucket
exactly once (in increasing position) and no empty bucket; the records visited
are exactly the records inserted and not erased, and their number is
`Size()`. -/
theorem C9_iteration_visits_all_records (env : Env M K) (initial_capacity : Nat)
    (x : LoadFactorValue) (t0 t : PerrohtImpl M K V) (ops : List (Op K V)) (g : Ghost K V)
    (h0 : construct env initial_capacity x = some t0)
    (hrun : run env ops (t0, fun _ => none) = some (t, g)) :
    iteratePositions t =
      (List.range (Capacity t)).filter (fun p => (pGetBucket t p).isSome) ∧
    (iteratePositions t).Nodup ∧
    (iteratePositions t).length = Size t ∧
    ∀ k v, (k, v) ∈ (iteratePositions t).filterMap
        (fun p => (pGetBucket t p).map (fun e => (e.key, e.val))) ↔ g k = some v := by
  obtain ⟨t0', g1, g2, _, g4, _, _⟩ := @construct_spec M K V _ env initial_capacity x
  rw [h0] at g1
  cases g1
  obtain ⟨hI, hg⟩ := run_inv env ops t0 _ g2 (GhostRel_empty g4) hrun
  obtain ⟨h1, h2⟩ := iterate_spec env t hI.core
  refine ⟨iteratePositions_eq t, ?_, h2, ?_⟩
  · rw [iteratePositions_eq]
    exact (List.nodup_range _).filter _
  · intro k v
    rw [h1, hg k v]
    exact mem_mrecords.symm

theorem C9_iteration_visits_all_records_witness :
    construct exEnv 0 ⟨7, 8⟩ = some (defaultTable exEnv : PerrohtImpl MeanValue Nat Nat) ∧
    run exEnv exOps (defaultTable exEnv, fun _ => none) = some (exTable, exGhost) ∧
    (iteratePositions exTable =
        (List.range (Capacity exTable)).filter (fun p => (pGetBucket exTable p).isSome) ∧
      (iteratePositions exTable).Nodup ∧
      (iteratePositions exTable).length = Size exTable ∧
      ∀ k v, (k, v) ∈ (iteratePositions exTable).filterMap
          (fun p => (pGetBucket exTable p).map (fun e => (e.key, e.val))) ↔
        exGhost k = some v) :=
  ⟨rfl, rfl,
    C9_iteration_visits_all_records exEnv 0 ⟨7, 8⟩ (defaultTable exEnv) exTable exOps exGhost
      rfl rfl⟩

end Claims

end Perroht

namespace Perroht

open PowerOfTwoCapacity

section EqualityLemmas

variable {M K V : Type} [DecidableEq K]

/-! ## `operator==` -/

theorem pGetBucket_of_ge (t : PerrohtImpl M K V) (hlen : t.table_.length = Capacity t)
    {p : Nat} (hp : Capacity t ≤ p) : pGetBucket t p = none := by
  unfold pGetBucket
  rw [List.getElem?_eq_none (by omega)]
  rfl

theorem bucket_mem (t : PerrohtImpl M K V) {p : Nat} {e : Entry K V}
    (h : pGetBucket t p = some e) : (e.key, e.val) ∈ mrecords t.table_ :=
  mem_mrecords.2 (mem_records_of_getElem? ((pGetBucket_some_iff t p e).1 h))

theorem lookup_congr (env : Env M K) (t t1 : PerrohtImpl M K V) (hI : InvCore env t)
    (hI1 : InvCore env t1) (h : mrecords t1.table_ = mrecords t.table_) (k : K) :
    Contains env t1 k = Contains env t k ∧
    deref t1 (Find env t1 k) = deref t (Find env t k) := by
  have hc : Contains env t1 k = Contains env t k := by
    rw [Bool.eq_iff_iff, Contains_iff env t1 hI1, Contains_iff env t hI, h]
  refine ⟨hc, ?_⟩
  cases hl : (pLocate env t k).2 with
  | false =>
    have hl1 : (pLocate env t1 k).2 = false := by
      have : Contains env t1 k = false := by rw [hc]; exact hl
      exact this
    rw [Find_notfound env t k hl, Find_notfound env t1 k hl1, deref_End env t hI,
      deref_End env t1 hI1]
  | true =>
    have hk : k ∈ (mrecords t.table_).map Prod.fst := (Contains_iff env t hI k).1 hl
    obtain ⟨r, hr, hrk⟩ := Multiset.mem_map.1 hk
    obtain ⟨k0, v⟩ := r
    simp only at hrk
    subst hrk
    rw [(deref_Find_iff env t hI k0 v).2 hr,
      (deref_Find_iff env t1 hI1 k0 v).2 (h ▸ hr)]

/-! ## `Reserve` and `Rehash` with their results -/

theorem ReserveAlloc_true (env : Env M K) (t : PerrohtImpl M K V) (capacity : Nat) :
    ReserveAlloc env t capacity true =
      (Reserve env t capacity).map (fun t1 => (t1, true)) := by
  unfold ReserveAlloc Reserve ReserveWith
  by_cases h : capacity ≤ Capacity t
  · simp [h]
  · simp [h]

theorem RehashAlloc_true (env : Env M K) (t : PerrohtImpl M K V) (capacity_request : Nat) :
    RehashAlloc env t capacity_request true =
      (Rehash env t capacity_request).map (fun t1 => (t1, true)) := by
  unfold RehashAlloc Rehash
  simp

theorem pClearAll_bucket (env : Env M K) (t : PerrohtImpl M K V) (p : Nat)
    (hp : p < Capacity t) : pGetBucket (pClearAll env t) p = none := by
  obtain ⟨_, _, _, h4⟩ := pClearAllLoop_spec (Capacity t) 0 t
  unfold pGetBucket pClearAll
  simp only
  rw [h4 p]
  by_cases hl : p < t.table_.length
  · rw [if_pos ⟨Nat.zero_le _, by omega, hl⟩]
    rfl
  · rw [if_neg (fun hh => hl hh.2.2), List.getElem?_eq_none (by omega)]
    rfl

theorem Capacity_pFreeTable (env : Env M K) (t : PerrohtImpl M K V) :
    Capacity (pFreeTable env t) = 0 := rfl

/-! ## Required capacity in exact arithmetic -/

theorem ceil_le_of_enough (s num den c : Nat) (hnum : 0 < num) (hden : 0 < den)
    (h : s * den ≤ c * num) : ⌈(s : ℚ) / ((num : ℚ) / (den : ℚ))⌉₊ ≤ c := by
  rw [Nat.ceil_le]
  have hn : (0 : ℚ) < num := by exact_mod_cast hnum
  have hd : (0 : ℚ) < den := by exact_mod_cast hden
  rw [div_div_eq_mul_div, div_le_iff₀ hn]
  exact_mod_cast h

end EqualityLemmas

/-! ## The second concrete table -/

end Perroht

namespace Perroht

open PowerOfTwoCapacity

section Claims2

variable {M K V : Type} [DecidableEq K]

/-! ## Equality, capacity management, clearing, iterators, swap (claims C11 to C20) -/

/-! ## Transfers out of a table without buckets -/

theorem pTransferEntriesTo_empty (ins : PerrohtImpl M K V → K × V → Option (PerrohtImpl M K V))
    (env : Env M K) (t : PerrohtImpl M K V) (c : Nat) (h : Capacity t = 0) :
    ∃ t1, pTransferEntriesTo ins env t c = some t1 ∧
      Capacity t1 = AdjustCapacity c ∧ t1.size_ = 0 := by
  unfold pTransferEntriesTo
  simp only
  rw [if_pos h]
  exact ⟨_, rfl, rfl, rfl⟩

theorem Reserve_empty (env : Env M K) (t : PerrohtImpl M K V) (n : Nat)
    (h : Capacity t = 0) (hn : 0 < n) :
    ∃ t1, Reserve env t n = some t1 ∧
      Capacity t1 = AdjustCapacity (AdjustCapacity n) ∧ Size t1 = 0 := by
  unfold Reserve ReserveWith
  rw [if_neg (by omega)]
  exact pTransferEntriesTo_empty _ env t _ h

theorem Rehash_empty (env : Env M K) (t : PerrohtImpl M K V) (n : Nat)
    (h : Capacity t = 0) :
    ∃ t1, Rehash env t n = some t1 ∧
      Capacity t1 =
        AdjustCapacity (AdjustCapacity (max n (pGetRequiredCapacity t (Size t)))) ∧
      Size t1 = 0 := by
  unfold Rehash
  exact pTransferEntriesTo_empty _ env t _ h

theorem AdjustCapacity_rounds_down : AdjustCapacity (2 ^ 49 + 1) = 2 ^ 49 := by
  decide

/-- Claim C12, evaluated on the code where it fails: on the default-constructed
(empty, reachable) table, whose capacity is `0`, the request
`n = 2^49 + 1 <= MaxCapacity` makes `Reserve(n)` return `true` with
`Capacity() = 2^49 < n`, because `ToIndex` takes `std::log2(n)` in double
precision, where it rounds to `49`. -/
theorem C12_reserve_below_request :
    Reachable exEnv (defaultTable exEnv : PerrohtImpl MeanValue Nat Nat) ∧
    Capacity (defaultTable exEnv : PerrohtImpl MeanValue Nat Nat) < 2 ^ 49 + 1 ∧
    2 ^ 49 + 1 ≤ MaxCapacity ∧
    ∃ t1 : PerrohtImpl MeanValue Nat Nat,
      ReserveAlloc exEnv (defaultTable exEnv) (2 ^ 49 + 1) true = some (t1, true) ∧
      Capacity t1 = 2 ^ 49 ∧ Capacity t1 < 2 ^ 49 + 1 ∧ Size t1 = 0 := by
  refine ⟨⟨0, ⟨7, 8⟩, defaultTable exEnv, [], fun _ => none, rfl, rfl⟩, by decide, by decide,
    ?_⟩
  obtain ⟨t1, h1, h2, h3⟩ := Reserve_empty exEnv
    (defaultTable exEnv : PerrohtImpl MeanValue Nat Nat) (2 ^ 49 + 1) rfl (by decide)
  have hcap : Capacity t1 = 2 ^ 49 := by
    rw [h2, AdjustCapacity_rounds_down]
    exact AdjustCapacity_pow 49
  refine ⟨t1, ?_, hcap, by rw [hcap]; exact Nat.lt_succ_self _, h3⟩
  rw [ReserveAlloc_true, h1]
  rfl

/-- Claim C13: for every table and every `n <= Capacity()`, `Reserve(n)`
returns `true` (whatever the allocator would do) and leaves the table entirely
unchanged: capacity, size, mean probe distance and every bucket. -/
theorem C13_reserve_within_capacity (env : Env M K) (t : PerrohtImpl M K V) (n : Nat)
    (alloc_ok : Bool) (h : n ≤ Capacity t) :
    ReserveAlloc env t n alloc_ok = some (t, true) ∧ Reserve env t n = some t := by
  unfold ReserveAlloc Reserve ReserveWith
  rw [if_pos h, if_pos h]
  exact ⟨rfl, rfl⟩

theorem C13_reserve_within_capacity_witness :
    1 ≤ Capacity exTable ∧
    (ReserveAlloc exEnv exTable 1 false = some (exTable, true) ∧
      Reserve exEnv exTable 1 = some exTable) :=
  ⟨by decide, C13_reserve_within_capacity exEnv exTable 1 false (by decide)⟩

/-- Claim C14, evaluated on the code where it fails: on the default-constructed
(empty, reachable) table the request `n = 2^49 + 1` makes `Rehash(n)` return
`true` with `Capacity() = 2^49`, which is below `n` and so below
`max(n, ceil(Size() / MaxLoadFactor()))`, because `ToIndex` takes
`std::log2(n)` in double precision, where it rounds to `49`. -/
theorem C14_rehash_below_request :
    Reachable exEnv (defaultTable exEnv : PerrohtImpl MeanValue Nat Nat) ∧
    ∃ t1 : PerrohtImpl MeanValue Nat Nat,
      RehashAlloc exEnv (defaultTable exEnv) (2 ^ 49 + 1) true = some (t1, true) ∧
      Capacity t1 = 2 ^ 49 ∧
      Capacity t1 < max (2 ^ 49 + 1)
        ⌈(Size (defaultTable exEnv : PerrohtImpl MeanValue Nat Nat) : ℚ) /
          (((MaxLoadFactor (defaultTable exEnv : PerrohtImpl MeanValue Nat Nat)).num : ℚ) /
            ((MaxLoadFactor (defaultTable exEnv : PerrohtImpl MeanValue Nat Nat)).den : ℚ))⌉₊ ∧
      Size t1 = 0 := by
  refine ⟨⟨0, ⟨7, 8⟩, defaultTable exEnv, [], fun _ => none, rfl, rfl⟩, ?_⟩
  obtain ⟨t1, h1, h2, h3⟩ := Rehash_empty exEnv
    (defaultTable exEnv : PerrohtImpl MeanValue Nat Nat) (2 ^ 49 + 1) rfl
  have hreq : max (2 ^ 49 + 1)
      (pGetRequiredCapacity (defaultTable exEnv : PerrohtImpl MeanValue Nat Nat)
        (Size (defaultTable exEnv : PerrohtImpl MeanValue Nat Nat))) = 2 ^ 49 + 1 := by
    decide
  have hcap : Capacity t1 = 2 ^ 49 := by
    rw [h2, hreq, AdjustCapacity_rounds_down]
    exact AdjustCapacity_pow 49
  refine ⟨t1, ?_, hcap, ?_, h3⟩
  · rw [RehashAlloc_true, h1]
    rfl
  · rw [hcap]
    exact lt_of_lt_of_le (Nat.lt_succ_self _) (le_max_left _ _)

/-- Claim C15: for every (reachable) table, `Clear()` leaves `Capacity()`
unchanged, sets `Size()` to `0`, makes every bucket empty (`Contains(k)` is
false for every `k`, `Begin() == End()`), and a key inserted afterwards is
reported as newly inserted. -/
theorem C15_clear (env : Env M K) (t : PerrohtImpl M K V) (hr : Reachable env t) :
    Capacity (Clear env t) = Capacity t ∧
    Size (Clear env t) = 0 ∧
    (∀ p, pGetBucket (Clear env t) p = none) ∧
    (∀ k, Contains env (Clear env t) k = false) ∧
    iterEq (Clear env t) (Begin (Clear env t)) (End (Clear env t)) = true ∧
    ∀ k v, ∃ t1 it, Insert env (Clear env t) (k, v) = some (t1, it, true) ∧
      deref t1 it = some (k, v) ∧ Size t1 = 1 := by
  have hI := hr.inv
  obtain ⟨c1, _, c3, c4, c5, c6⟩ := Clear_spec env t hI.core
  have hb : ∀ p, pGetBucket (Clear env t) p = none := by
    intro p
    cases hp : pGetBucket (Clear env t) p with
    | none => rfl
    | some e =>
      have := bucket_mem _ hp
      rw [c6] at this
      exact absurd this (Multiset.not_mem_zero _)
  have hc : ∀ k, Contains env (Clear env t) k = false := by
    intro k
    rw [Contains_eq_false_iff env _ c1.core, c6]
    simp
  refine ⟨Capacity_congr c3, c4, hb, hc, ?_, ?_⟩
  · have hs := iterScan_spec (Clear env t) (Capacity (Clear env t)) 0 (by omega)
    have hcap : iterScan (Clear env t) 0 (Capacity (Clear env t)) 0 = Capacity (Clear env t) := by
      by_contra hne
      have hlt : iterScan (Clear env t) 0 (Capacity (Clear env t)) 0 < Capacity (Clear env t) := by
        omega
      have := hs.2.2.1 hlt
      rw [hb] at this
      cases this
    rw [End_eq]
    unfold Begin Iterator iterEq
    by_cases h0 : 0 = Capacity (Clear env t)
    · rw [if_pos h0]
      simp
    · rw [if_neg h0]
      simp [hcap]
  · intro k v
    obtain ⟨t1, it, h1, _, _, h4, _, _, h7⟩ := Insert_absent env (Clear env t) c1 (k, v) (hc k)
    refine ⟨t1, it, h1, h7, ?_⟩
    unfold Size
    rw [h4, c4]

theorem C15_clear_witness :
    Reachable exEnv exTable ∧
    (Capacity (Clear exEnv exTable) = Capacity exTable ∧
      Size (Clear exEnv exTable) = 0 ∧
      (∀ p, pGetBucket (Clear exEnv exTable) p = none) ∧
      (∀ k, Contains exEnv (Clear exEnv exTable) k = false) ∧
      iterEq (Clear exEnv exTable) (Begin (Clear exEnv exTable))
        (End (Clear exEnv exTable)) = true ∧
      ∀ k v, ∃ t1 it, Insert exEnv (Clear exEnv exTable) (k, v) = some (t1, it, true) ∧
        deref t1 it = some (k, v) ∧ Size t1 = 1) :=
  ⟨exTable_reachable, C15_clear exEnv exTable exTable_reachable⟩

end Claims2

end Perroht

namespace Perroht

open PowerOfTwoCapacity

section Claims3

variable {M K V : Type} [DecidableEq K]

/-- Claim C16, evaluated on the code where it fails: in the reachable table
`exTable` (capacity 8, occupied positions 1, 2, 3) the iterator `Find(2)`
designates position 3, the last element in iteration order.  `Erase` of that
iterator removes exactly the record `(2, 22)`, but the scan for the next
valid entry wraps around the end of the bucket array: the call returns an
iterator at position 1, designating `(1, 11)`, which is not `End()`, although
no position `>= 3` is occupied in the resulting table. -/
theorem C16_erase_last_element_wraps_around :
    Reachable exEnv exTable ∧
    iteratePositions exTable = [1, 2, 3] ∧
    (Find exEnv exTable 2).Position = 3 ∧
    deref exTable (Find exEnv exTable 2) = some (2, 22) ∧
    ∃ t1 it1, EraseIt exEnv exTable (Find exEnv exTable 2) = some (t1, it1) ∧
      t1.table_ = [none, some ⟨0, 1, 11⟩, some ⟨1, 17, 170⟩, none, none, none, none, none] ∧
      iteratePositions t1 = [1, 2] ∧
      it1.Position = 1 ∧
      deref t1 it1 = some (1, 11) ∧
      iterEq t1 it1 (End t1) = false :=
  ⟨exTable_reachable, by decide, by decide, by decide,
    { exTable with
      size_ := 2
      table_ := [none, some ⟨0, 1, 11⟩, some ⟨1, 17, 170⟩, none, none, none, none, none] },
    ⟨1, 0⟩, by decide, rfl, by decide, by decide, by decide, by decide⟩

/-- Claim C17, evaluated on the code where it fails: in the reachable table
`exTable` (capacity 8) `CEnd()` has `Position() = 16`, so
`Erase(CEnd())` builds `Iterator(16, this)`, whose constructor inspects the
headers of the bucket indices 16 to 23, all of them `>= Capacity()`.  The
`Iterator` overload `Erase(End())` returns `End()` and leaves the table
unchanged without inspecting a bucket. -/
theorem C17_erase_cend_inspects_beyond_capacity :
    Reachable exEnv exTable ∧
    Capacity exTable = 8 ∧
    (CEnd exTable).Position = 16 ∧
    IteratorReads exTable (CEnd exTable).Position = [16, 17, 18, 19, 20, 21, 22, 23] ∧
    (∃ i ∈ IteratorReads exTable (CEnd exTable).Position, Capacity exTable ≤ i) ∧
    EraseIt exEnv exTable (End exTable) = some (exTable, End exTable) :=
  ⟨exTable_reachable, by decide, by decide, by decide, ⟨16, by decide, by decide⟩, by decide⟩

/-- Claim C18, evaluated on the code where it fails: in the reachable table
`exTable` (capacity 8, occupied positions 1, 2, 3) the iterator returned by
`Find(2)` has `start_pos_ = 3` and designates the occupied position 3;
`operator++` on it inspects the headers of the bucket indices 4 to 10, of
which 8, 9 and 10 are `>= Capacity()`. -/
theorem C18_increment_inspects_beyond_capacity :
    Reachable exEnv exTable ∧
    Capacity exTable = 8 ∧
    Find exEnv exTable 2 = ⟨3, 0⟩ ∧
    deref exTable (Find exEnv exTable 2) = some (2, 22) ∧
    pMoveToNextReads exTable (Find exEnv exTable 2) = [4, 5, 6, 7, 8, 9, 10] ∧
    (∃ i ∈ pMoveToNextReads exTable (Find exEnv exTable 2), Capacity exTable ≤ i) :=
  ⟨exTable_reachable, by decide, by decide, by decide, by decide, ⟨8, by decide, by decide⟩⟩

/-- Claim C19: modelling the allocator as possibly failing, whenever the
table allocation inside `Reserve(n)` (with `n > Capacity()`) or `Rehash(n)`
fails, the call returns `false` and leaves the table in the empty state:
`Size() = 0`, `Capacity() = 0`, no bucket array, and no live record (every
bucket of the old array was cleared before the array was released). -/
theorem C19_allocation_failure_empties (env : Env M K) (t : PerrohtImpl M K V) (n m : Nat)
    (h : Capacity t < n) :
    (∃ t1, ReserveAlloc env t n false = some (t1, false) ∧
      Size t1 = 0 ∧ Capacity t1 = 0 ∧ t1.table_ = [] ∧ records t1.table_ = []) ∧
    (∃ t1, RehashAlloc env t m false = some (t1, false) ∧
      Size t1 = 0 ∧ Capacity t1 = 0 ∧ t1.table_ = [] ∧ records t1.table_ = []) ∧
    (∀ alloc_ok, ShrinkToFitAlloc env t alloc_ok = RehashAlloc env t (Size t) alloc_ok) ∧
    (∀ p, p < Capacity t → pGetBucket (pClearAll env t) p = none) := by
  refine ⟨⟨pFreeTable env t, ?_, rfl, rfl, rfl, rfl⟩, ⟨pFreeTable env t, ?_, rfl, rfl, rfl, rfl⟩,
    fun _ => rfl, fun p hp => pClearAll_bucket env t p hp⟩
  · unfold ReserveAlloc
    rw [if_neg (by omega)]
    rfl
  · unfold RehashAlloc
    rfl

theorem C19_allocation_failure_empties_witness :
    Capacity exTable < 9 ∧
    ((∃ t1, ReserveAlloc exEnv exTable 9 false = some (t1, false) ∧
        Size t1 = 0 ∧ Capacity t1 = 0 ∧ t1.table_ = [] ∧ records t1.table_ = []) ∧
      (∃ t1, RehashAlloc exEnv exTable 2 false = some (t1, false) ∧
        Size t1 = 0 ∧ Capacity t1 = 0 ∧ t1.table_ = [] ∧ records t1.table_ = []) ∧
      (∀ alloc_ok, ShrinkToFitAlloc exEnv exTable alloc_ok =
        RehashAlloc exEnv exTable (Size exTable) alloc_ok) ∧
      (∀ p, p < Capacity exTable → pGetBucket (pClearAll exEnv exTable) p = none)) :=
  ⟨by decide, C19_allocation_failure_empties exEnv exTable 9 2 (by decide)⟩

/-- Claim C20: for any two tables `A` and `B` using equal allocators,
`A.Swap(B)` exchanges their whole states: afterwards `A` has the former size,
capacity, max load factor and key-to-value mapping of `B` and `B` has those of
`A`; applying `Swap` twice restores both tables. -/
theorem C20_swap_exchanges_states (m : MeanOps M) (r : Bool) (a b : (K → Nat) × PerrohtImpl M K V) :
    (Size (Swap a b).1.2 = Size b.2 ∧
      Capacity (Swap a b).1.2 = Capacity b.2 ∧
      MaxLoadFactor (Swap a b).1.2 = MaxLoadFactor b.2 ∧
      ∀ k, Contains ⟨m, (Swap a b).1.1, r⟩ (Swap a b).1.2 k = Contains ⟨m, b.1, r⟩ b.2 k ∧
        deref (Swap a b).1.2 (Find ⟨m, (Swap a b).1.1, r⟩ (Swap a b).1.2 k) =
          deref b.2 (Find ⟨m, b.1, r⟩ b.2 k)) ∧
    (Size (Swap a b).2.2 = Size a.2 ∧
      Capacity (Swap a b).2.2 = Capacity a.2 ∧
      MaxLoadFactor (Swap a b).2.2 = MaxLoadFactor a.2 ∧
      ∀ k, Contains ⟨m, (Swap a b).2.1, r⟩ (Swap a b).2.2 k = Contains ⟨m, a.1, r⟩ a.2 k ∧
        deref (Swap a b).2.2 (Find ⟨m, (Swap a b).2.1, r⟩ (Swap a b).2.2 k) =
          deref a.2 (Find ⟨m, a.1, r⟩ a.2 k)) ∧
    Swap a b = (b, a) ∧
    Swap (Swap a b).1 (Swap a b).2 = (a, b) :=
  ⟨⟨rfl, rfl, rfl, fun _ => ⟨rfl, rfl⟩⟩, ⟨rfl, rfl, rfl, fun _ => ⟨rfl, rfl⟩⟩, rfl, rfl⟩

end Claims3

end Perroht

namespace Perroht

open PowerOfTwoCapacity

section StatsLemmas

variable {M K V : Type} [DecidableEq K]

/-! ## Probe distances of a table -/

theorem occupied_lt {env : Env M K} {t : PerrohtImpl M K V} (hI : InvCore env t)
    {p : Nat} {e : Entry K V} (h : pGetBucket t p = some e) : p < Capacity t := by
  by_contra hge
  rw [pGetBucket_of_ge t hI.len_eq (by omega)] at h
  cases h

theorem pGetProbeDistance_actual {env : Env M K} {t : PerrohtImpl M K V}
    (hI : InvCore env t) {p : Nat} {e : Entry K V} (h : pGetBucket t p = some e) :
    pGetProbeDistance env t p e = cdist (Capacity t) (ideal env (Capacity t) e.key) p := by
  rw [pGetProbeDistance_eq env t hI.len_eq hI.dist_ok ((pGetBucket_some_iff t p e).1 h),
    actualDist_def, hI.len_eq]

theorem histogramLoop_fault (env : Env M K) (t : PerrohtImpl M K V) :
    ∀ (n i : Nat) (histogram : List Nat),
      (∃ q e, i ≤ q ∧ q < i + n ∧ pGetBucket t q = some e ∧
        histogram.length ≤ pGetProbeDistance env t q e) →
      histogramLoop env t n i histogram = none := by
  intro n
  induction n with
  | zero =>
    rintro i histogram ⟨q, e, h1, h2, _, _⟩
    omega
  | succ n ih =>
    rintro i histogram ⟨q, e, h1, h2, h3, h4⟩
    cases hb : pGetBucket t i with
    | none =>
      simp only [histogramLoop, hb]
      apply ih
      refine ⟨q, e, ?_, by omega, h3, h4⟩
      by_contra hlt
      have : q = i := by omega
      subst this
      rw [hb] at h3
      cases h3
    | some e0 =>
      simp only [histogramLoop, hb]
      by_cases hlt : pGetProbeDistance env t i e0 < histogram.length
      · rw [if_pos hlt]
        apply ih
        refine ⟨q, e, ?_, by omega, h3, by rw [List.length_set]; exact h4⟩
        by_contra hq
        have : q = i := by omega
        subst this
        rw [hb] at h3
        cases h3
        omega
      · rw [if_neg hlt]

/-! ## Many records need far buckets -/

theorem exists_far_bucket (env : Env M K) (t : PerrohtImpl M K V) (hI : InvCore env t)
    (k : Nat) (hs : k < Size t) : ∃ p e, k ≤ p ∧ pGetBucket t p = some e := by
  by_contra hno
  have hall : ∀ p ∈ (List.range (Capacity t)).filter (fun p => (pGetBucket t p).isSome),
      p ∈ List.range k := by
    intro p hp
    have hsome := (List.mem_filter.1 hp).2
    rw [List.mem_range]
    by_contra hge
    cases hb : pGetBucket t p with
    | none => rw [hb] at hsome; cases hsome
    | some e => exact hno ⟨p, e, by omega, hb⟩
  have hnd : ((List.range (Capacity t)).filter (fun p => (pGetBucket t p).isSome)).Nodup :=
    (List.nodup_range _).filter _
  have hle := (List.subperm_of_subset hnd hall).length_le
  have hlen := (iterate_spec env t hI).2
  rw [iteratePositions_eq] at hlen
  rw [hlen, List.length_range] at hle
  omega

/-! ## The Robin Hood ordering -/

theorem cdist_add {n i a : Nat} (hi : i < n) (ha : a < n) : cdist n i ((i + a) % n) = a := by
  have h1 : (i + a) % n < n := Nat.mod_lt _ (by omega)
  have h2 := mod_closed (by omega : i + a < 2 * n)
  rw [cdist_eq hi h1]
  split_ifs at h2 with hc <;> split_ifs <;> omega

end StatsLemmas

/-! ## The prime ladder -/

namespace PrimeNumberCapacity

theorem lowerBound_spec : ∀ (l : List Nat) (size : Nat),
    lowerBound l size ≤ l.length ∧
    (∀ j, j < lowerBound l size → l.getD j 0 < size) ∧
    (lowerBound l size < l.length → size ≤ l.getD (lowerBound l size) 0) := by
  intro l
  induction l with
  | nil => intro size; simp [lowerBound]
  | cons c cs ih =>
    intro size
    obtain ⟨h1, h2, h3⟩ := ih size
    by_cases hc : c < size
    · simp only [lowerBound, if_pos hc, List.length_cons]
      refine ⟨by omega, ?_, ?_⟩
      · intro j hj
        cases j with
        | zero => simpa using hc
        | succ j => simpa using h2 j (by omega)
      · intro hlt
        simpa using h3 (by omega)
    · simp only [lowerBound, if_neg hc, List.length_cons]
      refine ⟨by omega, ?_, ?_⟩
      · intro j hj
        omega
      · intro _
        simpa using Nat.le_of_not_lt hc

end PrimeNumberCapacity

/-! ## The third concrete table -/

end Perroht

namespace Perroht

open PowerOfTwoCapacity

set_option maxRecDepth 1000000 in
theorem refRun_manyOps_length : (refRun manyOps ([] : List (Nat × Nat))).length = 256 := by
  decide!

section Claims4

variable {M K V : Type} [DecidableEq K]

/-! ## Move, `at`, statistics and capacity policies (claims C21 to C25) -/

/-- Claim C21: for every table `S`, move-constructing `D` from `S` (same
allocator) gives `D` exactly the former size, capacity, mean probe distance
and bucket contents of `S` (every key of `S` is contained in `D` with the same
value), and leaves `S` in the empty state with `Size() = 0` and
`Capacity() = 0`. -/
theorem C21_move_constructor (mean : MeanOps M) (r : Bool) (s : (K → Nat) × PerrohtImpl M K V) :
    (Size (moveConstruct mean s).1.2 = Size s.2 ∧
      Capacity (moveConstruct mean s).1.2 = Capacity s.2 ∧
      (moveConstruct mean s).1.2.mean_probe_distance_ = s.2.mean_probe_distance_ ∧
      (moveConstruct mean s).1.2.table_ = s.2.table_ ∧
      (∀ p, pGetBucket (moveConstruct mean s).1.2 p = pGetBucket s.2 p) ∧
      ∀ k,
        Contains ⟨mean, (moveConstruct mean s).1.1, r⟩ (moveConstruct mean s).1.2 k =
          Contains ⟨mean, s.1, r⟩ s.2 k ∧
        deref (moveConstruct mean s).1.2
            (Find ⟨mean, (moveConstruct mean s).1.1, r⟩ (moveConstruct mean s).1.2 k) =
          deref s.2 (Find ⟨mean, s.1, r⟩ s.2 k)) ∧
    Size (moveConstruct mean s).2.2 = 0 ∧
    Capacity (moveConstruct mean s).2.2 = 0 ∧
    (moveConstruct mean s).2.2.table_ = [] ∧
    ∀ p, pGetBucket (moveConstruct mean s).2.2 p = none :=
  ⟨⟨rfl, rfl, rfl, rfl, fun _ => rfl, fun _ => ⟨rfl, rfl⟩⟩, rfl, rfl, rfl, fun _ => rfl⟩

/-- Claim C24, evaluated on the code where it fails: with a hasher that sends
every key to `0`, inserting the 256 keys `0, ..., 255` into a
default-constructed table yields a (reachable) table of size 256 in which some
occupied bucket has the stored header distance 254 but an actual probe
distance `pGetProbeDistance(p) >= 255`; `GetProbeDistanceHistogram` uses that
value as the index of the counter to increment, outside its vector of 255
counters. -/
theorem C24_histogram_counter_out_of_range :
    ∃ t g, run zeroEnv manyOps (defaultTable zeroEnv, fun _ => none) = some (t, g) ∧
      Reachable zeroEnv t ∧
      Size t = 256 ∧
      (∃ p e, pGetBucket t p = some e ∧ e.dist = 254 ∧
        255 ≤ pGetProbeDistance zeroEnv t p e ∧
        pGetProbeDistance zeroEnv t p e ∈ histogramIndices zeroEnv t) ∧
      GetProbeDistanceHistogram zeroEnv t = none := by
  obtain ⟨t0, c1, c2, _, c4, _, _⟩ := @construct_spec MeanValue Nat Nat _ zeroEnv 0 ⟨7, 8⟩
  have hc : construct zeroEnv 0 ⟨7, 8⟩ =
      some (defaultTable zeroEnv : PerrohtImpl MeanValue Nat Nat) := rfl
  rw [hc] at c1
  cases c1
  have hops : ∀ op ∈ manyOps, op.isInsertErase = true := by
    intro op hop
    obtain ⟨i, _, rfl⟩ := List.mem_map.1 hop
    rfl
  obtain ⟨t, g, hrun, hI, hm⟩ := run_ref zeroEnv manyOps (defaultTable zeroEnv)
    (fun _ => none) [] c2 (GhostRel_empty c4) (by rw [c4]; rfl) hops (Or.inl rfl)
  have hsize : Size t = 256 := by
    unfold Size
    rw [hI.core.size_card, hm, Multiset.coe_card]
    exact refRun_manyOps_length
  obtain ⟨p, e, hp255, hp⟩ := exists_far_bucket zeroEnv t hI.core 255 (by omega)
  have hpl := occupied_lt hI.core hp
  have hd : pGetProbeDistance zeroEnv t p e = p := by
    rw [pGetProbeDistance_actual hI.core hp]
    have hi : ideal zeroEnv (Capacity t) e.key = 0 := by
      unfold ideal zeroEnv
      simp
    rw [hi, cdist_eq (by omega) hpl]
    simp
  have hstored : e.dist = 254 := by
    have := hI.core.dist_ok p e ((pGetBucket_some_iff t p e).1 hp)
    rw [← pGetProbeDistance_eq zeroEnv t hI.core.len_eq hI.core.dist_ok
      ((pGetBucket_some_iff t p e).1 hp), hd] at this
    rw [this]
    unfold pSetProbeDistance kMaxProbeDistance
    rw [if_neg (by omega)]
  have hreach : Reachable zeroEnv t := ⟨0, ⟨7, 8⟩, defaultTable zeroEnv, manyOps, g, hc, hrun⟩
  have hfar : 255 ≤ pGetProbeDistance zeroEnv t p e := by
    rw [hd]
    exact hp255
  refine ⟨t, g, hrun, hreach, hsize, ⟨p, e, hp, hstored, hfar, ?_⟩, ?_⟩
  · unfold histogramIndices
    rw [List.mem_filterMap]
    exact ⟨p, List.mem_range.2 hpl, by rw [hp]; rfl⟩
  · unfold GetProbeDistanceHistogram
    apply histogramLoop_fault
    refine ⟨p, e, Nat.zero_le _, by omega, hp, ?_⟩
    rw [hd, List.length_replicate]
    unfold kMaxProbeDistance
    omega

/-- Claim C25, evaluated on the code where it fails: `AdjustCapacity(0) = 0`
and powers of two map to themselves, but `ToIndex` takes
`std::ceil(std::log2(n))` in double precision, so for `n = 2^49 + 1 <= 2^63`
the logarithm rounds to `49`, `ToIndex(n) = 50` and
`AdjustCapacity(n) = 2^49 < n` instead of `2^50`; likewise
`ToIndex(2^62 + 1) = 63` and `AdjustCapacity(2^62 + 1) = 2^62`. -/
theorem C25_adjust_capacity_rounds_down :
    AdjustCapacity 0 = 0 ∧
    AdjustCapacity (2 ^ 49) = 2 ^ 49 ∧
    2 ^ 49 + 1 ≤ 2 ^ 63 ∧
    ToIndex (2 ^ 49 + 1) = 50 ∧
    AdjustCapacity (2 ^ 49 + 1) = ToCapacity (ToIndex (2 ^ 49 + 1)) ∧
    AdjustCapacity (2 ^ 49 + 1) = 2 ^ 49 ∧
    AdjustCapacity (2 ^ 49 + 1) < 2 ^ 49 + 1 ∧
    2 ^ 62 + 1 ≤ 2 ^ 63 ∧
    ToIndex (2 ^ 62 + 1) = 63 ∧
    AdjustCapacity (2 ^ 62 + 1) = 2 ^ 62 ∧
    AdjustCapacity (2 ^ 62 + 1) < 2 ^ 62 + 1 := by
  decide

end Claims4

end Perroht

namespace Perroht

open PowerOfTwoCapacity

/-! ## The prime policy, headers and the probe-distance invariants (claims C26 to C30) -/

/-- Claim C26 is false at `n = 2^63 + 1`, which lies between the 63rd ladder
entry and the 64th (and last) one: `ToIndex(n) = 64`, but `ToCapacity(64)`
returns `MaxCapacity() = 2^63`, which is neither the ladder entry
`18446744073709551557` nor a value `>= n`. -/
theorem C26_prime_policy_counterexample :
    (0 < 9223372036854775809 ∧ 9223372036854775809 ≤ 18446744073709551557) ∧
    PrimeNumberCapacity.ToIndex 9223372036854775809 = 64 ∧
    PrimeNumberCapacity.kCapacities.getD 63 0 = 18446744073709551557 ∧
    PrimeNumberCapacity.AdjustCapacity 9223372036854775809 = 9223372036854775808 ∧
    PrimeNumberCapacity.AdjustCapacity 9223372036854775809 ≠
      PrimeNumberCapacity.kCapacities.getD
        (PrimeNumberCapacity.ToIndex 9223372036854775809 - 1) 0 ∧
    ¬ (9223372036854775809 ≤ PrimeNumberCapacity.AdjustCapacity 9223372036854775809) := by
  decide

/-- Claim C26, amended: for the prime policy and every `n` with
`0 < n <= 18446744073709551557` (the largest of the 64 ladder entries),
`ToIndex(n)` is the 1-based position of the smallest ladder entry `>= n`; for
`n <= 9223372036854775783` (the 63rd entry)
`AdjustCapacity(n) = ToCapacity(ToIndex(n))` returns that ladder entry (hence a
value `>= n`), and for larger `n` it returns `MaxCapacity() = 2^63`. -/
theorem C26_prime_policy (n : Nat) (h0 : 0 < n) (hmax : n ≤ 18446744073709551557) :
    (1 ≤ PrimeNumberCapacity.ToIndex n ∧ PrimeNumberCapacity.ToIndex n ≤ 64 ∧
      n ≤ PrimeNumberCapacity.kCapacities.getD (PrimeNumberCapacity.ToIndex n - 1) 0 ∧
      ∀ j, j < PrimeNumberCapacity.ToIndex n - 1 →
        PrimeNumberCapacity.kCapacities.getD j 0 < n) ∧
    PrimeNumberCapacity.AdjustCapacity n =
      PrimeNumberCapacity.ToCapacity (PrimeNumberCapacity.ToIndex n) ∧
    (n ≤ 9223372036854775783 →
      PrimeNumberCapacity.AdjustCapacity n =
        PrimeNumberCapacity.kCapacities.getD (PrimeNumberCapacity.ToIndex n - 1) 0 ∧
      n ≤ PrimeNumberCapacity.AdjustCapacity n) ∧
    (9223372036854775783 < n →
      PrimeNumberCapacity.ToIndex n = 64 ∧
      PrimeNumberCapacity.AdjustCapacity n = PrimeNumberCapacity.MaxCapacity ∧
      PrimeNumberCapacity.MaxCapacity = 2 ^ 63) := by
  obtain ⟨l1, l2, l3⟩ := PrimeNumberCapacity.lowerBound_spec PrimeNumberCapacity.kCapacities n
  have hlen : PrimeNumberCapacity.kCapacities.length = 64 := by decide
  have hlast : PrimeNumberCapacity.kCapacities.getD 63 0 = 18446744073709551557 := by decide
  have h62 : PrimeNumberCapacity.kCapacities.getD 62 0 = 9223372036854775783 := by decide
  have hsorted : ∀ j, j < 63 →
      PrimeNumberCapacity.kCapacities.getD j 0 ≤ 9223372036854775783 := by decide
  have hidx : PrimeNumberCapacity.ToIndex n =
      PrimeNumberCapacity.lowerBound PrimeNumberCapacity.kCapacities n + 1 := by
    unfold PrimeNumberCapacity.ToIndex
    rw [if_neg (by omega)]
  have hlt : PrimeNumberCapacity.lowerBound PrimeNumberCapacity.kCapacities n < 64 := by
    by_contra hge
    have := l2 63 (by omega)
    omega
  rw [hlen] at l1 l3
  refine ⟨⟨by omega, by omega, ?_, ?_⟩, rfl, ?_, ?_⟩
  · rw [hidx, Nat.add_sub_cancel]
    exact l3 hlt
  · intro j hj
    rw [hidx, Nat.add_sub_cancel] at hj
    exact l2 j hj
  · intro hn
    have hle : PrimeNumberCapacity.lowerBound PrimeNumberCapacity.kCapacities n ≤ 62 := by
      by_contra hgt
      have := l2 62 (by omega)
      omega
    have hcap : PrimeNumberCapacity.AdjustCapacity n =
        PrimeNumberCapacity.kCapacities.getD (PrimeNumberCapacity.ToIndex n - 1) 0 := by
      unfold PrimeNumberCapacity.AdjustCapacity PrimeNumberCapacity.ToCapacity
        PrimeNumberCapacity.kNumCapacities
      rw [if_neg (by omega), if_neg (by omega)]
    refine ⟨hcap, ?_⟩
    rw [hcap, hidx, Nat.add_sub_cancel]
    exact l3 hlt
  · intro hn
    have hge : 63 ≤ PrimeNumberCapacity.lowerBound PrimeNumberCapacity.kCapacities n := by
      by_contra hlt63
      have h1 := l3 hlt
      have h2 := hsorted _ (by omega : PrimeNumberCapacity.lowerBound
        PrimeNumberCapacity.kCapacities n < 63)
      omega
    have h64 : PrimeNumberCapacity.ToIndex n = 64 := by omega
    refine ⟨h64, ?_, ?_⟩
    · unfold PrimeNumberCapacity.AdjustCapacity PrimeNumberCapacity.ToCapacity
        PrimeNumberCapacity.kNumCapacities
      rw [h64, if_neg (by omega), if_pos (by omega)]
    · unfold PrimeNumberCapacity.MaxCapacity
      rw [Nat.one_shiftLeft]

theorem C26_prime_policy_witness :
    0 < 98 ∧ 98 ≤ 18446744073709551557 ∧
    ((1 ≤ PrimeNumberCapacity.ToIndex 98 ∧ PrimeNumberCapacity.ToIndex 98 ≤ 64 ∧
        98 ≤ PrimeNumberCapacity.kCapacities.getD (PrimeNumberCapacity.ToIndex 98 - 1) 0 ∧
        ∀ j, j < PrimeNumberCapacity.ToIndex 98 - 1 →
          PrimeNumberCapacity.kCapacities.getD j 0 < 98) ∧
      PrimeNumberCapacity.AdjustCapacity 98 =
        PrimeNumberCapacity.ToCapacity (PrimeNumberCapacity.ToIndex 98) ∧
      (98 ≤ 9223372036854775783 →
        PrimeNumberCapacity.AdjustCapacity 98 =
          PrimeNumberCapacity.kCapacities.getD (PrimeNumberCapacity.ToIndex 98 - 1) 0 ∧
        98 ≤ PrimeNumberCapacity.AdjustCapacity 98) ∧
      (9223372036854775783 < 98 →
        PrimeNumberCapacity.ToIndex 98 = 64 ∧
        PrimeNumberCapacity.AdjustCapacity 98 = PrimeNumberCapacity.MaxCapacity ∧
        PrimeNumberCapacity.MaxCapacity = 2 ^ 63)) :=
  ⟨by decide, by decide, C26_prime_policy 98 (by decide) (by decide)⟩

/-- Claim C27: setting the probe distance of a bucket to `d` stores
`min(d, 254)`: for every `d <= 254`, `SetProbeDistance(d)` followed by
`GetProbeDistance()` returns `d` and `Empty()` is false; for every `d > 254`
the `pSetProbeDistance` of the engine stores 254, so `GetProbeDistance()`
returns 254, and the header never becomes `Empty` (255) by setting a
distance through the engine. -/
theorem C27_set_probe_distance (h : Header) (d : Nat) :
    (d ≤ 254 →
      (h.SetProbeDistance d).GetProbeDistance = d ∧ (h.SetProbeDistance d).Empty = false) ∧
    (254 < d →
      (pSetProbeDistanceHeader h d).GetProbeDistance = 254 ∧
      (pSetProbeDistanceHeader h d).Empty = false) ∧
    (pSetProbeDistanceHeader h d).GetProbeDistance = min d 254 ∧
    (pSetProbeDistanceHeader h d).Empty = false ∧
    h.Clear.Empty = true := by
  have hset : pSetProbeDistance d = min d 254 := by
    unfold pSetProbeDistance kMaxProbeDistance
    split_ifs <;> omega
  have hmod : min d 254 % 256 = min d 254 := Nat.mod_eq_of_lt (by omega)
  refine ⟨?_, ?_, ?_, ?_, rfl⟩
  · intro hd
    have h1 : d % 256 = d := Nat.mod_eq_of_lt (by omega)
    simp only [Header.SetProbeDistance, Header.GetProbeDistance, Header.Empty, Header.kEmpyMark,
      h1]
    exact ⟨trivial, by simp; omega⟩
  · intro hd
    simp only [pSetProbeDistanceHeader, Header.SetProbeDistance, Header.GetProbeDistance,
      Header.Empty, Header.kEmpyMark, hset, hmod]
    exact ⟨by omega, by simp; omega⟩
  · simp only [pSetProbeDistanceHeader, Header.SetProbeDistance, Header.GetProbeDistance, hset,
      hmod]
  · simp only [pSetProbeDistanceHeader, Header.SetProbeDistance, Header.Empty,
      Header.kEmpyMark, hset, hmod]
    simp
    omega

section Claims5

variable {M K V : Type} [DecidableEq K]

end Claims5

end Perroht

namespace Perroht

open PowerOfTwoCapacity

section MeanLemmas

variable {K V : Type} [DecidableEq K]

/-! ## The sum of the probe distances -/

theorem distSumFrom_set_none (h : K → Nat) (n : Nat) :
    ∀ (l : List (Option (Entry K V))) (p0 q : Nat) (e : Entry K V),
      l[q]? = some none →
      distSumFrom h n (l.set q (some e)) p0 =
        distSumFrom h n l p0 + cdist n (h e.key % n) (p0 + q) := by
  intro l
  induction l with
  | nil => intro p0 q e hq; simp at hq
  | cons b l ih =>
    intro p0 q e hq
    cases q with
    | zero =>
      simp only [List.getElem?_cons_zero, Option.some.injEq] at hq
      subst hq
      simp only [List.set_cons_zero, distSumFrom, Nat.add_zero]
      omega
    | succ q =>
      simp only [List.getElem?_cons_succ] at hq
      have := ih (p0 + 1) q e hq
      cases b with
      | none =>
        simp only [List.set_cons_succ, distSumFrom, this]
        rw [show p0 + 1 + q = p0 + (q + 1) by omega]
      | some e0 =>
        simp only [List.set_cons_succ, distSumFrom, this]
        rw [show p0 + 1 + q = p0 + (q + 1) by omega]
        omega

theorem distSumFrom_set_some (h : K → Nat) (n : Nat) :
    ∀ (l : List (Option (Entry K V))) (p0 q : Nat) (e0 e : Entry K V),
      l[q]? = some (some e0) →
      distSumFrom h n (l.set q (some e)) p0 + cdist n (h e0.key % n) (p0 + q) =
        distSumFrom h n l p0 + cdist n (h e.key % n) (p0 + q) := by
  intro l
  induction l with
  | nil => intro p0 q e0 e hq; simp at hq
  | cons b l ih =>
    intro p0 q e0 e hq
    cases q with
    | zero =>
      simp only [List.getElem?_cons_zero, Option.some.injEq] at hq
      subst hq
      simp only [List.set_cons_zero, distSumFrom, Nat.add_zero]
      omega
    | succ q =>
      simp only [List.getElem?_cons_succ] at hq
      have := ih (p0 + 1) q e0 e hq
      rw [show p0 + 1 + q = p0 + (q + 1) by omega] at this
      cases b with
      | none =>
        simp only [List.set_cons_succ, distSumFrom]
        exact this
      | some e1 =>
        simp only [List.set_cons_succ, distSumFrom]
        omega

theorem distSumFrom_replicate_none (h : K → Nat) (n : Nat) :
    ∀ (k p : Nat),
      distSumFrom h n (List.replicate k (none : Option (Entry K V))) p = 0 := by
  intro k
  induction k with
  | zero => intro p; rfl
  | succ k ih =>
    intro p
    simp only [List.replicate_succ, distSumFrom]
    exact ih (p + 1)

theorem sum_range_distSumFrom (h : K → Nat) (n : Nat) (L : List (Option (Entry K V))) :
    ∀ (k p : Nat), p + k = L.length →
      ((List.range' p k).filterMap
        (fun q => ((L[q]?).getD none).map (fun e => cdist n (h e.key % n) q))).sum =
        distSumFrom h n (L.drop p) p := by
  intro k
  induction k with
  | zero =>
    intro p hp
    have : L.drop p = [] := List.drop_eq_nil_of_le (by omega)
    rw [this]
    rfl
  | succ k ih =>
    intro p hp
    have hlt : p < L.length := by omega
    rw [List.drop_eq_getElem_cons hlt, List.range'_succ, List.filterMap_cons,
      List.getElem?_eq_getElem hlt]
    have := ih (p + 1) (by omega)
    cases hb : L[p] with
    | none =>
      simp only [Option.getD_some, Option.map_none', distSumFrom]
      exact this
    | some e =>
      simp only [Option.getD_some, Option.map_some', List.sum_cons, distSumFrom]
      rw [this]

theorem probeDistances_sum (h : K → Nat) (t : PerrohtImpl MeanValue K V)
    (hlen : t.table_.length = Capacity t) :
    (probeDistances (exactEnv h) t).sum = distSumFrom h t.table_.length t.table_ 0 := by
  have := sum_range_distSumFrom h t.table_.length t.table_ t.table_.length 0 (by omega)
  rw [List.drop_zero] at this
  rw [← this, ← List.range_eq_range', hlen]
  rfl

/-! ## Cyclic distance after one step -/

theorem cdist_inc_mod {n a p : Nat} (ha : a < n) (hp : p < n) :
    cdist n a ((p + 1) % n) = (cdist n a p + 1) % n := by
  have h1 : (p + 1) % n < n := Nat.mod_lt _ (by omega)
  have h2 := inc_eq hp
  have h3 := cdist_eq ha hp
  have h4 := cdist_eq ha h1
  have h5 : cdist n a p < n := cdist_lt (by omega)
  have h6 := mod_closed (by omega : cdist n a p + 1 < 2 * n)
  rw [h6, h4]
  split_ifs at h2 h3 ⊢ <;> omega

/-! ## The running mean through `pForceInsert` -/

theorem pForceInsertLoop_mean (h : K → Nat) :
    ∀ (fuel : Nat) (t : PerrohtImpl MeanValue K V) (data : K × V) (pos dist : Nat)
      (ip : Option Nat) (r : PerrohtImpl MeanValue K V × Nat),
      pForceInsertLoop (exactEnv h) fuel t data pos dist ip = some r →
      MeanInv h t → pos < Capacity t →
      cdist (Capacity t) (h data.1 % Capacity t) pos = dist % Capacity t →
      MeanInv h r.1 ∧ Capacity r.1 = Capacity t := by
  intro fuel
  induction fuel with
  | zero =>
    intro t data pos dist ip r hr
    simp [pForceInsertLoop] at hr
  | succ fuel ih =>
    intro t data pos dist ip r hr hI hpos hdist
    have hcap : 0 < Capacity t := by omega
    have hposl : pos < t.table_.length := by rw [hI.len_eq]; exact hpos
    obtain ⟨hden, hmean⟩ := hI.mean_ok
    rw [pForceInsertLoop] at hr
    by_cases hd : dist < Capacity t
    · rw [if_pos hd] at hr
      have hdm : dist % Capacity t = dist := Nat.mod_eq_of_lt hd
      rw [hdm] at hdist
      have hdok : DistOK (exactEnv h)
          (t.table_.set pos (some ⟨pSetProbeDistance dist, data.1, data.2⟩)) := by
        apply DistOK_set hI.dist_ok
        intro e he
        cases he
        show pSetProbeDistance dist = pSetProbeDistance
          (cdist t.table_.length (h data.1 % t.table_.length) pos)
        rw [hI.len_eq, hdist]
      cases hb : pGetBucket t pos with
      | none =>
        rw [hb] at hr
        simp only [Option.some.injEq] at hr
        subst hr
        have hnone := (pGetBucket_none_iff t pos hposl).1 hb
        have hS := distSumFrom_set_none h t.table_.length t.table_ 0 pos
          ⟨pSetProbeDistance dist, data.1, data.2⟩ hnone
        simp only [Nat.zero_add] at hS
        rw [hI.len_eq, hdist] at hS
        refine ⟨⟨?_, ?_, hdok, ?_, ?_⟩, rfl⟩
        · show (t.table_.set pos _).length = Capacity t
          rw [List.length_set]
          exact hI.len_eq
        · show t.size_ + 1 = (records (t.table_.set pos _)).length
          have := mrecords_set_some_of_none hnone
            (⟨pSetProbeDistance dist, data.1, data.2⟩ : Entry K V)
          have hc := congrArg Multiset.card this
          rw [Multiset.card_cons, card_mrecords, card_mrecords] at hc
          rw [hc, hI.size_eq]
        · show 0 < t.mean_probe_distance_.den * (t.size_ + 1)
          positivity
        · show (t.mean_probe_distance_.num * (t.size_ : Int) +
              (dist : Int) * (t.mean_probe_distance_.den : Int)) * ((t.size_ + 1 : Nat) : Int) =
            (distSumFrom h (t.table_.set pos _).length (t.table_.set pos _) 0 : Int) *
              ((t.mean_probe_distance_.den * (t.size_ + 1) : Nat) : Int)
          rw [List.length_set, hI.len_eq, hS]
          rw [hI.len_eq] at hmean
          push_cast
          linear_combination ((t.size_ : Int) + 1) * hmean
      | some e =>
        rw [hb] at hr
        simp only at hr
        have hbe := (pGetBucket_some_iff t pos e).1 hb
        have hpd : pGetProbeDistance (exactEnv h) t pos e =
            cdist (Capacity t) (h e.key % Capacity t) pos := by
          rw [pGetProbeDistance_eq (exactEnv h) t hI.len_eq hI.dist_ok hbe, actualDist_def,
            hI.len_eq]
          rfl
        have hinc := pIncrementPosition_eq t pos hcap
        by_cases hs : pGetProbeDistance (exactEnv h) t pos e < dist
        · rw [if_pos hs] at hr
          have hS := distSumFrom_set_some h t.table_.length t.table_ 0 pos e
            ⟨pSetProbeDistance dist, data.1, data.2⟩ hbe
          simp only [Nat.zero_add] at hS
          rw [hI.len_eq, hdist, ← hpd] at hS
          have hsz : 0 < t.size_ := by
            rw [hI.size_eq]
            exact List.length_pos_of_mem (mem_records_of_getElem? hbe)
          have hI1 : MeanInv h
              { t with
                table_ := t.table_.set pos (some ⟨pSetProbeDistance dist, data.1, data.2⟩)
                mean_probe_distance_ :=
                  (exactEnv h).mean.update t.mean_probe_distance_
                    (pGetProbeDistance (exactEnv h) t pos e) dist t.size_ } := by
            refine ⟨?_, ?_, hdok, ?_, ?_⟩
            · show (t.table_.set pos _).length = Capacity t
              rw [List.length_set]
              exact hI.len_eq
            · show t.size_ = (records (t.table_.set pos _)).length
              have := mrecords_set_some_of_some hbe
                (⟨pSetProbeDistance dist, data.1, data.2⟩ : Entry K V)
              have hc := congrArg Multiset.card this
              rw [Multiset.card_cons, Multiset.card_cons, card_mrecords, card_mrecords] at hc
              rw [hI.size_eq]
              omega
            · show 0 < t.mean_probe_distance_.den * t.size_
              positivity
            · show (t.mean_probe_distance_.num * (t.size_ : Int) -
                  (pGetProbeDistance (exactEnv h) t pos e : Int) *
                    (t.mean_probe_distance_.den : Int) +
                  (dist : Int) * (t.mean_probe_distance_.den : Int)) * (t.size_ : Int) =
                (distSumFrom h (t.table_.set pos _).length (t.table_.set pos _) 0 : Int) *
                  ((t.mean_probe_distance_.den * t.size_ : Nat) : Int)
              rw [List.length_set, hI.len_eq]
              rw [hI.len_eq] at hmean
              have hS' : (distSumFrom h (Capacity t)
                  (t.table_.set pos (some ⟨pSetProbeDistance dist, data.1, data.2⟩)) 0 : Int) +
                  (pGetProbeDistance (exactEnv h) t pos e : Int) =
                  (distSumFrom h (Capacity t) t.table_ 0 : Int) + (dist : Int) := by
                exact_mod_cast hS
              push_cast
              linear_combination (t.size_ : Int) * hmean -
                ((t.mean_probe_distance_.den : Int) * (t.size_ : Int)) * hS'
          have := ih _ (e.key, e.val) (pIncrementPosition t pos)
            (pGetProbeDistance (exactEnv h) t pos e + 1) (some (ip.getD pos)) r hr hI1
            (by
              show pIncrementPosition t pos < Capacity t
              rw [hinc]
              exact Nat.mod_lt _ hcap)
            (by
              show cdist (Capacity t) (h e.key % Capacity t) (pIncrementPosition t pos) =
                (pGetProbeDistance (exactEnv h) t pos e + 1) % Capacity t
              rw [hinc, cdist_inc_mod (Nat.mod_lt _ hcap) hpos, hpd])
          exact this
        · rw [if_neg hs] at hr
          have := ih t data (pIncrementPosition t pos) (dist + 1) ip r hr hI
            (by rw [hinc]; exact Nat.mod_lt _ hcap)
            (by rw [hinc, cdist_inc_mod (Nat.mod_lt _ hcap) hpos, hdist])
          exact this
    · rw [if_neg hd] at hr
      simp only [Option.some.injEq] at hr
      subst hr
      exact ⟨hI, rfl⟩

theorem pForceInsert_mean (h : K → Nat) (t : PerrohtImpl MeanValue K V) (data : K × V)
    (hint : Option Nat) (r : PerrohtImpl MeanValue K V × Nat)
    (hr : pForceInsert (exactEnv h) t data hint = some r) (hI : MeanInv h t)
    (hhint : ∀ p, hint = some p → 0 < Capacity t → p < Capacity t) :
    MeanInv h r.1 ∧ Capacity r.1 = Capacity t := by
  have hcap : 0 < Capacity t := by
    by_contra h0
    have h0' : Capacity t = 0 := by omega
    unfold pForceInsert at hr
    cases hint <;> simp [h0', pForceInsertLoop] at hr
  have hid := pIdealPosition_eq (exactEnv h) t data.1 hcap
  have hil : ideal (exactEnv h) (Capacity t) data.1 < Capacity t := ideal_lt _ hcap _
  unfold pForceInsert at hr
  cases hint with
  | none =>
    simp only at hr
    apply pForceInsertLoop_mean h _ t data _ _ _ r hr hI
    · rw [hid]; exact hil
    · rw [hid]
      show cdist (Capacity t) (ideal (exactEnv h) (Capacity t) data.1) _ = _
      rw [cdist_self hil, Nat.zero_mod]
  | some p =>
    simp only at hr
    apply pForceInsertLoop_mean h _ t data _ _ _ r hr hI (hhint p rfl hcap)
    rw [hid, Nat.mod_mod]
    rfl

end MeanLemmas

end Perroht

namespace Perroht

open PowerOfTwoCapacity

section MeanLemmas2

variable {K V : Type} [DecidableEq K]

/-! ## The position returned by `pLocate` -/

theorem pLocateLoop_lt {M : Type} (env : Env M K) (t : PerrohtImpl M K V) (key : K) :
    ∀ fuel pos dist, pos < Capacity t →
      (pLocateLoop env t key fuel pos dist).1 < Capacity t := by
  intro fuel
  induction fuel with
  | zero => intro pos dist hp; exact hp
  | succ fuel ih =>
    intro pos dist hp
    rw [pLocateLoop]
    cases pGetBucket t pos with
    | none => exact hp
    | some e =>
      simp only
      split_ifs
      · exact hp
      · exact hp
      · apply ih
        rw [pIncrementPosition_eq t pos (by omega)]
        exact Nat.mod_lt _ (by omega)

theorem pLocate_lt {M : Type} (env : Env M K) (t : PerrohtImpl M K V) (key : K)
    (hcap : 0 < Capacity t) : (pLocate env t key).1 < Capacity t := by
  unfold pLocate
  rw [if_neg (by omega)]
  apply pLocateLoop_lt
  rw [pIdealPosition_eq env t key hcap]
  exact ideal_lt env hcap key

/-! ## The running mean through transfers and `pInsert` -/

theorem AdjustCapacity_idem (n : Nat) : AdjustCapacity (AdjustCapacity n) = AdjustCapacity n := by
  show ToCapacity (ToIndex (AdjustCapacity n)) = AdjustCapacity n
  rw [ToIndex_AdjustCapacity]
  rfl

theorem MeanInv_fresh (h : K → Nat) (t : PerrohtImpl MeanValue K V) (c : Nat)
    (hc : AdjustCapacity c = c) :
    MeanInv h
      ({ t with
        table_ := pAllocateTable c
        capacity_index_ := ToIndex c
        size_ := 0
        mean_probe_distance_ := (exactEnv h).mean.zero } : PerrohtImpl MeanValue K V) := by
  refine ⟨?_, ?_, ?_, ?_, ?_⟩
  · show (List.replicate c none).length = ToCapacity (ToIndex c)
    rw [List.length_replicate]
    exact hc.symm
  · show 0 = (records (List.replicate c none)).length
    rw [records_replicate_none]
    rfl
  · intro p e hp
    exact absurd hp getElem?_replicate_none
  · show 0 < 1
    decide
  · show (0 : Int) * ((0 : Nat) : Int) =
      (distSumFrom h (List.replicate c none).length (List.replicate c none) 0 : Int) *
        ((1 : Nat) : Int)
    rw [distSumFrom_replicate_none]
    simp

theorem pTransferLoop_mean (h : K → Nat)
    (ins : PerrohtImpl MeanValue K V → K × V → Option (PerrohtImpl MeanValue K V))
    (hins : ∀ t0 d t1, MeanInv h t0 → ins t0 d = some t1 → MeanInv h t1)
    (old : List (Option (Entry K V))) :
    ∀ (n i : Nat) (t r : PerrohtImpl MeanValue K V),
      MeanInv h t → pTransferLoop ins old n i t = some r → MeanInv h r := by
  intro n
  induction n with
  | zero =>
    intro i t r hI hr
    simp only [pTransferLoop, Option.some.injEq] at hr
    subst hr
    exact hI
  | succ n ih =>
    intro i t r hI hr
    rw [pTransferLoop] at hr
    cases hb : (old[i]?).getD none with
    | none =>
      rw [hb] at hr
      exact ih (i + 1) t r hI hr
    | some e =>
      rw [hb] at hr
      simp only at hr
      cases hi : ins t (e.key, e.val) with
      | none => rw [hi] at hr; cases hr
      | some t1 =>
        rw [hi] at hr
        exact ih (i + 1) t1 r (hins t _ t1 hI hi) hr

theorem pTransferEntriesTo_mean (h : K → Nat)
    (ins : PerrohtImpl MeanValue K V → K × V → Option (PerrohtImpl MeanValue K V))
    (hins : ∀ t0 d t1, MeanInv h t0 → ins t0 d = some t1 → MeanInv h t1)
    (t r : PerrohtImpl MeanValue K V) (c : Nat) (hc : AdjustCapacity c = c)
    (hr : pTransferEntriesTo ins (exactEnv h) t c = some r) : MeanInv h r := by
  unfold pTransferEntriesTo at hr
  simp only at hr
  by_cases h0 : Capacity t = 0
  · rw [if_pos h0] at hr
    simp only [Option.some.injEq] at hr
    subst hr
    exact MeanInv_fresh h t c hc
  · rw [if_neg h0] at hr
    exact pTransferLoop_mean h ins hins _ _ _ _ r (MeanInv_fresh h t c hc) hr

theorem ReserveWith_mean (h : K → Nat)
    (ins : PerrohtImpl MeanValue K V → K × V → Option (PerrohtImpl MeanValue K V))
    (hins : ∀ t0 d t1, MeanInv h t0 → ins t0 d = some t1 → MeanInv h t1)
    (t r : PerrohtImpl MeanValue K V) (c : Nat) (hI : MeanInv h t)
    (hr : ReserveWith ins (exactEnv h) t c = some r) : MeanInv h r := by
  unfold ReserveWith at hr
  by_cases hle : c ≤ Capacity t
  · rw [if_pos hle] at hr
    simp only [Option.some.injEq] at hr
    subst hr
    exact hI
  · rw [if_neg hle] at hr
    exact pTransferEntriesTo_mean h ins hins t r _ (AdjustCapacity_idem c) hr

theorem pGrowWith_mean (h : K → Nat)
    (ins : PerrohtImpl MeanValue K V → K × V → Option (PerrohtImpl MeanValue K V))
    (hins : ∀ t0 d t1, MeanInv h t0 → ins t0 d = some t1 → MeanInv h t1)
    (t r : PerrohtImpl MeanValue K V) (req : Nat) (hI : MeanInv h t)
    (hr : pGrowWith ins (exactEnv h) t req = some r) : MeanInv h r := by
  unfold pGrowWith at hr
  cases hg : pGrowIndex t req (req * t.max_load_factor_.den + 2) (t.capacity_index_ + 1) with
  | none => rw [hg] at hr; cases hr
  | some idx =>
    rw [hg] at hr
    exact ReserveWith_mean h ins hins t r _ hI hr

theorem pInsert_mean (h : K → Nat) :
    ∀ (depth : Nat) (t : PerrohtImpl MeanValue K V) (check : Bool) (data : K × V)
      (hint : Option Nat) (r : PerrohtImpl MeanValue K V × Nat),
      MeanInv h t → (∀ p, hint = some p → 0 < Capacity t → p < Capacity t) →
      pInsert (exactEnv h) depth t check data hint = some r → MeanInv h r.1 := by
  intro depth
  induction depth with
  | zero =>
    intro t check data hint r _ _ hr
    rw [pInsert] at hr
    cases hr
  | succ depth ih =>
    intro t check data hint r hI hhint hr
    have hins : ∀ (t0 : PerrohtImpl MeanValue K V) (d : K × V) (t1 : PerrohtImpl MeanValue K V),
        MeanInv h t0 →
        (fun (t0 : PerrohtImpl MeanValue K V) (d : K × V) =>
          (pInsert (exactEnv h) depth t0 false d none).map Prod.fst) t0 d = some t1 →
        MeanInv h t1 := by
      intro t0 d t1 h0 h1
      simp only [Option.map_eq_some'] at h1
      obtain ⟨r0, hr0, rfl⟩ := h1
      exact ih t0 false d none r0 h0 (fun p hp => by cases hp) hr0
    rw [pInsert] at hr
    cases hp : pInsertPlace (fun (t0 : PerrohtImpl MeanValue K V) (d : K × V) =>
        (pInsert (exactEnv h) depth t0 false d none).map Prod.fst)
        (exactEnv h) t check data hint with
    | none => rw [hp] at hr; cases hr
    | some r2 =>
      rw [hp] at hr
      obtain ⟨t2, ipos⟩ := r2
      simp only at hr
      have hI2 : MeanInv h t2 := by
        unfold pInsertPlace at hp
        split_ifs at hp with hc
        · cases hg : pGrowWith (fun (t0 : PerrohtImpl MeanValue K V) (d : K × V) =>
              (pInsert (exactEnv h) depth t0 false d none).map Prod.fst)
              (exactEnv h) t (Size t + 1) with
          | none => rw [hg] at hp; cases hp
          | some t1 =>
            rw [hg] at hp
            simp only at hp
            have hI1 := pGrowWith_mean h _ hins t t1 _ hI hg
            exact (pForceInsert_mean h t1 data none _ hp hI1 (fun p hp => by cases hp)).1
        · exact (pForceInsert_mean h t data hint _ hp hI hhint).1
      unfold pInsertAutoGrow at hr
      split_ifs at hr with hc
      · cases hb : pGetBucket t2 ipos with
        | none => rw [hb] at hr; cases hr
        | some e =>
          rw [hb] at hr
          simp only at hr
          cases hres : ReserveWith (fun (t0 : PerrohtImpl MeanValue K V) (d : K × V) =>
              (pInsert (exactEnv h) depth t0 false d none).map Prod.fst)
              (exactEnv h) t2 (Capacity t2 * 2) with
          | none => rw [hres] at hr; cases hr
          | some t3 =>
            rw [hres] at hr
            simp only [Option.some.injEq] at hr
            subst hr
            exact ReserveWith_mean h _ hins t2 t3 _ hI2 hres
      · simp only [Option.some.injEq] at hr
        subst hr
        exact hI2

/-! ## The running mean through the public operations without erasure -/

theorem pInsert_public_mean (h : K → Nat) (t : PerrohtImpl MeanValue K V) (depth : Nat)
    (data : K × V) (k : K) (r : PerrohtImpl MeanValue K V × Nat) (hI : MeanInv h t)
    (hr : pInsert (exactEnv h) depth t true data (some (pLocate (exactEnv h) t k).1) = some r) :
    MeanInv h r.1 := by
  apply pInsert_mean h depth t true data _ r hI _ hr
  intro p hp hcap
  cases hp
  exact pLocate_lt _ t k hcap

theorem applyOp_mean (h : K → Nat) (t : PerrohtImpl MeanValue K V) (g : Ghost K V)
    (op : Op K V) (hop : op.isGrowing = true) (s1 : PerrohtImpl MeanValue K V × Ghost K V)
    (hI : MeanInv h t) (hs : applyOp (exactEnv h) (t, g) op = some s1) : MeanInv h s1.1 := by
  cases op with
  | insert key val =>
    simp only [applyOp, Option.map_eq_some'] at hs
    obtain ⟨r, hr, rfl⟩ := hs
    simp only
    unfold Insert at hr
    simp only at hr
    split_ifs at hr with hf
    · simp only [Option.some.injEq] at hr
      subst hr
      exact hI
    · simp only [Option.map_eq_some'] at hr
      obtain ⟨r0, hr0, rfl⟩ := hr
      exact pInsert_public_mean h t _ _ key r0 hI hr0
  | emplace key val =>
    simp only [applyOp, Option.map_eq_some'] at hs
    obtain ⟨r, hr, rfl⟩ := hs
    simp only
    unfold Emplace at hr
    simp only at hr
    split_ifs at hr with hf
    · simp only [Option.some.injEq] at hr
      subst hr
      exact hI
    · simp only [Option.map_eq_some'] at hr
      obtain ⟨r0, hr0, rfl⟩ := hr
      exact pInsert_mean h _ t true _ none r0 hI (fun p hp => by cases hp) hr0
  | tryEmplace key val =>
    simp only [applyOp, Option.map_eq_some'] at hs
    obtain ⟨r, hr, rfl⟩ := hs
    simp only
    unfold TryEmplace at hr
    simp only at hr
    split_ifs at hr with hf
    · simp only [Option.some.injEq] at hr
      subst hr
      exact hI
    · simp only [Option.map_eq_some'] at hr
      obtain ⟨r0, hr0, rfl⟩ := hr
      exact pInsert_public_mean h t _ _ key r0 hI hr0
  | reserve capacity =>
    simp only [applyOp, Option.map_eq_some'] at hs
    obtain ⟨r, hr, rfl⟩ := hs
    simp only
    unfold Reserve at hr
    refine ReserveWith_mean h _ ?_ t r _ hI hr
    intro t0 d t1 h0 h1
    simp only [Option.map_eq_some'] at h1
    obtain ⟨r0, hr0, rfl⟩ := h1
    exact pInsert_mean h _ t0 false d none r0 h0 (fun p hp => by cases hp) hr0
  | rehash capacity_request =>
    simp only [applyOp, Option.map_eq_some'] at hs
    obtain ⟨r, hr, rfl⟩ := hs
    simp only
    unfold Rehash at hr
    refine pTransferEntriesTo_mean h _ ?_ t r _ (AdjustCapacity_idem _) hr
    intro t0 d t1 h0 h1
    simp only [Option.map_eq_some'] at h1
    obtain ⟨r0, hr0, rfl⟩ := h1
    exact pInsert_mean h _ t0 true d none r0 h0 (fun p hp => by cases hp) hr0
  | erase key => simp [Op.isGrowing] at hop
  | eraseIt it => simp [Op.isGrowing] at hop
  | clear => simp [Op.isGrowing] at hop
  | shrinkToFit => simp [Op.isGrowing] at hop
  | setMaxLoadFactor x => simp [Op.isGrowing] at hop
  | copy => simp [Op.isGrowing] at hop

theorem run_mean (h : K → Nat) :
    ∀ (ops : List (Op K V)) (t : PerrohtImpl MeanValue K V) (g : Ghost K V)
      (s1 : PerrohtImpl MeanValue K V × Ghost K V),
      (∀ op ∈ ops, op.isGrowing = true) → MeanInv h t →
      run (exactEnv h) ops (t, g) = some s1 → MeanInv h s1.1 := by
  intro ops
  induction ops with
  | nil =>
    intro t g s1 _ hI hr
    simp only [run, Option.some.injEq] at hr
    subst hr
    exact hI
  | cons op ops ih =>
    intro t g s1 hops hI hr
    rw [run] at hr
    cases ha : applyOp (exactEnv h) (t, g) op with
    | none => rw [ha] at hr; simp at hr
    | some s =>
      rw [ha] at hr
      obtain ⟨t2, g2⟩ := s
      have hI2 := applyOp_mean h t g op (hops op (List.mem_cons_self _ _)) _ hI ha
      exact ih t2 g2 s1 (fun o ho => hops o (List.mem_cons_of_mem _ ho)) hI2 (by simpa using hr)

theorem construct_mean (h : K → Nat) (c : Nat) (x : LoadFactorValue)
    (t0 : PerrohtImpl MeanValue K V) (h0 : construct (exactEnv h) c x = some t0) :
    MeanInv h t0 := by
  unfold construct Reserve at h0
  refine ReserveWith_mean h _ ?_ _ t0 _ ?_ h0
  · intro t0 d t1 h0 h1
    simp only [Option.map_eq_some'] at h1
    obtain ⟨r0, hr0, rfl⟩ := h1
    exact pInsert_mean h _ t0 false d none r0 h0 (fun p hp => by cases hp) hr0
  · refine ⟨rfl, rfl, ?_, ?_, ?_⟩
    · intro p e hp
      simp [defaultTable] at hp
    · show 0 < 1
      decide
    · show (0 : Int) * ((0 : Nat) : Int) = _
      simp [defaultTable, distSumFrom]

end MeanLemmas2

end Perroht

namespace Perroht

open PowerOfTwoCapacity

section ProbeLemmas

variable {M K V : Type} [DecidableEq K]

/-! ## The iterations of `pForceInsert` -/

theorem pForceInsertTrace_spec (env : Env M K) :
    ∀ (fuel : Nat) (t : PerrohtImpl M K V) (data : K × V) (pos dist : Nat)
      (ip : Option Nat) (r : PerrohtImpl M K V × Nat),
      pForceInsertLoop env fuel t data pos dist ip = some r →
      r.1.size_ = t.size_ + 1 → pos < Capacity t →
      ∃ tr, pForceInsertTrace env fuel t data pos dist = some tr ∧
        tr.length ≤ fuel ∧ 0 < tr.length ∧
        ∀ x ∈ tr, x.1 < Capacity t ∧ x.2 < Capacity t := by
  intro fuel
  induction fuel with
  | zero =>
    intro t data pos dist ip r hr
    simp [pForceInsertLoop] at hr
  | succ fuel ih =>
    intro t data pos dist ip r hr hsz hpos
    have hcap : 0 < Capacity t := by omega
    rw [pForceInsertLoop] at hr
    rw [pForceInsertTrace]
    by_cases hd : dist < Capacity t
    · rw [if_pos hd] at hr ⊢
      cases hb : pGetBucket t pos with
      | none =>
        refine ⟨[(pos, dist)], rfl, by simp, by simp, ?_⟩
        intro x hx
        simp only [List.mem_singleton] at hx
        subst hx
        exact ⟨hpos, hd⟩
      | some e =>
        rw [hb] at hr
        simp only at hr ⊢
        have hinc : pIncrementPosition t pos < Capacity t := by
          rw [pIncrementPosition_eq t pos hcap]
          exact Nat.mod_lt _ hcap
        by_cases hs : pGetProbeDistance env t pos e < dist
        · rw [if_pos hs] at hr ⊢
          obtain ⟨tr, h1, h2, h3, h4⟩ := ih _ _ _ _ _ r hr hsz hinc
          refine ⟨(pos, dist) :: tr, by rw [h1]; rfl, by simp; omega, by simp, ?_⟩
          intro x hx
          rcases List.mem_cons.1 hx with rfl | hx
          · exact ⟨hpos, hd⟩
          · exact h4 x hx
        · rw [if_neg hs] at hr ⊢
          obtain ⟨tr, h1, h2, h3, h4⟩ := ih _ _ _ _ _ r hr hsz hinc
          refine ⟨(pos, dist) :: tr, by rw [h1]; rfl, by simp; omega, by simp, ?_⟩
          intro x hx
          rcases List.mem_cons.1 hx with rfl | hx
          · exact ⟨hpos, hd⟩
          · exact h4 x hx
    · rw [if_neg hd] at hr
      simp only [Option.some.injEq] at hr
      subst hr
      simp at hsz

/-! ## The hint of `pLocate` -/

theorem pForceInsertLoop_mono (env : Env M K) :
    ∀ (fuel : Nat) (t : PerrohtImpl M K V) (data : K × V) (pos dist : Nat)
      (ip : Option Nat) (r : PerrohtImpl M K V × Nat) (j : Nat),
      pForceInsertLoop env fuel t data pos dist ip = some r →
      pForceInsertLoop env (fuel + j) t data pos dist ip = some r := by
  intro fuel
  induction fuel with
  | zero =>
    intro t data pos dist ip r j hr
    simp [pForceInsertLoop] at hr
  | succ fuel ih =>
    intro t data pos dist ip r j hr
    rw [show fuel + 1 + j = (fuel + j) + 1 by omega]
    rw [pForceInsertLoop] at hr ⊢
    by_cases hd : dist < Capacity t
    · rw [if_pos hd] at hr ⊢
      cases hb : pGetBucket t pos with
      | none =>
        rw [hb] at hr
        exact hr
      | some e =>
        rw [hb] at hr
        simp only at hr ⊢
        by_cases hs : pGetProbeDistance env t pos e < dist
        · rw [if_pos hs] at hr ⊢
          exact ih _ _ _ _ _ r j hr
        · rw [if_neg hs] at hr ⊢
          exact ih _ _ _ _ _ r j hr
    · rw [if_neg hd] at hr ⊢
      exact hr

theorem pForceInsertLoop_pos (env : Env M K) :
    ∀ (fuel : Nat) (t : PerrohtImpl M K V) (data : K × V) (pos dist x : Nat)
      (r : PerrohtImpl M K V × Nat),
      pForceInsertLoop env fuel t data pos dist (some x) = some r →
      r.1.size_ = t.size_ + 1 → r.2 = x := by
  intro fuel
  induction fuel with
  | zero =>
    intro t data pos dist x r hr
    simp [pForceInsertLoop] at hr
  | succ fuel ih =>
    intro t data pos dist x r hr hsz
    rw [pForceInsertLoop] at hr
    by_cases hd : dist < Capacity t
    · rw [if_pos hd] at hr
      cases hb : pGetBucket t pos with
      | none =>
        rw [hb] at hr
        simp only [Option.some.injEq] at hr
        subst hr
        rfl
      | some e =>
        rw [hb] at hr
        simp only at hr
        by_cases hs : pGetProbeDistance env t pos e < dist
        · rw [if_pos hs] at hr
          exact ih _ _ _ _ _ r hr hsz
        · rw [if_neg hs] at hr
          exact ih _ _ _ _ _ r hr hsz
    · rw [if_neg hd] at hr
      simp only [Option.some.injEq] at hr
      subst hr
      simp at hsz

/-- Started at a bucket that is empty or holds a record closer to its home
than the new one, `pForceInsert` puts the new record into that bucket. -/
theorem pForceInsertLoop_first (env : Env M K) (fuel : Nat) (t : PerrohtImpl M K V)
    (data : K × V) (pos dist : Nat) (r : PerrohtImpl M K V × Nat)
    (hr : pForceInsertLoop env fuel t data pos dist none = some r)
    (hsz : r.1.size_ = t.size_ + 1)
    (hstop : pGetBucket t pos = none ∨
      ∃ e, pGetBucket t pos = some e ∧ pGetProbeDistance env t pos e < dist) :
    r.2 = pos := by
  cases fuel with
  | zero => simp [pForceInsertLoop] at hr
  | succ fuel =>
    rw [pForceInsertLoop] at hr
    by_cases hd : dist < Capacity t
    · rw [if_pos hd] at hr
      rcases hstop with hb | ⟨e, hb, hs⟩
      · rw [hb] at hr
        simp only [Option.some.injEq] at hr
        subst hr
        rfl
      · rw [hb] at hr
        simp only at hr
        rw [if_pos hs] at hr
        exact pForceInsertLoop_pos env _ _ _ _ _ _ r hr hsz
    · rw [if_neg hd] at hr
      simp only [Option.some.injEq] at hr
      subst hr
      simp at hsz

theorem pLocate_advance (env : Env M K) (t : PerrohtImpl M K V) (key : K) (v : V)
    (habs : ∀ p e, pGetBucket t p = some e → e.key ≠ key) :
    ∀ (fuel pos dist : Nat), fuel + dist = Capacity t → pos < Capacity t →
      ∃ k, k ≤ fuel ∧
        (pLocateLoop env t key fuel pos dist).1 = (pos + k) % Capacity t ∧
        (∀ j, j < k → (pGetBucket t ((pos + j) % Capacity t)).isSome = true) ∧
        (∀ (F : Nat) (ip : Option Nat),
          pForceInsertLoop env (F + k) t (key, v) pos dist ip =
            pForceInsertLoop env F t (key, v) ((pos + k) % Capacity t) (dist + k) ip) ∧
        (k < fuel → pGetBucket t ((pos + k) % Capacity t) = none ∨
          ∃ e, pGetBucket t ((pos + k) % Capacity t) = some e ∧
            pGetProbeDistance env t ((pos + k) % Capacity t) e < dist + k) := by
  intro fuel
  induction fuel with
  | zero =>
    intro pos dist _ hpos
    refine ⟨0, le_refl _, ?_, fun j hj => by omega, fun F ip => ?_, fun h => by omega⟩
    · simp [pLocateLoop, Nat.mod_eq_of_lt hpos]
    · simp [Nat.mod_eq_of_lt hpos]
  | succ fuel ih =>
    intro pos dist hfd hpos
    have hcap : 0 < Capacity t := by omega
    have hzero : (pGetBucket t pos = none ∨
          ∃ e, pGetBucket t pos = some e ∧ pGetProbeDistance env t pos e < dist) →
        ∃ k, k ≤ fuel + 1 ∧
        pos = (pos + k) % Capacity t ∧
        (∀ j, j < k → (pGetBucket t ((pos + j) % Capacity t)).isSome = true) ∧
        (∀ (F : Nat) (ip : Option Nat),
          pForceInsertLoop env (F + k) t (key, v) pos dist ip =
            pForceInsertLoop env F t (key, v) ((pos + k) % Capacity t) (dist + k) ip) ∧
        (k < fuel + 1 → pGetBucket t ((pos + k) % Capacity t) = none ∨
          ∃ e, pGetBucket t ((pos + k) % Capacity t) = some e ∧
            pGetProbeDistance env t ((pos + k) % Capacity t) e < dist + k) :=
      fun hstop => ⟨0, Nat.zero_le _, by simp [Nat.mod_eq_of_lt hpos], fun j hj => by omega,
        fun F ip => by simp [Nat.mod_eq_of_lt hpos],
        fun _ => by simpa [Nat.mod_eq_of_lt hpos] using hstop⟩
    rw [pLocateLoop]
    cases hb : pGetBucket t pos with
    | none => exact hzero (Or.inl hb)
    | some e =>
      simp only
      by_cases hs : pGetProbeDistance env t pos e < dist
      · rw [if_pos hs]
        exact hzero (Or.inr ⟨e, hb, hs⟩)
      · rw [if_neg hs, if_neg (habs pos e hb)]
        have hinc := pIncrementPosition_eq t pos hcap
        obtain ⟨k, h1, h2, h3, h4, h5⟩ := ih (pIncrementPosition t pos) (dist + 1) (by omega)
          (by rw [hinc]; exact Nat.mod_lt _ hcap)
        have hpk : (pIncrementPosition t pos + k) % Capacity t =
            (pos + (k + 1)) % Capacity t := by
          rw [hinc, Nat.mod_add_mod]
          congr 1
          omega
        refine ⟨k + 1, by omega, by rw [h2, hpk], ?_, ?_, ?_⟩
        rotate_left 2
        · intro hk
          have := h5 (by omega)
          rw [hpk, show dist + 1 + k = dist + (k + 1) by omega] at this
          exact this
        · intro j hj
          cases j with
          | zero =>
            simp only [Nat.add_zero, Nat.mod_eq_of_lt hpos, hb]
            rfl
          | succ j =>
            have := h3 j (by omega)
            rw [hinc, Nat.mod_add_mod] at this
            rw [show pos + (j + 1) = pos + 1 + j by omega]
            exact this
        · intro F ip
          rw [show F + (k + 1) = (F + k) + 1 by omega, pForceInsertLoop,
            if_pos (by omega : dist < Capacity t), hb]
          simp only
          rw [if_neg hs, h4 F ip, hpk]
          congr 1
          omega

theorem add_cdist {n a p : Nat} (ha : a < n) (hp : p < n) : (a + cdist n a p) % n = p := by
  have h1 := cdist_eq ha hp
  have h2 : cdist n a p < n := cdist_lt (by omega)
  have h3 := mod_closed (by omega : a + cdist n a p < 2 * n)
  rw [h3]
  split_ifs at h1 ⊢ <;> omega

theorem pForceInsert_hint_eq (env : Env M K) (t : PerrohtImpl M K V) (hI : InvCore env t)
    (hroom : t.size_ < Capacity t) (k : K) (v : V)
    (habs : Contains env t k = false) :
    pForceInsert env t (k, v) (some (pLocate env t k).1) = pForceInsert env t (k, v) none ∧
    ∃ t1, pForceInsert env t (k, v) none = some (t1, (pLocate env t k).1) := by
  have hcap : 0 < Capacity t := by omega
  have hkeys : k ∉ (records t.table_).map Prod.fst := by
    rw [mem_keys_iff]
    exact (Contains_eq_false_iff env t hI k).1 habs
  have habs2 : ∀ p e, pGetBucket t p = some e → e.key ≠ k := by
    intro p e hp hk
    apply hkeys
    rw [← hk]
    exact List.mem_map.2 ⟨(e.key, e.val), mem_mrecords.1 (bucket_mem t hp), rfl⟩
  have hid := pIdealPosition_eq env t k hcap
  have hil : ideal env (Capacity t) k < Capacity t := ideal_lt env hcap k
  obtain ⟨j, h1, h2, h3, h4, hstop⟩ := pLocate_advance env t k v habs2 (Capacity t)
    (pIdealPosition env t k) 0 (by omega) (by rw [hid]; exact hil)
  obtain ⟨E, hE⟩ := hI.room_empty hroom
  have hEl : E < Capacity t := by
    rw [← hI.len_eq]
    exact getElem?_lt hE
  have hjlt : j < Capacity t := by
    by_contra hge
    have hocc := h3 (cdist (Capacity t) (ideal env (Capacity t) k) E)
      (lt_of_lt_of_le (cdist_lt hcap) (by omega))
    rw [hid, add_cdist hil hEl] at hocc
    have hnone : pGetBucket t E = none := by
      unfold pGetBucket
      rw [hE]
      rfl
    rw [hnone] at hocc
    cases hocc
  obtain ⟨t1, ipos, hres, _, _, _, hsz1, _⟩ :=
    pForceInsert_spec env t (k, v) none hI hroom (Or.inl rfl) hkeys
  have hloc : (pLocate env t k).1 = (pIdealPosition env t k + j) % Capacity t := by
    unfold pLocate
    rw [if_neg (by omega)]
    exact h2
  have hnone : pForceInsert env t (k, v) none =
      pForceInsertLoop env (Capacity t) t (k, v) (pIdealPosition env t k) 0 none := rfl
  have hsome : pForceInsert env t (k, v) (some (pLocate env t k).1) =
      pForceInsertLoop env (Capacity t) t (k, v) (pLocate env t k).1
        (((pLocate env t k).1 + Capacity t - pIdealPosition env t k) % Capacity t) none := rfl
  have hdist : ((pLocate env t k).1 + Capacity t - pIdealPosition env t k) % Capacity t = j := by
    rw [hloc, hid]
    exact cdist_add hil hjlt
  rw [hsome, hdist, hres]
  rw [hnone] at hres
  have h5 := h4 (Capacity t - j) none
  rw [show Capacity t - j + j = Capacity t by omega, hres, Nat.zero_add] at h5
  have h6 := pForceInsertLoop_mono env _ _ _ _ _ _ _ j h5.symm
  rw [show Capacity t - j + j = Capacity t by omega, ← hloc] at h6
  refine ⟨h6, t1, ?_⟩
  have hpos : ipos = (pLocate env t k).1 := by
    have h7 := h5.symm
    rw [← hloc] at h7
    exact pForceInsertLoop_first env _ t (k, v) _ j (t1, ipos) h7 hsz1
      (by
        have := hstop hjlt
        rw [Nat.zero_add] at this
        rw [hloc]
        exact this)
  rw [hpos]

end ProbeLemmas

end Perroht

namespace Perroht

open PowerOfTwoCapacity

section EraseExact

variable {M K V : Type} [DecidableEq K]

/-! ## Occupied buckets and records -/

theorem records_length_lt {l : List (Option (Entry K V))} {p : Nat}
    (h : l[p]? = some none) : (records l).length < l.length := by
  induction l generalizing p with
  | nil => simp at h
  | cons b l ih =>
    cases p with
    | zero =>
      simp only [List.getElem?_cons_zero, Option.some.injEq] at h
      subst h
      have := records_length_le l
      simp only [records, List.filterMap_cons, Option.map_none', List.length_cons] at this ⊢
      omega
    | succ p =>
      simp only [List.getElem?_cons_succ] at h
      have := ih h
      cases b with
      | none =>
        simp only [records, List.filterMap_cons, Option.map_none', List.length_cons] at this ⊢
        omega
      | some e =>
        simp only [records, List.filterMap_cons, Option.map_some', List.length_cons] at this ⊢
        omega

theorem pGetBucket_eq_of_getElem? {t t1 : PerrohtImpl M K V} {p q : Nat}
    (h : t1.table_[p]? = t.table_[q]?) : pGetBucket t1 p = pGetBucket t q := by
  unfold pGetBucket
  rw [h]

/-! ## Reads of a holder after it has been moved from -/

theorem pEraseMovedFromReads_mem (env : Env M K) (t0 : PerrohtImpl M K V) (m : Nat)
    (hm : m + 1 < Capacity t0)
    (hocc : ∀ q, 1 ≤ q → q ≤ m → ∃ e, pGetBucket t0 q = some e ∧
      0 < pGetProbeDistance env t0 q e)
    (hsat : ∀ e, pGetBucket t0 m = some e → ¬ e.dist < kMaxProbeDistance) :
    ∀ (fuel i : Nat) (t : PerrohtImpl M K V), Capacity t = Capacity t0 →
      1 ≤ i → i ≤ m → m - i < fuel →
      (∀ q, i ≤ q → q ≤ m → pGetBucket t q = pGetBucket t0 q) →
      m ∈ pEraseMovedFromReads env fuel t i := by
  intro fuel
  induction fuel with
  | zero => intro i t _ _ _ h; omega
  | succ f ih =>
    intro i t hcap hi him hfuel hsame
    obtain ⟨e, he, hpd⟩ := hocc i hi him
    have hpd1 : pGetProbeDistance env t i e = pGetProbeDistance env t0 i e := by
      unfold pGetProbeDistance pIdealPosition
      rw [hcap]
    rw [pEraseMovedFromReads, hsame i (le_refl _) him, he]
    simp only
    rw [if_pos (by rw [hpd1]; exact hpd)]
    by_cases hlast : i = m
    · subst hlast
      rw [if_neg (hsat e he)]
      exact List.mem_append_left _ (List.mem_singleton.2 rfl)
    · apply List.mem_append_right
      have hinc : pIncrementPosition t i = i + 1 := by
        rw [pIncrementPosition_eq t i (by omega), hcap, Nat.mod_eq_of_lt (by omega)]
      have hdec : pDecrementPosition t i = i - 1 := by
        rw [pDecrementPosition_eq t i (by omega), hcap,
          show i + Capacity t0 - 1 = (i - 1) + Capacity t0 by omega, Nat.add_mod_right,
          Nat.mod_eq_of_lt (by omega)]
      rw [hinc, hdec]
      refine ih (i + 1) _ ?_ (by omega) (by omega) (by omega) ?_
      · exact hcap
      intro q hq1 hq2
      rw [← hsame q (by omega) hq2]
      apply pGetBucket_eq_of_getElem?
      exact getElem?_set_other (by omega) _

/-- When a moved-from holder is not readable, the backward shift that reaches
a bucket with a saturated header has no result: the distance it must write is
recomputed from the holder that has just been moved from. -/
theorem pEraseShiftLoop_fault (env : Env M K) (hread : env.moved_from_readable = false)
    (t0 : PerrohtImpl M K V) (m : Nat) (hm : m + 1 < Capacity t0)
    (hocc : ∀ q, 1 ≤ q → q ≤ m → ∃ e, pGetBucket t0 q = some e ∧
      0 < pGetProbeDistance env t0 q e)
    (hsat : ∀ e, pGetBucket t0 m = some e → ¬ e.dist < kMaxProbeDistance) :
    ∀ (fuel i : Nat) (t : PerrohtImpl M K V), Capacity t = Capacity t0 →
      1 ≤ i → i ≤ m →
      (∀ q, i ≤ q → q ≤ m → pGetBucket t q = pGetBucket t0 q) →
      pEraseShiftLoop env fuel t i = none := by
  intro fuel
  induction fuel with
  | zero => intro i t _ _ _ _; rfl
  | succ f ih =>
    intro i t hcap hi him hsame
    obtain ⟨e, he, hpd⟩ := hocc i hi him
    have hpd1 : pGetProbeDistance env t i e = pGetProbeDistance env t0 i e := by
      unfold pGetProbeDistance pIdealPosition
      rw [hcap]
    rw [pEraseShiftLoop, hsame i (le_refl _) him, he]
    simp only
    rw [if_pos (by rw [hpd1]; exact hpd)]
    cases hpm : pGetProbeDistanceAfterMove env t i e with
    | none => rfl
    | some old_pd =>
      simp only
      by_cases hlast : i = m
      · subst hlast
        exfalso
        unfold pGetProbeDistanceAfterMove at hpm
        rw [if_neg (hsat e he), hread] at hpm
        simp at hpm
      · have hinc : pIncrementPosition t i = i + 1 := by
          rw [pIncrementPosition_eq t i (by omega), hcap, Nat.mod_eq_of_lt (by omega)]
        have hdec : pDecrementPosition t i = i - 1 := by
          rw [pDecrementPosition_eq t i (by omega), hcap,
            show i + Capacity t0 - 1 = (i - 1) + Capacity t0 by omega, Nat.add_mod_right,
            Nat.mod_eq_of_lt (by omega)]
        rw [hinc, hdec]
        refine ih (i + 1) _ ?_ (by omega) (by omega) ?_
        · exact hcap
        intro q hq1 hq2
        rw [← hsame q (by omega) hq2]
        apply pGetBucket_eq_of_getElem?
        exact getElem?_set_other (by omega) _

end EraseExact

end Perroht

namespace Perroht

open PowerOfTwoCapacity

section PlaceLemmas

variable {M K V : Type} [DecidableEq K]

/-! ## The first half of `pInsert` -/

theorem not_mem_keys_of_Contains (env : Env M K) (t : PerrohtImpl M K V) (hI : InvCore env t)
    (k : K) (habs : Contains env t k = false) : k ∉ (records t.table_).map Prod.fst := by
  rw [mem_keys_iff]
  exact (Contains_eq_false_iff env t hI k).1 habs

theorem hint_ok (env : Env M K) (t : PerrohtImpl M K V) (k : K)
    (habs : Contains env t k = false) (hint : Option Nat)
    (hhint : hint = none ∨ hint = some (pLocate env t k).1) :
    hint = none ∨ (hint = some (pLocate env t k).1 ∧ (pLocate env t k).2 = false) := by
  rcases hhint with h | h
  · exact Or.inl h
  · exact Or.inr ⟨h, habs⟩

/-- With enough capacity for one more record, `pInsert` places the record
with `pForceInsert` in the table as it is. -/
theorem pInsertPlace_enough (env : Env M K)
    (ins : PerrohtImpl M K V → K × V → Option (PerrohtImpl M K V))
    (t : PerrohtImpl M K V) (hI : InvCore env t) (data : K × V)
    (habs : Contains env t data.1 = false) (hint : Option Nat)
    (hhint : hint = none ∨ hint = some (pLocate env t data.1).1)
    (hen : pEnoughCapacity t (Size t + 1) (Capacity t) = true) :
    ∃ t1 p, pInsertPlace ins env t true data hint = some (t1, p) ∧
      pForceInsert env t data hint = some (t1, p) ∧
      InvCore env t1 ∧ Capacity t1 = Capacity t ∧ Size t1 = Size t + 1 ∧
      p < Capacity t ∧ ∃ d1, t1.table_[p]? = some (some ⟨d1, data.1, data.2⟩) := by
  have hle := le_of_enough t _ _ hI.mlf_le hI.mlf_pos ((pEnoughCapacity_iff _ _ _).1 hen)
  obtain ⟨t1, p, f1, f2, f3, _, f5, _, f7, f8⟩ :=
    pForceInsert_spec env t data hint hI (by unfold Size at hle; omega)
      (hint_ok env t data.1 habs hint hhint) (not_mem_keys_of_Contains env t hI data.1 habs)
  refine ⟨t1, p, ?_, f1, f2, Capacity_congr f3, f5, f7, f8⟩
  unfold pInsertPlace
  rw [hen]
  exact f1

/-- Without enough capacity for one more record, `pInsert` first calls
`pGrow`, which reserves the first capacity of the policy above the current one
that is enough, and then places the record with `pForceInsert`. -/
theorem pInsertPlace_grow (env : Env M K)
    (ins : PerrohtImpl M K V → K × V → Option (PerrohtImpl M K V))
    (t : PerrohtImpl M K V) (hI : InvCore env t) (hins : InsSpec env ins (Size t + 1) 0)
    (data : K × V) (habs : Contains env t data.1 = false) (hint : Option Nat)
    (hne : pEnoughCapacity t (Size t + 1) (Capacity t) = false) :
    ∃ r tg t1 p,
      pGrowIndex t (Size t + 1) ((Size t + 1) * t.max_load_factor_.den + 2)
        (t.capacity_index_ + 1) = some r ∧
      t.capacity_index_ < r ∧
      pEnoughCapacity t (Size t + 1) (ToCapacity r) = true ∧
      (∀ k, t.capacity_index_ < k → k < r →
        pEnoughCapacity t (Size t + 1) (ToCapacity k) = false) ∧
      ReserveWith ins env t (ToCapacity r) = some tg ∧
      pGrowWith ins env t (Size t + 1) = some tg ∧
      ToCapacity r ≤ Capacity tg ∧ Capacity t < Capacity tg ∧
      mrecords tg.table_ = mrecords t.table_ ∧
      pInsertPlace ins env t true data hint = some (t1, p) ∧
      pForceInsert env tg data none = some (t1, p) ∧
      InvCore env t1 ∧ Capacity t1 = Capacity tg ∧ Size t1 = Size t + 1 ∧
      p < Capacity tg ∧ ∃ d1, t1.table_[p]? = some (some ⟨d1, data.1, data.2⟩) := by
  obtain ⟨tg, r, g1, g2, _, g4, g5, g6, g7, g8, g9, g10, g11⟩ :=
    pGrowWith_spec env ins (Size t + 1) 0 t hI (by unfold Size; omega) hins (Nat.zero_le _)
  have hreq : Size t + 1 ≤ ToCapacity r :=
    le_of_enough t _ _ hI.mlf_le hI.mlf_pos ((pEnoughCapacity_iff _ _ _).1 g9)
  have habs1 : data.1 ∉ (records tg.table_).map Prod.fst := by
    rw [mem_keys_iff, g5, ← mem_keys_iff]
    exact not_mem_keys_of_Contains env t hI data.1 habs
  obtain ⟨t1, p, f1, f2, f3, _, f5, _, f7, f8⟩ :=
    pForceInsert_spec env tg data none g2 (by unfold Size at hreq; omega) (Or.inl rfl) habs1
  have hres : ReserveWith ins env t (ToCapacity r) = some tg := by
    have h := g1
    unfold pGrowWith at h
    rw [g7] at h
    exact h
  refine ⟨r, tg, t1, p, g7, g8, g9, g10, hres, g1, g11, g6, g5, ?_, f1, f2,
    Capacity_congr f3, by unfold Size; rw [f5, g4], f7, f8⟩
  unfold pInsertPlace
  rw [hne, g1]
  exact f1

end PlaceLemmas

/-! ## Three workloads, evaluated -/

set_option maxRecDepth 1000000 in
/-- The workload `nestedOps` on a table constructed with 64 buckets, followed
by the growth that the insertion of the key `56` asks for. -/
theorem nestedOps_eval :
    ((construct exEnv 64 ⟨7, 8⟩).bind (fun t0 =>
      (run exEnv nestedOps (t0, fun _ => none)).bind (fun s =>
        (pGrowWith (fun (t0 : PerrohtImpl MeanValue Nat Nat) (d : Nat × Nat) =>
            (pInsert exEnv (8 * (Size s.1 + 1) + 1) t0 false d none).map Prod.fst)
          exEnv s.1 (Size s.1 + 1)).bind (fun tg =>
          (pInsertPlace (fun (t0 : PerrohtImpl MeanValue Nat Nat) (d : Nat × Nat) =>
              (pInsert exEnv (8 * (Size s.1 + 1) + 1) t0 false d none).map Prod.fst)
            exEnv s.1 true (56, 0) (some (pLocate exEnv s.1 56).1)).bind (fun r =>
            (pTransferEntriesTo (fun (t0 : PerrohtImpl MeanValue Nat Nat) (d : Nat × Nat) =>
                (pInsert exEnv (insertDepth (Size s.1)) t0 false d none).map Prod.fst)
              exEnv s.1 128).map (fun tr =>
              decide (Contains exEnv s.1 56 = false ∧ Size s.1 = 56 ∧ Capacity s.1 = 64 ∧
                s.1.capacity_index_ = 7 ∧
                pEnoughCapacity s.1 (Size s.1 + 1) (Capacity s.1) = false ∧
                pEnoughCapacity s.1 (Size s.1 + 1) 128 = true ∧
                Capacity tg = 256 ∧ Capacity r.1 = 256 ∧ Capacity tr = 256))))))) =
      some true := by
  decide!

set_option maxRecDepth 1000000 in
/-- The workload `sixOps` on a table constructed with 8 buckets, followed by
the insertion of the key `6`. -/
theorem sixOps_eval :
    ((construct exEnv 8 ⟨7, 8⟩).bind (fun t0 =>
      (run exEnv sixOps (t0, fun _ => none)).bind (fun s =>
        (Insert exEnv s.1 (6, 0)).map (fun r =>
          decide (Contains exEnv s.1 6 = false ∧ Size s.1 = 6 ∧ Capacity s.1 = 8 ∧
            s.1.max_load_factor_ = ⟨7, 8⟩ ∧ r.2.2 = true ∧ Size r.1 = 7 ∧
            Capacity r.1 = 8))))) = some true := by
  decide!

set_option maxRecDepth 1000000 in
/-- The workload `collideOps 21` on a default-constructed table, followed by
the two halves of the insertion of the key `21 * 1024`. -/
theorem collideOps_eval :
    ((run exEnv (collideOps 21) (defaultTable exEnv, fun _ => none)).bind (fun s =>
      (pInsertPlace (fun (t0 : PerrohtImpl MeanValue Nat Nat) (d : Nat × Nat) =>
          (pInsert exEnv (8 * (Size s.1 + 1) + 1) t0 false d none).map Prod.fst)
        exEnv s.1 true (21504, 0) (some (pLocate exEnv s.1 21504).1)).bind (fun r =>
        (pInsertAutoGrow (fun (t0 : PerrohtImpl MeanValue Nat Nat) (d : Nat × Nat) =>
            (pInsert exEnv (8 * (Size s.1 + 1) + 1) t0 false d none).map Prod.fst)
          exEnv r.1 r.2).bind (fun r2 =>
          (Insert exEnv s.1 (21504, 0)).map (fun r3 =>
            decide (Contains exEnv s.1 21504 = false ∧
              0 < r.1.mean_probe_distance_.den ∧
              2 * r.1.mean_probe_distance_.num = 21 * (r.1.mean_probe_distance_.den : Int) ∧
              GetApproximateMeanProbeDistance exEnv r.1 = 10 ∧
              Size r.1 = 22 ∧ Capacity r.1 = 32 ∧ LoadFactorAboveMinimum r.1 = true ∧
              Capacity r2.1 = 32 ∧ r3.2.2 = true ∧ Capacity r3.1 = 32)))))) =
      some true := by
  decide!

end Perroht

namespace Perroht

open PowerOfTwoCapacity

/-! ## Growth on insertion, probing and the backward shift (claims C31 to C35) -/

/-- Claim C31 is false for the table that `nestedOps` builds in 64 buckets
(33 keys at home and 23 keys that collide at bucket `0`; 56 records, maximum
load factor 7/8): the key `56` is absent and `57 > 7/8 * 64`, the smallest
capacity of the policy above 64 with `57 <= 7/8 * c` is `c = 128`, but `pGrow`
returns a table of 256 buckets, and the record is placed in a table of 256
buckets: re-inserting the 23 colliding records into 128 buckets drives the
mean probe distance above the automatic-growth threshold, so the transfer
itself doubles the capacity again. -/
theorem C31_insert_growth_counterexample :
    ∃ (t tg t1 : PerrohtImpl MeanValue Nat Nat) (p : Nat),
      Reachable exEnv t ∧ Contains exEnv t 56 = false ∧
      Size t = 56 ∧ Capacity t = 64 ∧ t.capacity_index_ = 7 ∧ ToCapacity 8 = 128 ∧
      pEnoughCapacity t (Size t + 1) (Capacity t) = false ∧
      pEnoughCapacity t (Size t + 1) 128 = true ∧
      pGrowWith (fun (t0 : PerrohtImpl MeanValue Nat Nat) (d : Nat × Nat) =>
          (pInsert exEnv (8 * (Size t + 1) + 1) t0 false d none).map Prod.fst)
        exEnv t (Size t + 1) = some tg ∧
      Capacity tg = 256 ∧
      pInsertPlace (fun (t0 : PerrohtImpl MeanValue Nat Nat) (d : Nat × Nat) =>
          (pInsert exEnv (8 * (Size t + 1) + 1) t0 false d none).map Prod.fst)
        exEnv t true (56, 0) (some (pLocate exEnv t 56).1) = some (t1, p) ∧
      Capacity t1 = 256 ∧ Capacity t1 ≠ 128 := by
  obtain ⟨t0, h0, H⟩ := Option.bind_eq_some.1 nestedOps_eval
  obtain ⟨s, hs, H⟩ := Option.bind_eq_some.1 H
  obtain ⟨tg, hg, H⟩ := Option.bind_eq_some.1 H
  obtain ⟨r, hr, H⟩ := Option.bind_eq_some.1 H
  obtain ⟨tr, _, H⟩ := Option.map_eq_some'.1 H
  obtain ⟨c1, c2, c3, c4, c5, c6, c7, c8, _⟩ := of_decide_eq_true H
  exact ⟨s.1, tg, r.1, r.2, ⟨64, ⟨7, 8⟩, t0, nestedOps, s.2, h0, hs⟩, c1, c2, c3, c4, rfl,
    c5, c6, hg, c7, hr, c8, by rw [c8]; decide⟩

/-- Claim C31, amended: for the insertion of an absent key into a reachable
table (`pInsert` with capacity check, as called by `Insert`, whose nested
insertions run with the remaining budget): if
`size + 1 <= max_load_factor * capacity`, the record is placed by
`pForceInsert` in the table as it is and the capacity is unchanged; if
`size + 1 > max_load_factor * capacity` (which includes capacity 0), `pGrow`
calls `Reserve(c)` for the smallest policy capacity `c` strictly greater than
the old capacity with `size + 1 <= max_load_factor * c`, the table it returns
holds the same records in at least `c` buckets, and the record is placed by
`pForceInsert` in that grown table. -/
theorem C31_insert_growth {M K V : Type} [DecidableEq K] (env : Env M K)
    (t : PerrohtImpl M K V) (hR : Reachable env t) (data : K × V)
    (habs : Contains env t data.1 = false) :
    (pInsert env (insertDepth (Size t + 1)) t true data (some (pLocate env t data.1).1) =
      match pInsertPlace (fun (t0 : PerrohtImpl M K V) (d : K × V) =>
          (pInsert env (8 * (Size t + 1) + 1) t0 false d none).map Prod.fst)
        env t true data (some (pLocate env t data.1).1) with
      | none => none
      | some (t2, inserted_pos) =>
        pInsertAutoGrow (fun (t0 : PerrohtImpl M K V) (d : K × V) =>
          (pInsert env (8 * (Size t + 1) + 1) t0 false d none).map Prod.fst)
          env t2 inserted_pos) ∧
    (pEnoughCapacity t (Size t + 1) (Capacity t) = true →
      ∃ t1 p,
        pInsertPlace (fun (t0 : PerrohtImpl M K V) (d : K × V) =>
            (pInsert env (8 * (Size t + 1) + 1) t0 false d none).map Prod.fst)
          env t true data (some (pLocate env t data.1).1) = some (t1, p) ∧
        pForceInsert env t data (some (pLocate env t data.1).1) = some (t1, p) ∧
        Capacity t1 = Capacity t ∧ Size t1 = Size t + 1 ∧ p < Capacity t ∧
        ∃ d1, t1.table_[p]? = some (some ⟨d1, data.1, data.2⟩)) ∧
    (Capacity t = 0 → pEnoughCapacity t (Size t + 1) (Capacity t) = false) ∧
    (pEnoughCapacity t (Size t + 1) (Capacity t) = false →
      ∃ r tg t1 p,
        pGrowIndex t (Size t + 1) ((Size t + 1) * t.max_load_factor_.den + 2)
          (t.capacity_index_ + 1) = some r ∧
        Capacity t < ToCapacity r ∧
        pEnoughCapacity t (Size t + 1) (ToCapacity r) = true ∧
        (∀ k, t.capacity_index_ < k → k < r →
          pEnoughCapacity t (Size t + 1) (ToCapacity k) = false) ∧
        ReserveWith (fun (t0 : PerrohtImpl M K V) (d : K × V) =>
            (pInsert env (8 * (Size t + 1) + 1) t0 false d none).map Prod.fst)
          env t (ToCapacity r) = some tg ∧
        pGrowWith (fun (t0 : PerrohtImpl M K V) (d : K × V) =>
            (pInsert env (8 * (Size t + 1) + 1) t0 false d none).map Prod.fst)
          env t (Size t + 1) = some tg ∧
        ToCapacity r ≤ Capacity tg ∧
        mrecords tg.table_ = mrecords t.table_ ∧
        pInsertPlace (fun (t0 : PerrohtImpl M K V) (d : K × V) =>
            (pInsert env (8 * (Size t + 1) + 1) t0 false d none).map Prod.fst)
          env t true data (some (pLocate env t data.1).1) = some (t1, p) ∧
        pForceInsert env tg data none = some (t1, p) ∧
        Capacity t1 = Capacity tg ∧ Size t1 = Size t + 1 ∧ p < Capacity tg ∧
        ∃ d1, t1.table_[p]? = some (some ⟨d1, data.1, data.2⟩)) := by
  have hI := hR.inv.core
  refine ⟨rfl, ?_, ?_, ?_⟩
  · intro hen
    obtain ⟨t1, p, a1, a2, _, a4, a5, a6, a7⟩ :=
      pInsertPlace_enough env _ t hI data habs _ (Or.inr rfl) hen
    exact ⟨t1, p, a1, a2, a4, a5, a6, a7⟩
  · intro h0
    cases hen : pEnoughCapacity t (Size t + 1) (Capacity t) with
    | false => rfl
    | true =>
      have := le_of_enough t _ _ hI.mlf_le hI.mlf_pos ((pEnoughCapacity_iff _ _ _).1 hen)
      omega
  · intro hne
    obtain ⟨r, tg, t1, p, a1, a2, a3, a4, a5, a6, a7, _, a9, a10, a11, _, a13, a14, a15, a16⟩ :=
      pInsertPlace_grow env _ t hI
        (InsSpec_pInsert env (8 * (Size t + 1) + 1) (Size t + 1) 0 false (by simp))
        data habs (some (pLocate env t data.1).1) hne
    exact ⟨r, tg, t1, p, a1,
      lt_of_lt_of_le (ToCapacity_lt_succ _) (ToCapacity_mono a2),
      a3, a4, a5, a6, a7, a9, a10, a11, a13, a14, a15, a16⟩

/-- Claim C31 (amended) applies to the reachable table `exTable` and the
absent key `100`. -/
theorem C31_insert_growth_witness :
    Reachable exEnv exTable ∧ Contains exEnv exTable (100, 0).1 = false ∧
    (pEnoughCapacity exTable (Size exTable + 1) (Capacity exTable) = true →
      ∃ t1 p,
        pInsertPlace (fun (t0 : PerrohtImpl MeanValue Nat Nat) (d : Nat × Nat) =>
            (pInsert exEnv (8 * (Size exTable + 1) + 1) t0 false d none).map Prod.fst)
          exEnv exTable true (100, 0) (some (pLocate exEnv exTable (100, 0).1).1) =
            some (t1, p) ∧
        pForceInsert exEnv exTable (100, 0) (some (pLocate exEnv exTable (100, 0).1).1) =
          some (t1, p) ∧
        Capacity t1 = Capacity exTable ∧ Size t1 = Size exTable + 1 ∧ p < Capacity exTable ∧
        ∃ d1, t1.table_[p]? = some (some ⟨d1, (100, 0).1, (100, 0).2⟩)) :=
  ⟨exTable_reachable, rfl,
    (C31_insert_growth exEnv exTable exTable_reachable (100, 0) rfl).2.1⟩

/-- The table `sixTable` is reachable: `sixOps` on `PerrohtImpl(8, 7/8)`. -/
theorem sixTable_reachable : Reachable exEnv sixTable :=
  ⟨8, ⟨7, 8⟩, emptyTable8, sixOps, sixGhost, rfl, rfl⟩

theorem sevenTable_run :
    run exEnv (sixOps ++ [Op.insert 6 0]) (emptyTable8, fun _ => none) =
      some (sevenTable, sevenGhost) :=
  rfl

/-- The table `sevenTable` is reachable: `sixOps` and the insertion of the key
`6` on `PerrohtImpl(8, 7/8)`. -/
theorem sevenTable_reachable : Reachable exEnv sevenTable :=
  ⟨8, ⟨7, 8⟩, emptyTable8, sixOps ++ [Op.insert 6 0], sevenGhost, rfl, sevenTable_run⟩

/-- Claim C32 is false for the table that `sixOps` builds in 8 buckets with
maximum load factor 7/8: `capacity * max_load_factor = 7`, the size is
`7 - 1 = 6`, the key `6` is absent, and inserting it (the 7th record) leaves
the capacity at 8. -/
theorem C32_growth_at_threshold_counterexample :
    ∃ (t t1 : PerrohtImpl MeanValue Nat Nat) (it : BaseIterator),
      Reachable exEnv t ∧ Capacity t = 8 ∧ t.max_load_factor_ = ⟨7, 8⟩ ∧
      Capacity t * t.max_load_factor_.num = 7 * t.max_load_factor_.den ∧
      Size t = 7 - 1 ∧ Contains exEnv t 6 = false ∧
      Insert exEnv t (6, 0) = some (t1, it, true) ∧ Size t1 = 7 ∧
      Capacity t1 = 8 ∧ ¬ (Capacity t < Capacity t1) := by
  obtain ⟨t0, h0, H⟩ := Option.bind_eq_some.1 sixOps_eval
  obtain ⟨s, hs, H⟩ := Option.bind_eq_some.1 H
  obtain ⟨r, hr, H⟩ := Option.map_eq_some'.1 H
  obtain ⟨c1, c2, c3, c4, c5, c6, c7⟩ := of_decide_eq_true H
  refine ⟨s.1, r.1, r.2.1, ⟨8, ⟨7, 8⟩, t0, sixOps, s.2, h0, hs⟩, c3, c4,
    by rw [c3, c4]; rfl, c2, c1, ?_, c6, c7, by rw [c3, c7]; decide⟩
  rw [hr, ← c5]

/-- Claim C32, amended: for every reachable table whose product
`capacity * max_load_factor` is an integer `m` (in particular `m >= 1`) and
every absent key: when
the size is `m - 1`, the capacity check passes and the `m`-th record is placed
by `pForceInsert` without any growth; when the size is `m`, the capacity check
fails, `pGrow` returns a table of larger capacity before the `(m + 1)`-th
record is placed in it, and `Insert` returns a table of larger capacity. -/
theorem C32_growth_at_threshold {M K V : Type} [DecidableEq K] (env : Env M K)
    (t : PerrohtImpl M K V) (hR : Reachable env t) (m : Nat)
    (hm : Capacity t * t.max_load_factor_.num = m * t.max_load_factor_.den)
    (data : K × V) (habs : Contains env t data.1 = false) :
    (Size t + 1 = m →
      pEnoughCapacity t (Size t + 1) (Capacity t) = true ∧
      ∃ t1 p,
        pInsertPlace (fun (t0 : PerrohtImpl M K V) (d : K × V) =>
            (pInsert env (8 * (Size t + 1) + 1) t0 false d none).map Prod.fst)
          env t true data (some (pLocate env t data.1).1) = some (t1, p) ∧
        pForceInsert env t data (some (pLocate env t data.1).1) = some (t1, p) ∧
        Capacity t1 = Capacity t ∧ Size t1 = m) ∧
    (Size t = m →
      pEnoughCapacity t (Size t + 1) (Capacity t) = false ∧
      (∃ tg t1 p,
        pGrowWith (fun (t0 : PerrohtImpl M K V) (d : K × V) =>
            (pInsert env (8 * (Size t + 1) + 1) t0 false d none).map Prod.fst)
          env t (Size t + 1) = some tg ∧
        Capacity t < Capacity tg ∧
        pInsertPlace (fun (t0 : PerrohtImpl M K V) (d : K × V) =>
            (pInsert env (8 * (Size t + 1) + 1) t0 false d none).map Prod.fst)
          env t true data (some (pLocate env t data.1).1) = some (t1, p) ∧
        pForceInsert env tg data none = some (t1, p) ∧
        Capacity t1 = Capacity tg ∧ Size t1 = m + 1) ∧
      ∃ t2 it, Insert env t data = some (t2, it, true) ∧ Size t2 = m + 1 ∧
        Capacity t < Capacity t2) := by
  have hI := hR.inv.core
  have hden : 0 < t.max_load_factor_.den := lt_of_lt_of_le hI.mlf_pos hI.mlf_le
  constructor
  · intro hs
    have hen : pEnoughCapacity t (Size t + 1) (Capacity t) = true := by
      rw [pEnoughCapacity_iff, hm, hs]
    obtain ⟨t1, p, a1, a2, _, a4, a5, _, _⟩ :=
      pInsertPlace_enough env _ t hI data habs _ (Or.inr rfl) hen
    exact ⟨hen, t1, p, a1, a2, a4, by rw [a5, hs]⟩
  · intro hs
    have hne : pEnoughCapacity t (Size t + 1) (Capacity t) = false := by
      cases hen : pEnoughCapacity t (Size t + 1) (Capacity t) with
      | false => rfl
      | true =>
        have h2 := (pEnoughCapacity_iff _ _ _).1 hen
        rw [hm, hs] at h2
        have h3 := Nat.le_of_mul_le_mul_right h2 hden
        omega
    obtain ⟨r, tg, t1, p, _, _, _, _, _, a6, _, a8, _, a10, a11, _, a13, a14, _, _⟩ :=
      pInsertPlace_grow env _ t hI
        (InsSpec_pInsert env (8 * (Size t + 1) + 1) (Size t + 1) 0 false (by simp))
        data habs (some (pLocate env t data.1).1) hne
    obtain ⟨t2, it, b1, b2, b3, b4, _, _, _⟩ := Insert_absent env t hR.inv data habs
    refine ⟨hne, ⟨tg, t1, p, a6, a8, a10, a11, a13, by rw [a14, hs]⟩, t2, it, b1,
      by unfold Size at hs ⊢; rw [b4, hs], ?_⟩
    have hl := b2.load
    rw [b3, b4] at hl
    unfold Size at hs
    rw [hs] at hl
    have h4 : Capacity t * t.max_load_factor_.num < Capacity t2 * t.max_load_factor_.num := by
      rw [hm]
      calc m * t.max_load_factor_.den < (m + 1) * t.max_load_factor_.den :=
            Nat.mul_lt_mul_of_pos_right (Nat.lt_succ_self m) hden
        _ ≤ Capacity t2 * t.max_load_factor_.num := hl
    exact Nat.lt_of_mul_lt_mul_right h4

/-- Claim C32 (amended) applies, with `m = capacity * max_load_factor = 7`, to
the reachable table `sixTable` of size `m - 1 = 6` and the absent key `6`
(first half: no growth) and to the reachable table `sevenTable` of size
`m = 7` and the absent key `100` (second half: growth). -/
theorem C32_growth_at_threshold_witness :
    (Reachable exEnv sixTable ∧
      Capacity sixTable * sixTable.max_load_factor_.num =
        7 * sixTable.max_load_factor_.den ∧
      Contains exEnv sixTable (6, 0).1 = false ∧
      Size sixTable + 1 = 7 ∧
      pEnoughCapacity sixTable (Size sixTable + 1) (Capacity sixTable) = true ∧
      ∃ t1 p,
        pInsertPlace (fun (t0 : PerrohtImpl MeanValue Nat Nat) (d : Nat × Nat) =>
            (pInsert exEnv (8 * (Size sixTable + 1) + 1) t0 false d none).map Prod.fst)
          exEnv sixTable true (6, 0) (some (pLocate exEnv sixTable (6, 0).1).1) =
            some (t1, p) ∧
        pForceInsert exEnv sixTable (6, 0) (some (pLocate exEnv sixTable (6, 0).1).1) =
          some (t1, p) ∧
        Capacity t1 = Capacity sixTable ∧ Size t1 = 7) ∧
    (Reachable exEnv sevenTable ∧
      Capacity sevenTable * sevenTable.max_load_factor_.num =
        7 * sevenTable.max_load_factor_.den ∧
      Contains exEnv sevenTable (100, 0).1 = false ∧
      Size sevenTable = 7 ∧
      pEnoughCapacity sevenTable (Size sevenTable + 1) (Capacity sevenTable) = false ∧
      (∃ tg t1 p,
        pGrowWith (fun (t0 : PerrohtImpl MeanValue Nat Nat) (d : Nat × Nat) =>
            (pInsert exEnv (8 * (Size sevenTable + 1) + 1) t0 false d none).map Prod.fst)
          exEnv sevenTable (Size sevenTable + 1) = some tg ∧
        Capacity sevenTable < Capacity tg ∧
        pInsertPlace (fun (t0 : PerrohtImpl MeanValue Nat Nat) (d : Nat × Nat) =>
            (pInsert exEnv (8 * (Size sevenTable + 1) + 1) t0 false d none).map Prod.fst)
          exEnv sevenTable true (100, 0) (some (pLocate exEnv sevenTable (100, 0).1).1) =
            some (t1, p) ∧
        pForceInsert exEnv tg (100, 0) none = some (t1, p) ∧
        Capacity t1 = Capacity tg ∧ Size t1 = 7 + 1) ∧
      ∃ t2 it, Insert exEnv sevenTable (100, 0) = some (t2, it, true) ∧ Size t2 = 7 + 1 ∧
        Capacity sevenTable < Capacity t2) :=
  ⟨⟨sixTable_reachable, by decide, rfl, rfl,
      (C32_growth_at_threshold exEnv sixTable sixTable_reachable 7 (by decide)
        (6, 0) rfl).1 rfl⟩,
    ⟨sevenTable_reachable, by decide, rfl, rfl,
      (C32_growth_at_threshold exEnv sevenTable sevenTable_reachable 7 (by decide)
        (100, 0) rfl).2 rfl⟩⟩

/-- Claim C33, evaluated on the code where it fails: after the 21 keys
`0, 1024, ..., 20 * 1024` have been inserted into a default-constructed table
(identity hash, all of them with ideal position `0`), the insertion of the
absent key `21 * 1024 = 21504` places its record in the table of 32 buckets,
after which the maintained mean probe distance is exactly `21/2 = 10.5 > 10`
and `Size() / Capacity() = 22/32 > 1/8`; but
`GetApproximateMeanProbeDistance()` returns the mean converted to `SizeType`,
which is `10`, the comparison `10 > kAutoGrowProbeDistance` fails, and the
second half of `pInsert` (and so `Insert`) leaves the capacity at 32 instead
of doubling it. -/
theorem C33_autogrow_compares_truncated_mean :
    ∃ (t t2 t3 t4 : PerrohtImpl MeanValue Nat Nat) (p p3 : Nat) (it : BaseIterator),
      Reachable exEnv t ∧ Contains exEnv t 21504 = false ∧
      pInsertPlace (fun (t0 : PerrohtImpl MeanValue Nat Nat) (d : Nat × Nat) =>
          (pInsert exEnv (8 * (Size t + 1) + 1) t0 false d none).map Prod.fst)
        exEnv t true (21504, 0) (some (pLocate exEnv t 21504).1) = some (t2, p) ∧
      0 < t2.mean_probe_distance_.den ∧
      2 * t2.mean_probe_distance_.num = 21 * (t2.mean_probe_distance_.den : Int) ∧
      10 * (t2.mean_probe_distance_.den : Int) < t2.mean_probe_distance_.num ∧
      GetApproximateMeanProbeDistance exEnv t2 = 10 ∧
      Size t2 = 22 ∧ Capacity t2 = 32 ∧ Capacity t2 < 8 * Size t2 ∧
      pInsertAutoGrow (fun (t0 : PerrohtImpl MeanValue Nat Nat) (d : Nat × Nat) =>
          (pInsert exEnv (8 * (Size t + 1) + 1) t0 false d none).map Prod.fst)
        exEnv t2 p = some (t3, p3) ∧
      Capacity t3 = 32 ∧ Capacity t3 ≠ 2 * Capacity t2 ∧
      Insert exEnv t (21504, 0) = some (t4, it, true) ∧ Capacity t4 = 32 := by
  obtain ⟨s, hs, H⟩ := Option.bind_eq_some.1 collideOps_eval
  obtain ⟨r, hr, H⟩ := Option.bind_eq_some.1 H
  obtain ⟨r2, hr2, H⟩ := Option.bind_eq_some.1 H
  obtain ⟨r3, hr3, H⟩ := Option.map_eq_some'.1 H
  obtain ⟨c1, c2, c3, c4, c5, c6, _, c8, c9, c10⟩ := of_decide_eq_true H
  refine ⟨s.1, r.1, r2.1, r3.1, r.2, r2.2, r3.2.1,
    ⟨0, ⟨7, 8⟩, defaultTable exEnv, collideOps 21, s.2, rfl, hs⟩, c1, hr, c2, c3, by omega,
    c4, c5, c6, by rw [c5, c6]; decide, hr2, c8, by rw [c8, c6]; decide, ?_, c10⟩
  rw [hr3, ← c9]

/-- Claim C34: for every reachable table with capacity `> 0` and
`size + 1 <= max_load_factor * capacity` and every absent key, `pForceInsert`
started at the ideal position (no hint) or at the hint returned by `pLocate`
places the record (the size grows by one and the loop ends at an empty
bucket, so the final abort branch is not taken) and returns its position, which is `< capacity`; its loop runs at most
`capacity` iterations, i.e. advances fewer than `capacity` times, and the
position and the distance of every iteration are `< capacity`, as is every
probe distance read from the table. -/
theorem C34_force_insert_no_abort {M K V : Type} [DecidableEq K] (env : Env M K)
    (t : PerrohtImpl M K V) (hR : Reachable env t) (hcap : 0 < Capacity t)
    (hen : (Size t + 1) * t.max_load_factor_.den ≤ Capacity t * t.max_load_factor_.num)
    (data : K × V) (habs : Contains env t data.1 = false) (hint : Option Nat)
    (hhint : hint = none ∨ hint = some (pLocate env t data.1).1) :
    ∃ t1 p tr, pForceInsert env t data hint = some (t1, p) ∧
      p < Capacity t ∧ Size t1 = Size t + 1 ∧
      (∃ d1, t1.table_[p]? = some (some ⟨d1, data.1, data.2⟩)) ∧
      pForceInsertTrace env (Capacity t) t data
        (hint.getD (pIdealPosition env t data.1))
        ((hint.map (fun pos =>
          (pos + Capacity t - pIdealPosition env t data.1) % Capacity t)).getD 0) =
        some tr ∧
      0 < tr.length ∧ tr.length - 1 < Capacity t ∧
      (∀ x ∈ tr, x.1 < Capacity t ∧ x.2 < Capacity t) ∧
      (∀ q e, pGetBucket t q = some e → pGetProbeDistance env t q e < Capacity t) := by
  have hI := hR.inv.core
  have hle := le_of_enough t _ _ hI.mlf_le hI.mlf_pos hen
  obtain ⟨t1, p, f1, _, _, _, f5, _, f7, f8⟩ :=
    pForceInsert_spec env t data hint hI (by unfold Size at hle; omega)
      (hint_ok env t data.1 habs hint hhint) (not_mem_keys_of_Contains env t hI data.1 habs)
  have hstart : hint.getD (pIdealPosition env t data.1) < Capacity t := by
    rcases hhint with h | h
    · rw [h]
      show pIdealPosition env t data.1 < Capacity t
      rw [pIdealPosition_eq env t data.1 hcap]
      exact ideal_lt env hcap data.1
    · rw [h]
      exact pLocate_lt env t data.1 hcap
  have hloop : pForceInsertLoop env (Capacity t) t data
      (hint.getD (pIdealPosition env t data.1))
      ((hint.map (fun pos =>
        (pos + Capacity t - pIdealPosition env t data.1) % Capacity t)).getD 0) none =
      some (t1, p) := by
    rw [← f1]
    rcases hhint with h | h <;> rw [h] <;> rfl
  obtain ⟨tr, g1, g2, g3, g4⟩ := pForceInsertTrace_spec env _ t data _ _ none (t1, p) hloop f5 hstart
  refine ⟨t1, p, tr, f1, f7, f5, f8, g1, g3, by omega, g4, ?_⟩
  · intro q e hq
    rw [pGetProbeDistance_actual hI hq]
    exact cdist_lt hcap

/-- Claim C34 applies to the reachable table `exTable` (8 buckets, 3 records,
maximum load factor 7/8) and the absent key `100`, without hint. -/
theorem C34_force_insert_no_abort_witness :
    0 < Capacity exTable ∧
    (Size exTable + 1) * exTable.max_load_factor_.den ≤
      Capacity exTable * exTable.max_load_factor_.num ∧
    Contains exEnv exTable (100, 0).1 = false ∧
    ∃ t1 p tr, pForceInsert exEnv exTable (100, 0) none = some (t1, p) ∧
      p < Capacity exTable ∧ Size t1 = Size exTable + 1 ∧
      pForceInsertTrace exEnv (Capacity exTable) exTable (100, 0)
        (pIdealPosition exEnv exTable 100) 0 = some tr ∧
      tr.length - 1 < Capacity exTable := by
  obtain ⟨t1, p, tr, h1, h2, h3, _, h5, _, h7, _⟩ :=
    C34_force_insert_no_abort exEnv exTable exTable_reachable (by decide) (by decide)
      (100, 0) rfl none (Or.inl rfl)
  exact ⟨by decide, by decide, rfl, t1, p, tr, h1, h2, h3, h5, h7⟩

/-- Claim C35, evaluated on the code where it fails: with a hasher that sends
every key to `0`, inserting the 256 keys `0, ..., 255` into a
default-constructed table yields a (reachable) table in which the buckets
`0, ..., 254` are occupied and the header of bucket `254` stores the saturated
distance 254. Erasing the record of bucket `0` (`pLocate` finds its key there)
runs the backward shift from bucket `1`; at `i = 254` the loop first executes
`pGetData(253).MoveAssign(allocator_, std::move(pGetData(254)))` and then
`pGetProbeDistance(254)`, which, the stored distance being saturated,
recomputes the distance from the key of the holder at bucket `254`, a holder
that has just been moved from: `254` is among the buckets listed by
`pEraseMovedFromReads`. -/
theorem C35_erase_reads_moved_from_holder :
    ∃ t g e0, run zeroEnv manyOps (defaultTable zeroEnv, fun _ => none) = some (t, g) ∧
      Reachable zeroEnv t ∧ Size t = 256 ∧
      pGetBucket t 0 = some e0 ∧ pLocate zeroEnv t e0.key = (0, true) ∧
      (∃ t1, pEraseSingleAt zeroEnv t 0 = some t1) ∧
      (∃ e, pGetBucket t 254 = some e ∧ e.dist = 254 ∧
        ¬ e.dist < kMaxProbeDistance ∧ 0 < pGetProbeDistance zeroEnv t 254 e) ∧
      254 ∈ pEraseMovedFromReads zeroEnv (Capacity t) t (pIncrementPosition t 0) := by
  obtain ⟨t0, c1, c2, _, c4, _, _⟩ := @construct_spec MeanValue Nat Nat _ zeroEnv 0 ⟨7, 8⟩
  have hc : construct zeroEnv 0 ⟨7, 8⟩ =
      some (defaultTable zeroEnv : PerrohtImpl MeanValue Nat Nat) := rfl
  rw [hc] at c1
  cases c1
  have hops : ∀ op ∈ manyOps, op.isInsertErase = true := by
    intro op hop
    obtain ⟨i, _, rfl⟩ := List.mem_map.1 hop
    rfl
  obtain ⟨t, g, hrun, hI, hm⟩ := run_ref zeroEnv manyOps (defaultTable zeroEnv)
    (fun _ => none) [] c2 (GhostRel_empty c4) (by rw [c4]; rfl) hops (Or.inl rfl)
  have hsize : Size t = 256 := by
    unfold Size
    rw [hI.core.size_card, hm, Multiset.coe_card]
    exact refRun_manyOps_length
  obtain ⟨p, e, hp255, hp⟩ := exists_far_bucket zeroEnv t hI.core 255 (by omega)
  have hpl := occupied_lt hI.core hp
  have hlen := hI.core.len_eq
  have hideal : ∀ k : Nat, ideal zeroEnv (Capacity t) k = 0 := by
    intro k
    unfold ideal zeroEnv
    simp
  have hcd : ∀ q, q < Capacity t → cdist (Capacity t) 0 q = q := by
    intro q hq
    rw [cdist_eq (by omega) hq]
    simp
  have hocc : ∀ q, q ≤ 254 → ∃ eq, pGetBucket t q = some eq ∧
      pGetProbeDistance zeroEnv t q eq = q ∧ eq.dist = pSetProbeDistance q := by
    intro q hq
    obtain ⟨eq, h1, _⟩ := path_occupied hI.core.ord_ok ((pGetBucket_some_iff t p e).1 hp)
      (p - q) q (by rw [hlen]; omega) (by
        rw [hlen, hideal, hcd q (by omega), hcd p hpl]
        omega)
    have hb := (pGetBucket_some_iff t q eq).2 h1
    have hd : pGetProbeDistance zeroEnv t q eq = q := by
      rw [pGetProbeDistance_actual hI.core hb, hideal, hcd q (by omega)]
    refine ⟨eq, hb, hd, ?_⟩
    have := hI.core.dist_ok q eq h1
    rw [← pGetProbeDistance_eq zeroEnv t hlen hI.core.dist_ok h1, hd] at this
    exact this
  have hreach : Reachable zeroEnv t := ⟨0, ⟨7, 8⟩, defaultTable zeroEnv, manyOps, g, hc, hrun⟩
  obtain ⟨e0, h01, _, _⟩ := hocc 0 (by omega)
  obtain ⟨e254, h2541, h2542, h2543⟩ := hocc 254 (le_refl _)
  have hstored : e254.dist = 254 := by
    rw [h2543]
    rfl
  have hloc : pLocate zeroEnv t e0.key = (0, true) :=
    pLocate_complete zeroEnv t hlen hI.core.dist_ok hI.core.ord_ok hI.core.nodup
      ((pGetBucket_some_iff t 0 e0).1 h01)
  obtain ⟨t1, herase, _⟩ := pEraseSingleAt_spec zeroEnv rfl t hI.core
    ((pGetBucket_some_iff t 0 e0).1 h01)
  have hinc : pIncrementPosition t 0 = 1 := by
    rw [pIncrementPosition_eq t 0 (by omega), Nat.mod_eq_of_lt (by omega)]
  refine ⟨t, g, e0, hrun, hreach, hsize, h01, hloc, ⟨t1, herase⟩,
    ⟨e254, h2541, hstored, by rw [hstored]; decide, by rw [h2542]; decide⟩, ?_⟩
  rw [hinc]
  apply pEraseMovedFromReads_mem zeroEnv t 254 (by omega) _ _ (Capacity t) 1 t rfl
    (le_refl _) (by omega) (by omega) (fun _ _ _ => rfl)
  · intro q hq1 hq2
    obtain ⟨eq, h1, h2, _⟩ := hocc q hq2
    exact ⟨eq, h1, by rw [h2]; omega⟩
  · intro e1 he1
    rw [h2541] at he1
    cases he1
    rw [hstored]
    decide

end Perroht

namespace Perroht

open PowerOfTwoCapacity

/-! ## Hints, the size, the running mean and the capacity policy
(claims C36 and C38 to C40) -/

/-- Claim C36: for every reachable table with at least one empty bucket and
every absent key `k`, `pLocate(k)` reports "not found" at a position
`hint < capacity`, and `pForceInsert` started at that hint with distance
`(hint + capacity - ideal(k)) mod capacity` returns exactly what
`pForceInsert` started at `ideal(k)` with distance 0 returns: the same table
and the same position; both place the record, and the position they return is
the hint itself. -/
theorem C36_locate_hint {M K V : Type} [DecidableEq K] (env : Env M K)
    (t : PerrohtImpl M K V) (hR : Reachable env t)
    (hroom : ∃ q, q < Capacity t ∧ pGetBucket t q = none)
    (k : K) (v : V) (habs : Contains env t k = false) :
    (pLocate env t k).2 = false ∧ (pLocate env t k).1 < Capacity t ∧
    pForceInsertLoop env (Capacity t) t (k, v) (pLocate env t k).1
        (((pLocate env t k).1 + Capacity t - pIdealPosition env t k) % Capacity t) none =
      pForceInsertLoop env (Capacity t) t (k, v) (pIdealPosition env t k) 0 none ∧
    pForceInsert env t (k, v) (some (pLocate env t k).1) = pForceInsert env t (k, v) none ∧
    ∃ t1, pForceInsert env t (k, v) none = some (t1, (pLocate env t k).1) ∧
      Size t1 = Size t + 1 ∧
      ∃ d1, t1.table_[(pLocate env t k).1]? = some (some ⟨d1, k, v⟩) := by
  have hI := hR.inv.core
  obtain ⟨q, hq, hqn⟩ := hroom
  have hsz : t.size_ < Capacity t := by
    rw [hI.size_eq, ← hI.len_eq]
    exact records_length_lt ((pGetBucket_none_iff t q (by rw [hI.len_eq]; exact hq)).1 hqn)
  obtain ⟨e1, t1, e2⟩ := pForceInsert_hint_eq env t hI hsz k v habs
  obtain ⟨t2, p, f1, _, _, _, f5, _, _, f8⟩ :=
    pForceInsert_spec env t (k, v) none hI hsz (Or.inl rfl)
      (not_mem_keys_of_Contains env t hI k habs)
  rw [e2] at f1
  cases f1
  exact ⟨habs, pLocate_lt env t k (by omega), e1, e1, t1, e2, f5, f8⟩

/-- Claim C36 applies to the reachable table `exTable`, whose bucket `0` is
empty, and the absent key `100`. -/
theorem C36_locate_hint_witness :
    (∃ q, q < Capacity exTable ∧ pGetBucket exTable q = none) ∧
    Contains exEnv exTable 100 = false ∧
    pForceInsert exEnv exTable (100, 0) (some (pLocate exEnv exTable 100).1) =
      pForceInsert exEnv exTable (100, 0) none :=
  ⟨⟨0, by decide, rfl⟩, rfl,
    (C36_locate_hint exEnv exTable exTable_reachable ⟨0, by decide, rfl⟩ 100 0 rfl).2.2.2.1⟩

/-- Claim C38: in every table reachable from a freshly constructed (empty) one
by the public operations, `Size()` equals the number of positions in
`[0, Capacity())` whose bucket is occupied (header not `Empty`), `Capacity()`
is 0 or a power of two, and `Capacity() = 0` implies `Size() = 0`. -/
theorem C38_size_counts_occupied {M K V : Type} [DecidableEq K] (env : Env M K)
    (t : PerrohtImpl M K V) (hR : Reachable env t) :
    Size t = ((List.range (Capacity t)).filter (fun p => (pGetBucket t p).isSome)).length ∧
    (Capacity t = 0 ∨ ∃ j, Capacity t = 2 ^ j) ∧
    (Capacity t = 0 → Size t = 0) := by
  have hI := hR.inv.core
  refine ⟨?_, ?_, ?_⟩
  · rw [← iteratePositions_eq]
    exact (iterate_spec env t hI).2.symm
  · rcases Nat.eq_zero_or_pos (Capacity t) with h | h
    · exact Or.inl h
    · exact Or.inr (Capacity_pow2 t h)
  · intro h
    have := hI.size_le
    unfold Size
    omega

/-- Claim C38 applies to the reachable table `exTable`: 3 records in 8
buckets. -/
theorem C38_size_counts_occupied_witness :
    Reachable exEnv exTable ∧
    Size exTable =
      ((List.range (Capacity exTable)).filter
        (fun p => (pGetBucket exTable p).isSome)).length ∧
    (Capacity exTable = 0 ∨ ∃ j, Capacity exTable = 2 ^ j) ∧
    (Capacity exTable = 0 → Size exTable = 0) :=
  ⟨exTable_reachable, C38_size_counts_occupied exEnv exTable exTable_reachable⟩

/-- Claim C39: with the running mean kept in exact rational arithmetic
(`num / den`), any sequence of `Insert`, `Emplace`, `TryEmplace`, `Reserve` and
`Rehash` calls on a freshly constructed (empty) table runs to completion and
leaves a table in which `mean_probe_distance * Size()` equals the sum of the
actual probe distances of all occupied buckets. -/
theorem C39_running_mean_exact {K V : Type} [DecidableEq K] (hasher : K → Nat)
    (initial_capacity : Nat) (x : LoadFactorValue) (ops : List (Op K V))
    (hops : ∀ op ∈ ops, op.isGrowing = true) :
    ∃ (t0 t : PerrohtImpl MeanValue K V) (g : Ghost K V),
      construct (exactEnv hasher) initial_capacity x = some t0 ∧ Size t0 = 0 ∧
      run (exactEnv hasher) ops (t0, fun _ => none) = some (t, g) ∧
      0 < t.mean_probe_distance_.den ∧
      t.mean_probe_distance_.num * (Size t : Int) =
        ((probeDistances (exactEnv hasher) t).sum : Int) * (t.mean_probe_distance_.den : Int) ∧
      ((t.mean_probe_distance_.num : ℚ) / (t.mean_probe_distance_.den : ℚ)) * (Size t : ℚ) =
        ((probeDistances (exactEnv hasher) t).sum : ℚ) := by
  obtain ⟨t0, c1, c2, c3, c4, _, _⟩ :=
    @construct_spec MeanValue K V _ (exactEnv hasher) initial_capacity x
  have hne : ∀ op ∈ ops, ∀ it, op ≠ Op.eraseIt it := by
    intro op hop it heq
    have := hops op hop
    rw [heq] at this
    cases this
  obtain ⟨t, g, hrun⟩ := run_total (exactEnv hasher) ops t0 (fun _ => none) c2
    (GhostRel_empty c4) (Or.inl rfl) hne
  have hM0 := construct_mean hasher initial_capacity x t0 c1
  have hM := run_mean hasher ops t0 (fun _ => none) (t, g) hops hM0 hrun
  have hsum := probeDistances_sum hasher t hM.len_eq
  obtain ⟨hden, hmean⟩ := hM.mean_ok
  have hint : t.mean_probe_distance_.num * (Size t : Int) =
      ((probeDistances (exactEnv hasher) t).sum : Int) * (t.mean_probe_distance_.den : Int) := by
    rw [hsum]
    exact hmean
  refine ⟨t0, t, g, c1, c3, hrun, hden, hint, ?_⟩
  have hq : (t.mean_probe_distance_.num : ℚ) * (Size t : ℚ) =
      ((probeDistances (exactEnv hasher) t).sum : ℚ) * (t.mean_probe_distance_.den : ℚ) := by
    have h := congrArg (fun z : Int => (z : ℚ)) hint
    simp only [Int.cast_mul, Int.cast_natCast] at h
    exact h
  have hd : (t.mean_probe_distance_.den : ℚ) ≠ 0 :=
    Nat.cast_ne_zero.2 (Nat.pos_iff_ne_zero.1 hden)
  rw [div_mul_eq_mul_div, div_eq_iff hd]
  exact hq

/-- Claim C39 applies to the workload "reserve 4 buckets, insert the keys 1, 9
and 17, rehash" with the identity hash. -/
theorem C39_running_mean_exact_witness :
    (∀ op ∈ [Op.reserve 4, Op.insert 1 11, Op.emplace 9 99, Op.tryEmplace 17 170,
        (Op.rehash 16 : Op Nat Nat)], op.isGrowing = true) ∧
    ∃ (t0 t : PerrohtImpl MeanValue Nat Nat) (g : Ghost Nat Nat),
      construct (exactEnv (fun k => k)) 0 ⟨7, 8⟩ = some t0 ∧ Size t0 = 0 ∧
      run (exactEnv (fun k => k))
        [Op.reserve 4, Op.insert 1 11, Op.emplace 9 99, Op.tryEmplace 17 170, Op.rehash 16]
        (t0, fun _ => none) = some (t, g) ∧
      0 < t.mean_probe_distance_.den ∧
      t.mean_probe_distance_.num * (Size t : Int) =
        ((probeDistances (exactEnv (fun k => k)) t).sum : Int) *
          (t.mean_probe_distance_.den : Int) ∧
      ((t.mean_probe_distance_.num : ℚ) / (t.mean_probe_distance_.den : ℚ)) * (Size t : ℚ) =
        ((probeDistances (exactEnv (fun k => k)) t).sum : ℚ) :=
  ⟨by decide, C39_running_mean_exact (fun k => k) 0 ⟨7, 8⟩ _ (by decide)⟩

/-- Claim C40 is false for the table that `nestedOps` builds in 64 buckets (56
records): `128 = AdjustCapacity(128)` and `Reserve(128)` calls
`pTransferEntriesTo(128)`, but the table it returns reports a capacity of 256:
re-inserting the 23 colliding records into 128 buckets triggers the automatic
growth inside the transfer. -/
theorem C40_transfer_capacity_counterexample :
    ∃ (t t1 : PerrohtImpl MeanValue Nat Nat),
      Reachable exEnv t ∧ Capacity t = 64 ∧ Size t = 56 ∧
      AdjustCapacity 128 = 128 ∧
      pTransferEntriesTo (fun (t0 : PerrohtImpl MeanValue Nat Nat) (d : Nat × Nat) =>
          (pInsert exEnv (insertDepth (Size t)) t0 false d none).map Prod.fst)
        exEnv t 128 = some t1 ∧
      Reserve exEnv t 128 = some t1 ∧
      Capacity t1 = 256 ∧ Capacity t1 ≠ 128 := by
  obtain ⟨t0, h0, H⟩ := Option.bind_eq_some.1 nestedOps_eval
  obtain ⟨s, hs, H⟩ := Option.bind_eq_some.1 H
  obtain ⟨tg, _, H⟩ := Option.bind_eq_some.1 H
  obtain ⟨r, _, H⟩ := Option.bind_eq_some.1 H
  obtain ⟨tr, htr, H⟩ := Option.map_eq_some'.1 H
  obtain ⟨_, c2, c3, _, _, _, _, _, c9⟩ := of_decide_eq_true H
  have hadj : AdjustCapacity 128 = 128 := AdjustCapacity_pow 7
  refine ⟨s.1, tr, ⟨64, ⟨7, 8⟩, t0, nestedOps, s.2, h0, hs⟩, c3, c2, hadj, htr, ?_, c9,
    by rw [c9]; decide⟩
  unfold Reserve ReserveWith
  rw [if_neg (by rw [c3]; decide), hadj]
  exact htr

/-- Claim C40, amended: for the power-of-two policy,
`ToIndex(ToCapacity(i)) = i` for every index `0 <= i <= 64`, and
`AdjustCapacity` is idempotent; for a reachable table and a capacity
`new_capacity = AdjustCapacity(new_capacity)` that is at least the size,
`pTransferEntriesTo(new_capacity)` (with the insertion of `Reserve` or of
`Rehash`) installs an empty table that reports `Capacity() = new_capacity`,
re-inserts the records into it and returns a table that holds the same
records and reports `Capacity() >= new_capacity`, a power of two (or 0), with
`Capacity() = new_capacity` when the old table had capacity 0. -/
theorem C40_policy_round_trip {M K V : Type} [DecidableEq K] (env : Env M K)
    (t : PerrohtImpl M K V) (hR : Reachable env t) (new_capacity : Nat)
    (hadj : AdjustCapacity new_capacity = new_capacity) (hsz : Size t ≤ new_capacity)
    (check : Bool) :
    (∀ i, i ≤ 64 → ToIndex (ToCapacity i) = i) ∧
    (∀ n, n ≤ 2 ^ 63 → AdjustCapacity (AdjustCapacity n) = AdjustCapacity n) ∧
    Capacity ({ t with
        table_ := pAllocateTable new_capacity
        capacity_index_ := ToIndex new_capacity
        size_ := 0
        mean_probe_distance_ := env.mean.zero } : PerrohtImpl M K V) = new_capacity ∧
    ∃ t1, pTransferEntriesTo (fun (t0 : PerrohtImpl M K V) (d : K × V) =>
          (pInsert env (insertDepth (Size t)) t0 check d none).map Prod.fst)
        env t new_capacity = some t1 ∧
      mrecords t1.table_ = mrecords t.table_ ∧
      new_capacity ≤ Capacity t1 ∧
      (Capacity t1 = 0 ∨ ∃ j, Capacity t1 = 2 ^ j) ∧
      (Capacity t = 0 → Capacity t1 = new_capacity) := by
  have hI := hR.inv.core
  have hfresh : Capacity ({ t with
        table_ := pAllocateTable new_capacity
        capacity_index_ := ToIndex new_capacity
        size_ := 0
        mean_probe_distance_ := env.mean.zero } : PerrohtImpl M K V) = new_capacity := hadj
  have hnew : new_capacity = 0 ∨ ∃ j, new_capacity = 2 ^ j := by
    rcases Nat.eq_zero_or_pos new_capacity with h | h
    · exact Or.inl h
    · obtain ⟨j, hj, _⟩ := AdjustCapacity_spec h
      exact Or.inr ⟨j, by rw [← hadj, hj]⟩
  obtain ⟨t1, h1, _, _, _, h5, h6⟩ :=
    pTransferEntriesTo_spec env _ (Size t) 0
      (InsSpec_pInsert env (insertDepth (Size t)) (Size t) 0 check (by
        unfold insertDepth
        split_ifs <;> omega))
      t new_capacity hI (le_refl _) hsz (Nat.zero_le _) hnew
  refine ⟨?_, fun n _ => AdjustCapacity_idem n, hfresh, t1, h1, h5, h6, ?_, ?_⟩
  · intro i _
    cases i with
    | zero => rfl
    | succ j => rw [ToCapacity_succ, ToIndex_pow]
  · rcases Nat.eq_zero_or_pos (Capacity t1) with h | h
    · exact Or.inl h
    · exact Or.inr (Capacity_pow2 t1 h)
  · intro h0
    unfold pTransferEntriesTo at h1
    simp only [h0, if_true, Option.some.injEq] at h1
    rw [← h1]
    exact hfresh

/-- Claim C40 (amended) applies to the reachable table `exTable` (3 records in
8 buckets) and the new capacity 16, with the insertion used by `Reserve`. -/
theorem C40_policy_round_trip_witness :
    AdjustCapacity 16 = 16 ∧ Size exTable ≤ 16 ∧
    ∃ t1, pTransferEntriesTo (fun (t0 : PerrohtImpl MeanValue Nat Nat) (d : Nat × Nat) =>
          (pInsert exEnv (insertDepth (Size exTable)) t0 false d none).map Prod.fst)
        exEnv exTable 16 = some t1 ∧
      mrecords t1.table_ = mrecords exTable.table_ ∧
      16 ≤ Capacity t1 := by
  obtain ⟨_, _, _, t1, h1, h2, h3, _⟩ :=
    C40_policy_round_trip exEnv exTable exTable_reachable 16 (AdjustCapacity_pow 4)
      (by decide) false
  exact ⟨AdjustCapacity_pow 4, by decide, t1, h1, h2, h3⟩

end Perroht

namespace Perroht

open PowerOfTwoCapacity

/-! ## Erasure from a saturated run in the node layout
(claims C1, C2, C5, C28 and C37) -/

set_option maxRecDepth 1000000 in
theorem refRun_manyOps_records :
    ∀ r ∈ refRun manyOps ([] : List (Nat × Nat)), r.1 < 256 ∧ r.2 = 0 := by
  decide!

theorem manyOps_isInsertErase : ∀ op ∈ manyOps, op.isInsertErase = true := by
  intro op hop
  obtain ⟨i, _, rfl⟩ := List.mem_map.1 hop
  rfl

theorem manyOps_no_erase : ∀ op ∈ manyOps, op.erases = false := by
  intro op hop
  obtain ⟨i, _, rfl⟩ := List.mem_map.1 hop
  rfl

/-- With the node layout and a hasher that sends every key to `0`, the
insertion of the 256 keys `0, ..., 255` into a default-constructed table runs
to completion; in the table it returns the buckets `0, ..., 254` are occupied,
the header of bucket `254` is saturated, and the backward shift that
`pEraseSingleAt(0)` starts at bucket `1` has no result, whatever its budget:
at bucket `254` it recomputes the distance from a holder that holds
`nullptr`. -/
theorem nodeEnv_saturated_run :
    ∃ (t : PerrohtImpl MeanValue Nat Nat) (g : Ghost Nat Nat) (e0 e254 : Entry Nat Nat),
      run nodeEnv manyOps (defaultTable nodeEnv, fun _ => none) = some (t, g) ∧
      Reachable nodeEnv t ∧ Inv nodeEnv t ∧ GhostRel t g ∧ Size t = 256 ∧
      mrecords t.table_ = ((refRun manyOps [] : List (Nat × Nat)) : Multiset (Nat × Nat)) ∧
      pGetBucket t 0 = some e0 ∧ pLocate nodeEnv t e0.key = (0, true) ∧
      pGetBucket t 254 = some e254 ∧ e254.dist = 254 ∧
      pGetProbeDistance nodeEnv t 254 e254 = 254 ∧
      pIncrementPosition t 0 = 1 ∧
      ∀ fuel, pEraseShiftLoop nodeEnv fuel t 1 = none := by
  obtain ⟨t0, c1, c2, _, c4, _, _⟩ := @construct_spec MeanValue Nat Nat _ nodeEnv 0 ⟨7, 8⟩
  have hc : construct nodeEnv 0 ⟨7, 8⟩ =
      some (defaultTable nodeEnv : PerrohtImpl MeanValue Nat Nat) := rfl
  rw [hc] at c1
  cases c1
  obtain ⟨t, g, hrun, hI, hm⟩ := run_ref nodeEnv manyOps (defaultTable nodeEnv)
    (fun _ => none) [] c2 (GhostRel_empty c4) (by rw [c4]; rfl) manyOps_isInsertErase
    (Or.inr manyOps_no_erase)
  have hg : GhostRel t g := (run_inv nodeEnv manyOps _ _ c2 (GhostRel_empty c4) hrun).2
  have hsize : Size t = 256 := by
    unfold Size
    rw [hI.core.size_card, hm, Multiset.coe_card]
    exact refRun_manyOps_length
  obtain ⟨p, e, hp255, hp⟩ := exists_far_bucket nodeEnv t hI.core 255 (by omega)
  have hpl := occupied_lt hI.core hp
  have hlen := hI.core.len_eq
  have hideal : ∀ k : Nat, ideal nodeEnv (Capacity t) k = 0 := by
    intro k
    unfold ideal nodeEnv
    simp
  have hcd : ∀ q, q < Capacity t → cdist (Capacity t) 0 q = q := by
    intro q hq
    rw [cdist_eq (by omega) hq]
    simp
  have hocc : ∀ q, q ≤ 254 → ∃ eq, pGetBucket t q = some eq ∧
      pGetProbeDistance nodeEnv t q eq = q ∧ eq.dist = pSetProbeDistance q := by
    intro q hq
    obtain ⟨eq, h1, _⟩ := path_occupied hI.core.ord_ok ((pGetBucket_some_iff t p e).1 hp)
      (p - q) q (by rw [hlen]; omega) (by
        rw [hlen, hideal, hcd q (by omega), hcd p hpl]
        omega)
    have hb := (pGetBucket_some_iff t q eq).2 h1
    have hd : pGetProbeDistance nodeEnv t q eq = q := by
      rw [pGetProbeDistance_actual hI.core hb, hideal, hcd q (by omega)]
    refine ⟨eq, hb, hd, ?_⟩
    have := hI.core.dist_ok q eq h1
    rw [← pGetProbeDistance_eq nodeEnv t hlen hI.core.dist_ok h1, hd] at this
    exact this
  have hreach : Reachable nodeEnv t :=
    ⟨0, ⟨7, 8⟩, defaultTable nodeEnv, manyOps, g, hc, hrun⟩
  obtain ⟨e0, h01, _, _⟩ := hocc 0 (by omega)
  obtain ⟨e254, h2541, h2542, h2543⟩ := hocc 254 (le_refl _)
  have hstored : e254.dist = 254 := by
    rw [h2543]
    rfl
  have hloc : pLocate nodeEnv t e0.key = (0, true) :=
    pLocate_complete nodeEnv t hlen hI.core.dist_ok hI.core.ord_ok hI.core.nodup
      ((pGetBucket_some_iff t 0 e0).1 h01)
  have hinc : pIncrementPosition t 0 = 1 := by
    rw [pIncrementPosition_eq t 0 (by omega), Nat.mod_eq_of_lt (by omega)]
  refine ⟨t, g, e0, e254, hrun, hreach, hI, hg, hsize, hm, h01, hloc, h2541, hstored, h2542,
    hinc, ?_⟩
  intro fuel
  apply pEraseShiftLoop_fault nodeEnv rfl t 254 (by omega) _ _ fuel 1 t rfl
    (le_refl _) (by omega) (fun _ _ _ => rfl)
  · intro q hq1 hq2
    obtain ⟨eq, h1, h2, _⟩ := hocc q hq2
    exact ⟨eq, h1, by rw [h2]; omega⟩
  · intro e1 he1
    rw [h2541] at he1
    cases he1
    rw [hstored]
    decide

theorem pEraseSingleAt_fault {M K V : Type} [DecidableEq K] (env : Env M K)
    (t : PerrohtImpl M K V) (pos : Nat)
    (h : pEraseShiftLoop env (Capacity t) t (pIncrementPosition t pos) = none) :
    pEraseSingleAt env t pos = none := by
  unfold pEraseSingleAt
  rw [h]

theorem Erase_fault {M K V : Type} [DecidableEq K] (env : Env M K)
    (t : PerrohtImpl M K V) (key : K) (pos : Nat) (hloc : pLocate env t key = (pos, true))
    (h : pEraseSingleAt env t pos = none) : Erase env t key = none := by
  unfold Erase pEraseSingle
  simp only [hloc, if_true, h, Option.map_none']

theorem run_erase_fault {M K V : Type} [DecidableEq K] (env : Env M K)
    (ops : List (Op K V)) (s : PerrohtImpl M K V × Ghost K V) (t : PerrohtImpl M K V)
    (g : Ghost K V) (key : K) (hrun : run env ops s = some (t, g))
    (h : Erase env t key = none) : run env (ops ++ [Op.erase key]) s = none := by
  rw [run_append, hrun]
  show run env [Op.erase key] (t, g) = none
  unfold run
  simp only [applyOp, h, Option.map_none']

/-- Claim C1, evaluated on the code where it fails: with the node layout
(`unordered_node_map`) and a hasher that sends every key to `0`, the `Insert`
calls of the keys `0, ..., 255` on a default-constructed table run to
completion; the record `(k, v)` of bucket `254` was inserted by one of them
and is found by `Contains` and `Find`. The sequence continued by `Erase(k0)`,
`k0 != k` being the key of bucket `0`, is a sequence of `Insert` and
`Erase(key)` calls in which `k` is inserted and never erased, but it has no
result: the backward shift dereferences a holder that holds `nullptr`, and no
`Contains(k)` or `Find(k)` follows. -/
theorem C1_erase_aborts_workload :
    ∃ (t : PerrohtImpl MeanValue Nat Nat) (g : Ghost Nat Nat) (e0 e : Entry Nat Nat),
      run nodeEnv manyOps (defaultTable nodeEnv, fun _ => none) = some (t, g) ∧
      pGetBucket t 0 = some e0 ∧ pGetBucket t 254 = some e ∧
      (∀ op ∈ manyOps ++ [Op.erase e0.key], op.isBasic = true) ∧
      Op.insert e.key e.val ∈ manyOps ∧ e.key ≠ e0.key ∧
      Contains nodeEnv t e.key = true ∧
      deref t (Find nodeEnv t e.key) = some (e.key, e.val) ∧
      run nodeEnv (manyOps ++ [Op.erase e0.key]) (defaultTable nodeEnv, fun _ => none) =
        none := by
  obtain ⟨t, g, e0, e, hrun, _, hI, _, _, hm, h0, hloc, h254, _, _, hinc, hloop⟩ :=
    nodeEnv_saturated_run
  have hne : e.key ≠ e0.key := by
    intro hk
    have := nodup_positions hI.core.nodup ((pGetBucket_some_iff t 254 e).1 h254)
      ((pGetBucket_some_iff t 0 e0).1 h0) hk
    omega
  have herase : Erase nodeEnv t e0.key = none :=
    Erase_fault nodeEnv t e0.key 0 hloc
      (pEraseSingleAt_fault nodeEnv t 0 (by rw [hinc]; exact hloop _))
  have hmem : (e.key, e.val) ∈ mrecords t.table_ := bucket_mem t h254
  have hc : Contains nodeEnv t e.key = true := by
    rw [Contains_iff nodeEnv t hI.core]
    exact Multiset.mem_map.2 ⟨(e.key, e.val), hmem, rfl⟩
  have hins : Op.insert e.key e.val ∈ manyOps := by
    have h1 := hmem
    rw [hm, Multiset.mem_coe] at h1
    obtain ⟨h2, h3⟩ := refRun_manyOps_records _ h1
    simp only at h2 h3
    unfold manyOps
    exact List.mem_map.2 ⟨e.key, List.mem_range.2 h2, by rw [h3]⟩
  refine ⟨t, g, e0, e, hrun, h0, h254, ?_, hins, hne, hc,
    (deref_Find_iff nodeEnv t hI.core e.key e.val).2 hmem,
    run_erase_fault nodeEnv manyOps _ t g e0.key hrun herase⟩
  intro op hop
  rcases List.mem_append.1 hop with h | h
  · obtain ⟨i, _, rfl⟩ := List.mem_map.1 h
    rfl
  · rw [List.mem_singleton.1 h]
    rfl

/-- Claim C2, evaluated on the code where it fails: with the node layout and a
hasher that sends every key to `0`, after the `Insert` calls of the keys
`0, ..., 255` the table agrees with the reference map (same keys, same
size); the next operation `Erase(k0)`, `k0` being the key of bucket `0`,
removes `k0` from the reference map, where it is present, but has no result on
the table, so the insert / erase sequence does not run in lock-step to its
end. -/
theorem C2_erase_leaves_reference_map :
    ∃ (t : PerrohtImpl MeanValue Nat Nat) (g : Ghost Nat Nat) (e0 : Entry Nat Nat),
      run nodeEnv manyOps (defaultTable nodeEnv, fun _ => none) = some (t, g) ∧
      pGetBucket t 0 = some e0 ∧
      (∀ op ∈ manyOps ++ [Op.erase e0.key], op.isInsertErase = true) ∧
      (∀ k, Contains nodeEnv t k = true ↔
        k ∈ (refRun manyOps ([] : List (Nat × Nat))).map Prod.fst) ∧
      Size t = (refRun manyOps ([] : List (Nat × Nat))).length ∧
      e0.key ∈ (refRun manyOps ([] : List (Nat × Nat))).map Prod.fst ∧
      run nodeEnv (manyOps ++ [Op.erase e0.key]) (defaultTable nodeEnv, fun _ => none) =
        none := by
  obtain ⟨t, g, e0, e, hrun, _, hI, _, hsize, hm, h0, hloc, _, _, _, hinc, hloop⟩ :=
    nodeEnv_saturated_run
  have herase : Erase nodeEnv t e0.key = none :=
    Erase_fault nodeEnv t e0.key 0 hloc
      (pEraseSingleAt_fault nodeEnv t 0 (by rw [hinc]; exact hloop _))
  have hkeys : ∀ k, Contains nodeEnv t k = true ↔
      k ∈ (refRun manyOps ([] : List (Nat × Nat))).map Prod.fst := by
    intro k
    rw [Contains_iff nodeEnv t hI.core, hm, Multiset.map_coe, Multiset.mem_coe]
  refine ⟨t, g, e0, hrun, h0, ?_, hkeys, by rw [hsize, refRun_manyOps_length], ?_,
    run_erase_fault nodeEnv manyOps _ t g e0.key hrun herase⟩
  · intro op hop
    rcases List.mem_append.1 hop with h | h
    · exact manyOps_isInsertErase op h
    · rw [List.mem_singleton.1 h]
      rfl
  · rw [← hkeys]
    unfold Contains
    rw [hloc]

/-- Claim C5, evaluated on the code where it fails: with the node layout and a
hasher that sends every key to `0`, the table reached by inserting the keys
`0, ..., 255` contains the key `k0` of its bucket `0`, but `Erase(k0)` does
not return `1`: it has no result, the backward shift dereferencing a holder
that holds `nullptr`. -/
theorem C5_erase_of_present_key_fails :
    ∃ (t : PerrohtImpl MeanValue Nat Nat) (e0 : Entry Nat Nat),
      Reachable nodeEnv t ∧ Size t = 256 ∧ pGetBucket t 0 = some e0 ∧
      Contains nodeEnv t e0.key = true ∧
      Erase nodeEnv t e0.key = none := by
  obtain ⟨t, g, e0, e, _, hreach, _, _, hsize, _, h0, hloc, _, _, _, hinc, hloop⟩ :=
    nodeEnv_saturated_run
  refine ⟨t, e0, hreach, hsize, h0, ?_,
    Erase_fault nodeEnv t e0.key 0 hloc
      (pEraseSingleAt_fault nodeEnv t 0 (by rw [hinc]; exact hloop _))⟩
  unfold Contains
  rw [hloc]

/-- Claim C37, evaluated on the code where it fails: with the node layout and
a hasher that sends every key to `0`, in the table reached by inserting the
keys `0, ..., 255` the bucket `0` is occupied, but the backward-shift loop of
`pEraseSingleAt(0)`, started at bucket `1`, does not terminate normally
whatever the number of iterations it is allowed: at bucket `254` it
dereferences a holder that holds `nullptr`. So `pEraseSingleAt(0)` clears no
bucket and returns no table. -/
theorem C37_backward_shift_faults :
    ∃ (t : PerrohtImpl MeanValue Nat Nat) (e0 : Entry Nat Nat),
      Reachable nodeEnv t ∧ pGetBucket t 0 = some e0 ∧
      (∀ fuel, pEraseShiftLoop nodeEnv fuel t (pIncrementPosition t 0) = none) ∧
      pEraseSingleAt nodeEnv t 0 = none := by
  obtain ⟨t, g, e0, e, _, hreach, _, _, _, _, h0, _, _, _, _, hinc, hloop⟩ :=
    nodeEnv_saturated_run
  exact ⟨t, e0, hreach, h0, fun fuel => by rw [hinc]; exact hloop fuel,
    pEraseSingleAt_fault nodeEnv t 0 (by rw [hinc]; exact hloop _)⟩

end Perroht
